import Mathlib

/-!
# ARM64 MMU engine of the LK kernel (`arch/arm64/mmu.c`)

A shallow embedding of the page-table engine: `arch_mmu_query`, `arch_mmu_map`,
`arch_mmu_unmap` and the helpers they are built from.

Modelling conventions.

* Machine integers are natural numbers; every operation that can wrap in C is
  written with an explicit `% 2^64` (for `vaddr_t`, `paddr_t`, `size_t`, `pte_t`)
  or `% 2^32` (for `uint`).
* Memory is a family of page tables: `mem t i` is the 64-bit entry `i` of the
  table whose physical address is `t`.  A kernel pointer to a table is
  identified with the physical address it aliases (`paddr_to_kvaddr` is a fixed
  offset), a possibly-NULL pointer is an `Option`.
* The physical allocator and the heap are external: their answers are read off
  a script `pool` (`none` is a failed allocation, `some p` the frame handed out).
  `live` is the set of page-table frames allocated and not yet freed.
* Barriers, TLB maintenance and stores to page tables are recorded in `trace`
  (most recent event first).
* The result `none` stands for a kernel panic (`PANIC_UNIMPLEMENTED`, a failing
  `ASSERT`), for undefined behaviour of a shift, or for exhausted fuel.
  `DEBUG_ASSERT` is compiled out, as in a build with `LK_DEBUGLEVEL <= 1`.
* Recursion and loops are bounded by fuel: the recursion on page-table levels by
  `index_shift + 1`, the chunk loops by `size` (every iteration consumes at
  least one byte).
-/

namespace Arm64Mmu

/-! ## Constants of headers that are not part of the sources -/

/-- Modelled from the spec: status code `NO_ERROR` of `err.h` (absent from the sources). -/
def NO_ERROR : Int := 0
/-- Modelled from the spec: status code `ERR_GENERIC` of `err.h` (absent from the sources). -/
def ERR_GENERIC : Int := -1
/-- Modelled from the spec: status code `ERR_NOT_FOUND` of `err.h` (absent from the sources). -/
def ERR_NOT_FOUND : Int := -2
/-- Modelled from the spec: status code `ERR_NO_MEMORY` of `err.h` (absent from the sources). -/
def ERR_NO_MEMORY : Int := -5
/-- Modelled from the spec: status code `ERR_INVALID_ARGS` of `err.h` (absent from the sources). -/
def ERR_INVALID_ARGS : Int := -8
/-- Modelled from the spec: status code `ERR_OUT_OF_RANGE` of `err.h` (absent from the sources). -/
def ERR_OUT_OF_RANGE : Int := -37

/-- Modelled from the spec: cache mode `CACHED` of `arch/mmu.h` (absent from the sources). -/
def ARCH_MMU_FLAG_CACHED : Nat := 0
/-- Modelled from the spec: cache mode `UNCACHED` of `arch/mmu.h` (absent from the sources). -/
def ARCH_MMU_FLAG_UNCACHED : Nat := 1
/-- Modelled from the spec: cache mode `UNCACHED_DEVICE` of `arch/mmu.h` (absent from the sources). -/
def ARCH_MMU_FLAG_UNCACHED_DEVICE : Nat := 2
/-- Modelled from the spec: the cache-mode field of the mapping flags, `arch/mmu.h`. -/
def ARCH_MMU_FLAG_CACHE_MASK : Nat := 3
/-- Modelled from the spec: flag `PERM_USER` of `arch/mmu.h` (absent from the sources). -/
def ARCH_MMU_FLAG_PERM_USER : Nat := 4
/-- Modelled from the spec: flag `PERM_RO` of `arch/mmu.h` (absent from the sources). -/
def ARCH_MMU_FLAG_PERM_RO : Nat := 8
/-- Modelled from the spec: flag `PERM_NO_EXECUTE` of `arch/mmu.h` (absent from the sources). -/
def ARCH_MMU_FLAG_PERM_NO_EXECUTE : Nat := 16
/-- Modelled from the spec: flag `NS` of `arch/mmu.h` (absent from the sources). -/
def ARCH_MMU_FLAG_NS : Nat := 32
/-- Modelled from the spec: the `KERNEL` flag of an address space, `arch/mmu.h`. -/
def ARCH_ASPACE_FLAG_KERNEL : Nat := 1

/-- Modelled from the spec: descriptor type "invalid" of `arch/arm64/mmu.h` (absent from the sources). -/
def MMU_PTE_DESCRIPTOR_INVALID : Nat := 0
/-- Modelled from the spec: the descriptor-type field (bits 1:0) of a PTE, `arch/arm64/mmu.h`. -/
def MMU_PTE_DESCRIPTOR_MASK : Nat := 3
/-- Modelled from the spec: descriptor type "block" of the non-leaf levels, `arch/arm64/mmu.h`. -/
def MMU_PTE_L012_DESCRIPTOR_BLOCK : Nat := 1
/-- Modelled from the spec: descriptor type "table" of the non-leaf levels, `arch/arm64/mmu.h`. -/
def MMU_PTE_L012_DESCRIPTOR_TABLE : Nat := 3
/-- Modelled from the spec: descriptor type "page" of the leaf level, `arch/arm64/mmu.h`. -/
def MMU_PTE_L3_DESCRIPTOR_PAGE : Nat := 3
/-- Modelled from the spec: the output-address field (bits 47:12) of a PTE, `arch/arm64/mmu.h`. -/
def MMU_PTE_OUTPUT_ADDR_MASK : Nat := 0xfffffffff000
/-- Modelled from the spec: the 64-bit complement `~MMU_PTE_OUTPUT_ADDR_MASK`. -/
def MMU_PTE_OUTPUT_ADDR_MASK_COMPL : Nat := 0xffff000000000fff
/-- Modelled from the spec: the largest index shift with block descriptors, `arch/arm64/mmu.h`. -/
def MMU_PTE_DESCRIPTOR_BLOCK_MAX_SHIFT : Nat := 30

/-- Modelled from the spec: unprivileged execute-never (bit 54), `arch/arm64/mmu.h`. -/
def MMU_PTE_ATTR_UXN : Nat := 2 ^ 54
/-- Modelled from the spec: privileged execute-never (bit 53), `arch/arm64/mmu.h`. -/
def MMU_PTE_ATTR_PXN : Nat := 2 ^ 53
/-- Modelled from the spec: non-global (bit 11), `arch/arm64/mmu.h`. -/
def MMU_PTE_ATTR_NON_GLOBAL : Nat := 2 ^ 11
/-- Modelled from the spec: access flag (bit 10), `arch/arm64/mmu.h`. -/
def MMU_PTE_ATTR_AF : Nat := 2 ^ 10
/-- Modelled from the spec: inner shareable (bits 9:8 = 3), `arch/arm64/mmu.h`. -/
def MMU_PTE_ATTR_SH_INNER_SHAREABLE : Nat := 3 * 2 ^ 8
/-- Modelled from the spec: access permission P_RW_U_NA (bits 7:6 = 0), `arch/arm64/mmu.h`. -/
def MMU_PTE_ATTR_AP_P_RW_U_NA : Nat := 0
/-- Modelled from the spec: access permission P_RW_U_RW (bits 7:6 = 1), `arch/arm64/mmu.h`. -/
def MMU_PTE_ATTR_AP_P_RW_U_RW : Nat := 1 * 2 ^ 6
/-- Modelled from the spec: access permission P_RO_U_NA (bits 7:6 = 2), `arch/arm64/mmu.h`. -/
def MMU_PTE_ATTR_AP_P_RO_U_NA : Nat := 2 * 2 ^ 6
/-- Modelled from the spec: access permission P_RO_U_RO (bits 7:6 = 3), `arch/arm64/mmu.h`. -/
def MMU_PTE_ATTR_AP_P_RO_U_RO : Nat := 3 * 2 ^ 6
/-- Modelled from the spec: the access-permission field (bits 7:6), `arch/arm64/mmu.h`. -/
def MMU_PTE_ATTR_AP_MASK : Nat := 3 * 2 ^ 6
/-- Modelled from the spec: non-secure (bit 5), `arch/arm64/mmu.h`. -/
def MMU_PTE_ATTR_NON_SECURE : Nat := 2 ^ 5
/-- Modelled from the spec: the memory-attribute index field (bits 4:2), `arch/arm64/mmu.h`. -/
def MMU_PTE_ATTR_ATTR_INDEX_MASK : Nat := 7 * 2 ^ 2
/-- Modelled from the spec: memory type strongly ordered (attribute index 0), `arch/arm64/mmu.h`. -/
def MMU_PTE_ATTR_STRONGLY_ORDERED : Nat := 0 * 2 ^ 2
/-- Modelled from the spec: memory type device (attribute index 1), `arch/arm64/mmu.h`. -/
def MMU_PTE_ATTR_DEVICE : Nat := 1 * 2 ^ 2
/-- Modelled from the spec: memory type normal cached (attribute index 2), `arch/arm64/mmu.h`. -/
def MMU_PTE_ATTR_NORMAL_MEMORY : Nat := 2 * 2 ^ 2
/-- Modelled from the spec: the ASID of global (kernel) mappings, `~0U`, `arch/arm64/mmu.h`. -/
def MMU_ARM64_GLOBAL_ASID : Nat := 2 ^ 32 - 1

/-- The number of ASID bits, `ARM64_ASID_BITS` of `mmu.c`. -/
def ARM64_ASID_BITS : Nat := 8

/-- Modelled from the spec: the build-time configuration of `arch/arm64/mmu.h`
and of the platform (absent from the sources): page size and the size, top
index shift and page size shift of the kernel and of the user translation
regime. -/
structure Config where
  PAGE_SIZE_SHIFT : Nat
  MMU_KERNEL_SIZE_SHIFT : Nat
  MMU_KERNEL_TOP_SHIFT : Nat
  MMU_KERNEL_PAGE_SIZE_SHIFT : Nat
  MMU_USER_SIZE_SHIFT : Nat
  MMU_USER_TOP_SHIFT : Nat
  MMU_USER_PAGE_SIZE_SHIFT : Nat

/-- The macro `PAGE_SIZE`. -/
def Config.PAGE_SIZE (cfg : Config) : Nat := 2 ^ cfg.PAGE_SIZE_SHIFT

/-- The macro `MMU_KERNEL_PAGE_TABLE_ENTRIES_TOP`. -/
def Config.MMU_KERNEL_PAGE_TABLE_ENTRIES_TOP (cfg : Config) : Nat :=
  2 ^ (cfg.MMU_KERNEL_SIZE_SHIFT - cfg.MMU_KERNEL_TOP_SHIFT)

/-- The macro `MMU_USER_PAGE_TABLE_ENTRIES_TOP`. -/
def Config.MMU_USER_PAGE_TABLE_ENTRIES_TOP (cfg : Config) : Nat :=
  2 ^ (cfg.MMU_USER_SIZE_SHIFT - cfg.MMU_USER_TOP_SHIFT)

/-- The usual build: 4 KiB pages, 48-bit kernel and user windows, four levels. -/
def cfg4k : Config where
  PAGE_SIZE_SHIFT := 12
  MMU_KERNEL_SIZE_SHIFT := 48
  MMU_KERNEL_TOP_SHIFT := 39
  MMU_KERNEL_PAGE_SIZE_SHIFT := 12
  MMU_USER_SIZE_SHIFT := 48
  MMU_USER_TOP_SHIFT := 39
  MMU_USER_PAGE_SIZE_SHIFT := 12

/-! ## Machine state -/

/-- Hardware-visible events issued by the engine. -/
inductive Event where
  | dmb_ishst
  | dsb
  | tlbi_vaae1is (arg : Nat)
  | tlbi_vae1is (arg : Nat)
  | tlbi_vmalle1is
  | fill (table : Nat)
  | store (table index value : Nat)
  deriving DecidableEq, Repr

/-- Page-table memory, the allocator and the event trace. -/
structure State where
  mem : Nat → Nat → Nat
  live : List Nat
  pool : List (Option Nat)
  trace : List Event

/-- The struct `arch_aspace_t`. -/
structure Aspace where
  tt_phys : Nat
  tt_virt : Option Nat
  flags : Nat
  base : Nat
  size : Nat
  asid : Nat

/-- Record an event. -/
def emit (e : Event) (s : State) : State :=
  { s with trace := e :: s.trace }

/-- The store `page_table[index] = pte`. -/
def write_pte (page_table index pte : Nat) (s : State) : State :=
  { s with
    mem := fun t i => if t = page_table ∧ i = index then pte else s.mem t i
    trace := Event.store page_table index pte :: s.trace }

/-- The subtraction of two `uint` values. -/
def sub32 (a b : Nat) : Nat := (a + 2 ^ 32 - b % 2 ^ 32) % 2 ^ 32

/-- The subtraction of two 64-bit values. -/
def sub64 (a b : Nat) : Nat := (a + 2 ^ 64 - b % 2 ^ 64) % 2 ^ 64

/-! ## The code -/

/-- The check `wrap_check`. -/
def wrap_check (vaddr size : Nat) : Bool :=
  decide (sub64 ((vaddr + size) % 2 ^ 64) 1 > vaddr)

/-- The helper `arch_mmu_asid`. -/
def arch_mmu_asid (aspace : Aspace) : Nat :=
  aspace.asid &&& (2 ^ ARM64_ASID_BITS - 1)

/-- The window test `is_valid_vaddr`. -/
def is_valid_vaddr (aspace : Aspace) (vaddr : Nat) : Bool :=
  decide (vaddr ≥ aspace.base ∧ vaddr ≤ (aspace.base + sub64 aspace.size 1) % 2 ^ 64)

/-- The conversion `mmu_flags_to_pte_attr`; the error return of the default
case is the `int` `ERR_INVALID_ARGS` converted to the unsigned `pte_t`. -/
def mmu_flags_to_pte_attr (flags : Nat) : Nat :=
  let attr := MMU_PTE_ATTR_AF
  let c := flags &&& ARCH_MMU_FLAG_CACHE_MASK
  if c = ARCH_MMU_FLAG_CACHED ∨ c = ARCH_MMU_FLAG_UNCACHED ∨ c = ARCH_MMU_FLAG_UNCACHED_DEVICE then
    let attr :=
      if c = ARCH_MMU_FLAG_CACHED then
        attr ||| (MMU_PTE_ATTR_NORMAL_MEMORY ||| MMU_PTE_ATTR_SH_INNER_SHAREABLE)
      else if c = ARCH_MMU_FLAG_UNCACHED then attr ||| MMU_PTE_ATTR_STRONGLY_ORDERED
      else attr ||| MMU_PTE_ATTR_DEVICE
    let p := flags &&& (ARCH_MMU_FLAG_PERM_USER ||| ARCH_MMU_FLAG_PERM_RO)
    let attr :=
      if p = 0 then attr ||| MMU_PTE_ATTR_AP_P_RW_U_NA
      else if p = ARCH_MMU_FLAG_PERM_RO then attr ||| MMU_PTE_ATTR_AP_P_RO_U_NA
      else if p = ARCH_MMU_FLAG_PERM_USER then attr ||| MMU_PTE_ATTR_AP_P_RW_U_RW
      else attr ||| MMU_PTE_ATTR_AP_P_RO_U_RO
    let attr :=
      if flags &&& ARCH_MMU_FLAG_PERM_NO_EXECUTE ≠ 0 then
        attr ||| (MMU_PTE_ATTR_UXN ||| MMU_PTE_ATTR_PXN)
      else if flags &&& ARCH_MMU_FLAG_PERM_USER ≠ 0 then attr ||| MMU_PTE_ATTR_PXN
      else attr ||| MMU_PTE_ATTR_UXN
    if flags &&& ARCH_MMU_FLAG_NS ≠ 0 then attr ||| MMU_PTE_ATTR_NON_SECURE else attr
  else
    (ERR_INVALID_ARGS % 2 ^ 64).toNat

/-- The translation of a leaf PTE back to mapping flags at the end of
`arch_mmu_query`; `none` is `PANIC_UNIMPLEMENTED`. -/
def pte_to_mmu_flags (pte : Nat) : Option Nat :=
  let mmu_flags := 0
  let mmu_flags :=
    if pte &&& MMU_PTE_ATTR_NON_SECURE ≠ 0 then mmu_flags ||| ARCH_MMU_FLAG_NS else mmu_flags
  let a := pte &&& MMU_PTE_ATTR_ATTR_INDEX_MASK
  if a = MMU_PTE_ATTR_STRONGLY_ORDERED ∨ a = MMU_PTE_ATTR_DEVICE ∨ a = MMU_PTE_ATTR_NORMAL_MEMORY then
    let mmu_flags :=
      if a = MMU_PTE_ATTR_STRONGLY_ORDERED then mmu_flags ||| ARCH_MMU_FLAG_UNCACHED
      else if a = MMU_PTE_ATTR_DEVICE then mmu_flags ||| ARCH_MMU_FLAG_UNCACHED_DEVICE
      else mmu_flags
    let ap := pte &&& MMU_PTE_ATTR_AP_MASK
    let mmu_flags :=
      if ap = MMU_PTE_ATTR_AP_P_RW_U_NA then mmu_flags
      else if ap = MMU_PTE_ATTR_AP_P_RW_U_RW then mmu_flags ||| ARCH_MMU_FLAG_PERM_USER
      else if ap = MMU_PTE_ATTR_AP_P_RO_U_NA then mmu_flags ||| ARCH_MMU_FLAG_PERM_RO
      else mmu_flags ||| (ARCH_MMU_FLAG_PERM_USER ||| ARCH_MMU_FLAG_PERM_RO)
    let mmu_flags :=
      if mmu_flags &&& ARCH_MMU_FLAG_PERM_USER ≠ 0 then
        if pte &&& MMU_PTE_ATTR_UXN ≠ 0 then mmu_flags ||| ARCH_MMU_FLAG_PERM_NO_EXECUTE
        else mmu_flags
      else
        if pte &&& MMU_PTE_ATTR_PXN ≠ 0 then mmu_flags ||| ARCH_MMU_FLAG_PERM_NO_EXECUTE
        else mmu_flags
    some mmu_flags
  else
    none

/-- The walk loop of `arch_mmu_query`: `some none` is `ERR_NOT_FOUND`,
`some (some (pte, pte_addr, vaddr_rem))` is the leaf found. -/
def query_loop (page_size_shift : Nat) :
    Nat → Nat → Nat → Nat → State → Option (Option (Nat × Nat × Nat))
  | 0, _, _, _, _ => none
  | fuel + 1, index_shift, page_table, vaddr_rem, s =>
    if 64 ≤ index_shift then none else
    let index := (vaddr_rem >>> index_shift) % 2 ^ 32
    let vaddr_rem := sub64 vaddr_rem ((index <<< index_shift) % 2 ^ 64)
    let pte := s.mem page_table index
    let descriptor_type := pte &&& MMU_PTE_DESCRIPTOR_MASK
    let pte_addr := pte &&& MMU_PTE_OUTPUT_ADDR_MASK
    if descriptor_type = MMU_PTE_DESCRIPTOR_INVALID then some none
    else if descriptor_type =
        (if index_shift > page_size_shift then MMU_PTE_L012_DESCRIPTOR_BLOCK
         else MMU_PTE_L3_DESCRIPTOR_PAGE) then
      some (some (pte, pte_addr, vaddr_rem))
    else if index_shift ≤ page_size_shift ∨ descriptor_type ≠ MMU_PTE_L012_DESCRIPTOR_TABLE then
      none
    else
      query_loop page_size_shift fuel (sub32 index_shift (sub32 page_size_shift 3))
        pte_addr vaddr_rem s

/-- The function `arch_mmu_query`; the two booleans say whether the `paddr` and
`flags` out-pointers are non-NULL.  The result is the status and the values
stored through the out-pointers. -/
def arch_mmu_query (cfg : Config) (aspace : Aspace) (vaddr : Nat)
    (want_paddr want_flags : Bool) (s : State) : Option (Int × Option Nat × Option Nat) :=
  if !is_valid_vaddr aspace vaddr then some (ERR_OUT_OF_RANGE, none, none) else
  let kernel := aspace.flags &&& ARCH_ASPACE_FLAG_KERNEL ≠ 0
  let index_shift := if kernel then cfg.MMU_KERNEL_TOP_SHIFT else cfg.MMU_USER_TOP_SHIFT
  let page_size_shift :=
    if kernel then cfg.MMU_KERNEL_PAGE_SIZE_SHIFT else cfg.MMU_USER_PAGE_SIZE_SHIFT
  let size_shift := if kernel then cfg.MMU_KERNEL_SIZE_SHIFT else cfg.MMU_USER_SIZE_SHIFT
  let entries_top :=
    if kernel then cfg.MMU_KERNEL_PAGE_TABLE_ENTRIES_TOP else cfg.MMU_USER_PAGE_TABLE_ENTRIES_TOP
  if 64 ≤ size_shift ∨ 64 ≤ index_shift then none else
  let kernel_base := ((2 ^ 64 - 1) <<< size_shift) % 2 ^ 64
  let vaddr_rem := if kernel then sub64 vaddr kernel_base else vaddr
  let index := (vaddr_rem >>> index_shift) % 2 ^ 32
  if ¬ index < entries_top then none else
  match aspace.tt_virt with
  | none => none
  | some page_table =>
    match query_loop page_size_shift (index_shift + 1) index_shift page_table vaddr_rem s with
    | none => none
    | some none => some (ERR_NOT_FOUND, none, none)
    | some (some (pte, pte_addr, vaddr_rem)) =>
      let paddr := if want_paddr then some ((pte_addr + vaddr_rem) % 2 ^ 64) else none
      if want_flags then
        match pte_to_mmu_flags pte with
        | none => none
        | some mmu_flags => some (NO_ERROR, paddr, some mmu_flags)
      else some (NO_ERROR, paddr, none)

/-- The function `alloc_page_table`: `pmm_alloc_contiguous` or `memalign`
answer with the head of the allocator script. -/
def alloc_page_table (cfg : Config) (page_size_shift : Nat) (s : State) : Option Nat × State :=
  let size := (1 <<< page_size_shift) % 2 ^ 32
  match s.pool with
  | [] => (none, s)
  | none :: rest => (none, { s with pool := rest })
  | some paddr :: rest =>
    if size ≥ cfg.PAGE_SIZE then
      (some paddr, { s with pool := rest, live := paddr :: s.live })
    else if paddr = 0 then
      (none, { s with pool := rest })
    else
      (some paddr, { s with pool := rest, live := paddr :: s.live })

/-- The function `free_page_table`. -/
def free_page_table (paddr : Nat) (s : State) : State :=
  { s with live := s.live.erase paddr }

/-- The call `memset(vaddr, MMU_PTE_DESCRIPTOR_INVALID, 1U << page_size_shift)`
on a fresh table. -/
def clear_page_table (table page_size_shift : Nat) (s : State) : State :=
  { s with
    mem := fun t i =>
      if t = table ∧ i < ((1 <<< page_size_shift) % 2 ^ 32) / 8 then MMU_PTE_DESCRIPTOR_INVALID
      else s.mem t i
    trace := Event.fill table :: s.trace }

/-- The function `arm64_mmu_get_page_table`: the inner `none` is the `NULL`
result, the outer `none` is `PANIC_UNIMPLEMENTED`. -/
def arm64_mmu_get_page_table (cfg : Config) (index page_size_shift page_table : Nat)
    (s : State) : Option (Option Nat × State) :=
  let pte := s.mem page_table index
  let d := pte &&& MMU_PTE_DESCRIPTOR_MASK
  if d = MMU_PTE_DESCRIPTOR_INVALID then
    match alloc_page_table cfg page_size_shift s with
    | (none, s1) => some (none, s1)
    | (some paddr, s1) =>
      let s2 := clear_page_table paddr page_size_shift s1
      let s3 := emit Event.dmb_ishst s2
      let pte := paddr ||| MMU_PTE_L012_DESCRIPTOR_TABLE
      some (some paddr, write_pte page_table index pte s3)
  else if d = MMU_PTE_L012_DESCRIPTOR_TABLE then
    some (some (pte &&& MMU_PTE_OUTPUT_ADDR_MASK), s)
  else if d = MMU_PTE_L012_DESCRIPTOR_BLOCK then
    some (none, s)
  else
    none

/-- The function `page_table_is_clear`. -/
def page_table_is_clear (page_table page_size_shift : Nat) (s : State) : Bool :=
  let count := (1 <<< (sub32 page_size_shift 3)) % 2 ^ 32
  (List.range count).all fun i => s.mem page_table i == MMU_PTE_DESCRIPTOR_INVALID

/-- The TLB invalidation by address of `arm64_mmu_unmap_pt`. -/
def tlbi_page (vaddr asid : Nat) (s : State) : State :=
  if asid = MMU_ARM64_GLOBAL_ASID then emit (Event.tlbi_vaae1is (vaddr >>> 12)) s
  else emit (Event.tlbi_vae1is ((vaddr >>> 12) ||| ((asid <<< 48) % 2 ^ 64))) s

/-- The `while (size)` loop of `arm64_mmu_unmap_pt`; `recurse` is the recursive
call on the next level. -/
def unmap_loop (recurse : Nat → Nat → Nat → Nat → Nat → State → Option State)
    (index_shift page_size_shift page_table asid : Nat) :
    Nat → Nat → Nat → Nat → State → Option State
  | 0, _, _, size, s => if size = 0 then some s else none
  | fuel + 1, vaddr, vaddr_rel, size, s =>
    if size = 0 then some s else
    if 64 ≤ index_shift then none else
    let block_size := 1 <<< index_shift
    let block_mask := block_size - 1
    let vaddr_rem := vaddr_rel &&& block_mask
    let chunk_size := min size (block_size - vaddr_rem)
    let index := vaddr_rel >>> index_shift
    let pte := s.mem page_table index
    let r : Option State :=
      if index_shift > page_size_shift ∧
          pte &&& MMU_PTE_DESCRIPTOR_MASK = MMU_PTE_L012_DESCRIPTOR_TABLE then
        let page_table_paddr := pte &&& MMU_PTE_OUTPUT_ADDR_MASK
        let next_page_table := page_table_paddr
        match recurse vaddr vaddr_rem chunk_size
            (sub32 index_shift (sub32 page_size_shift 3)) next_page_table s with
        | none => none
        | some s1 =>
          if chunk_size = block_size ∨ page_table_is_clear next_page_table page_size_shift s1 then
            some (free_page_table page_table_paddr
              (emit Event.dmb_ishst (write_pte page_table index MMU_PTE_DESCRIPTOR_INVALID s1)))
          else some s1
      else if pte ≠ 0 then
        some (tlbi_page vaddr asid (write_pte page_table index MMU_PTE_DESCRIPTOR_INVALID s))
      else some s
    match r with
    | none => none
    | some s2 =>
      let size := size - chunk_size
      if size = 0 then some s2 else
      unmap_loop recurse index_shift page_size_shift page_table asid fuel
        ((vaddr + chunk_size) % 2 ^ 64) ((vaddr_rel + chunk_size) % 2 ^ 64) size s2

/-- The function `arm64_mmu_unmap_pt`. -/
def arm64_mmu_unmap_pt : Nat → Nat → Nat → Nat → Nat → Nat → Nat → Nat → State → Option State
  | 0, _, _, _, _, _, _, _, _ => none
  | fuel + 1, vaddr, vaddr_rel, size, index_shift, page_size_shift, page_table, asid, s =>
    unmap_loop
      (fun v vr sz ish pt st => arm64_mmu_unmap_pt fuel v vr sz ish page_size_shift pt asid st)
      index_shift page_size_shift page_table asid size vaddr vaddr_rel size s

/-- The `while (size)` loop of `arm64_mmu_map_pt`; `recurse` is the recursive
call on the next level.  The result `(none, s)` is the normal exit of the loop,
`(some size, s)` is a `goto err` with `size` bytes still to be mapped. -/
def map_loop (cfg : Config) (recurse : Nat → Nat → Nat → Nat → Nat → Nat → State → Option (Int × State))
    (attrs index_shift page_size_shift page_table : Nat) :
    Nat → Nat → Nat → Nat → Nat → State → Option (Option Nat × State)
  | 0, _, _, _, size, s => if size = 0 then some (none, s) else none
  | fuel + 1, vaddr, vaddr_rel, paddr, size, s =>
    if size = 0 then some (none, s) else
    if 64 ≤ index_shift then none else
    let block_size := 1 <<< index_shift
    let block_mask := block_size - 1
    let vaddr_rem := vaddr_rel &&& block_mask
    let chunk_size := min size (block_size - vaddr_rem)
    let index := vaddr_rel >>> index_shift
    let r : Option (Bool × State) :=
      if (vaddr_rel ||| paddr) &&& block_mask ≠ 0 ∨ chunk_size ≠ block_size ∨
          index_shift > MMU_PTE_DESCRIPTOR_BLOCK_MAX_SHIFT then
        match arm64_mmu_get_page_table cfg index page_size_shift page_table s with
        | none => none
        | some (none, s1) => some (false, s1)
        | some (some next_page_table, s1) =>
          match recurse vaddr vaddr_rem paddr chunk_size
              (sub32 index_shift (sub32 page_size_shift 3)) next_page_table s1 with
          | none => none
          | some (ret, s2) => some (decide (ret = 0), s2)
      else
        let pte := s.mem page_table index
        if pte ≠ 0 then some (false, s)
        else
          let pte := paddr ||| attrs
          let pte :=
            if index_shift > page_size_shift then pte ||| MMU_PTE_L012_DESCRIPTOR_BLOCK
            else pte ||| MMU_PTE_L3_DESCRIPTOR_PAGE
          some (true, write_pte page_table index pte s)
    match r with
    | none => none
    | some (false, s1) => some (some size, s1)
    | some (true, s1) =>
      let size := size - chunk_size
      if size = 0 then some (none, s1) else
      map_loop cfg recurse attrs index_shift page_size_shift page_table fuel
        ((vaddr + chunk_size) % 2 ^ 64) ((vaddr_rel + chunk_size) % 2 ^ 64)
        ((paddr + chunk_size) % 2 ^ 64) size s1

/-- The function `arm64_mmu_map_pt`. -/
def arm64_mmu_map_pt (cfg : Config) :
    Nat → Nat → Nat → Nat → Nat → Nat → Nat → Nat → Nat → Nat → State → Option (Int × State)
  | 0, _, _, _, _, _, _, _, _, _, _ => none
  | fuel + 1, vaddr_in, vaddr_rel_in, paddr_in, size_in, attrs, index_shift, page_size_shift,
      page_table, asid, s =>
    if 64 ≤ page_size_shift then none else
    if (vaddr_rel_in ||| paddr_in ||| size_in) &&& ((1 <<< page_size_shift) - 1) ≠ 0 then
      some (ERR_INVALID_ARGS, s)
    else
      match map_loop cfg
          (fun v vr pa sz ish pt st =>
            arm64_mmu_map_pt cfg fuel v vr pa sz attrs ish page_size_shift pt asid st)
          attrs index_shift page_size_shift page_table size_in
          vaddr_in vaddr_rel_in paddr_in size_in s with
      | none => none
      | some (none, s1) => some (0, s1)
      | some (some size, s1) =>
        match arm64_mmu_unmap_pt (fuel + 1) vaddr_in vaddr_rel_in (size_in - size)
            index_shift page_size_shift page_table asid s1 with
        | none => none
        | some s2 => some (ERR_GENERIC, emit Event.dsb s2)

/-- The function `arm64_mmu_map`. -/
def arm64_mmu_map (cfg : Config) (vaddr paddr size attrs vaddr_base top_size_shift
    top_index_shift page_size_shift : Nat) (top_page_table : Option Nat) (asid : Nat)
    (s : State) : Option (Int × State) :=
  if 64 ≤ top_size_shift then none else
  let vaddr_rel := sub64 vaddr vaddr_base
  let vaddr_rel_max := 1 <<< top_size_shift
  if vaddr_rel > sub64 vaddr_rel_max size ∨ size > vaddr_rel_max then
    some (ERR_INVALID_ARGS, s)
  else
    match top_page_table with
    | none => some (ERR_INVALID_ARGS, s)
    | some top =>
      match arm64_mmu_map_pt cfg (top_index_shift + 1) vaddr vaddr_rel paddr size attrs
          top_index_shift page_size_shift top asid s with
      | none => none
      | some (ret, s1) => some (ret, emit Event.dsb s1)

/-- The function `arm64_mmu_unmap`. -/
def arm64_mmu_unmap (vaddr size vaddr_base top_size_shift top_index_shift
    page_size_shift : Nat) (top_page_table : Option Nat) (asid : Nat)
    (s : State) : Option (Int × State) :=
  if 64 ≤ top_size_shift then none else
  let vaddr_rel := sub64 vaddr vaddr_base
  let vaddr_rel_max := 1 <<< top_size_shift
  if vaddr_rel > sub64 vaddr_rel_max size ∨ size > vaddr_rel_max then
    some (ERR_INVALID_ARGS, s)
  else
    match top_page_table with
    | none => some (ERR_INVALID_ARGS, s)
    | some top =>
      match arm64_mmu_unmap_pt (top_index_shift + 1) vaddr vaddr_rel size
          top_index_shift page_size_shift top asid s with
      | none => none
      | some s1 => some (0, emit Event.dsb s1)

/-- The function `arm64_tlbflush_if_asid_changed`. -/
def arm64_tlbflush_if_asid_changed (aspace : Aspace) (asid : Nat) (s : State) : State :=
  if asid ≠ arch_mmu_asid aspace then emit Event.dsb (emit Event.tlbi_vmalle1is s) else s

/-- The macro `IS_PAGE_ALIGNED`. -/
def IS_PAGE_ALIGNED (cfg : Config) (x : Nat) : Bool :=
  x &&& (cfg.PAGE_SIZE - 1) == 0

/-- The function `arch_mmu_map`. -/
def arch_mmu_map (cfg : Config) (aspace : Aspace) (vaddr paddr count flags : Nat)
    (s : State) : Option (Int × State) :=
  if !is_valid_vaddr aspace vaddr then some (ERR_OUT_OF_RANGE, s) else
  if !IS_PAGE_ALIGNED cfg vaddr || !IS_PAGE_ALIGNED cfg paddr then some (ERR_INVALID_ARGS, s) else
  if paddr &&& MMU_PTE_OUTPUT_ADDR_MASK_COMPL ≠ 0 then some (ERR_INVALID_ARGS, s) else
  if count = 0 then some (NO_ERROR, s) else
  if aspace.flags &&& ARCH_ASPACE_FLAG_KERNEL ≠ 0 then
    if 64 ≤ cfg.MMU_KERNEL_SIZE_SHIFT then none else
    arm64_mmu_map cfg vaddr paddr ((count * cfg.PAGE_SIZE) % 2 ^ 64)
      (mmu_flags_to_pte_attr flags)
      (((2 ^ 64 - 1) <<< cfg.MMU_KERNEL_SIZE_SHIFT) % 2 ^ 64) cfg.MMU_KERNEL_SIZE_SHIFT
      cfg.MMU_KERNEL_TOP_SHIFT cfg.MMU_KERNEL_PAGE_SIZE_SHIFT
      aspace.tt_virt MMU_ARM64_GLOBAL_ASID s
  else
    let asid := arch_mmu_asid aspace
    match arm64_mmu_map cfg vaddr paddr ((count * cfg.PAGE_SIZE) % 2 ^ 64)
        (mmu_flags_to_pte_attr flags ||| MMU_PTE_ATTR_NON_GLOBAL)
        0 cfg.MMU_USER_SIZE_SHIFT
        cfg.MMU_USER_TOP_SHIFT cfg.MMU_USER_PAGE_SIZE_SHIFT
        aspace.tt_virt asid s with
    | none => none
    | some (ret, s1) => some (ret, arm64_tlbflush_if_asid_changed aspace asid s1)

/-- The function `arch_mmu_unmap`. -/
def arch_mmu_unmap (cfg : Config) (aspace : Aspace) (vaddr count : Nat)
    (s : State) : Option (Int × State) :=
  if !is_valid_vaddr aspace vaddr then some (ERR_OUT_OF_RANGE, s) else
  if !IS_PAGE_ALIGNED cfg vaddr then some (ERR_INVALID_ARGS, s) else
  if aspace.flags &&& ARCH_ASPACE_FLAG_KERNEL ≠ 0 then
    if 64 ≤ cfg.MMU_KERNEL_SIZE_SHIFT then none else
    arm64_mmu_unmap vaddr ((count * cfg.PAGE_SIZE) % 2 ^ 64)
      (((2 ^ 64 - 1) <<< cfg.MMU_KERNEL_SIZE_SHIFT) % 2 ^ 64) cfg.MMU_KERNEL_SIZE_SHIFT
      cfg.MMU_KERNEL_TOP_SHIFT cfg.MMU_KERNEL_PAGE_SIZE_SHIFT
      aspace.tt_virt MMU_ARM64_GLOBAL_ASID s
  else
    let asid := arch_mmu_asid aspace
    match arm64_mmu_unmap vaddr ((count * cfg.PAGE_SIZE) % 2 ^ 64)
        0 cfg.MMU_USER_SIZE_SHIFT
        cfg.MMU_USER_TOP_SHIFT cfg.MMU_USER_PAGE_SIZE_SHIFT
        aspace.tt_virt asid s with
    | none => none
    | some (ret, s1) => some (ret, arm64_tlbflush_if_asid_changed aspace asid s1)

/-- The function `arch_mmu_init_aspace`; `kernel_translation_table` is the
address of the static table `arm64_kernel_translation_table`, and the top-level
table of a user address space is taken from the allocator script (`memalign`). -/
def arch_mmu_init_aspace (cfg : Config) (kernel_translation_table : Nat) (aspace : Aspace)
    (base size flags : Nat) (s : State) : Int × Aspace × State :=
  let aspace := { aspace with flags := flags }
  if flags &&& ARCH_ASPACE_FLAG_KERNEL ≠ 0 then
    (NO_ERROR,
      { aspace with
        base := base
        size := size
        tt_virt := some kernel_translation_table
        tt_phys := kernel_translation_table }, s)
  else
    let aspace := { aspace with base := base, size := size }
    match s.pool with
    | [] => (ERR_NO_MEMORY, aspace, s)
    | none :: rest => (ERR_NO_MEMORY, aspace, { s with pool := rest })
    | some va :: rest =>
      (NO_ERROR, { aspace with tt_virt := some va, tt_phys := va },
        { s with
          pool := rest
          mem := fun t i =>
            if t = va ∧ i < cfg.MMU_USER_PAGE_TABLE_ENTRIES_TOP then 0 else s.mem t i })

/-! ## Concrete address spaces and states used in examples -/

/-- A state with all-zero page-table memory, no live frame and the given
allocator script. -/
def zero_state (pool : List (Option Nat)) : State :=
  { mem := fun _ _ => 0, live := [], pool := pool, trace := [] }

/-- A user address space covering the whole 48-bit user window, top-level table
at `0x80000`. -/
def user_aspace : Aspace :=
  { tt_phys := 0x80000, tt_virt := some 0x80000, flags := 0, base := 0, size := 2 ^ 48, asid := 5 }

/-- A user address space whose window is the 16 pages `[0, 0x10000)`. -/
def small_user_aspace : Aspace :=
  { tt_phys := 0x80000, tt_virt := some 0x80000, flags := 0, base := 0, size := 0x10000, asid := 5 }

/-- The kernel address space of the 48-bit configuration. -/
def kernel_aspace : Aspace :=
  { tt_phys := 0x80000, tt_virt := some 0x80000, flags := ARCH_ASPACE_FLAG_KERNEL,
    base := 2 ^ 64 - 2 ^ 48, size := 2 ^ 48, asid := 0 }

/-- The status of a call. -/
def status {α : Type} (r : Option (Int × α)) : Option Int := r.map Prod.fst

/-- The state after a call. -/
def state_after (r : Option (Int × State)) (s : State) : State :=
  match r with
  | some (_, s1) => s1
  | none => s

/-- An allocator script that hands out three frames and then fails. -/
def three_frames : List (Option Nat) := [some 0x100000, some 0x101000, some 0x102000]

/-- An allocator script whose third allocation fails. -/
def third_fails : List (Option Nat) := [some 0x100000, some 0x101000, none]

/-! ## Well-formedness of the configuration and of an address space -/

/-- The build configurations the engine is written for: one page size for the
kernel, the user regime and the allocator, between 4 KiB and the largest block
size; a top index shift of the form `page_size_shift + k * (page_size_shift - 3)`;
a window of at most 48 bits that is wider than one top-level block and whose
top-level table is not larger than the other tables. -/
def Config.WF (cfg : Config) : Prop :=
  (cfg.MMU_KERNEL_PAGE_SIZE_SHIFT = cfg.PAGE_SIZE_SHIFT ∧
    cfg.MMU_USER_PAGE_SIZE_SHIFT = cfg.PAGE_SIZE_SHIFT ∧
    12 ≤ cfg.PAGE_SIZE_SHIFT ∧ cfg.PAGE_SIZE_SHIFT ≤ MMU_PTE_DESCRIPTOR_BLOCK_MAX_SHIFT) ∧
  (cfg.PAGE_SIZE_SHIFT ≤ cfg.MMU_KERNEL_TOP_SHIFT ∧
    (cfg.MMU_KERNEL_TOP_SHIFT - cfg.PAGE_SIZE_SHIFT) % (cfg.PAGE_SIZE_SHIFT - 3) = 0 ∧
    cfg.MMU_KERNEL_TOP_SHIFT < cfg.MMU_KERNEL_SIZE_SHIFT ∧ cfg.MMU_KERNEL_SIZE_SHIFT ≤ 48 ∧
    cfg.MMU_KERNEL_SIZE_SHIFT ≤ cfg.MMU_KERNEL_TOP_SHIFT + (cfg.PAGE_SIZE_SHIFT - 3)) ∧
  (cfg.PAGE_SIZE_SHIFT ≤ cfg.MMU_USER_TOP_SHIFT ∧
    (cfg.MMU_USER_TOP_SHIFT - cfg.PAGE_SIZE_SHIFT) % (cfg.PAGE_SIZE_SHIFT - 3) = 0 ∧
    cfg.MMU_USER_TOP_SHIFT < cfg.MMU_USER_SIZE_SHIFT ∧ cfg.MMU_USER_SIZE_SHIFT ≤ 48 ∧
    cfg.MMU_USER_SIZE_SHIFT ≤ cfg.MMU_USER_TOP_SHIFT + (cfg.PAGE_SIZE_SHIFT - 3))

instance (cfg : Config) : Decidable cfg.WF := by
  unfold Config.WF; infer_instance

/-- Whether the address space is the kernel address space. -/
def Aspace.kernel (a : Aspace) : Prop := a.flags &&& ARCH_ASPACE_FLAG_KERNEL ≠ 0

instance (a : Aspace) : Decidable a.kernel := by
  unfold Aspace.kernel; infer_instance

/-- The size shift of the translation regime of an address space. -/
def Config.size_shift (cfg : Config) (a : Aspace) : Nat :=
  if a.kernel then cfg.MMU_KERNEL_SIZE_SHIFT else cfg.MMU_USER_SIZE_SHIFT

/-- The top index shift of the translation regime of an address space. -/
def Config.top_shift (cfg : Config) (a : Aspace) : Nat :=
  if a.kernel then cfg.MMU_KERNEL_TOP_SHIFT else cfg.MMU_USER_TOP_SHIFT

/-- The first address of the translation window of an address space
(`vaddr_base` of `arm64_mmu_map`). -/
def Config.window_base (cfg : Config) (a : Aspace) : Nat :=
  if a.kernel then 2 ^ 64 - 2 ^ cfg.MMU_KERNEL_SIZE_SHIFT else 0

/-- The end of the translation window of an address space:
`vaddr_base + (1 << top_size_shift)`. -/
def Config.window_end (cfg : Config) (a : Aspace) : Nat :=
  cfg.window_base a + 2 ^ cfg.size_shift a

/-- What `arch_mmu_init_aspace` asserts and establishes: a non-NULL top-level
table, a non-empty window which is the whole kernel window for the kernel
address space and lies inside the user window otherwise. -/
def Aspace.WF (cfg : Config) (a : Aspace) : Prop :=
  a.tt_virt ≠ none ∧ 0 < a.size ∧
  if a.kernel then
    a.base = 2 ^ 64 - 2 ^ cfg.MMU_KERNEL_SIZE_SHIFT ∧ a.size = 2 ^ cfg.MMU_KERNEL_SIZE_SHIFT
  else
    a.base + a.size ≤ 2 ^ cfg.MMU_USER_SIZE_SHIFT

instance (cfg : Config) (a : Aspace) : Decidable (a.WF cfg) := by
  unfold Aspace.WF; infer_instance

/-! ## The translation tree held in memory -/

/-- The number of entries of a table below the top level: `1 << (page_size_shift - 3)`. -/
def entries (ps : Nat) : Nat := 2 ^ (ps - 3)

/-- The index shift of a table with `n` levels below it. -/
def level_shift (ps n : Nat) : Nat := ps + n * (ps - 3)

/-- The descriptor type of an entry. -/
def desc_type (e : Nat) : Nat := e &&& MMU_PTE_DESCRIPTOR_MASK

/-- The output address of an entry. -/
def out_addr (e : Nat) : Nat := e &&& MMU_PTE_OUTPUT_ADDR_MASK

/-- `Desc mem ps n cnt t x`: the table `x` is reached from the table `t` (which
has `n` levels below it and `cnt` entries) through one or more table
descriptors. -/
def Desc (mem : Nat → Nat → Nat) (ps : Nat) : Nat → Nat → Nat → Nat → Prop
  | 0, _, _, _ => False
  | n + 1, cnt, t, x =>
    ∃ i, i < cnt ∧ desc_type (mem t i) = MMU_PTE_L012_DESCRIPTOR_TABLE ∧
      (x = out_addr (mem t i) ∨ Desc mem ps n (entries ps) (out_addr (mem t i)) x)

/-- The table `t` itself or one of the tables below it. -/
def Sub (mem : Nat → Nat → Nat) (ps n cnt t x : Nat) : Prop :=
  x = t ∨ Desc mem ps n cnt t x

/-- A well-formed subtree: every entry is invalid (zero), a block or page, or
a table descriptor; the tables below two different slots are disjoint and do
not contain the table itself. -/
def WFT (mem : Nat → Nat → Nat) (ps : Nat) : Nat → Nat → Nat → Prop
  | 0, cnt, t =>
    ∀ i, i < cnt → mem t i = 0 ∨ desc_type (mem t i) = MMU_PTE_L3_DESCRIPTOR_PAGE
  | n + 1, cnt, t =>
    (∀ i, i < cnt → mem t i = 0 ∨ desc_type (mem t i) = MMU_PTE_L012_DESCRIPTOR_BLOCK ∨
      desc_type (mem t i) = MMU_PTE_L012_DESCRIPTOR_TABLE) ∧
    (∀ i, i < cnt → desc_type (mem t i) = MMU_PTE_L012_DESCRIPTOR_TABLE →
      ¬ Sub mem ps n (entries ps) (out_addr (mem t i)) t ∧
      WFT mem ps n (entries ps) (out_addr (mem t i))) ∧
    (∀ i j, i < cnt → j < cnt → i ≠ j →
      desc_type (mem t i) = MMU_PTE_L012_DESCRIPTOR_TABLE →
      desc_type (mem t j) = MMU_PTE_L012_DESCRIPTOR_TABLE →
      ∀ x, Sub mem ps n (entries ps) (out_addr (mem t i)) x →
        ¬ Sub mem ps n (entries ps) (out_addr (mem t j)) x)

/-- The walk of the tree as a function of the table height: the leaf entry
that translates the relative address `r` below table `t`, the offset of `r` in
the block or page of that entry, and the height of the table that holds it. -/
def lookup (mem : Nat → Nat → Nat) (ps : Nat) : Nat → Nat → Nat → Option (Nat × Nat × Nat)
  | 0, t, r =>
    let e := mem t (r / 2 ^ ps)
    if desc_type e = MMU_PTE_L3_DESCRIPTOR_PAGE then some (e, r % 2 ^ ps, 0) else none
  | n + 1, t, r =>
    let e := mem t (r / 2 ^ level_shift ps (n + 1))
    if desc_type e = MMU_PTE_L012_DESCRIPTOR_BLOCK then
      some (e, r % 2 ^ level_shift ps (n + 1), n + 1)
    else if desc_type e = MMU_PTE_L012_DESCRIPTOR_TABLE then
      lookup mem ps n (out_addr e) (r % 2 ^ level_shift ps (n + 1))
    else none

/-- The number of levels below the top-level table. -/
def Config.height (cfg : Config) (a : Aspace) : Nat :=
  (cfg.top_shift a - cfg.PAGE_SIZE_SHIFT) / (cfg.PAGE_SIZE_SHIFT - 3)

/-- The result of `arch_mmu_query` as a function of the leaf entry found by the
walk. -/
def query_of_leaf (want_paddr want_flags : Bool) :
    Option (Nat × Nat × Nat) → Option (Int × Option Nat × Option Nat)
  | none => some (ERR_NOT_FOUND, none, none)
  | some (pte, vaddr_rem, _) =>
    let paddr := if want_paddr then some ((out_addr pte + vaddr_rem) % 2 ^ 64) else none
    if want_flags then
      match pte_to_mmu_flags pte with
      | none => none
      | some mmu_flags => some (NO_ERROR, paddr, some mmu_flags)
    else some (NO_ERROR, paddr, none)

/-- The number of entries of the top-level table. -/
def Config.entries_top (cfg : Config) (a : Aspace) : Nat :=
  2 ^ (cfg.size_shift a - cfg.top_shift a)

/-- The allocator contract for one call: the frames the allocator will hand
out are distinct, are not live, are not the top-level table `top`, and are
table addresses (4 KiB aligned, below `2^48`). -/
def PoolOK (top : Nat) (s : State) : Prop :=
  (s.pool.filterMap id).Nodup ∧
  ∀ p, some p ∈ s.pool → p ∉ s.live ∧ p ≠ top ∧ out_addr p = p

/-- The invariant of the translation tree of an address space: the tables
reachable from the top-level table form a well-formed tree, and they are
exactly the live page-table frames. -/
def TreeWF (cfg : Config) (a : Aspace) (s : State) : Prop :=
  ∃ top, a.tt_virt = some top ∧
    WFT s.mem cfg.PAGE_SIZE_SHIFT (cfg.height a) (cfg.entries_top a) top ∧
    s.live.Nodup ∧ top ∉ s.live ∧
    ∀ p, p ∈ s.live ↔ Desc s.mem cfg.PAGE_SIZE_SHIFT (cfg.height a) (cfg.entries_top a) top p

/-- The same state with another allocator script. -/
def State.with_pool (s : State) (pool : List (Option Nat)) : State :=
  { s with pool := pool }

/-- The allocator contract for a call on address space `a`. -/
def AllocOK (a : Aspace) (s : State) : Prop :=
  ∃ top, a.tt_virt = some top ∧ PoolOK top s

/-- What a call working on the table `t` (with `n` levels below it and `cnt`
entries) may assume: the subtree is well formed, its tables are live, and the
allocator contract holds. -/
structure Pre (ps n cnt t : Nat) (s : State) : Prop where
  wf : WFT s.mem ps n cnt t
  owned : ∀ x, Desc s.mem ps n cnt t x → x ∈ s.live
  nodup : s.live.Nodup
  pool_nodup : (s.pool.filterMap id).Nodup
  pool_fresh : ∀ p, some p ∈ s.pool → p ∉ s.live ∧ p ≠ t ∧ out_addr p = p

/-- The footprint of a call working on the table `t`: it changes only `t`, the
tables below it and frames taken from the allocator; the tables below `t`
afterwards are old ones or frames taken from the allocator; the live frames
change exactly by the tables that left or joined the subtree. -/
structure Step (ps n cnt t : Nat) (s s' : State) : Prop where
  frame : ∀ x, x ≠ t → ¬ Desc s.mem ps n cnt t x → some x ∉ s.pool →
    ∀ i, s'.mem x i = s.mem x i
  desc : ∀ x, Desc s'.mem ps n cnt t x →
    Desc s.mem ps n cnt t x ∨ (some x ∈ s.pool ∧ some x ∉ s'.pool)
  live : ∀ p, p ∈ s'.live ↔ (p ∈ s.live ∧ ¬ Desc s.mem ps n cnt t p) ∨ Desc s'.mem ps n cnt t p
  pool : ∃ k, s'.pool = s.pool.drop k
  wf : WFT s'.mem ps n cnt t
  nodup : s'.live.Nodup

/-- The descriptor type `arm64_mmu_map_pt` gives a leaf entry in a table with
`m` levels below it. -/
def leaf_type (m : Nat) : Nat :=
  if m = 0 then MMU_PTE_L3_DESCRIPTOR_PAGE else MMU_PTE_L012_DESCRIPTOR_BLOCK

/-- The meaning of a successful map of `[a, a + size)` to `pa` below table `t`:
every address of the range is translated by a block or page that lies inside
the range and carries `attrs`; the other addresses are translated as before;
the range was unmapped before. -/
structure Mapped (ps n cnt t a pa size attrs : Nat) (s s' : State) : Prop where
  inside : ∀ r, a ≤ r → r < a + size → ∃ rem m,
    lookup s'.mem ps n t r =
      some (((pa + (r - a) - rem) ||| attrs) ||| leaf_type m, rem, m) ∧
    rem ≤ r - a ∧ (r - rem) + 2 ^ level_shift ps m ≤ a + size
  outside : ∀ r, r < cnt * 2 ^ level_shift ps n → ¬ (a ≤ r ∧ r < a + size) →
    lookup s'.mem ps n t r = lookup s.mem ps n t r
  free_before : ∀ r, a ≤ r → r < a + size → lookup s.mem ps n t r = none

/-! ## One iteration of the chunk loops, with the bit operations written as
division and remainder -/

/-- The value `chunk_size = MIN(size, block_size - vaddr_rem)` of the loops. -/
def chunk_size (index_shift vaddr_rel size : Nat) : Nat :=
  min size (2 ^ index_shift - vaddr_rel % 2 ^ index_shift)

/-- The body of the loop of `arm64_mmu_map_pt` up to `size -= chunk_size`: the
flag says whether the chunk was mapped (`false` is `goto err`). -/
def map_step (cfg : Config)
    (recurse : Nat → Nat → Nat → Nat → Nat → Nat → State → Option (Int × State))
    (attrs index_shift page_size_shift page_table vaddr vaddr_rel paddr size : Nat)
    (s : State) : Option (Bool × State) :=
  if (vaddr_rel % 2 ^ index_shift ≠ 0 ∨ paddr % 2 ^ index_shift ≠ 0) ∨
      chunk_size index_shift vaddr_rel size ≠ 2 ^ index_shift ∨
      index_shift > MMU_PTE_DESCRIPTOR_BLOCK_MAX_SHIFT then
    match arm64_mmu_get_page_table cfg (vaddr_rel / 2 ^ index_shift) page_size_shift
        page_table s with
    | none => none
    | some (none, s1) => some (false, s1)
    | some (some next_page_table, s1) =>
      match recurse vaddr (vaddr_rel % 2 ^ index_shift) paddr
          (chunk_size index_shift vaddr_rel size)
          (sub32 index_shift (sub32 page_size_shift 3)) next_page_table s1 with
      | none => none
      | some (ret, s2) => some (decide (ret = 0), s2)
  else
    if s.mem page_table (vaddr_rel / 2 ^ index_shift) ≠ 0 then some (false, s)
    else
      some (true, write_pte page_table (vaddr_rel / 2 ^ index_shift)
        (if index_shift > page_size_shift then
          (paddr ||| attrs) ||| MMU_PTE_L012_DESCRIPTOR_BLOCK
         else (paddr ||| attrs) ||| MMU_PTE_L3_DESCRIPTOR_PAGE) s)

/-- The body of the loop of `arm64_mmu_unmap_pt` up to `size -= chunk_size`. -/
def unmap_step (recurse : Nat → Nat → Nat → Nat → Nat → State → Option State)
    (index_shift page_size_shift page_table asid vaddr vaddr_rel size : Nat)
    (s : State) : Option State :=
  let pte := s.mem page_table (vaddr_rel / 2 ^ index_shift)
  if index_shift > page_size_shift ∧
      desc_type pte = MMU_PTE_L012_DESCRIPTOR_TABLE then
    match recurse vaddr (vaddr_rel % 2 ^ index_shift) (chunk_size index_shift vaddr_rel size)
        (sub32 index_shift (sub32 page_size_shift 3)) (out_addr pte) s with
    | none => none
    | some s1 =>
      if chunk_size index_shift vaddr_rel size = 2 ^ index_shift ∨
          page_table_is_clear (out_addr pte) page_size_shift s1 then
        some (free_page_table (out_addr pte)
          (emit Event.dmb_ishst
            (write_pte page_table (vaddr_rel / 2 ^ index_shift) MMU_PTE_DESCRIPTOR_INVALID s1)))
      else some s1
  else if pte ≠ 0 then
    some (tlbi_page vaddr asid
      (write_pte page_table (vaddr_rel / 2 ^ index_shift) MMU_PTE_DESCRIPTOR_INVALID s))
  else some s

/-- What the recursive call of `arm64_mmu_map_pt` on a table with `m` levels
below it is known to do when it returns 0. -/
def MapRec (ps attrs m : Nat)
    (recurse : Nat → Nat → Nat → Nat → Nat → Nat → State → Option (Int × State)) : Prop :=
  ∀ v vr pa sz c st st', Pre ps m (entries ps) c st →
    vr + sz ≤ entries ps * 2 ^ level_shift ps m → pa + sz ≤ 2 ^ 64 →
    recurse v vr pa sz (level_shift ps m) c st = some (0, st') →
    Step ps m (entries ps) c st st' ∧ Mapped ps m (entries ps) c vr pa sz attrs st st'

/-! ## The arguments `arch_mmu_map` and `arch_mmu_unmap` pass on -/

/-- The attribute word `arch_mmu_map` passes to `arm64_mmu_map`. -/
def Config.attrs (a : Aspace) (flags : Nat) : Nat :=
  if a.kernel then mmu_flags_to_pte_attr flags
  else mmu_flags_to_pte_attr flags ||| MMU_PTE_ATTR_NON_GLOBAL

/-- The ASID `arch_mmu_map` and `arch_mmu_unmap` pass on. -/
def Aspace.tlb_asid (a : Aspace) : Nat :=
  if a.kernel then MMU_ARM64_GLOBAL_ASID else arch_mmu_asid a

/-- The byte count `count * PAGE_SIZE` as the 64-bit `size_t` the code
computes. -/
def Config.byte_count (cfg : Config) (count : Nat) : Nat :=
  (count * cfg.PAGE_SIZE) % 2 ^ 64

/-- The meaning of an unmap of `[a, a + size)` below table `t`: no address of
the range is translated any more; an address that was not translated is not
translated afterwards; a translation by a block or page disjoint from the
range is kept, and every translation is kept when the range is empty; a slot of `t` that the range covers wholly is zero afterwards;
a slot of `t` that the range does not touch keeps its entry. -/
structure Unmapped (ps n cnt t a size : Nat) (s s' : State) : Prop where
  inside : ∀ r, a ≤ r → r < a + size → lookup s'.mem ps n t r = none
  keep_none : ∀ r, r < cnt * 2 ^ level_shift ps n → lookup s.mem ps n t r = none →
    lookup s'.mem ps n t r = none
  keep : ∀ r e rem m, r < cnt * 2 ^ level_shift ps n →
    lookup s.mem ps n t r = some (e, rem, m) →
    (size = 0 ∨ r - rem + 2 ^ level_shift ps m ≤ a ∨ a + size ≤ r - rem) →
    lookup s'.mem ps n t r = some (e, rem, m)
  full : ∀ i, a ≤ i * 2 ^ level_shift ps n → (i + 1) * 2 ^ level_shift ps n ≤ a + size →
    s'.mem t i = 0
  row : ∀ i, ((i + 1) * 2 ^ level_shift ps n ≤ a ∨ a + size ≤ i * 2 ^ level_shift ps n) →
    s'.mem t i = s.mem t i

/-- What the recursive call of `arm64_mmu_unmap_pt` on a table with `m` levels
below it is known to do. -/
def UnmapRec (ps m : Nat)
    (recurse : Nat → Nat → Nat → Nat → Nat → State → Option State) : Prop :=
  ∀ v vr sz c st, Pre ps m (entries ps) c st →
    vr + sz ≤ entries ps * 2 ^ level_shift ps m →
    ∃ st', recurse v vr sz (level_shift ps m) c st = some st' ∧
      Step ps m (entries ps) c st st' ∧ Unmapped ps m (entries ps) c vr sz st st'

/-- A call that changes no translation below table `t`. -/
def Quiet (ps n cnt t : Nat) (s s' : State) : Prop :=
  ∀ r, r < cnt * 2 ^ level_shift ps n → lookup s'.mem ps n t r = lookup s.mem ps n t r

/-- What the recursive call of `arm64_mmu_map_pt` on a table with `m` levels
below it is known to do when it returns an error. -/
def MapRecFail (ps m : Nat)
    (recurse : Nat → Nat → Nat → Nat → Nat → Nat → State → Option (Int × State)) : Prop :=
  ∀ v vr pa sz c st st' ret, Pre ps m (entries ps) c st →
    vr + sz ≤ entries ps * 2 ^ level_shift ps m → pa + sz ≤ 2 ^ 64 →
    recurse v vr pa sz (level_shift ps m) c st = some (ret, st') → ret ≠ 0 →
    Step ps m (entries ps) c st st' ∧ Quiet ps m (entries ps) c st st'

/-! ## The tree after a map followed by an unmap -/

/-- No table below `t` is empty: every table that a table descriptor of the
subtree points to has an entry that is not zero. -/
def NoEmpty (mem : Nat → Nat → Nat) (ps : Nat) : Nat → Nat → Nat → Prop
  | 0, _, _ => True
  | n + 1, cnt, t =>
    ∀ i, i < cnt → desc_type (mem t i) = MMU_PTE_L012_DESCRIPTOR_TABLE →
      (∃ k, k < entries ps ∧ mem (out_addr (mem t i)) k ≠ 0) ∧
      NoEmpty mem ps n (entries ps) (out_addr (mem t i))

/-- A call that keeps every valid entry of the memory outside the frames of
the allocator, and takes its frames from the allocator script. -/
def Keeps (s s' : State) : Prop :=
  (∀ x, some x ∉ s.pool → ∀ i, desc_type (s.mem x i) ≠ 0 → s'.mem x i = s.mem x i) ∧
  ∀ x, x ∈ s'.pool → x ∈ s.pool

/-- A call that writes nothing but zero entries. -/
def Zeroes (s s' : State) : Prop :=
  ∀ x i, s'.mem x i = s.mem x i ∨ s'.mem x i = 0

/-- What the recursive call of `arm64_mmu_map_pt` on a table with `m` levels
below it is known to do to the tables and entries of before when it returns 0. -/
def MapRecNE (ps m : Nat)
    (recurse : Nat → Nat → Nat → Nat → Nat → Nat → State → Option (Int × State)) : Prop :=
  ∀ v vr pa sz c st st', Pre ps m (entries ps) c st →
    vr + sz ≤ entries ps * 2 ^ level_shift ps m → pa + sz ≤ 2 ^ 64 →
    NoEmpty st.mem ps m (entries ps) c →
    recurse v vr pa sz (level_shift ps m) c st = some (0, st') →
    NoEmpty st'.mem ps m (entries ps) c ∧ Keeps st st'

/-- What the recursive call of `arm64_mmu_unmap_pt` on a table with `m` levels
below it is known to do to the tables and entries of before. -/
def UnmapRecNE (ps m : Nat)
    (recurse : Nat → Nat → Nat → Nat → Nat → State → Option State) : Prop :=
  ∀ v vr sz c st st', Pre ps m (entries ps) c st →
    vr + sz ≤ entries ps * 2 ^ level_shift ps m →
    NoEmpty st.mem ps m (entries ps) c →
    recurse v vr sz (level_shift ps m) c st = some st' →
    NoEmpty st'.mem ps m (entries ps) c ∧ Zeroes st st'

/-- The translation tree of `s'` equals that of `s`: the entries of the
top-level table and of every live page-table frame are the same, and the same
frames are live. -/
def TreeEq (cfg : Config) (a : Aspace) (s s' : State) : Prop :=
  ∃ top, a.tt_virt = some top ∧
    (∀ i, i < cfg.entries_top a → s'.mem top i = s.mem top i) ∧
    (∀ x, x ∈ s.live → ∀ k, k < entries cfg.PAGE_SIZE_SHIFT → s'.mem x k = s.mem x k) ∧
    ∀ p, p ∈ s'.live ↔ p ∈ s.live

/-- The states of an address space reached from a freshly initialised one (an
all-zero top-level table, no live page-table frame) by successful calls of
`arch_mmu_map` and `arch_mmu_unmap`.  Between two calls the allocator script,
which stands for the future answers of the allocator, may be any script. -/
inductive Reachable (cfg : Config) (a : Aspace) : State → Prop
  | fresh (s : State) (top : Nat) :
    a.tt_virt = some top → (∀ i, i < cfg.entries_top a → s.mem top i = 0) → s.live = [] →
    Reachable cfg a s
  | map (s s' : State) (vaddr paddr count flags : Nat) :
    Reachable cfg a s → AllocOK a s → paddr < 2 ^ 64 →
    arch_mmu_map cfg a vaddr paddr count flags s = some (NO_ERROR, s') → Reachable cfg a s'
  | unmap (s s' : State) (vaddr count : Nat) :
    Reachable cfg a s → AllocOK a s →
    arch_mmu_unmap cfg a vaddr count s = some (NO_ERROR, s') → Reachable cfg a s'
  | alloc (s : State) (pool : List (Option Nat)) :
    Reachable cfg a s → Reachable cfg a (s.with_pool pool)

/-- The state of the user address space after `map(0x1000, 0xAAAA000, 1 page,
CACHED | PERM_RO)` on the empty tree, which takes three table frames, with an
allocator that has one more frame. -/
def one_page_mapped : State :=
  (state_after (arch_mmu_map cfg4k user_aspace 0x1000 0xAAAA000 1 8 (zero_state three_frames))
    (zero_state [])).with_pool [some 0x103000]

/-! ## The answers of the allocator during a call -/

/-- Between `s` and `s'` every request to the allocator was answered with a
frame: the answers taken off the script are all frames. -/
def Served (s s' : State) : Prop :=
  ∃ k, s'.pool = s.pool.drop k ∧ ∀ x, x ∈ s.pool.take k → x ≠ none

/-- Between `s` and `s'` the allocator answered a request with a failure: a
failure is among the answers taken off the script. -/
def Refused (s s' : State) : Prop :=
  ∃ k, s'.pool = s.pool.drop k ∧ none ∈ s.pool.take k

/-- An allocator script whose second allocation fails. -/
def second_fails : List (Option Nat) := [some 0x100000, none]

/-! ## Teardown of an address space -/

/-- The function `arch_mmu_destroy_aspace`.  `debug` says whether
`DEBUG_ASSERT` is compiled in; `aspace` is the pointer argument.  The result
`none` is a failing assertion or the dereference of a NULL `aspace`; otherwise
the result holds the status, the pointer handed to `free`, and the state, which
the function does not touch (the comment `XXX make sure it's not mapped` stands
where a check of the tree would be). -/
def arch_mmu_destroy_aspace (debug : Bool) (aspace : Option Aspace) (s : State) :
    Option (Int × Option Nat × State) :=
  match aspace with
  | none => none
  | some a =>
    if debug ∧ ¬ (a.flags &&& ARCH_ASPACE_FLAG_KERNEL = 0) then none
    else some (NO_ERROR, a.tt_virt, s)

/-- An allocator script with one frame, for the top-level table of a user
address space. -/
def top_frame : List (Option Nat) := [some 0x80000]

end Arm64Mmu

/-!
# Primitives of `arch/arm64/include/arch/arch_ops.h`

`USE_GCC_ATOMICS` is 1: the atomics are the GCC builtins.  A memory of `int`
objects is a function from addresses to values.  The DAIF register is the value
the `mrs` instruction reads: bit 7 is the IRQ mask bit `I`, bit 6 the FIQ mask
bit `F`.
-/

namespace Arm64Ops

/-- The GCC builtin `__atomic_compare_exchange_n(ptr, expected, desired, weak,
success_order, failure_order)`, by the GCC manual: if `*ptr` equals `*expected`
the builtin writes `desired` into `*ptr` and returns true, otherwise it writes
`*ptr` into `*expected` and returns false; a weak exchange may also fail when
the values are equal, which `spurious` decides here.  The result is the return
value, the new value of `*expected`, and the memory. -/
def atomic_compare_exchange_n (mem : Nat → Int) (ptr : Nat) (expected desired : Int)
    (weak spurious : Bool) : Bool × Int × (Nat → Int) :=
  if mem ptr = expected ∧ ¬ (weak = true ∧ spurious = true) then
    (true, expected, Function.update mem ptr desired)
  else (false, mem ptr, mem)

/-- The function `atomic_cmpxchg`: the builtin works on the local `oldval`,
which is returned. -/
def atomic_cmpxchg (mem : Nat → Int) (ptr : Nat) (oldval newval : Int) (spurious : Bool) :
    Int × (Nat → Int) :=
  let r := atomic_compare_exchange_n mem ptr oldval newval false spurious
  (r.2.1, r.2.2)

/-- The function `check_irq_fiq_state`; `merge` is `ARM_MERGE_FIQ_IRQ`, and
`none` is a failing `ASSERT`. -/
def check_irq_fiq_state (merge : Bool) (state : Nat) : Option Unit :=
  if merge then
    if (state >>> 6) &&& 1 = (state >>> 7) &&& 1 then some () else none
  else some ()

/-- The function `arch_ints_disabled`; `daif` is the value of the DAIF
register. -/
def arch_ints_disabled (merge : Bool) (daif : Nat) : Option Bool :=
  match check_irq_fiq_state merge daif with
  | none => none
  | some _ =>
    let state := daif &&& (1 <<< 7)
    some (state != 0)

/-- The function `arch_fiqs_disabled`. -/
def arch_fiqs_disabled (merge : Bool) (daif : Nat) : Option Bool :=
  match check_irq_fiq_state merge daif with
  | none => none
  | some _ =>
    let state := daif &&& (1 <<< 6)
    some (state != 0)

end Arm64Ops

/-!
# `memset` of `lib/libc/string/memset.c`

Memory is a function from byte addresses to byte values.  Pointers are natural
numbers and are not wrapped: the object written lies inside the address space.
`wsz` is `sizeof(size_t)`, 4 or 8; a word is stored with its least significant
byte at the lowest address.
-/

namespace Libc

/-- The store `*xs = c` of a `char`. -/
def store8 (mem : Nat → Nat) (a v : Nat) : Nat → Nat :=
  fun x => if x = a then v % 256 else mem x

/-- The store `*((size_t *)xs) = cc` of a word of `wsz` bytes. -/
def store_word (wsz : Nat) (mem : Nat → Nat) (a v : Nat) : Nat → Nat :=
  fun x => if a ≤ x ∧ x < a + wsz then (v >>> (8 * (x - a))) % 256 else mem x

/-- A byte loop `for ( ; len > 0; len-- ) *xs++ = c`: the memory and `xs`
after it. -/
def memset_bytes (b : Nat) : Nat → Nat → (Nat → Nat) → (Nat → Nat) × Nat
  | 0, xs, mem => (mem, xs)
  | len + 1, xs, mem => memset_bytes b len (xs + 1) (store8 mem xs b)

/-- The word loop `for ( len = count/sizeof(size_t); len > 0; len-- )`: the
memory and `xs` after it. -/
def memset_words (wsz cc : Nat) : Nat → Nat → (Nat → Nat) → (Nat → Nat) × Nat
  | 0, xs, mem => (mem, xs)
  | len + 1, xs, mem => memset_words wsz cc len (xs + wsz) (store_word wsz mem xs cc)

/-- The function `memset`: the memory after the call and the pointer
returned. -/
def memset (wsz : Nat) (mem : Nat → Nat) (s : Nat) (c : Int) (count : Nat) :
    (Nat → Nat) × Nat :=
  let len_mask := wsz - 1
  let len_delta := (2 ^ (8 * wsz) - s % 2 ^ (8 * wsz)) % 2 ^ (8 * wsz)
  let len := len_delta &&& len_mask
  let cc := (c % 256).toNat
  if count > len then
    let count := count - len
    let cc := cc ||| (cc <<< 8)
    let cc := cc ||| (cc <<< 16)
    let cc := if wsz = 8 then cc ||| (cc <<< 32) else cc
    let r1 := memset_bytes (c % 256).toNat len s mem
    let r2 := memset_words wsz cc (count / wsz) r1.2 r1.1
    let count := count &&& (wsz - 1)
    let r3 := memset_bytes (c % 256).toNat count r2.2 r2.1
    (r3.1, s)
  else
    let r := memset_bytes (c % 256).toNat count s mem
    (r.1, s)

/-- The value of the 32-bit word at address `a`. -/
def load32 (mem : Nat → Nat) (a : Nat) : Nat :=
  mem a + 2 ^ 8 * mem (a + 1) + 2 ^ 16 * mem (a + 2) + 2 ^ 24 * mem (a + 3)

end Libc

/-!
# Thread bootstrap of `arch/arm/arm/thread.c`

The 32-bit ARM port: `vaddr_t` and pointers have 32 bits, the struct
`context_switch_frame` has eleven 4-byte slots (`tpidrurw`, `tpidruro`,
`r4` to `r11`, `lr`), 44 bytes, with `lr` at offset 40.  `ARM_WITH_VFP` is
off.  The scheduler, the interrupt mask and `thread_exit` are external: what
they do is recorded in a log.
-/

namespace ArmThread

/-- The calls `initial_thread_func` makes, as recorded in the log. -/
inductive Act where
  | thread_unlock
  | enable_ints
  | call_entry (arg : Nat)
  | thread_exit (ret : Int)
  deriving DecidableEq, Repr

/-- The state of the CPU the thread code sees: the thread lock, the interrupt
mask, and the log of calls (most recent first). -/
structure Cpu where
  thread_lock_held : Bool
  ints_enabled : Bool
  log : List Act

/-- The fields of `struct thread` the code uses.  The entry function is a
function of its argument and the CPU state; it gives `none` when it does not
return. -/
structure Thread where
  stack : Nat
  stack_size : Nat
  sp : Nat
  entry : Nat → Cpu → Option (Int × Cpu)
  arg : Nat

/-- How a call of a function ends: it returns, it ends in `thread_exit`, or it
never gets there. -/
inductive Outcome where
  | returned (c : Cpu)
  | exited (ret : Int) (c : Cpu)
  | stuck

/-- Modelled from the spec: `thread_unlock_ints_disabled` of `kernel/thread.h`
releases the thread (scheduler) lock. -/
def thread_unlock_ints_disabled (c : Cpu) : Cpu :=
  { c with thread_lock_held := false, log := Act.thread_unlock :: c.log }

/-- Modelled from the spec: `arch_enable_ints` of the ARM `arch/arch_ops.h`
clears the interrupt mask. -/
def arch_enable_ints (c : Cpu) : Cpu :=
  { c with ints_enabled := true, log := Act.enable_ints :: c.log }

/-- Modelled from the spec: `thread_exit` of `kernel/thread.h` ends the current
thread and does not return. -/
def thread_exit (ret : Int) (c : Cpu) : Outcome :=
  Outcome.exited ret { c with log := Act.thread_exit ret :: c.log }

/-- The function `initial_thread_func`; `ct` is the thread
`get_current_thread()` gives.  The call of the entry function is recorded in
the log before the entry function runs. -/
def initial_thread_func (ct : Thread) (c : Cpu) : Outcome :=
  let c := thread_unlock_ints_disabled c
  let c := arch_enable_ints c
  match ct.entry ct.arg { c with log := Act.call_entry ct.arg :: c.log } with
  | none => Outcome.stuck
  | some (ret, c) => thread_exit ret c

/-- Modelled from the spec: the macro `round_down(val, alignment)` gives the
largest multiple of `alignment` that is not above `val`. -/
def round_down (val alignment : Nat) : Nat := val - val % alignment

/-- The size of `struct context_switch_frame`: eleven slots of 4 bytes. -/
def FRAME_SIZE : Nat := 44

/-- The offset of the slot `lr` in `struct context_switch_frame`. -/
def LR_OFFSET : Nat := 40

/-- The function `arch_thread_initialize`; `initial_thread_func_addr` is the
address `&initial_thread_func`.  The result `none` is the pointer arithmetic
`frame--` leaving the address space. -/
def arch_thread_initialize (initial_thread_func_addr : Nat) (t : Thread) (mem : Nat → Nat) :
    Option (Thread × (Nat → Nat)) :=
  let stack_top := (t.stack + t.stack_size) % 2 ^ 32
  let stack_top := round_down stack_top 8
  if stack_top < FRAME_SIZE then none else
  let frame := stack_top - FRAME_SIZE
  let mem := (Libc.memset 4 mem frame 0 FRAME_SIZE).1
  let mem := Libc.store_word 4 mem (frame + LR_OFFSET) initial_thread_func_addr
  some ({ t with sp := frame }, mem)

/-- A thread with a 4 KiB stack at `0x1000` whose entry function returns its
argument plus one. -/
def demo_thread : Thread :=
  { stack := 0x1000, stack_size := 0x1000, sp := 0,
    entry := fun arg c => some ((arg : Int) + 1, c), arg := 42 }

/-- The CPU state in which a fresh thread is entered: the thread lock held,
interrupts disabled. -/
def fresh_cpu : Cpu := { thread_lock_held := true, ints_enabled := false, log := [] }

end ArmThread

namespace Arm64Mmu

/-! ## The flag decoding of `arch_mmu_query` with its assertions -/

/-- The translation of a leaf PTE back to mapping flags at the end of
`arch_mmu_query`, with the two `DEBUG_ASSERT`s on PXN and UXN: `debug` says
whether `DEBUG_ASSERT` is compiled in; `none` is `PANIC_UNIMPLEMENTED` or a
failing assertion. -/
def pte_to_mmu_flags_debug (debug : Bool) (pte : Nat) : Option Nat :=
  let mmu_flags := 0
  let mmu_flags :=
    if pte &&& MMU_PTE_ATTR_NON_SECURE ≠ 0 then mmu_flags ||| ARCH_MMU_FLAG_NS else mmu_flags
  let a := pte &&& MMU_PTE_ATTR_ATTR_INDEX_MASK
  if a = MMU_PTE_ATTR_STRONGLY_ORDERED ∨ a = MMU_PTE_ATTR_DEVICE ∨ a = MMU_PTE_ATTR_NORMAL_MEMORY then
    let mmu_flags :=
      if a = MMU_PTE_ATTR_STRONGLY_ORDERED then mmu_flags ||| ARCH_MMU_FLAG_UNCACHED
      else if a = MMU_PTE_ATTR_DEVICE then mmu_flags ||| ARCH_MMU_FLAG_UNCACHED_DEVICE
      else mmu_flags
    let ap := pte &&& MMU_PTE_ATTR_AP_MASK
    let mmu_flags :=
      if ap = MMU_PTE_ATTR_AP_P_RW_U_NA then mmu_flags
      else if ap = MMU_PTE_ATTR_AP_P_RW_U_RW then mmu_flags ||| ARCH_MMU_FLAG_PERM_USER
      else if ap = MMU_PTE_ATTR_AP_P_RO_U_NA then mmu_flags ||| ARCH_MMU_FLAG_PERM_RO
      else mmu_flags ||| (ARCH_MMU_FLAG_PERM_USER ||| ARCH_MMU_FLAG_PERM_RO)
    if mmu_flags &&& ARCH_MMU_FLAG_PERM_USER ≠ 0 then
      if debug = true ∧ pte &&& MMU_PTE_ATTR_PXN = 0 then none
      else if pte &&& MMU_PTE_ATTR_UXN ≠ 0 then some (mmu_flags ||| ARCH_MMU_FLAG_PERM_NO_EXECUTE)
      else some mmu_flags
    else
      if debug = true ∧ pte &&& MMU_PTE_ATTR_UXN = 0 then none
      else if pte &&& MMU_PTE_ATTR_PXN ≠ 0 then some (mmu_flags ||| ARCH_MMU_FLAG_PERM_NO_EXECUTE)
      else some mmu_flags
  else
    none

/-! ## The events of a call -/

/-- Between `s` and `s'` events were only issued: the trace of `s'` is the
trace of `s` with the new events in front (most recent first). -/
def Extends (s s' : State) : Prop := ∃ l, s'.trace = l ++ s.trace

/-- A state whose trace is not empty and does not start with a DSB. -/
def after_store : State :=
  { mem := fun _ _ => 0, live := [], pool := three_frames, trace := [Event.store 0x80000 0 0] }

/-! ## Switching the address space -/

/-- A write to a system register or a TLB operation of `arch_mmu_context_switch`. -/
inductive SysEvent where
  | write_ttbr0_el1 (v : Nat)
  | write_tcr_el1 (v : Nat)
  | tlbi_vmalle1
  | dsb
  deriving DecidableEq, Repr

/-- The two system registers `arch_mmu_context_switch` writes, and the log of
what the CPU was told (most recent first). -/
structure SysRegs where
  ttbr0_el1 : Nat
  tcr_el1 : Nat
  log : List SysEvent

/-- The function `arch_mmu_context_switch`.  `MMU_TCR_FLAGS_USER` and
`MMU_TCR_FLAGS_KERNEL` are constants of a header that is not part of the
sources.  `vmm_asid_activate` is the function of the generic VM layer: it
returns the flag `flush_tlb` and the value it leaves in `aspace->asid` (not
used for a NULL `aspace`).  `debug` says whether `DEBUG_ASSERT` is compiled in;
`none` is its failure.  The result holds the aspace as the call leaves it and
the registers. -/
def arch_mmu_context_switch (MMU_TCR_FLAGS_USER MMU_TCR_FLAGS_KERNEL : Nat)
    (vmm_asid_activate : Option Aspace → Nat → Bool × Nat) (debug : Bool)
    (aspace : Option Aspace) (c : SysRegs) : Option (Option Aspace × SysRegs) :=
  let r := vmm_asid_activate aspace ARM64_ASID_BITS
  let flush_tlb := r.1
  match aspace with
  | some a =>
    let a := { a with asid := r.2 }
    if debug = true ∧ ¬ (a.flags &&& ARCH_ASPACE_FLAG_KERNEL = 0) then none else
    let tcr := MMU_TCR_FLAGS_USER
    let ttbr := ((arch_mmu_asid a <<< 48) % 2 ^ 64) ||| a.tt_phys
    let c := { c with ttbr0_el1 := ttbr, log := SysEvent.write_ttbr0_el1 ttbr :: c.log }
    let c := { c with tcr_el1 := tcr, log := SysEvent.write_tcr_el1 tcr :: c.log }
    let c := if flush_tlb then
        { c with log := SysEvent.dsb :: SysEvent.tlbi_vmalle1 :: c.log } else c
    some (some a, c)
  | none =>
    let tcr := MMU_TCR_FLAGS_KERNEL
    let c := { c with tcr_el1 := tcr, log := SysEvent.write_tcr_el1 tcr :: c.log }
    let c := if flush_tlb then
        { c with log := SysEvent.dsb :: SysEvent.tlbi_vmalle1 :: c.log } else c
    some (none, c)

/-- An activation that keeps the asid of the aspace and asks for no flush. -/
def keep_asid : Option Aspace → Nat → Bool × Nat
  | some a, _ => (false, a.asid)
  | none, _ => (false, 0)

/-- Registers before any switch. -/
def reset_regs : SysRegs := { ttbr0_el1 := 0, tcr_el1 := 0, log := [] }

end Arm64Mmu

/-!
# Interrupt controller driver `dev/interrupt/arm_gic/gic_v3.c`

The register accessors and register names come from headers that are not part
of the sources.  The registers are 32 bits wide; a register file is a function
from register names to values, a read gives the value last written.
`MAX_INT` and `GICV3_IRQ_GROUP` are build-time constants and are parameters
here.  `none` is a failing `ASSERT`.
-/

namespace GicV3

/-- Registers of the distributor (`GICD_*`, indexed by word) and of the
redistributor of a CPU (`GICR_*`, indexed by CPU). -/
inductive Reg where
  | GICD_CTLR
  | GICD_IGROUPR (n : Nat)
  | GICD_IGRPMODR (n : Nat)
  | GICD_ISENABLER (n : Nat)
  | GICD_ICENABLER (n : Nat)
  | GICR_WAKER (cpu : Nat)
  | GICR_IGROUPR0 (cpu : Nat)
  | GICR_IGRPMODR0 (cpu : Nat)
  | GICR_ISENABLER0 (cpu : Nat)
  | GICR_ICENABLER0 (cpu : Nat)
  deriving DecidableEq, Repr

/-- Modelled from the spec: `GICDREG_READ(0, reg)` reads a distributor register. -/
def GICDREG_READ (g : Reg → Nat) (reg : Reg) : Nat := g reg

/-- Modelled from the spec: `GICDREG_WRITE(0, reg, val)` writes a 32-bit value
to a distributor register. -/
def GICDREG_WRITE (g : Reg → Nat) (reg : Reg) (val : Nat) : Reg → Nat :=
  Function.update g reg (val % 2 ^ 32)

/-- Modelled from the spec: `GICRREG_READ(0, cpu, reg)` reads a register of the
redistributor of `cpu`. -/
def GICRREG_READ (g : Reg → Nat) (cpu : Nat) (reg : Nat → Reg) : Nat := g (reg cpu)

/-- Modelled from the spec: `GICRREG_WRITE(0, cpu, reg, val)` writes a 32-bit
value to a register of the redistributor of `cpu`. -/
def GICRREG_WRITE (g : Reg → Nat) (cpu : Nat) (reg : Nat → Reg) (val : Nat) : Reg → Nat :=
  Function.update g (reg cpu) (val % 2 ^ 32)

/-- The complement `~mask` of a `uint32_t`. -/
def not32 (mask : Nat) : Nat := (2 ^ 32 - 1) ^^^ (mask % 2 ^ 32)

/-- The function `gicv3_gicd_setup_irq_group`. -/
def gicv3_gicd_setup_irq_group (MAX_INT vector grp : Nat) (g : Reg → Nat) :
    Option (Reg → Nat) :=
  if ¬ (vector > 32 ∧ vector < MAX_INT) then none else
  let mask := (1 <<< (vector % 32)) % 2 ^ 32
  let val := GICDREG_READ g (Reg.GICD_IGROUPR (vector / 32))
  let val := if grp &&& 1 ≠ 0 then val ||| mask else val &&& not32 mask
  let g := GICDREG_WRITE g (Reg.GICD_IGROUPR (vector / 32)) val
  let val := GICDREG_READ g (Reg.GICD_IGRPMODR (vector / 32))
  let val := if grp &&& 2 ≠ 0 then val ||| mask else val &&& not32 mask
  let g := GICDREG_WRITE g (Reg.GICD_IGRPMODR (vector / 32)) val
  some g

/-- The function `gicv3_gicr_setup_irq_group`; `curr_cpu` is what
`arch_curr_cpu_num()` returns. -/
def gicv3_gicr_setup_irq_group (curr_cpu vector grp : Nat) (g : Reg → Nat) :
    Option (Reg → Nat) :=
  let cpu := curr_cpu
  if ¬ vector < 32 then none else
  let mask := (1 <<< vector) % 2 ^ 32
  let val := GICRREG_READ g cpu Reg.GICR_IGROUPR0
  let val := if grp &&& 1 ≠ 0 then val ||| mask else val &&& not32 mask
  let g := GICRREG_WRITE g cpu Reg.GICR_IGROUPR0 val
  let val := GICRREG_READ g cpu Reg.GICR_IGRPMODR0
  let val := if grp &&& 2 ≠ 0 then val ||| mask else val &&& not32 mask
  let g := GICRREG_WRITE g cpu Reg.GICR_IGRPMODR0 val
  some g

/-- The function `arm_gicv3_configure_irq_locked`; the argument `cpu` is not
used by the code. -/
def arm_gicv3_configure_irq_locked (MAX_INT GICV3_IRQ_GROUP curr_cpu : Nat)
    (cpu vector : Nat) (g : Reg → Nat) : Option (Reg → Nat) :=
  let _ := cpu
  let grp := GICV3_IRQ_GROUP
  if ¬ vector < MAX_INT then none else
  if vector < 32 then gicv3_gicr_setup_irq_group curr_cpu vector grp g
  else gicv3_gicd_setup_irq_group MAX_INT vector grp g

/-- The word of group bits of a vector: `GICR_IGROUPR0` of the current CPU for
a private vector, `GICD_IGROUPR(vector / 32)` otherwise. -/
def group_reg (curr_cpu vector : Nat) : Reg :=
  if vector < 32 then Reg.GICR_IGROUPR0 curr_cpu else Reg.GICD_IGROUPR (vector / 32)

/-- The word of group-modifier bits of a vector. -/
def group_mod_reg (curr_cpu vector : Nat) : Reg :=
  if vector < 32 then Reg.GICR_IGRPMODR0 curr_cpu else Reg.GICD_IGRPMODR (vector / 32)

/-- A register file in which every bit is set. -/
def all_ones : Reg → Nat := fun _ => 2 ^ 32 - 1

end GicV3

/-!
# The handle layer `lib/io/io.c`

A hook is a function pointer and may be NULL: an `Option`.  A hook acts on
a world `W` the layer knows nothing about.  The pointers `io` and `buf` are
addresses.  `IO_HANDLE_MAGIC` is a constant of a header that is not part of the
sources and is a parameter; `debug` says whether `DEBUG_ASSERT` is compiled in,
`none` is its failure.
-/

namespace IoLib

/-- Modelled from the spec: the status `ERR_NOT_SUPPORTED` of `uapi/err.h`. -/
def ERR_NOT_SUPPORTED : Int := -24

/-- The struct `io_handle_hooks_t`. -/
structure io_handle_hooks (W : Type) where
  write : Option (Nat → Nat → Nat → W → Int × W)
  write_commit : Option (Nat → W → W)
  read : Option (Nat → Nat → Nat → W → Int × W)
  lock : Option (Nat → W → W)
  unlock : Option (Nat → W → W)

/-- The struct `io_handle_t`, with the address `io` points to. -/
structure io_handle (W : Type) where
  addr : Nat
  magic : Nat
  hooks : io_handle_hooks W

/-- The function `io_write`. -/
def io_write {W : Type} (IO_HANDLE_MAGIC : Nat) (debug : Bool) (io : io_handle W)
    (buf len : Nat) (w : W) : Option (Int × W) :=
  if debug = true ∧ io.magic ≠ IO_HANDLE_MAGIC then none else
  match io.hooks.write with
  | none => some (ERR_NOT_SUPPORTED, w)
  | some hook => some (hook io.addr buf len w)

/-- The function `io_write_commit`. -/
def io_write_commit {W : Type} (IO_HANDLE_MAGIC : Nat) (debug : Bool) (io : io_handle W)
    (w : W) : Option W :=
  if debug = true ∧ io.magic ≠ IO_HANDLE_MAGIC then none else
  match io.hooks.write_commit with
  | some hook => some (hook io.addr w)
  | none => some w

/-- The function `io_lock`. -/
def io_lock {W : Type} (IO_HANDLE_MAGIC : Nat) (debug : Bool) (io : io_handle W)
    (w : W) : Option W :=
  if debug = true ∧ io.magic ≠ IO_HANDLE_MAGIC then none else
  match io.hooks.lock with
  | some hook => some (hook io.addr w)
  | none => some w

/-- The function `io_unlock`. -/
def io_unlock {W : Type} (IO_HANDLE_MAGIC : Nat) (debug : Bool) (io : io_handle W)
    (w : W) : Option W :=
  if debug = true ∧ io.magic ≠ IO_HANDLE_MAGIC then none else
  match io.hooks.unlock with
  | some hook => some (hook io.addr w)
  | none => some w

/-- The function `io_read`. -/
def io_read {W : Type} (IO_HANDLE_MAGIC : Nat) (debug : Bool) (io : io_handle W)
    (buf len : Nat) (w : W) : Option (Int × W) :=
  if debug = true ∧ io.magic ≠ IO_HANDLE_MAGIC then none else
  match io.hooks.read with
  | none => some (ERR_NOT_SUPPORTED, w)
  | some hook => some (hook io.addr buf len w)

/-- A handle without hooks. -/
def bare_handle : io_handle (List Nat) :=
  { addr := 0x4000, magic := 0x696f6820,
    hooks := { write := none, write_commit := none, read := none, lock := none,
               unlock := none } }

/-- A handle whose `write` hook appends the length to the world and returns it,
and whose `read` hook returns 0. -/
def console_handle : io_handle (List Nat) :=
  { addr := 0x4000, magic := 0x696f6820,
    hooks := { write := some (fun _ _ len w => ((len : Int), len :: w)),
               write_commit := none,
               read := some (fun _ _ _ w => (0, w)),
               lock := none, unlock := none } }

end IoLib

namespace Arm64Mmu

/-! ## States built by the engine -/

/-- The states of an address space reached from a freshly initialised one (an
all-zero top-level table, no live page-table frame) by calls of `arch_mmu_map`
with a recognised cache mode, whatever they return, and by calls of
`arch_mmu_unmap`.  Between two calls the allocator script, which stands for
the future answers of the allocator, may be any script that hands out fresh
frames. -/
inductive Built (cfg : Config) (a : Aspace) : State → Prop
  | fresh (s : State) (top : Nat) :
    a.tt_virt = some top → (∀ i, i < cfg.entries_top a → s.mem top i = 0) → s.live = [] →
    Built cfg a s
  | map (s s' : State) (vaddr paddr count flags : Nat) (ret : Int) :
    Built cfg a s → AllocOK a s → paddr < 2 ^ 64 →
    flags &&& ARCH_MMU_FLAG_CACHE_MASK ≠ 3 →
    arch_mmu_map cfg a vaddr paddr count flags s = some (ret, s') → Built cfg a s'
  | unmap (s s' : State) (vaddr count : Nat) (ret : Int) :
    Built cfg a s → AllocOK a s →
    arch_mmu_unmap cfg a vaddr count s = some (ret, s') → Built cfg a s'
  | alloc (s : State) (pool : List (Option Nat)) :
    Built cfg a s → Built cfg a (s.with_pool pool)

/-- Every leaf entry of the tree below `top` decodes to a flag set, with the
assertions of the decoding compiled in or out. -/
def Decodable (cfg : Config) (a : Aspace) (top : Nat) (s : State) : Prop :=
  ∀ r e rem m, r < 2 ^ cfg.size_shift a →
    lookup s.mem cfg.PAGE_SIZE_SHIFT (cfg.height a) top r = some (e, rem, m) →
    (∃ fl, pte_to_mmu_flags e = some fl) ∧ ∃ fl, pte_to_mmu_flags_debug true e = some fl

/-- The state of the user address space after `map(0x200000, 0x40000000,
512 pages, CACHED)` on the empty tree, which installs one 2 MiB block, with an
allocator that has one more frame. -/
def block_mapped : State :=
  (state_after (arch_mmu_map cfg4k user_aspace 0x200000 0x40000000 512 0
    (zero_state three_frames)) (zero_state [])).with_pool [some 0x103000]

/-! ## The accesses to page tables

The engine with a log of the accesses `page_table[index]` it makes.  The log
functions follow the loops of the code, with the states taken from the
functions above; `entries` is the number of entries of the table a call works
on: `2^(top_size_shift - top_index_shift)` for the top-level table,
`2^(page_size_shift - 3)` for every table below it. -/

/-- An access to a page table: `slot` is the `page_table[index]` of one
iteration of the loop of `arm64_mmu_map_pt` or `arm64_mmu_unmap_pt` (the reads
and writes of the iteration, also those inside `arm64_mmu_get_page_table`, use
this one index), with the `index_shift` of the call and the chunk the
iteration consumes; `walk` is the `page_table[index]` of one step of the walk
of `arch_mmu_query`; `sweep` is a loop over the indices `0 .. count - 1` of a
table (`page_table_is_clear`, or the `memset` of a new table); `descend` is a
recursive call of `arm64_mmu_map_pt` or `arm64_mmu_unmap_pt` on a child table,
with the `index_shift` it is given. -/
inductive Access where
  | slot (table entries index index_shift chunk : Nat)
  | walk (table entries index : Nat)
  | sweep (table entries count : Nat)
  | descend (table index_shift : Nat)
  deriving DecidableEq, Repr

/-- The index of the access is smaller than the number of entries. -/
def Access.in_bounds : Access → Prop
  | Access.slot _ entries index _ _ => index < entries
  | Access.walk _ entries index => index < entries
  | Access.sweep _ entries count => count ≤ entries
  | Access.descend _ _ => True

/-- The iteration consumes a chunk that is not empty, and the iteration or the
recursive call works on a level of the tree at or above the leaf level: its
index shift is not below `page_size_shift`, and is `page_size_shift` plus a
multiple of `page_size_shift - 3`. -/
def Access.on_level (ps : Nat) : Access → Prop
  | Access.slot _ _ _ index_shift chunk =>
    0 < chunk ∧ ps ≤ index_shift ∧ ∃ k, index_shift = level_shift ps k
  | Access.walk _ _ _ => True
  | Access.sweep _ _ _ => True
  | Access.descend _ index_shift => ps ≤ index_shift ∧ ∃ k, index_shift = level_shift ps k

/-- The accesses of the loop of `arm64_mmu_unmap_pt`; `recurse` is the
recursive call and `recurse_log` its accesses.  `page_table_is_clear` runs
only when `chunk_size == block_size` is false. -/
def unmap_loop_log (recurse : Nat → Nat → Nat → Nat → Nat → State → Option State)
    (recurse_log : Nat → Nat → Nat → Nat → Nat → State → List Access)
    (entries_here index_shift page_size_shift page_table asid : Nat) :
    Nat → Nat → Nat → Nat → State → List Access
  | 0, _, _, _, _ => []
  | fuel + 1, vaddr, vaddr_rel, size, s =>
    if size = 0 then [] else
    if 64 ≤ index_shift then [] else
    let index := vaddr_rel / 2 ^ index_shift
    let vaddr_rem := vaddr_rel % 2 ^ index_shift
    let chunk := chunk_size index_shift vaddr_rel size
    let pte := s.mem page_table index
    let below : List Access :=
      if index_shift > page_size_shift ∧ desc_type pte = MMU_PTE_L012_DESCRIPTOR_TABLE then
        Access.descend (out_addr pte) (sub32 index_shift (sub32 page_size_shift 3)) ::
          (recurse_log vaddr vaddr_rem chunk (sub32 index_shift (sub32 page_size_shift 3))
              (out_addr pte) s ++
            (match recurse vaddr vaddr_rem chunk (sub32 index_shift (sub32 page_size_shift 3))
                (out_addr pte) s with
             | none => []
             | some _ =>
               if chunk = 2 ^ index_shift then []
               else [Access.sweep (out_addr pte) (entries page_size_shift)
                 ((1 <<< (sub32 page_size_shift 3)) % 2 ^ 32)]))
      else []
    Access.slot page_table entries_here index index_shift chunk :: (below ++
      (match unmap_step recurse index_shift page_size_shift page_table asid vaddr vaddr_rel
          size s with
       | none => []
       | some s2 =>
         if size - chunk = 0 then []
         else unmap_loop_log recurse recurse_log entries_here index_shift page_size_shift
           page_table asid fuel ((vaddr + chunk) % 2 ^ 64) ((vaddr_rel + chunk) % 2 ^ 64)
           (size - chunk) s2))

/-- The accesses of `arm64_mmu_unmap_pt` on a table of `entries_here` entries. -/
def arm64_mmu_unmap_pt_log :
    Nat → Nat → Nat → Nat → Nat → Nat → Nat → Nat → Nat → State → List Access
  | 0, _, _, _, _, _, _, _, _, _ => []
  | fuel + 1, entries_here, vaddr, vaddr_rel, size, index_shift, page_size_shift, page_table,
      asid, s =>
    unmap_loop_log
      (fun v vr sz ish pt st => arm64_mmu_unmap_pt fuel v vr sz ish page_size_shift pt asid st)
      (fun v vr sz ish pt st =>
        arm64_mmu_unmap_pt_log fuel (entries page_size_shift) v vr sz ish page_size_shift pt
          asid st)
      entries_here index_shift page_size_shift page_table asid size vaddr vaddr_rel size s

/-- The accesses of the loop of `arm64_mmu_map_pt`; `recurse` is the recursive
call and `recurse_log` its accesses.  A new child table is filled by `memset`
before the recursive call works on it. -/
def map_loop_log (cfg : Config)
    (recurse : Nat → Nat → Nat → Nat → Nat → Nat → State → Option (Int × State))
    (recurse_log : Nat → Nat → Nat → Nat → Nat → Nat → State → List Access)
    (entries_here attrs index_shift page_size_shift page_table : Nat) :
    Nat → Nat → Nat → Nat → Nat → State → List Access
  | 0, _, _, _, _, _ => []
  | fuel + 1, vaddr, vaddr_rel, paddr, size, s =>
    if size = 0 then [] else
    if 64 ≤ index_shift then [] else
    let index := vaddr_rel / 2 ^ index_shift
    let vaddr_rem := vaddr_rel % 2 ^ index_shift
    let chunk := chunk_size index_shift vaddr_rel size
    let below : List Access :=
      if (vaddr_rel % 2 ^ index_shift ≠ 0 ∨ paddr % 2 ^ index_shift ≠ 0) ∨
          chunk ≠ 2 ^ index_shift ∨ index_shift > MMU_PTE_DESCRIPTOR_BLOCK_MAX_SHIFT then
        match arm64_mmu_get_page_table cfg index page_size_shift page_table s with
        | some (some next_page_table, s1) =>
          (if desc_type (s.mem page_table index) = MMU_PTE_DESCRIPTOR_INVALID then
            [Access.sweep next_page_table (entries page_size_shift)
              (((1 <<< page_size_shift) % 2 ^ 32) / 8)]
           else []) ++
            Access.descend next_page_table (sub32 index_shift (sub32 page_size_shift 3)) ::
              recurse_log vaddr vaddr_rem paddr chunk
                (sub32 index_shift (sub32 page_size_shift 3)) next_page_table s1
        | _ => []
      else []
    Access.slot page_table entries_here index index_shift chunk :: (below ++
      (match map_step cfg recurse attrs index_shift page_size_shift page_table vaddr vaddr_rel
          paddr size s with
       | some (true, s1) =>
         if size - chunk = 0 then []
         else map_loop_log cfg recurse recurse_log entries_here attrs index_shift
           page_size_shift page_table fuel ((vaddr + chunk) % 2 ^ 64)
           ((vaddr_rel + chunk) % 2 ^ 64) ((paddr + chunk) % 2 ^ 64) (size - chunk) s1
       | _ => []))

/-- The accesses of `arm64_mmu_map_pt` on a table of `entries_here` entries,
with those of the unwind `arm64_mmu_unmap_pt` after a `goto err`. -/
def arm64_mmu_map_pt_log (cfg : Config) :
    Nat → Nat → Nat → Nat → Nat → Nat → Nat → Nat → Nat → Nat → Nat → State → List Access
  | 0, _, _, _, _, _, _, _, _, _, _, _ => []
  | fuel + 1, entries_here, vaddr_in, vaddr_rel_in, paddr_in, size_in, attrs, index_shift,
      page_size_shift, page_table, asid, s =>
    if 64 ≤ page_size_shift then [] else
    if (vaddr_rel_in ||| paddr_in ||| size_in) &&& ((1 <<< page_size_shift) - 1) ≠ 0 then []
    else
      map_loop_log cfg
          (fun v vr pa sz ish pt st =>
            arm64_mmu_map_pt cfg fuel v vr pa sz attrs ish page_size_shift pt asid st)
          (fun v vr pa sz ish pt st =>
            arm64_mmu_map_pt_log cfg fuel (entries page_size_shift) v vr pa sz attrs ish
              page_size_shift pt asid st)
          entries_here attrs index_shift page_size_shift page_table size_in
          vaddr_in vaddr_rel_in paddr_in size_in s ++
        (match map_loop cfg
            (fun v vr pa sz ish pt st =>
              arm64_mmu_map_pt cfg fuel v vr pa sz attrs ish page_size_shift pt asid st)
            attrs index_shift page_size_shift page_table size_in
            vaddr_in vaddr_rel_in paddr_in size_in s with
         | some (some size, s1) =>
           arm64_mmu_unmap_pt_log (fuel + 1) entries_here vaddr_in vaddr_rel_in (size_in - size)
             index_shift page_size_shift page_table asid s1
         | _ => [])

/-- The accesses of the walk loop of `arch_mmu_query` from a table of
`entries_here` entries. -/
def query_loop_log (page_size_shift : Nat) :
    Nat → Nat → Nat → Nat → Nat → State → List Access
  | 0, _, _, _, _, _ => []
  | fuel + 1, entries_here, index_shift, page_table, vaddr_rem, s =>
    if 64 ≤ index_shift then [] else
    let index := (vaddr_rem >>> index_shift) % 2 ^ 32
    let vaddr_rem := sub64 vaddr_rem ((index <<< index_shift) % 2 ^ 64)
    let pte := s.mem page_table index
    let descriptor_type := pte &&& MMU_PTE_DESCRIPTOR_MASK
    let pte_addr := pte &&& MMU_PTE_OUTPUT_ADDR_MASK
    Access.walk page_table entries_here index ::
      (if descriptor_type = MMU_PTE_DESCRIPTOR_INVALID then []
       else if descriptor_type =
          (if index_shift > page_size_shift then MMU_PTE_L012_DESCRIPTOR_BLOCK
           else MMU_PTE_L3_DESCRIPTOR_PAGE) then []
       else if index_shift ≤ page_size_shift ∨
          descriptor_type ≠ MMU_PTE_L012_DESCRIPTOR_TABLE then []
       else
         query_loop_log page_size_shift fuel (entries page_size_shift)
           (sub32 index_shift (sub32 page_size_shift 3)) pte_addr vaddr_rem s)

/-- The accesses of `arm64_mmu_map`: none when the range check refuses the
call or the top-level table is NULL.  The top-level table has
`2^(top_size_shift - top_index_shift)` entries. -/
def arm64_mmu_map_log (cfg : Config) (vaddr paddr size attrs vaddr_base top_size_shift
    top_index_shift page_size_shift : Nat) (top_page_table : Option Nat) (asid : Nat)
    (s : State) : List Access :=
  if 64 ≤ top_size_shift then [] else
  let vaddr_rel := sub64 vaddr vaddr_base
  let vaddr_rel_max := 1 <<< top_size_shift
  if vaddr_rel > sub64 vaddr_rel_max size ∨ size > vaddr_rel_max then []
  else
    match top_page_table with
    | none => []
    | some top =>
      arm64_mmu_map_pt_log cfg (top_index_shift + 1) (2 ^ (top_size_shift - top_index_shift))
        vaddr vaddr_rel paddr size attrs top_index_shift page_size_shift top asid s

/-- The accesses of `arm64_mmu_unmap`: none when the range check refuses the
call or the top-level table is NULL. -/
def arm64_mmu_unmap_log (vaddr size vaddr_base top_size_shift top_index_shift
    page_size_shift : Nat) (top_page_table : Option Nat) (asid : Nat)
    (s : State) : List Access :=
  if 64 ≤ top_size_shift then [] else
  let vaddr_rel := sub64 vaddr vaddr_base
  let vaddr_rel_max := 1 <<< top_size_shift
  if vaddr_rel > sub64 vaddr_rel_max size ∨ size > vaddr_rel_max then []
  else
    match top_page_table with
    | none => []
    | some top =>
      arm64_mmu_unmap_pt_log (top_index_shift + 1) (2 ^ (top_size_shift - top_index_shift))
        vaddr vaddr_rel size top_index_shift page_size_shift top asid s

/-- The accesses of `arch_mmu_query`: none when `is_valid_vaddr` refuses the
address or the assertion on the top-level index fails. -/
def arch_mmu_query_log (cfg : Config) (aspace : Aspace) (vaddr : Nat) (s : State) :
    List Access :=
  if !is_valid_vaddr aspace vaddr then [] else
  let kernel := aspace.flags &&& ARCH_ASPACE_FLAG_KERNEL ≠ 0
  let index_shift := if kernel then cfg.MMU_KERNEL_TOP_SHIFT else cfg.MMU_USER_TOP_SHIFT
  let page_size_shift :=
    if kernel then cfg.MMU_KERNEL_PAGE_SIZE_SHIFT else cfg.MMU_USER_PAGE_SIZE_SHIFT
  let size_shift := if kernel then cfg.MMU_KERNEL_SIZE_SHIFT else cfg.MMU_USER_SIZE_SHIFT
  let entries_top :=
    if kernel then cfg.MMU_KERNEL_PAGE_TABLE_ENTRIES_TOP else cfg.MMU_USER_PAGE_TABLE_ENTRIES_TOP
  if 64 ≤ size_shift ∨ 64 ≤ index_shift then [] else
  let kernel_base := ((2 ^ 64 - 1) <<< size_shift) % 2 ^ 64
  let vaddr_rem := if kernel then sub64 vaddr kernel_base else vaddr
  let index := (vaddr_rem >>> index_shift) % 2 ^ 32
  if ¬ index < entries_top then [] else
  match aspace.tt_virt with
  | none => []
  | some page_table =>
    query_loop_log page_size_shift (index_shift + 1) entries_top index_shift page_table
      vaddr_rem s

end Arm64Mmu

namespace Libc

/-- The byte-wise reference of `memset`: a plain loop that stores `c` as an
`unsigned char` into `count` bytes from `s` on, and returns `s`. -/
def memset_ref (mem : Nat → Nat) (s : Nat) (c : Int) : Nat → (Nat → Nat) × Nat
  | 0 => (mem, s)
  | count + 1 => (store8 (memset_ref mem s c count).1 (s + count) (c % 256).toNat, s)

end Libc

namespace Arm64Mmu

/-! ## Elementary facts about the machine arithmetic -/

theorem sub64_one_of_pos (n : Nat) (h0 : 0 < n) (h1 : n ≤ 2 ^ 64) : sub64 n 1 = n - 1 := by
  unfold sub64
  norm_num at h1 ⊢
  omega

theorem sub64_of_le (a b : Nat) (hb : b ≤ a) (ha : a < 2 ^ 64) : sub64 a b = a - b := by
  unfold sub64
  norm_num at ha ⊢
  omega

theorem is_valid_vaddr_iff (a : Aspace) (vaddr : Nat) (hsize : 0 < a.size)
    (hwin : a.base + a.size ≤ 2 ^ 64) :
    is_valid_vaddr a vaddr = true ↔ a.base ≤ vaddr ∧ vaddr < a.base + a.size := by
  unfold is_valid_vaddr
  rw [sub64_one_of_pos a.size hsize (by omega)]
  norm_num at hwin ⊢
  have : (a.base + (a.size - 1)) % 18446744073709551616 = a.base + (a.size - 1) := by omega
  rw [this]
  omega

/-! ## Status codes produced by the engine -/

theorem arm64_mmu_map_pt_status (cfg : Config) (fuel vaddr vaddr_rel paddr size attrs index_shift
    page_size_shift page_table asid : Nat) (s s1 : State) (ret : Int)
    (h : arm64_mmu_map_pt cfg fuel vaddr vaddr_rel paddr size attrs index_shift page_size_shift
      page_table asid s = some (ret, s1)) :
    ret = 0 ∨ ret = ERR_GENERIC ∨ ret = ERR_INVALID_ARGS := by
  cases fuel with
  | zero => simp [arm64_mmu_map_pt] at h
  | succ fuel =>
    unfold arm64_mmu_map_pt at h
    split at h
    · simp at h
    · split at h
      · simp at h; omega
      · split at h
        · simp at h
        · simp at h; omega
        · split at h
          · simp at h
          · simp at h; omega

theorem arm64_mmu_map_status (cfg : Config) (vaddr paddr size attrs vaddr_base top_size_shift
    top_index_shift page_size_shift : Nat) (top : Option Nat) (asid : Nat) (s s1 : State)
    (ret : Int)
    (h : arm64_mmu_map cfg vaddr paddr size attrs vaddr_base top_size_shift top_index_shift
      page_size_shift top asid s = some (ret, s1)) :
    ret = 0 ∨ ret = ERR_GENERIC ∨ ret = ERR_INVALID_ARGS := by
  unfold arm64_mmu_map at h
  dsimp only at h
  split_ifs at h
  · simp only [Option.some.injEq, Prod.mk.injEq] at h; exact Or.inr (Or.inr h.1.symm)
  · cases top with
    | none => simp only [Option.some.injEq, Prod.mk.injEq] at h; exact Or.inr (Or.inr h.1.symm)
    | some t =>
      simp only at h
      cases hpt : arm64_mmu_map_pt cfg (top_index_shift + 1) vaddr (sub64 vaddr vaddr_base) paddr
          size attrs top_index_shift page_size_shift t asid s with
      | none => simp [hpt] at h
      | some r =>
        obtain ⟨r1, r2⟩ := r
        simp only [hpt, Option.some.injEq, Prod.mk.injEq] at h
        have := arm64_mmu_map_pt_status _ _ _ _ _ _ _ _ _ _ _ _ _ _ hpt
        rw [← h.1]; exact this

theorem arm64_mmu_unmap_status (vaddr size vaddr_base top_size_shift
    top_index_shift page_size_shift : Nat) (top : Option Nat) (asid : Nat) (s s1 : State)
    (ret : Int)
    (h : arm64_mmu_unmap vaddr size vaddr_base top_size_shift top_index_shift
      page_size_shift top asid s = some (ret, s1)) :
    ret = 0 ∨ ret = ERR_INVALID_ARGS := by
  unfold arm64_mmu_unmap at h
  dsimp only at h
  split_ifs at h
  · simp only [Option.some.injEq, Prod.mk.injEq] at h; exact Or.inr h.1.symm
  · cases top with
    | none => simp only [Option.some.injEq, Prod.mk.injEq] at h; exact Or.inr h.1.symm
    | some t =>
      simp only at h
      cases hpt : arm64_mmu_unmap_pt (top_index_shift + 1) vaddr (sub64 vaddr vaddr_base)
          size top_index_shift page_size_shift t asid s with
      | none => simp [hpt] at h
      | some r =>
        simp only [hpt, Option.some.injEq, Prod.mk.injEq] at h
        exact Or.inl h.1.symm

theorem arch_mmu_map_status (cfg : Config) (a : Aspace) (vaddr paddr count flags : Nat)
    (s s1 : State) (ret : Int) (hv : is_valid_vaddr a vaddr = true)
    (h : arch_mmu_map cfg a vaddr paddr count flags s = some (ret, s1)) :
    ret = 0 ∨ ret = ERR_GENERIC ∨ ret = ERR_INVALID_ARGS := by
  unfold arch_mmu_map at h
  simp only [hv, Bool.not_true, Bool.false_eq_true, if_false] at h
  split_ifs at h
  · simp only [Option.some.injEq, Prod.mk.injEq] at h; exact Or.inr (Or.inr h.1.symm)
  · simp only [Option.some.injEq, Prod.mk.injEq] at h; exact Or.inr (Or.inr h.1.symm)
  · simp only [Option.some.injEq, Prod.mk.injEq] at h; exact Or.inl h.1.symm
  · exact arm64_mmu_map_status _ _ _ _ _ _ _ _ _ _ _ _ _ _ h
  · split at h
    · simp at h
    · rename_i r1 r2 hm
      simp only [Option.some.injEq, Prod.mk.injEq] at h
      have := arm64_mmu_map_status _ _ _ _ _ _ _ _ _ _ _ _ _ _ hm
      rw [← h.1]; exact this

theorem arch_mmu_unmap_status (cfg : Config) (a : Aspace) (vaddr count : Nat)
    (s s1 : State) (ret : Int) (hv : is_valid_vaddr a vaddr = true)
    (h : arch_mmu_unmap cfg a vaddr count s = some (ret, s1)) :
    ret = 0 ∨ ret = ERR_INVALID_ARGS := by
  unfold arch_mmu_unmap at h
  simp only [hv, Bool.not_true, Bool.false_eq_true, if_false] at h
  split_ifs at h
  · simp only [Option.some.injEq, Prod.mk.injEq] at h; exact Or.inr h.1.symm
  · exact arm64_mmu_unmap_status _ _ _ _ _ _ _ _ _ _ _ h
  · split at h
    · simp at h
    · rename_i r1 r2 hm
      simp only [Option.some.injEq, Prod.mk.injEq] at h
      have := arm64_mmu_unmap_status _ _ _ _ _ _ _ _ _ _ _ hm
      rw [← h.1]; exact this

theorem arch_mmu_query_status (cfg : Config) (a : Aspace) (vaddr : Nat) (wp wf : Bool)
    (s : State) (ret : Int) (pa fl : Option Nat) (hv : is_valid_vaddr a vaddr = true)
    (h : arch_mmu_query cfg a vaddr wp wf s = some (ret, pa, fl)) :
    ret = NO_ERROR ∨ ret = ERR_NOT_FOUND := by
  unfold arch_mmu_query at h
  simp only [hv, Bool.not_true, Bool.false_eq_true, if_false] at h
  split_ifs at h
  all_goals
    cases htt : a.tt_virt with
    | none => simp [htt] at h
    | some t =>
      simp only [htt] at h
      split at h
      · simp at h
      · simp only [Option.some.injEq, Prod.mk.injEq] at h; exact Or.inr h.1.symm
      · first
          | (simp only [Option.some.injEq, Prod.mk.injEq] at h; exact Or.inl h.1.symm)
          | (split at h
             · simp at h
             · simp only [Option.some.injEq, Prod.mk.injEq] at h; exact Or.inl h.1.symm)

end Arm64Mmu

namespace Arm64Mmu

/-! ## Argument validation of the public entry points -/

theorem is_page_aligned_iff (cfg : Config) (x : Nat) :
    IS_PAGE_ALIGNED cfg x = true ↔ cfg.PAGE_SIZE ∣ x := by
  unfold IS_PAGE_ALIGNED Config.PAGE_SIZE
  rw [Nat.and_pow_two_sub_one_eq_mod]
  simp [Nat.dvd_iff_mod_eq_zero]

/-- C10. Window check: for an address space whose window `[base, base + size)`
is non-empty and does not wrap (`base + size = 2^64` included), `arch_mmu_query`,
`arch_mmu_map` and `arch_mmu_unmap` return `ERR_OUT_OF_RANGE` exactly when
`vaddr` lies outside the window; in that case the answer is the same for every
page-table memory and the state is returned untouched. -/
theorem window_check (cfg : Config) (a : Aspace) (vaddr : Nat)
    (hsize : 0 < a.size) (hwin : a.base + a.size ≤ 2 ^ 64) :
    (¬ (a.base ≤ vaddr ∧ vaddr < a.base + a.size) →
      (∀ wp wf s, arch_mmu_query cfg a vaddr wp wf s = some (ERR_OUT_OF_RANGE, none, none)) ∧
      (∀ paddr count flags s,
        arch_mmu_map cfg a vaddr paddr count flags s = some (ERR_OUT_OF_RANGE, s)) ∧
      (∀ count s, arch_mmu_unmap cfg a vaddr count s = some (ERR_OUT_OF_RANGE, s))) ∧
    ((a.base ≤ vaddr ∧ vaddr < a.base + a.size) →
      (∀ wp wf s, status (arch_mmu_query cfg a vaddr wp wf s) ≠ some ERR_OUT_OF_RANGE) ∧
      (∀ paddr count flags s,
        status (arch_mmu_map cfg a vaddr paddr count flags s) ≠ some ERR_OUT_OF_RANGE) ∧
      (∀ count s, status (arch_mmu_unmap cfg a vaddr count s) ≠ some ERR_OUT_OF_RANGE)) := by
  have hiff := is_valid_vaddr_iff a vaddr hsize hwin
  constructor
  · intro hout
    have hv : is_valid_vaddr a vaddr = false := by
      cases h : is_valid_vaddr a vaddr with
      | false => rfl
      | true => exact absurd (hiff.mp h) hout
    refine ⟨?_, ?_, ?_⟩
    · intro wp wf s; simp [arch_mmu_query, hv]
    · intro paddr count flags s; simp [arch_mmu_map, hv]
    · intro count s; simp [arch_mmu_unmap, hv]
  · intro hin
    have hv : is_valid_vaddr a vaddr = true := hiff.mpr hin
    refine ⟨?_, ?_, ?_⟩
    · intro wp wf s hst
      cases hq : arch_mmu_query cfg a vaddr wp wf s with
      | none => simp [status, hq] at hst
      | some r =>
        obtain ⟨ret, pa, fl⟩ := r
        simp only [status, hq, Option.map_some', Option.some.injEq] at hst
        have := arch_mmu_query_status cfg a vaddr wp wf s ret pa fl hv hq
        simp only [NO_ERROR, ERR_NOT_FOUND, ERR_OUT_OF_RANGE] at this hst
        omega
    · intro paddr count flags s hst
      cases hq : arch_mmu_map cfg a vaddr paddr count flags s with
      | none => simp [status, hq] at hst
      | some r =>
        obtain ⟨ret, s1⟩ := r
        simp only [status, hq, Option.map_some', Option.some.injEq] at hst
        have := arch_mmu_map_status cfg a vaddr paddr count flags s s1 ret hv hq
        simp only [ERR_GENERIC, ERR_INVALID_ARGS, ERR_OUT_OF_RANGE] at this hst
        omega
    · intro count s hst
      cases hq : arch_mmu_unmap cfg a vaddr count s with
      | none => simp [status, hq] at hst
      | some r =>
        obtain ⟨ret, s1⟩ := r
        simp only [status, hq, Option.map_some', Option.some.injEq] at hst
        have := arch_mmu_unmap_status cfg a vaddr count s s1 ret hv hq
        simp only [ERR_INVALID_ARGS, ERR_OUT_OF_RANGE] at this hst
        omega

/-- Witness of `window_check`: the kernel window, whose end is `2^64`, at its
last byte. -/
theorem window_check_witness :
    (0 < kernel_aspace.size ∧ kernel_aspace.base + kernel_aspace.size ≤ 2 ^ 64) ∧
    status (arch_mmu_query cfg4k kernel_aspace (2 ^ 64 - 1) true true (zero_state [])) ≠
      some ERR_OUT_OF_RANGE :=
  ⟨by decide,
    ((window_check cfg4k kernel_aspace (2 ^ 64 - 1) (by decide) (by decide)).2
      (by decide)).1 true true (zero_state [])⟩

/-- C8. Alignment validation: with `vaddr` inside the window, `arch_mmu_map`
with a `vaddr` or a `paddr` that is not a multiple of the page size, and
`arch_mmu_unmap` with such a `vaddr`, return `ERR_INVALID_ARGS` and return the
state untouched. -/
theorem alignment_validation (cfg : Config) (a : Aspace) (vaddr : Nat)
    (hv : is_valid_vaddr a vaddr = true) :
    (∀ paddr count flags s, ¬ cfg.PAGE_SIZE ∣ vaddr ∨ ¬ cfg.PAGE_SIZE ∣ paddr →
      arch_mmu_map cfg a vaddr paddr count flags s = some (ERR_INVALID_ARGS, s)) ∧
    (∀ count s, ¬ cfg.PAGE_SIZE ∣ vaddr →
      arch_mmu_unmap cfg a vaddr count s = some (ERR_INVALID_ARGS, s)) := by
  constructor
  · intro paddr count flags s h
    have : (!IS_PAGE_ALIGNED cfg vaddr || !IS_PAGE_ALIGNED cfg paddr) = true := by
      rcases h with h | h
      · have : IS_PAGE_ALIGNED cfg vaddr = false := by
          cases hh : IS_PAGE_ALIGNED cfg vaddr with
          | false => rfl
          | true => exact absurd ((is_page_aligned_iff cfg vaddr).mp hh) h
        simp [this]
      · have : IS_PAGE_ALIGNED cfg paddr = false := by
          cases hh : IS_PAGE_ALIGNED cfg paddr with
          | false => rfl
          | true => exact absurd ((is_page_aligned_iff cfg paddr).mp hh) h
        simp [this]
    unfold arch_mmu_map
    simp only [hv, Bool.not_true, Bool.false_eq_true, if_false, this, if_true]
  · intro count s h
    have : IS_PAGE_ALIGNED cfg vaddr = false := by
      cases hh : IS_PAGE_ALIGNED cfg vaddr with
      | false => rfl
      | true => exact absurd ((is_page_aligned_iff cfg vaddr).mp hh) h
    unfold arch_mmu_unmap
    simp only [hv, Bool.not_true, Bool.false_eq_true, if_false, this, Bool.not_false, if_true]

/-- Witness of `alignment_validation`: `paddr = 0x1`. -/
theorem alignment_validation_witness :
    is_valid_vaddr user_aspace 0x1000 = true ∧
    arch_mmu_map cfg4k user_aspace 0x1000 0x1 1 0 (zero_state []) =
      some (ERR_INVALID_ARGS, zero_state []) :=
  ⟨by decide,
    (alignment_validation cfg4k user_aspace 0x1000 (by decide)).1 0x1 1 0 (zero_state [])
      (Or.inr (by decide))⟩

theorem kernel_base_eq (k : Nat) (hk : k ≤ 64) :
    ((2 ^ 64 - 1) <<< k) % 2 ^ 64 = 2 ^ 64 - 2 ^ k := by
  rw [Nat.shiftLeft_eq]
  have h1 : 0 < 2 ^ k := Nat.pow_pos (by norm_num)
  have h2 : 2 ^ k ≤ 2 ^ 64 := Nat.pow_le_pow_right (by norm_num) hk
  generalize 2 ^ k = P at h1 h2 ⊢
  norm_num at h2 ⊢
  omega

theorem range_check_of_past (vaddr_rel size M : Nat) (hM : M < 2 ^ 64)
    (h : M < vaddr_rel + size) : vaddr_rel > sub64 M size ∨ size > M := by
  by_cases hs : size > M
  · exact Or.inr hs
  · left
    rw [sub64_of_le M size (by omega) hM]
    omega

/-- The range check of `arm64_mmu_map` refuses a range that ends past the
translation window. -/
theorem arm64_mmu_map_past (cfg : Config) (vaddr paddr size attrs vaddr_base tss tis ps : Nat)
    (top : Option Nat) (asid : Nat) (s : State) (htss : tss ≤ 48)
    (h : 2 ^ tss < sub64 vaddr vaddr_base + size) :
    arm64_mmu_map cfg vaddr paddr size attrs vaddr_base tss tis ps top asid s =
      some (ERR_INVALID_ARGS, s) := by
  unfold arm64_mmu_map
  have h48 : (2:Nat) ^ tss ≤ 2 ^ 48 := Nat.pow_le_pow_right (by norm_num) htss
  have hc := range_check_of_past (sub64 vaddr vaddr_base) size (2 ^ tss)
    (by norm_num at h48 ⊢; omega) h
  rw [if_neg (by omega)]
  simp only [Nat.one_shiftLeft]
  rw [if_pos hc]

theorem arm64_mmu_unmap_past (vaddr size vaddr_base tss tis ps : Nat)
    (top : Option Nat) (asid : Nat) (s : State) (htss : tss ≤ 48)
    (h : 2 ^ tss < sub64 vaddr vaddr_base + size) :
    arm64_mmu_unmap vaddr size vaddr_base tss tis ps top asid s =
      some (ERR_INVALID_ARGS, s) := by
  unfold arm64_mmu_unmap
  have h48 : (2:Nat) ^ tss ≤ 2 ^ 48 := Nat.pow_le_pow_right (by norm_num) htss
  have hc := range_check_of_past (sub64 vaddr vaddr_base) size (2 ^ tss)
    (by norm_num at h48 ⊢; omega) h
  rw [if_neg (by omega)]
  simp only [Nat.one_shiftLeft]
  rw [if_pos hc]

theorem arm64_tlbflush_same (a : Aspace) (s : State) :
    arm64_tlbflush_if_asid_changed a (arch_mmu_asid a) s = s := by
  simp [arm64_tlbflush_if_asid_changed]

/-- The window of a well-formed address space lies inside its translation
window. -/
theorem Aspace.WF.window (cfg : Config) (a : Aspace) (hcfg : cfg.WF) (ha : a.WF cfg) :
    cfg.window_base a ≤ a.base ∧ a.base + a.size ≤ cfg.window_end a ∧
      cfg.window_end a ≤ 2 ^ 64 ∧ cfg.size_shift a ≤ 48 := by
  obtain ⟨_, ⟨_, _, _, hk, _⟩, ⟨_, _, _, hu, _⟩⟩ := hcfg
  obtain ⟨_, hsz, hw⟩ := ha
  unfold Config.window_end Config.window_base Config.size_shift
  by_cases hker : a.kernel
  · simp only [hker, if_true] at hw ⊢
    have h48 : (2:Nat) ^ cfg.MMU_KERNEL_SIZE_SHIFT ≤ 2 ^ 48 :=
      Nat.pow_le_pow_right (by norm_num) hk
    norm_num at h48 ⊢
    omega
  · simp only [hker, if_false] at hw ⊢
    have h48 : (2:Nat) ^ cfg.MMU_USER_SIZE_SHIFT ≤ 2 ^ 48 :=
      Nat.pow_le_pow_right (by norm_num) hu
    norm_num at h48 ⊢
    omega

/-- C7 (amended). Range refusal: for a well-formed address space and a byte
count `count * PAGE_SIZE` that fits 64 bits, every `arch_mmu_map` and
`arch_mmu_unmap` call whose range `[vaddr, vaddr + count * PAGE_SIZE)` extends
past the end of the translation window (`2^64` for the kernel, hence every
range that overflows the address space) returns `ERR_OUT_OF_RANGE` or
`ERR_INVALID_ARGS` and returns the state untouched. -/
theorem range_refusal (cfg : Config) (a : Aspace) (vaddr count : Nat)
    (hcfg : cfg.WF) (ha : a.WF cfg) (hcount : count * cfg.PAGE_SIZE < 2 ^ 64)
    (hpast : cfg.window_end a < vaddr + count * cfg.PAGE_SIZE) :
    (∀ paddr flags s, ∃ e, (e = ERR_OUT_OF_RANGE ∨ e = ERR_INVALID_ARGS) ∧
      arch_mmu_map cfg a vaddr paddr count flags s = some (e, s)) ∧
    (∀ s, ∃ e, (e = ERR_OUT_OF_RANGE ∨ e = ERR_INVALID_ARGS) ∧
      arch_mmu_unmap cfg a vaddr count s = some (e, s)) := by
  have hwin := Aspace.WF.window cfg a hcfg ha
  have hcfg' := hcfg
  obtain ⟨_, ⟨_, _, _, hk, _⟩, ⟨_, _, _, hu, _⟩⟩ := hcfg'
  have hsz : 0 < a.size := ha.2.1
  have hiff := is_valid_vaddr_iff a vaddr hsz (by omega)
  have hmod : count * cfg.PAGE_SIZE % 2 ^ 64 = count * cfg.PAGE_SIZE := Nat.mod_eq_of_lt hcount
  by_cases hv : is_valid_vaddr a vaddr = true
  swap
  · have hv' : is_valid_vaddr a vaddr = false := by
      cases h : is_valid_vaddr a vaddr with
      | false => rfl
      | true => exact absurd h hv
    exact ⟨fun paddr flags s => ⟨ERR_OUT_OF_RANGE, Or.inl rfl, by simp [arch_mmu_map, hv']⟩,
      fun s => ⟨ERR_OUT_OF_RANGE, Or.inl rfl, by simp [arch_mmu_unmap, hv']⟩⟩
  have hin := hiff.mp hv
  have hrel : 2 ^ cfg.size_shift a < sub64 vaddr (cfg.window_base a) + count * cfg.PAGE_SIZE := by
    rw [sub64_of_le vaddr _ (by omega) (by omega)]
    unfold Config.window_end at hpast hwin
    omega
  constructor
  · intro paddr flags s
    unfold arch_mmu_map
    simp only [hv, Bool.not_true, Bool.false_eq_true, if_false]
    split_ifs with h1 h2 h3 h4 h5
    · exact ⟨_, Or.inr rfl, rfl⟩
    · exact ⟨_, Or.inr rfl, rfl⟩
    · exfalso
      subst h3
      omega
    · omega
    · refine ⟨_, Or.inr rfl, ?_⟩
      rw [hmod, kernel_base_eq _ (by omega)]
      have hk' : a.kernel := h4
      simp only [Config.size_shift, Config.window_base, hk', if_true] at hrel
      exact arm64_mmu_map_past _ _ _ _ _ _ _ _ _ _ _ _ hk hrel
    · refine ⟨_, Or.inr rfl, ?_⟩
      rw [hmod]
      have hk' : ¬ a.kernel := h4
      simp only [Config.size_shift, Config.window_base, hk', if_false] at hrel
      rw [arm64_mmu_map_past _ _ _ _ _ _ _ _ _ _ _ _ hu hrel]
      simp [arm64_tlbflush_same]
  · intro s
    unfold arch_mmu_unmap
    simp only [hv, Bool.not_true, Bool.false_eq_true, if_false]
    split_ifs with h1 h4 h5
    · exact ⟨_, Or.inr rfl, rfl⟩
    · omega
    · refine ⟨_, Or.inr rfl, ?_⟩
      rw [hmod, kernel_base_eq _ (by omega)]
      have hk' : a.kernel := h4
      simp only [Config.size_shift, Config.window_base, hk', if_true] at hrel
      exact arm64_mmu_unmap_past _ _ _ _ _ _ _ _ _ hk hrel
    · refine ⟨_, Or.inr rfl, ?_⟩
      rw [hmod]
      have hk' : ¬ a.kernel := h4
      simp only [Config.size_shift, Config.window_base, hk', if_false] at hrel
      rw [arm64_mmu_unmap_past _ _ _ _ _ _ _ _ _ hu hrel]
      simp [arm64_tlbflush_same]

/-- Witness of `range_refusal`: two pages starting at the last page of the
kernel window. -/
theorem range_refusal_witness :
    (cfg4k.WF ∧ kernel_aspace.WF cfg4k ∧ 2 * cfg4k.PAGE_SIZE < 2 ^ 64 ∧
      cfg4k.window_end kernel_aspace < (2 ^ 64 - 0x1000) + 2 * cfg4k.PAGE_SIZE) ∧
    ∃ e, (e = ERR_OUT_OF_RANGE ∨ e = ERR_INVALID_ARGS) ∧
      arch_mmu_map cfg4k kernel_aspace (2 ^ 64 - 0x1000) 0 2 0 (zero_state three_frames) =
        some (e, zero_state three_frames) :=
  ⟨by decide,
    (range_refusal cfg4k kernel_aspace (2 ^ 64 - 0x1000) 2 (by decide) (by decide) (by decide)
      (by decide)).1 0 0 (zero_state three_frames)⟩

/-- C7 (counterexample). A map whose range leaves the window of the address
space (`[0, 0x10000)`) but stays inside the translation window is accepted:
it returns `NO_ERROR` and writes the top-level table. -/
theorem wrap_refusal_counterexample :
    small_user_aspace.base + small_user_aspace.size < 0xF000 + 2 * cfg4k.PAGE_SIZE ∧
    status (arch_mmu_map cfg4k small_user_aspace 0xF000 0 2 0 (zero_state three_frames)) =
      some NO_ERROR ∧
    (state_after (arch_mmu_map cfg4k small_user_aspace 0xF000 0 2 0 (zero_state three_frames))
      (zero_state three_frames)).mem 0x80000 0 ≠ (zero_state three_frames).mem 0x80000 0 := by
  decide

/-- C9 (the code at the failing input). A map with cache mode `3`, which is
none of the three recognised modes, returns `NO_ERROR` and installs a page
entry made of the error code converted to `pte_t`. -/
theorem unknown_cache_mode_installs_entry :
    (3 &&& ARCH_MMU_FLAG_CACHE_MASK ≠ ARCH_MMU_FLAG_CACHED ∧
      3 &&& ARCH_MMU_FLAG_CACHE_MASK ≠ ARCH_MMU_FLAG_UNCACHED ∧
      3 &&& ARCH_MMU_FLAG_CACHE_MASK ≠ ARCH_MMU_FLAG_UNCACHED_DEVICE) ∧
    status (arch_mmu_map cfg4k kernel_aspace (2 ^ 64 - 2 ^ 48) 0 1 3 (zero_state three_frames)) =
      some NO_ERROR ∧
    (state_after (arch_mmu_map cfg4k kernel_aspace (2 ^ 64 - 2 ^ 48) 0 1 3
      (zero_state three_frames)) (zero_state three_frames)).mem 0x102000 0 =
        0xfffffffffffffffb := by
  decide

/-- C3 (the code at the failing input). On an empty tree, a one-page map whose
third table allocation fails returns `ERR_GENERIC` and leaves the two tables
allocated before the failure live and linked into the tree. -/
theorem failed_map_keeps_new_tables :
    status (arch_mmu_map cfg4k user_aspace 0x1000 0xAAAA000 1 0 (zero_state third_fails)) =
      some ERR_GENERIC ∧
    (zero_state third_fails).live = [] ∧
    (state_after (arch_mmu_map cfg4k user_aspace 0x1000 0xAAAA000 1 0 (zero_state third_fails))
      (zero_state third_fails)).live = [0x101000, 0x100000] ∧
    (zero_state third_fails).mem 0x80000 0 = 0 ∧
    (state_after (arch_mmu_map cfg4k user_aspace 0x1000 0xAAAA000 1 0 (zero_state third_fails))
      (zero_state third_fails)).mem 0x80000 0 = 0x100003 := by
  decide

/-- C6 (the code at the failing input). In the state left by the failed map of
`failed_map_keeps_new_tables` the page at `0x1000` is not mapped, yet unmapping
it rewrites the top-level entry and frees both tables. -/
theorem unmap_after_failed_map_frees_tables :
    status (arch_mmu_query cfg4k user_aspace 0x1000 true true
      (state_after (arch_mmu_map cfg4k user_aspace 0x1000 0xAAAA000 1 0 (zero_state third_fails))
        (zero_state third_fails))) = some ERR_NOT_FOUND ∧
    status (arch_mmu_unmap cfg4k user_aspace 0x1000 1
      (state_after (arch_mmu_map cfg4k user_aspace 0x1000 0xAAAA000 1 0 (zero_state third_fails))
        (zero_state third_fails))) = some NO_ERROR ∧
    (state_after (arch_mmu_unmap cfg4k user_aspace 0x1000 1
      (state_after (arch_mmu_map cfg4k user_aspace 0x1000 0xAAAA000 1 0 (zero_state third_fails))
        (zero_state third_fails))) (zero_state [])).live = [] ∧
    (state_after (arch_mmu_unmap cfg4k user_aspace 0x1000 1
      (state_after (arch_mmu_map cfg4k user_aspace 0x1000 0xAAAA000 1 0 (zero_state third_fails))
        (zero_state third_fails))) (zero_state [])).mem 0x80000 0 = 0 := by
  decide!

end Arm64Mmu

namespace Arm64Mmu

/-! ## The tree: reachability, congruence under changes of other tables -/

theorem Sub.child {mem : Nat → Nat → Nat} {ps n cnt t i x : Nat} (hi : i < cnt)
    (hd : desc_type (mem t i) = MMU_PTE_L012_DESCRIPTOR_TABLE)
    (hx : Sub mem ps n (entries ps) (out_addr (mem t i)) x) :
    Desc mem ps (n + 1) cnt t x := by
  rcases hx with hx | hx
  · exact ⟨i, hi, hd, Or.inl hx⟩
  · exact ⟨i, hi, hd, Or.inr hx⟩

theorem Desc.cases {mem : Nat → Nat → Nat} {ps n cnt t x : Nat}
    (h : Desc mem ps (n + 1) cnt t x) :
    ∃ i, i < cnt ∧ desc_type (mem t i) = MMU_PTE_L012_DESCRIPTOR_TABLE ∧
      Sub mem ps n (entries ps) (out_addr (mem t i)) x := by
  obtain ⟨i, hi, hd, hx⟩ := h
  exact ⟨i, hi, hd, hx⟩

theorem Desc_succ_iff {mem : Nat → Nat → Nat} {ps n cnt t x : Nat} :
    Desc mem ps (n + 1) cnt t x ↔
    ∃ i, i < cnt ∧ desc_type (mem t i) = MMU_PTE_L012_DESCRIPTOR_TABLE ∧
      Sub mem ps n (entries ps) (out_addr (mem t i)) x :=
  ⟨Desc.cases, fun ⟨_, hi, hd, hx⟩ => Sub.child hi hd hx⟩

theorem Desc_congr {mem mem' : Nat → Nat → Nat} {ps : Nat} :
    ∀ (n cnt t : Nat), (∀ x, Sub mem ps n cnt t x → ∀ i, mem' x i = mem x i) →
      ∀ y, Desc mem' ps n cnt t y ↔ Desc mem ps n cnt t y := by
  intro n
  induction n with
  | zero => intro cnt t _ y; simp [Desc]
  | succ n ih =>
    intro cnt t h y
    have ht : ∀ i, mem' t i = mem t i := h t (Or.inl rfl)
    rw [Desc_succ_iff, Desc_succ_iff]
    constructor
    · rintro ⟨i, hi, hd, hx⟩
      rw [ht i] at hd hx
      have hc : ∀ x, Sub mem ps n (entries ps) (out_addr (mem t i)) x → ∀ j, mem' x j = mem x j :=
        fun x hx => h x (Or.inr (Sub.child hi hd hx))
      refine ⟨i, hi, hd, ?_⟩
      rcases hx with hx | hx
      · exact Or.inl hx
      · exact Or.inr ((ih _ _ hc y).mp hx)
    · rintro ⟨i, hi, hd, hx⟩
      have hc : ∀ x, Sub mem ps n (entries ps) (out_addr (mem t i)) x → ∀ j, mem' x j = mem x j :=
        fun x hx => h x (Or.inr (Sub.child hi hd hx))
      refine ⟨i, hi, by rw [ht i]; exact hd, ?_⟩
      rw [ht i]
      rcases hx with hx | hx
      · exact Or.inl hx
      · exact Or.inr ((ih _ _ hc y).mpr hx)

theorem Sub_congr {mem mem' : Nat → Nat → Nat} {ps n cnt t : Nat}
    (h : ∀ x, Sub mem ps n cnt t x → ∀ i, mem' x i = mem x i) (y : Nat) :
    Sub mem' ps n cnt t y ↔ Sub mem ps n cnt t y := by
  unfold Sub
  rw [Desc_congr n cnt t h y]

theorem WFT_congr {mem mem' : Nat → Nat → Nat} {ps : Nat} :
    ∀ (n cnt t : Nat), (∀ x, Sub mem ps n cnt t x → ∀ i, mem' x i = mem x i) →
      WFT mem ps n cnt t → WFT mem' ps n cnt t := by
  intro n
  induction n with
  | zero =>
    intro cnt t h hw i hi
    rw [h t (Or.inl rfl) i]
    exact hw i hi
  | succ n ih =>
    intro cnt t h hw
    have ht : ∀ i, mem' t i = mem t i := h t (Or.inl rfl)
    have hc : ∀ i, i < cnt → desc_type (mem t i) = MMU_PTE_L012_DESCRIPTOR_TABLE →
        ∀ x, Sub mem ps n (entries ps) (out_addr (mem t i)) x → ∀ j, mem' x j = mem x j :=
      fun i hi hd x hx => h x (Or.inr (Sub.child hi hd hx))
    obtain ⟨h1, h2, h3⟩ := hw
    refine ⟨?_, ?_, ?_⟩
    · intro i hi; rw [ht i]; exact h1 i hi
    · intro i hi hd
      rw [ht i] at hd ⊢
      obtain ⟨ha, hb⟩ := h2 i hi hd
      exact ⟨fun hs => ha ((Sub_congr (hc i hi hd) t).mp hs), ih _ _ (hc i hi hd) hb⟩
    · intro i j hi hj hij hdi hdj x hxi hxj
      rw [ht i] at hdi hxi
      rw [ht j] at hdj hxj
      exact h3 i j hi hj hij hdi hdj x ((Sub_congr (hc i hi hdi) x).mp hxi)
        ((Sub_congr (hc j hj hdj) x).mp hxj)

theorem lookup_congr {mem mem' : Nat → Nat → Nat} {ps : Nat} :
    ∀ (n cnt t : Nat), (∀ x, Sub mem ps n cnt t x → ∀ i, mem' x i = mem x i) →
      ∀ r, r / 2 ^ level_shift ps n < cnt → lookup mem' ps n t r = lookup mem ps n t r := by
  intro n
  induction n with
  | zero =>
    intro cnt t h r _
    simp only [lookup]
    rw [h t (Or.inl rfl)]
  | succ n ih =>
    intro cnt t h r hr
    have ht : ∀ i, mem' t i = mem t i := h t (Or.inl rfl)
    simp only [lookup]
    rw [ht]
    by_cases hb : desc_type (mem t (r / 2 ^ level_shift ps (n + 1))) = MMU_PTE_L012_DESCRIPTOR_BLOCK
    · simp only [hb, if_true]
    · simp only [hb, if_false]
      by_cases hd : desc_type (mem t (r / 2 ^ level_shift ps (n + 1))) =
          MMU_PTE_L012_DESCRIPTOR_TABLE
      · simp only [hd, if_true]
        apply ih (entries ps)
        · exact fun x hx => h x (Or.inr (Sub.child hr hd hx))
        · unfold entries
          have hlt : r % 2 ^ level_shift ps (n + 1) < 2 ^ level_shift ps (n + 1) :=
            Nat.mod_lt _ (Nat.pow_pos (by norm_num))
          have : level_shift ps (n + 1) = level_shift ps n + (ps - 3) := by
            unfold level_shift; ring
          have hlt' : r % 2 ^ level_shift ps (n + 1) < 2 ^ level_shift ps n * 2 ^ (ps - 3) := by
            rw [← Nat.pow_add, ← this]; exact hlt
          exact Nat.div_lt_of_lt_mul hlt'
      · simp only [hd, if_false]

end Arm64Mmu

namespace Arm64Mmu

/-! ## Footprints compose -/

theorem Pre.not_desc_self {ps n cnt t : Nat} {mem : Nat → Nat → Nat}
    (h : WFT mem ps n cnt t) : ¬ Desc mem ps n cnt t t := by
  cases n with
  | zero => simp [Desc]
  | succ n =>
    intro hd
    obtain ⟨i, hi, hdt, hx⟩ := Desc.cases hd
    exact (h.2.1 i hi hdt).1 hx

theorem Step.refl {ps n cnt t : Nat} {s : State} (h : Pre ps n cnt t s) : Step ps n cnt t s s where
  frame := fun _ _ _ _ _ => rfl
  desc := fun _ hx => Or.inl hx
  live := fun p => by
    constructor
    · intro hp
      by_cases hd : Desc s.mem ps n cnt t p
      · exact Or.inr hd
      · exact Or.inl ⟨hp, hd⟩
    · rintro (⟨hp, _⟩ | hd)
      · exact hp
      · exact h.owned p hd
  pool := ⟨0, rfl⟩
  wf := h.wf
  nodup := h.nodup

theorem Step.pool_sub {ps n cnt t : Nat} {s s' : State} (h : Step ps n cnt t s s') (x : Option Nat)
    (hx : x ∈ s'.pool) : x ∈ s.pool := by
  obtain ⟨k, hk⟩ := h.pool
  rw [hk] at hx
  exact List.mem_of_mem_drop hx

theorem Step.pre {ps n cnt t : Nat} {s s' : State} (hp : Pre ps n cnt t s)
    (h : Step ps n cnt t s s') : Pre ps n cnt t s' where
  wf := h.wf
  owned := fun x hx => (h.live x).mpr (Or.inr hx)
  nodup := h.nodup
  pool_nodup := by
    obtain ⟨k, hk⟩ := h.pool
    rw [hk]
    exact List.Nodup.sublist ((List.drop_sublist k s.pool).filterMap id) hp.pool_nodup
  pool_fresh := fun p hpp => by
    have hp0 := hp.pool_fresh p (h.pool_sub _ hpp)
    refine ⟨?_, hp0.2.1, hp0.2.2⟩
    intro hl
    rcases (h.live p).mp hl with ⟨hl, _⟩ | hd
    · exact hp0.1 hl
    · rcases h.desc p hd with hd | ⟨_, hn⟩
      · exact hp0.1 (hp.owned p hd)
      · exact hn hpp

theorem Step.trans {ps n cnt t : Nat} {s s1 s2 : State} (hp : Pre ps n cnt t s)
    (h1 : Step ps n cnt t s s1) (h2 : Step ps n cnt t s1 s2) : Step ps n cnt t s s2 where
  frame := fun x hxt hxd hxp i => by
    have hd1 : ¬ Desc s1.mem ps n cnt t x := by
      intro hd
      rcases h1.desc x hd with hd | ⟨hin, _⟩
      · exact hxd hd
      · exact hxp hin
    rw [h2.frame x hxt hd1 (fun hin => hxp (h1.pool_sub _ hin)) i, h1.frame x hxt hxd hxp i]
  desc := fun x hx => by
    rcases h2.desc x hx with hd | ⟨hin, hout⟩
    · rcases h1.desc x hd with hd | ⟨hin, hout⟩
      · exact Or.inl hd
      · exact Or.inr ⟨hin, fun h => hout (h2.pool_sub _ h)⟩
    · exact Or.inr ⟨h1.pool_sub _ hin, hout⟩
  live := fun p => by
    rw [h2.live p, h1.live p]
    constructor
    · rintro (⟨(⟨hl, hd⟩ | hd1), hnd1⟩ | hd2)
      · exact Or.inl ⟨hl, hd⟩
      · exact absurd hd1 hnd1
      · exact Or.inr hd2
    · rintro (⟨hl, hd⟩ | hd2)
      · left
        refine ⟨Or.inl ⟨hl, hd⟩, ?_⟩
        intro hd1
        rcases h1.desc p hd1 with hd' | ⟨hin, _⟩
        · exact hd hd'
        · exact (hp.pool_fresh p hin).1 hl
      · exact Or.inr hd2
  pool := by
    obtain ⟨k1, hk1⟩ := h1.pool
    obtain ⟨k2, hk2⟩ := h2.pool
    exact ⟨k1 + k2, by rw [hk2, hk1, List.drop_drop, Nat.add_comm]⟩
  wf := h2.wf
  nodup := h2.nodup

/-- A change of the event trace only. -/
theorem Step.of_eq {ps n cnt t : Nat} {s s1 s2 : State} (h : Step ps n cnt t s s1)
    (hm : s2.mem = s1.mem) (hl : s2.live = s1.live) (hq : s2.pool = s1.pool) :
    Step ps n cnt t s s2 where
  frame := by rw [hm]; exact h.frame
  desc := by rw [hm, hq]; exact h.desc
  live := by rw [hm, hl]; exact h.live
  pool := by rw [hq]; exact h.pool
  wf := by rw [hm]; exact h.wf
  nodup := by rw [hl]; exact h.nodup

theorem Pre.of_same {ps n cnt t : Nat} {s s2 : State} (h : Pre ps n cnt t s)
    (hm : s2.mem = s.mem) (hl : s2.live = s.live) (hq : s2.pool = s.pool) :
    Pre ps n cnt t s2 where
  wf := by rw [hm]; exact h.wf
  owned := by rw [hm, hl]; exact h.owned
  nodup := by rw [hl]; exact h.nodup
  pool_nodup := by rw [hq]; exact h.pool_nodup
  pool_fresh := by rw [hq, hl]; exact h.pool_fresh

/-- The precondition holds for the table below a table descriptor. -/
theorem Pre.of_child {ps n cnt t i : Nat} {s : State} (h : Pre ps (n + 1) cnt t s) (hi : i < cnt)
    (hd : desc_type (s.mem t i) = MMU_PTE_L012_DESCRIPTOR_TABLE) :
    Pre ps n (entries ps) (out_addr (s.mem t i)) s where
  wf := (h.wf.2.1 i hi hd).2
  owned := fun x hx => h.owned x (Sub.child hi hd (Or.inr hx))
  nodup := h.nodup
  pool_nodup := h.pool_nodup
  pool_fresh := fun p hp => by
    have := h.pool_fresh p hp
    refine ⟨this.1, ?_, this.2.2⟩
    intro hpc
    exact this.1 (hpc ▸ h.owned _ (Sub.child hi hd (Or.inl rfl)))

/-- The tables below the other slots are untouched by a call on the table
below slot `i`. -/
theorem Step.sibling {ps n cnt t i j : Nat} {s s' : State} (h : Pre ps (n + 1) cnt t s)
    (hi : i < cnt) (hd : desc_type (s.mem t i) = MMU_PTE_L012_DESCRIPTOR_TABLE)
    (hs : Step ps n (entries ps) (out_addr (s.mem t i)) s s')
    (hj : j < cnt) (hij : j ≠ i) (hdj : desc_type (s.mem t j) = MMU_PTE_L012_DESCRIPTOR_TABLE) :
    ∀ x, Sub s.mem ps n (entries ps) (out_addr (s.mem t j)) x → ∀ k, s'.mem x k = s.mem x k := by
  intro x hx k
  have hdis := h.wf.2.2 j i hj hi hij hdj hd x hx
  have hlive : x ∈ s.live := h.owned x (Sub.child hj hdj hx)
  apply hs.frame x
  · exact fun hxc => hdis (Or.inl hxc)
  · exact fun hxd => hdis (Or.inr hxd)
  · exact fun hin => (h.pool_fresh x hin).1 hlive

theorem Step.parent_row {ps n cnt t i : Nat} {s s' : State} (h : Pre ps (n + 1) cnt t s)
    (hi : i < cnt) (hd : desc_type (s.mem t i) = MMU_PTE_L012_DESCRIPTOR_TABLE)
    (hs : Step ps n (entries ps) (out_addr (s.mem t i)) s s') :
    ∀ k, s'.mem t k = s.mem t k := by
  have hw := (h.wf.2.1 i hi hd).1
  apply hs.frame t
  · exact fun hc => hw (Or.inl hc)
  · exact fun hc => hw (Or.inr hc)
  · intro hin
    have := (Pre.of_child h hi hd).pool_fresh t hin
    have := h.pool_fresh t hin
    exact this.2.1 rfl

/-- A call on the table below slot `i` of `t` has a footprint below `t`. -/
theorem Step.lift {ps n cnt t i : Nat} {s s' : State} (h : Pre ps (n + 1) cnt t s)
    (hi : i < cnt) (hd : desc_type (s.mem t i) = MMU_PTE_L012_DESCRIPTOR_TABLE)
    (hs : Step ps n (entries ps) (out_addr (s.mem t i)) s s') :
    Step ps (n + 1) cnt t s s' := by
  have hrow := Step.parent_row h hi hd hs
  have hsib := fun j hj hij hdj => Step.sibling (j := j) h hi hd hs hj hij hdj
  have hsub' : ∀ x, Desc s'.mem ps (n + 1) cnt t x →
      Sub s'.mem ps n (entries ps) (out_addr (s.mem t i)) x ∨
      ∃ j, j < cnt ∧ j ≠ i ∧ desc_type (s.mem t j) = MMU_PTE_L012_DESCRIPTOR_TABLE ∧
        Sub s.mem ps n (entries ps) (out_addr (s.mem t j)) x := by
    intro x hx
    obtain ⟨j, hj, hdj, hxj⟩ := Desc.cases hx
    rw [hrow j] at hdj hxj
    by_cases hij : j = i
    · subst hij; exact Or.inl hxj
    · exact Or.inr ⟨j, hj, hij, hdj, (Sub_congr (hsib j hj hij hdj) x).mp hxj⟩
  have hsubr : ∀ j, j < cnt → j ≠ i → desc_type (s.mem t j) = MMU_PTE_L012_DESCRIPTOR_TABLE →
      ∀ x, Sub s.mem ps n (entries ps) (out_addr (s.mem t j)) x → Desc s'.mem ps (n + 1) cnt t x := by
    intro j hj hij hdj x hx
    refine Sub.child (i := j) hj (by rw [hrow j]; exact hdj) ?_
    rw [hrow j]
    exact (Sub_congr (hsib j hj hij hdj) x).mpr hx
  have hci : ∀ x, Sub s'.mem ps n (entries ps) (out_addr (s.mem t i)) x →
      Desc s'.mem ps (n + 1) cnt t x := by
    intro x hx
    refine Sub.child (i := i) hi (by rw [hrow i]; exact hd) ?_
    rw [hrow i]; exact hx
  refine ⟨?_, ?_, ?_, hs.pool, ?_, hs.nodup⟩
  · intro x hxt hxd hxp k
    apply hs.frame x
    · exact fun hc => hxd (Sub.child hi hd (Or.inl hc))
    · exact fun hc => hxd (Sub.child hi hd (Or.inr hc))
    · exact hxp
  · intro x hx
    rcases hsub' x hx with hxi | ⟨j, hj, _, hdj, hxj⟩
    · rcases hxi with hxi | hxi
      · exact Or.inl (Sub.child hi hd (Or.inl hxi))
      · rcases hs.desc x hxi with hdx | hc
        · exact Or.inl (Sub.child hi hd (Or.inr hdx))
        · exact Or.inr hc
    · exact Or.inl (Sub.child hj hdj hxj)
  · intro p
    rw [hs.live p]
    constructor
    · rintro (⟨hl, hnd⟩ | hd')
      · by_cases hdt : Desc s.mem ps (n + 1) cnt t p
        · right
          obtain ⟨j, hj, hdj, hxj⟩ := Desc.cases hdt
          by_cases hij : j = i
          · subst hij
            rcases hxj with hxj | hxj
            · exact hci p (Or.inl hxj)
            · exact absurd hxj hnd
          · exact hsubr j hj hij hdj p hxj
        · exact Or.inl ⟨hl, hdt⟩
      · exact Or.inr (hci p (Or.inr hd'))
    · rintro (⟨hl, hnd⟩ | hd')
      · exact Or.inl ⟨hl, fun hc => hnd (Sub.child hi hd (Or.inr hc))⟩
      · rcases hsub' p hd' with hxi | ⟨j, hj, hij, hdj, hxj⟩
        · rcases hxi with hxi | hxi
          · left
            refine ⟨hxi ▸ h.owned _ (Sub.child hi hd (Or.inl rfl)), ?_⟩
            rw [hxi]
            exact Pre.not_desc_self (h.wf.2.1 i hi hd).2
          · exact Or.inr hxi
        · left
          refine ⟨h.owned p (Sub.child hj hdj hxj), ?_⟩
          intro hc
          exact h.wf.2.2 j i hj hi hij hdj hd p hxj (Or.inr hc)
  · refine ⟨?_, ?_, ?_⟩
    · intro j hj; rw [hrow j]; exact h.wf.1 j hj
    · intro j hj hdj
      rw [hrow j] at hdj ⊢
      by_cases hij : j = i
      · subst hij
        refine ⟨?_, hs.wf⟩
        rintro (hc | hc)
        · exact (h.wf.2.1 j hj hdj).1 (Or.inl hc)
        · rcases hs.desc t hc with hc | ⟨hin, _⟩
          · exact (h.wf.2.1 j hj hdj).1 (Or.inr hc)
          · exact (h.pool_fresh t hin).2.1 rfl
      · refine ⟨?_, WFT_congr _ _ _ (hsib j hj hij hdj) (h.wf.2.1 j hj hdj).2⟩
        intro hc
        exact (h.wf.2.1 j hj hdj).1 ((Sub_congr (hsib j hj hij hdj) t).mp hc)
    · intro j k hj hk hjk hdj hdk x hxj hxk
      rw [hrow j] at hdj hxj
      rw [hrow k] at hdk hxk
      -- reduce to the old tree
      have key : ∀ x, Sub s'.mem ps n (entries ps) (out_addr (s.mem t i)) x →
          ∀ m, m < cnt → m ≠ i → desc_type (s.mem t m) = MMU_PTE_L012_DESCRIPTOR_TABLE →
          ¬ Sub s.mem ps n (entries ps) (out_addr (s.mem t m)) x := by
        intro x hxi m hm hmi hdm hxm
        rcases hxi with hxi | hxi
        · exact h.wf.2.2 m i hm hi hmi hdm hd x hxm (Or.inl hxi)
        · rcases hs.desc x hxi with hdx | ⟨hin, _⟩
          · exact h.wf.2.2 m i hm hi hmi hdm hd x hxm (Or.inr hdx)
          · exact (h.pool_fresh x hin).1 (h.owned x (Sub.child hm hdm hxm))
      by_cases hji : j = i
      · subst hji
        have hkj : k ≠ j := fun e => hjk e.symm
        exact key x hxj k hk hkj hdk ((Sub_congr (hsib k hk hkj hdk) x).mp hxk)
      · by_cases hki : k = i
        · subst hki
          exact key x hxk j hj hji hdj ((Sub_congr (hsib j hj hji hdj) x).mp hxj)
        · exact h.wf.2.2 j k hj hk hjk hdj hdk x ((Sub_congr (hsib j hj hji hdj) x).mp hxj)
            ((Sub_congr (hsib k hk hki hdk) x).mp hxk)

end Arm64Mmu

namespace Arm64Mmu

/-! ## Footprint of a single store into a table -/

theorem desc_type_zero : desc_type 0 = MMU_PTE_DESCRIPTOR_INVALID := by decide

theorem table_ne_invalid : MMU_PTE_L012_DESCRIPTOR_TABLE ≠ MMU_PTE_DESCRIPTOR_INVALID := by decide

theorem table_ne_block : MMU_PTE_L012_DESCRIPTOR_TABLE ≠ MMU_PTE_L012_DESCRIPTOR_BLOCK := by decide

theorem not_table_zero : desc_type 0 ≠ MMU_PTE_L012_DESCRIPTOR_TABLE := by decide

/-- After a change of slot `i` of `t` and of frames of the allocator only, the
tables below the other slots are as before. -/
theorem other_slots {ps n cnt t j : Nat} {s s' : State} (h : Pre ps (n + 1) cnt t s)
    (ho : ∀ x, x ≠ t → some x ∉ s.pool → ∀ k, s'.mem x k = s.mem x k)
    (hj : j < cnt) (hdj : desc_type (s.mem t j) = MMU_PTE_L012_DESCRIPTOR_TABLE) :
    ∀ x, Sub s.mem ps n (entries ps) (out_addr (s.mem t j)) x → ∀ k, s'.mem x k = s.mem x k := by
  intro x hx k
  apply ho x
  · intro hxt
    exact (h.wf.2.1 j hj hdj).1 (hxt ▸ hx)
  · intro hin
    exact (h.pool_fresh x hin).1 (h.owned x (Sub.child hj hdj hx))

/-- Storing an entry that is not a table descriptor into a slot that holds no
table descriptor. -/
theorem Step.store_leaf {ps n cnt t i e : Nat} {s s' : State} (h : Pre ps n cnt t s)
    (hi : i < cnt)
    (hold : n = 0 ∨ desc_type (s.mem t i) ≠ MMU_PTE_L012_DESCRIPTOR_TABLE)
    (hnew : e = 0 ∨ desc_type e = leaf_type n)
    (hm : s'.mem = fun x k => if x = t ∧ k = i then e else s.mem x k)
    (hl : s'.live = s.live) (hq : s'.pool = s.pool) : Step ps n cnt t s s' := by
  have hrow : ∀ j, j ≠ i → s'.mem t j = s.mem t j := by
    intro j hj; rw [hm]; simp [hj]
  have hti : s'.mem t i = e := by rw [hm]; simp
  have ho : ∀ x, x ≠ t → ∀ k, s'.mem x k = s.mem x k := by
    intro x hx k; rw [hm]; simp [hx]
  cases n with
  | zero =>
    refine ⟨fun x hx _ _ k => ho x hx k, fun x hx => by simp [Desc] at hx, ?_, ⟨0, by simp [hq]⟩,
      ?_, by rw [hl]; exact h.nodup⟩
    · intro p; rw [hl]; simp [Desc]
    · intro j hj
      by_cases hji : j = i
      · subst hji; rw [hti]
        simpa [leaf_type] using hnew
      · rw [hrow j hji]; exact h.wf j hj
  | succ n =>
    have hold' : desc_type (s.mem t i) ≠ MMU_PTE_L012_DESCRIPTOR_TABLE := by
      rcases hold with h0 | h0
      · omega
      · exact h0
    have hnew' : desc_type e ≠ MMU_PTE_L012_DESCRIPTOR_TABLE := by
      rcases hnew with h0 | h0
      · rw [h0]; exact not_table_zero
      · rw [h0]; simp [leaf_type]; decide
    have hsib : ∀ j, j < cnt → desc_type (s.mem t j) = MMU_PTE_L012_DESCRIPTOR_TABLE →
        ∀ x, Sub s.mem ps n (entries ps) (out_addr (s.mem t j)) x → ∀ k, s'.mem x k = s.mem x k :=
      fun j hj hdj => other_slots h (fun x hx _ k => ho x hx k) hj hdj
    have hiff : ∀ x, Desc s'.mem ps (n + 1) cnt t x ↔ Desc s.mem ps (n + 1) cnt t x := by
      intro x
      rw [Desc_succ_iff, Desc_succ_iff]
      constructor
      · rintro ⟨j, hj, hdj, hxj⟩
        have hji : j ≠ i := by
          intro e'; subst e'; rw [hti] at hdj; exact hnew' hdj
        rw [hrow j hji] at hdj hxj
        exact ⟨j, hj, hdj, (Sub_congr (hsib j hj hdj) x).mp hxj⟩
      · rintro ⟨j, hj, hdj, hxj⟩
        have hji : j ≠ i := by
          intro e'; subst e'; exact hold' hdj
        refine ⟨j, hj, by rw [hrow j hji]; exact hdj, ?_⟩
        rw [hrow j hji]
        exact (Sub_congr (hsib j hj hdj) x).mpr hxj
    refine ⟨fun x hx _ _ k => ho x hx k, fun x hx => Or.inl ((hiff x).mp hx), ?_,
      ⟨0, by simp [hq]⟩, ?_, by rw [hl]; exact h.nodup⟩
    · intro p
      rw [hl, hiff p]
      constructor
      · intro hp
        by_cases hd : Desc s.mem ps (n + 1) cnt t p
        · exact Or.inr hd
        · exact Or.inl ⟨hp, hd⟩
      · rintro (⟨hp, _⟩ | hd)
        · exact hp
        · exact h.owned p hd
    · refine ⟨?_, ?_, ?_⟩
      · intro j hj
        by_cases hji : j = i
        · subst hji; rw [hti]
          rcases hnew with h0 | h0
          · exact Or.inl h0
          · right; left; rw [h0]; simp [leaf_type]
        · rw [hrow j hji]; exact h.wf.1 j hj
      · intro j hj hdj
        have hji : j ≠ i := by
          intro e'; subst e'; rw [hti] at hdj; exact hnew' hdj
        rw [hrow j hji] at hdj ⊢
        refine ⟨?_, WFT_congr _ _ _ (hsib j hj hdj) (h.wf.2.1 j hj hdj).2⟩
        intro hc
        exact (h.wf.2.1 j hj hdj).1 ((Sub_congr (hsib j hj hdj) t).mp hc)
      · intro j k hj hk hjk hdj hdk x hxj hxk
        have hji : j ≠ i := by
          intro e'; subst e'; rw [hti] at hdj; exact hnew' hdj
        have hki : k ≠ i := by
          intro e'; subst e'; rw [hti] at hdk; exact hnew' hdk
        rw [hrow j hji] at hdj hxj
        rw [hrow k hki] at hdk hxk
        exact h.wf.2.2 j k hj hk hjk hdj hdk x ((Sub_congr (hsib j hj hdj) x).mp hxj)
          ((Sub_congr (hsib k hk hdk) x).mp hxk)

theorem table_desc_type {p : Nat} (hp : out_addr p = p) :
    desc_type (p ||| MMU_PTE_L012_DESCRIPTOR_TABLE) = MMU_PTE_L012_DESCRIPTOR_TABLE := by
  unfold desc_type out_addr at *
  rw [Nat.and_distrib_right, ← hp, Nat.and_assoc]
  have : MMU_PTE_OUTPUT_ADDR_MASK &&& MMU_PTE_DESCRIPTOR_MASK = 0 := by decide
  rw [this]
  simp [MMU_PTE_L012_DESCRIPTOR_TABLE, MMU_PTE_DESCRIPTOR_MASK]

theorem table_out_addr {p : Nat} (hp : out_addr p = p) :
    out_addr (p ||| MMU_PTE_L012_DESCRIPTOR_TABLE) = p := by
  unfold out_addr at *
  rw [Nat.and_distrib_right, hp]
  have : MMU_PTE_L012_DESCRIPTOR_TABLE &&& MMU_PTE_OUTPUT_ADDR_MASK = 0 := by decide
  rw [this]
  simp

theorem Desc_of_clear {mem : Nat → Nat → Nat} {ps n cnt c : Nat}
    (h : ∀ k, k < cnt → mem c k = 0) (x : Nat) : ¬ Desc mem ps n cnt c x := by
  cases n with
  | zero => simp [Desc]
  | succ n =>
    intro hd
    obtain ⟨k, hk, hdk, _⟩ := Desc.cases hd
    rw [h k hk] at hdk
    exact not_table_zero hdk

theorem WFT_of_clear {mem : Nat → Nat → Nat} {ps n cnt c : Nat}
    (h : ∀ k, k < cnt → mem c k = 0) : WFT mem ps n cnt c := by
  cases n with
  | zero => intro k hk; exact Or.inl (h k hk)
  | succ n =>
    refine ⟨fun k hk => Or.inl (h k hk), ?_, ?_⟩
    · intro k hk hdk; rw [h k hk] at hdk; exact absurd hdk not_table_zero
    · intro k _ hk _ _ hdk; rw [h k hk] at hdk; exact absurd hdk not_table_zero

/-- Linking a cleared frame of the allocator into an empty slot. -/
theorem Step.link {ps n cnt t i p : Nat} {rest : List (Option Nat)} {s s' : State}
    (h : Pre ps (n + 1) cnt t s) (hi : i < cnt)
    (hold : s.mem t i = 0) (hpool : s.pool = some p :: rest)
    (hm : ∀ x k, s'.mem x k =
      if x = t ∧ k = i then p ||| MMU_PTE_L012_DESCRIPTOR_TABLE
      else if x = p ∧ k < entries ps then 0 else s.mem x k)
    (hl : s'.live = p :: s.live) (hq : s'.pool = rest) : Step ps (n + 1) cnt t s s' := by
  have hpin : some p ∈ s.pool := by rw [hpool]; simp
  obtain ⟨hplive, hpt, hpa⟩ := h.pool_fresh p hpin
  have hprest : some p ∉ rest := by
    have := h.pool_nodup
    rw [hpool] at this
    simp only [List.filterMap_cons_some (f := id) (a := some p) (b := p) rfl,
      List.nodup_cons] at this
    intro hin
    exact this.1 (List.mem_filterMap.mpr ⟨some p, hin, rfl⟩)
  have hrow : ∀ j, j ≠ i → s'.mem t j = s.mem t j := by
    intro j hj; rw [hm]; simp [hj, Ne.symm hpt]
  have hti : s'.mem t i = p ||| MMU_PTE_L012_DESCRIPTOR_TABLE := by rw [hm]; simp
  have hdti : desc_type (s'.mem t i) = MMU_PTE_L012_DESCRIPTOR_TABLE := by
    rw [hti]; exact table_desc_type hpa
  have hati : out_addr (s'.mem t i) = p := by rw [hti]; exact table_out_addr hpa
  have ho : ∀ x, x ≠ t → some x ∉ s.pool → ∀ k, s'.mem x k = s.mem x k := by
    intro x hx hxp k
    have hxp' : x ≠ p := fun e => hxp (e ▸ hpin)
    rw [hm]; simp [hx, hxp']
  have hpclear : ∀ k, k < entries ps → s'.mem p k = 0 := by
    intro k hk; rw [hm]; simp [hpt, hk]
  have hold' : desc_type (s.mem t i) ≠ MMU_PTE_L012_DESCRIPTOR_TABLE := by
    rw [hold]; exact not_table_zero
  have hsib : ∀ j, j < cnt → desc_type (s.mem t j) = MMU_PTE_L012_DESCRIPTOR_TABLE →
      ∀ x, Sub s.mem ps n (entries ps) (out_addr (s.mem t j)) x → ∀ k, s'.mem x k = s.mem x k :=
    fun j hj hdj => other_slots h ho hj hdj
  have hsubp : ∀ x, Sub s'.mem ps n (entries ps) p x ↔ x = p := by
    intro x
    constructor
    · rintro (hx | hx)
      · exact hx
      · exact absurd hx (Desc_of_clear hpclear x)
    · exact fun hx => Or.inl hx
  have hiff : ∀ x, Desc s'.mem ps (n + 1) cnt t x ↔ Desc s.mem ps (n + 1) cnt t x ∨ x = p := by
    intro x
    rw [Desc_succ_iff, Desc_succ_iff]
    constructor
    · rintro ⟨j, hj, hdj, hxj⟩
      by_cases hji : j = i
      · subst hji
        rw [hati] at hxj
        exact Or.inr ((hsubp x).mp hxj)
      · rw [hrow j hji] at hdj hxj
        exact Or.inl ⟨j, hj, hdj, (Sub_congr (hsib j hj hdj) x).mp hxj⟩
    · rintro (⟨j, hj, hdj, hxj⟩ | hxp)
      · have hji : j ≠ i := by
          intro e'; subst e'; exact hold' hdj
        refine ⟨j, hj, by rw [hrow j hji]; exact hdj, ?_⟩
        rw [hrow j hji]
        exact (Sub_congr (hsib j hj hdj) x).mpr hxj
      · exact ⟨i, hi, hdti, by rw [hati]; exact (hsubp x).mpr hxp⟩
  have hpnd : ¬ Desc s.mem ps (n + 1) cnt t p := fun hd => hplive (h.owned p hd)
  refine ⟨?_, ?_, ?_, ⟨1, by rw [hq, hpool]; rfl⟩, ?_, ?_⟩
  · intro x hx _ hxp k; exact ho x hx hxp k
  · intro x hx
    rcases (hiff x).mp hx with hd | hxp
    · exact Or.inl hd
    · right
      rw [hxp, hq]
      exact ⟨hpin, hprest⟩
  · intro q
    rw [hl, hiff q, List.mem_cons]
    constructor
    · rintro (hq | hq)
      · exact Or.inr (Or.inr hq)
      · by_cases hd : Desc s.mem ps (n + 1) cnt t q
        · exact Or.inr (Or.inl hd)
        · exact Or.inl ⟨hq, hd⟩
    · rintro (⟨hq, _⟩ | hd | hq)
      · exact Or.inr hq
      · exact Or.inr (h.owned q hd)
      · exact Or.inl hq
  · refine ⟨?_, ?_, ?_⟩
    · intro j hj
      by_cases hji : j = i
      · subst hji; exact Or.inr (Or.inr hdti)
      · rw [hrow j hji]; exact h.wf.1 j hj
    · intro j hj hdj
      by_cases hji : j = i
      · subst hji
        rw [hati]
        refine ⟨?_, WFT_of_clear hpclear⟩
        intro hc
        exact hpt ((hsubp t).mp hc).symm
      · rw [hrow j hji] at hdj ⊢
        refine ⟨?_, WFT_congr _ _ _ (hsib j hj hdj) (h.wf.2.1 j hj hdj).2⟩
        intro hc
        exact (h.wf.2.1 j hj hdj).1 ((Sub_congr (hsib j hj hdj) t).mp hc)
    · intro j k hj hk hjk hdj hdk x hxj hxk
      have key : ∀ m, m < cnt → m ≠ i → desc_type (s.mem t m) = MMU_PTE_L012_DESCRIPTOR_TABLE →
          ¬ Sub s.mem ps n (entries ps) (out_addr (s.mem t m)) p := by
        intro m hm' _ hdm hc
        exact hplive (h.owned p (Sub.child hm' hdm hc))
      by_cases hji : j = i
      · subst hji
        have hkj : k ≠ j := fun e => hjk e.symm
        rw [hati] at hxj
        rw [hrow k hkj] at hdk hxk
        have := (hsubp x).mp hxj
        subst this
        exact key k hk hkj hdk ((Sub_congr (hsib k hk hdk) _).mp hxk)
      · by_cases hki : k = i
        · subst hki
          rw [hati] at hxk
          rw [hrow j hji] at hdj hxj
          have := (hsubp x).mp hxk
          subst this
          exact key j hj hji hdj ((Sub_congr (hsib j hj hdj) _).mp hxj)
        · rw [hrow j hji] at hdj hxj
          rw [hrow k hki] at hdk hxk
          exact h.wf.2.2 j k hj hk hjk hdj hdk x ((Sub_congr (hsib j hj hdj) x).mp hxj)
            ((Sub_congr (hsib k hk hdk) x).mp hxk)
  · rw [hl]
    exact List.nodup_cons.mpr ⟨hplive, h.nodup⟩

/-- Unlinking and freeing a table whose entries are all zero. -/
theorem Step.unlink {ps n cnt t i : Nat} {s s' : State}
    (h : Pre ps (n + 1) cnt t s) (hi : i < cnt)
    (hd : desc_type (s.mem t i) = MMU_PTE_L012_DESCRIPTOR_TABLE)
    (hclear : ∀ k, k < entries ps → s.mem (out_addr (s.mem t i)) k = 0)
    (hm : s'.mem = fun x k => if x = t ∧ k = i then 0 else s.mem x k)
    (hl : s'.live = s.live.erase (out_addr (s.mem t i))) (hq : s'.pool = s.pool) :
    Step ps (n + 1) cnt t s s' := by
  have hrow : ∀ j, j ≠ i → s'.mem t j = s.mem t j := by
    intro j hj; rw [hm]; simp [hj]
  have hti : s'.mem t i = 0 := by rw [hm]; simp
  have ho : ∀ x, x ≠ t → ∀ k, s'.mem x k = s.mem x k := by
    intro x hx k; rw [hm]; simp [hx]
  have hnew' : desc_type (s'.mem t i) ≠ MMU_PTE_L012_DESCRIPTOR_TABLE := by
    rw [hti]; exact not_table_zero
  have hsib : ∀ j, j < cnt → desc_type (s.mem t j) = MMU_PTE_L012_DESCRIPTOR_TABLE →
      ∀ x, Sub s.mem ps n (entries ps) (out_addr (s.mem t j)) x → ∀ k, s'.mem x k = s.mem x k :=
    fun j hj hdj => other_slots h (fun x hx _ k => ho x hx k) hj hdj
  have hsubc : ∀ x, Sub s.mem ps n (entries ps) (out_addr (s.mem t i)) x ↔
      x = out_addr (s.mem t i) := by
    intro x
    constructor
    · rintro (hx | hx)
      · exact hx
      · exact absurd hx (Desc_of_clear hclear x)
    · exact fun hx => Or.inl hx
  have hclive : out_addr (s.mem t i) ∈ s.live := h.owned _ (Sub.child hi hd (Or.inl rfl))
  have hiff : ∀ x, Desc s'.mem ps (n + 1) cnt t x ↔
      Desc s.mem ps (n + 1) cnt t x ∧ x ≠ out_addr (s.mem t i) := by
    intro x
    rw [Desc_succ_iff, Desc_succ_iff]
    constructor
    · rintro ⟨j, hj, hdj, hxj⟩
      have hji : j ≠ i := by
        intro e'; subst e'; exact hnew' hdj
      rw [hrow j hji] at hdj hxj
      have hxj' := (Sub_congr (hsib j hj hdj) x).mp hxj
      refine ⟨⟨j, hj, hdj, hxj'⟩, ?_⟩
      intro hxc
      exact h.wf.2.2 j i hj hi hji hdj hd x hxj' (Or.inl hxc)
    · rintro ⟨⟨j, hj, hdj, hxj⟩, hne⟩
      have hji : j ≠ i := by
        intro e'; subst e'; exact hne ((hsubc x).mp hxj)
      refine ⟨j, hj, by rw [hrow j hji]; exact hdj, ?_⟩
      rw [hrow j hji]
      exact (Sub_congr (hsib j hj hdj) x).mpr hxj
  refine ⟨fun x hx _ _ k => ho x hx k, fun x hx => Or.inl ((hiff x).mp hx).1, ?_,
    ⟨0, by simp [hq]⟩, ?_, by rw [hl]; exact h.nodup.erase _⟩
  · intro q
    rw [hl, h.nodup.mem_erase_iff, hiff q]
    constructor
    · rintro ⟨hne, hq⟩
      by_cases hdq : Desc s.mem ps (n + 1) cnt t q
      · exact Or.inr ⟨hdq, hne⟩
      · exact Or.inl ⟨hq, hdq⟩
    · rintro (⟨hq, hnd⟩ | ⟨hdq, hne⟩)
      · refine ⟨?_, hq⟩
        intro e
        exact hnd (e ▸ Sub.child hi hd (Or.inl rfl))
      · exact ⟨hne, h.owned q hdq⟩
  · refine ⟨?_, ?_, ?_⟩
    · intro j hj
      by_cases hji : j = i
      · subst hji; exact Or.inl hti
      · rw [hrow j hji]; exact h.wf.1 j hj
    · intro j hj hdj
      have hji : j ≠ i := by
        intro e'; subst e'; exact hnew' hdj
      rw [hrow j hji] at hdj ⊢
      refine ⟨?_, WFT_congr _ _ _ (hsib j hj hdj) (h.wf.2.1 j hj hdj).2⟩
      intro hc
      exact (h.wf.2.1 j hj hdj).1 ((Sub_congr (hsib j hj hdj) t).mp hc)
    · intro j k hj hk hjk hdj hdk x hxj hxk
      have hji : j ≠ i := by
        intro e'; subst e'; exact hnew' hdj
      have hki : k ≠ i := by
        intro e'; subst e'; exact hnew' hdk
      rw [hrow j hji] at hdj hxj
      rw [hrow k hki] at hdk hxk
      exact h.wf.2.2 j k hj hk hjk hdj hdk x ((Sub_congr (hsib j hj hdj) x).mp hxj)
        ((Sub_congr (hsib k hk hdk) x).mp hxk)

end Arm64Mmu

namespace Arm64Mmu

/-! ## Arithmetic of chunks and blocks -/

theorem level_shift_zero (ps : Nat) : level_shift ps 0 = ps := by simp [level_shift]

theorem level_shift_succ (ps n : Nat) : level_shift ps (n + 1) = level_shift ps n + (ps - 3) := by
  unfold level_shift; ring

theorem pow_level_shift_succ (ps n : Nat) :
    2 ^ level_shift ps (n + 1) = entries ps * 2 ^ level_shift ps n := by
  rw [level_shift_succ, Nat.pow_add, entries, Nat.mul_comm]

theorem div_mod_unique {r q m B : Nat} (h : r = q * B + m) (hm : m < B) :
    r / B = q ∧ r % B = m := by
  subst h
  have hB : 0 < B := by omega
  constructor
  · rw [Nat.add_comm, Nat.add_mul_div_right _ _ hB, Nat.div_eq_of_lt hm]; simp
  · rw [Nat.add_comm, Nat.add_mul_mod_self_right, Nat.mod_eq_of_lt hm]

/-- An address of the chunk `[a, a + chunk)` lies in the block of `a`. -/
theorem chunk_div_mod {a r c B : Nat} (hB : 0 < B) (hc : c ≤ B - a % B)
    (h1 : a ≤ r) (h2 : r < a + c) : r / B = a / B ∧ r % B = a % B + (r - a) := by
  have ha := Nat.div_add_mod a B
  have hlt := Nat.mod_lt a hB
  apply div_mod_unique
  · have : a / B * B = B * (a / B) := Nat.mul_comm _ _
    omega
  · omega

theorem child_index_lt {ps n r : Nat} :
    (r % 2 ^ level_shift ps (n + 1)) / 2 ^ level_shift ps n < entries ps := by
  have hlt : r % 2 ^ level_shift ps (n + 1) < 2 ^ level_shift ps (n + 1) :=
    Nat.mod_lt _ (Nat.pow_pos (by norm_num))
  rw [pow_level_shift_succ] at hlt
  rw [Nat.div_lt_iff_lt_mul (Nat.pow_pos (by norm_num))]
  rw [pow_level_shift_succ]
  exact hlt

theorem index_lt_of_lt {r cnt B : Nat} (hB : 0 < B) (h : r < cnt * B) : r / B < cnt :=
  (Nat.div_lt_iff_lt_mul hB).mpr h

/-! ## The walk under changes of the memory -/

theorem lookup_table {mem : Nat → Nat → Nat} {ps n t r : Nat}
    (h : desc_type (mem t (r / 2 ^ level_shift ps (n + 1))) = MMU_PTE_L012_DESCRIPTOR_TABLE) :
    lookup mem ps (n + 1) t r =
      lookup mem ps n (out_addr (mem t (r / 2 ^ level_shift ps (n + 1))))
        (r % 2 ^ level_shift ps (n + 1)) := by
  simp only [lookup, h, if_true]
  rw [if_neg table_ne_block]

theorem lookup_zero {mem : Nat → Nat → Nat} {ps n t r : Nat}
    (h : mem t (r / 2 ^ level_shift ps n) = 0) : lookup mem ps n t r = none := by
  cases n with
  | zero =>
    rw [level_shift_zero] at h
    simp only [lookup, h]
    rw [if_neg (by decide)]
  | succ n =>
    simp only [lookup, h]
    rw [if_neg (by decide), if_neg (by decide)]

theorem lookup_leaf {mem : Nat → Nat → Nat} {ps n t r : Nat}
    (h : desc_type (mem t (r / 2 ^ level_shift ps n)) = leaf_type n) :
    lookup mem ps n t r =
      some (mem t (r / 2 ^ level_shift ps n), r % 2 ^ level_shift ps n, n) := by
  cases n with
  | zero =>
    rw [level_shift_zero] at h ⊢
    simp only [leaf_type, if_true] at h
    simp only [lookup, h, if_true]
  | succ n =>
    simp only [leaf_type, Nat.succ_ne_zero, if_false] at h
    simp only [lookup, h, if_true]

/-- The walk from `t` reads the entry of `t` and the tables below `t` only. -/
theorem lookup_frame {mem mem' : Nat → Nat → Nat} {ps n cnt t r : Nat}
    (hr : r / 2 ^ level_shift ps n < cnt)
    (he : mem' t (r / 2 ^ level_shift ps n) = mem t (r / 2 ^ level_shift ps n))
    (hsub : ∀ x, Desc mem ps n cnt t x → ∀ k, mem' x k = mem x k) :
    lookup mem' ps n t r = lookup mem ps n t r := by
  cases n with
  | zero =>
    rw [level_shift_zero] at he
    simp only [lookup, he]
  | succ n =>
    simp only [lookup, he]
    by_cases hb : desc_type (mem t (r / 2 ^ level_shift ps (n + 1))) = MMU_PTE_L012_DESCRIPTOR_BLOCK
    · simp only [hb, if_true]
    · simp only [hb, if_false]
      by_cases hd : desc_type (mem t (r / 2 ^ level_shift ps (n + 1))) =
          MMU_PTE_L012_DESCRIPTOR_TABLE
      · simp only [hd, if_true]
        exact lookup_congr n (entries ps) _ (fun x hx => hsub x (Sub.child hr hd hx)) _
          child_index_lt
      · simp only [hd, if_false]

/-- The block or page that translates an address contains the address and is
aligned. -/
theorem lookup_rem_lt {mem : Nat → Nat → Nat} {ps : Nat} :
    ∀ (n t r e rem m : Nat), lookup mem ps n t r = some (e, rem, m) →
      m ≤ n ∧ rem = r % 2 ^ level_shift ps m := by
  intro n
  induction n with
  | zero =>
    intro t r e rem m h
    simp only [lookup] at h
    split_ifs at h
    simp only [Option.some.injEq, Prod.mk.injEq] at h
    obtain ⟨_, h2, h3⟩ := h
    subst h3
    rw [level_shift_zero]
    exact ⟨le_refl _, h2.symm⟩
  | succ n ih =>
    intro t r e rem m h
    simp only [lookup] at h
    split_ifs at h
    · simp only [Option.some.injEq, Prod.mk.injEq] at h
      obtain ⟨_, h2, h3⟩ := h
      subst h3
      exact ⟨le_refl _, h2.symm⟩
    · obtain ⟨h1, h2⟩ := ih _ _ _ _ _ h
      refine ⟨by omega, ?_⟩
      rw [h2]
      have hdvd : 2 ^ level_shift ps m ∣ 2 ^ level_shift ps (n + 1) := by
        apply Nat.pow_dvd_pow
        unfold level_shift
        have : m * (ps - 3) ≤ (n + 1) * (ps - 3) := Nat.mul_le_mul_right _ (by omega)
        omega
      exact Nat.mod_mod_of_dvd r hdvd

/-! ## Composition of mapped ranges -/

theorem Mapped.nil {ps n cnt t a pa attrs : Nat} {s : State} :
    Mapped ps n cnt t a pa 0 attrs s s where
  inside := fun r h1 h2 => by omega
  outside := fun _ _ _ => rfl
  free_before := fun r h1 h2 => by omega

theorem Mapped.append {ps n cnt t a pa c size attrs : Nat} {s s1 s2 : State}
    (hc : c ≤ size) (hsz : a + size ≤ cnt * 2 ^ level_shift ps n)
    (h1 : Mapped ps n cnt t a pa c attrs s s1)
    (h2 : Mapped ps n cnt t (a + c) (pa + c) (size - c) attrs s1 s2) :
    Mapped ps n cnt t a pa size attrs s s2 where
  inside := fun r hr1 hr2 => by
    by_cases hrc : r < a + c
    · obtain ⟨rem, m, hl, hb1, hb2⟩ := h1.inside r hr1 hrc
      refine ⟨rem, m, ?_, hb1, by omega⟩
      rw [h2.outside r (by omega) (by omega)]
      exact hl
    · obtain ⟨rem, m, hl, hb1, hb2⟩ := h2.inside r (by omega) (by omega)
      refine ⟨rem, m, ?_, by omega, by omega⟩
      rw [hl]
      have : pa + c + (r - (a + c)) - rem = pa + (r - a) - rem := by omega
      rw [this]
  outside := fun r hr hout => by
    rw [h2.outside r hr (by omega), h1.outside r hr (by omega)]
  free_before := fun r hr1 hr2 => by
    by_cases hrc : r < a + c
    · exact h1.free_before r hr1 hrc
    · rw [← h1.outside r (by omega) (by omega)]
      exact h2.free_before r (by omega) (by omega)

end Arm64Mmu

namespace Arm64Mmu

/-! ## `arm64_mmu_get_page_table` -/

theorem clear_count (ps : Nat) (h1 : 3 ≤ ps) (h2 : ps < 32) :
    ((1 <<< ps) % 2 ^ 32) / 8 = entries ps := by
  rw [Nat.one_shiftLeft, entries]
  have h : (2:Nat) ^ ps < 2 ^ 32 := Nat.pow_lt_pow_right (by norm_num) h2
  rw [Nat.mod_eq_of_lt h]
  obtain ⟨k, rfl⟩ : ∃ k, ps = k + 3 := ⟨ps - 3, by omega⟩
  simp [Nat.pow_add]

/-- The two successful outcomes of the allocator call. -/
theorem alloc_page_table_some {cfg : Config} {ps p : Nat} {s s1 : State}
    (h : alloc_page_table cfg ps s = (some p, s1)) :
    ∃ rest, s.pool = some p :: rest ∧ s1 = { s with pool := rest, live := p :: s.live } := by
  unfold alloc_page_table at h
  cases hp : s.pool with
  | nil => simp [hp] at h
  | cons x rest =>
    cases x with
    | none => simp [hp] at h
    | some q =>
      simp only [hp] at h
      split_ifs at h
      all_goals
        first
          | (simp only [Prod.mk.injEq, Option.some.injEq] at h
             obtain ⟨h1, h2⟩ := h
             subst h1; exact ⟨rest, rfl, h2.symm⟩)
          | simp at h

theorem alloc_page_table_none {cfg : Config} {ps : Nat} {s s1 : State}
    (h : alloc_page_table cfg ps s = (none, s1)) :
    s1.mem = s.mem ∧ s1.live = s.live ∧ ∃ k, s1.pool = s.pool.drop k := by
  unfold alloc_page_table at h
  cases hp : s.pool with
  | nil =>
    simp only [hp, Prod.mk.injEq, true_and] at h
    subst h
    exact ⟨rfl, rfl, 0, hp⟩
  | cons x rest =>
    cases x with
    | none =>
      simp only [hp, Prod.mk.injEq, true_and] at h
      subst h
      exact ⟨rfl, rfl, 1, rfl⟩
    | some q =>
      simp only [hp] at h
      split_ifs at h
      all_goals
        first
          | (simp only [Prod.mk.injEq, true_and] at h; subst h; exact ⟨rfl, rfl, 1, rfl⟩)
          | simp at h

/-- A successful `arm64_mmu_get_page_table`: the slot holds a table descriptor
for the table returned, the footprint is below `t`, and only the slot and the
frame taken from the allocator are written. -/
theorem get_page_table_some {cfg : Config} {ps n cnt t i c : Nat} {s s1 : State}
    (hps1 : 3 ≤ ps) (hps2 : ps < 32)
    (h : Pre ps (n + 1) cnt t s) (hi : i < cnt)
    (hg : arm64_mmu_get_page_table cfg i ps t s = some (some c, s1)) :
    Step ps (n + 1) cnt t s s1 ∧
    desc_type (s1.mem t i) = MMU_PTE_L012_DESCRIPTOR_TABLE ∧ out_addr (s1.mem t i) = c ∧
    (∀ j, j ≠ i → s1.mem t j = s.mem t j) ∧
    (∀ x, x ≠ t → some x ∉ s.pool → ∀ k, s1.mem x k = s.mem x k) ∧
    ((desc_type (s.mem t i) = MMU_PTE_L012_DESCRIPTOR_TABLE ∧ s1 = s) ∨
      (s.mem t i = 0 ∧ some c ∈ s.pool ∧ ∀ k, k < entries ps → s1.mem c k = 0)) := by
  unfold arm64_mmu_get_page_table at hg
  simp only at hg
  split_ifs at hg with h0 h3 h1
  · -- invalid: allocate
    have hzero : s.mem t i = 0 := by
      rcases h.wf.1 i hi with hz | hz | hz
      · exact hz
      · exfalso; unfold desc_type at hz; rw [hz] at h0; exact absurd h0 (by decide)
      · exfalso; unfold desc_type at hz; rw [hz] at h0; exact absurd h0 (by decide)
    cases ha : alloc_page_table cfg ps s with
    | mk o sA =>
      cases o with
      | none => simp [ha] at hg
      | some p =>
        simp only [ha, Option.some.injEq, Prod.mk.injEq] at hg
        obtain ⟨hpc, hs1⟩ := hg
        subst hpc
        obtain ⟨rest, hpool, hsA⟩ := alloc_page_table_some ha
        subst hsA
        have hpin : some p ∈ s.pool := by rw [hpool]; simp
        obtain ⟨_, hpt, hpa⟩ := h.pool_fresh p hpin
        have hm : ∀ x k, s1.mem x k =
            if x = t ∧ k = i then p ||| MMU_PTE_L012_DESCRIPTOR_TABLE
            else if x = p ∧ k < entries ps then 0 else s.mem x k := by
          intro x k
          rw [← hs1]
          simp only [write_pte, emit, clear_page_table, clear_count ps hps1 hps2,
            MMU_PTE_DESCRIPTOR_INVALID]
        have hl : s1.live = p :: s.live := by rw [← hs1]; rfl
        have hq : s1.pool = rest := by rw [← hs1]; rfl
        have hti : s1.mem t i = p ||| MMU_PTE_L012_DESCRIPTOR_TABLE := by rw [hm]; simp
        refine ⟨Step.link h hi hzero hpool hm hl hq, ?_, ?_, ?_, ?_, Or.inr ⟨hzero, hpin, ?_⟩⟩
        · rw [hti]; exact table_desc_type hpa
        · rw [hti]; exact table_out_addr hpa
        · intro j hj; rw [hm]; simp [hj, Ne.symm hpt]
        · intro x hx hxp k
          have hxp' : x ≠ p := fun e => hxp (e ▸ hpin)
          rw [hm]; simp [hx, hxp']
        · intro k hk; rw [hm]; simp [hpt, hk]
  · -- an existing table
    simp only [Option.some.injEq, Prod.mk.injEq] at hg
    obtain ⟨hc, hs⟩ := hg
    subst hs
    exact ⟨Step.refl h, h3, hc, fun _ _ => rfl, fun _ _ _ _ => rfl, Or.inl ⟨h3, rfl⟩⟩
  · simp at hg

/-- A failed `arm64_mmu_get_page_table` changes neither the memory nor the live
frames. -/
theorem get_page_table_none {cfg : Config} {ps i t : Nat} {s s1 : State}
    (hg : arm64_mmu_get_page_table cfg i ps t s = some (none, s1)) :
    s1.mem = s.mem ∧ s1.live = s.live ∧ ∃ k, s1.pool = s.pool.drop k := by
  unfold arm64_mmu_get_page_table at hg
  simp only at hg
  split_ifs at hg with h0 h3 h1
  · cases ha : alloc_page_table cfg ps s with
    | mk o sA =>
      cases o with
      | none =>
        simp only [ha, Option.some.injEq, Prod.mk.injEq, true_and] at hg
        subst hg
        exact alloc_page_table_none ha
      | some p => simp [ha] at hg
  · simp at hg
  · simp only [Option.some.injEq, Prod.mk.injEq, true_and] at hg
    subst hg
    exact ⟨rfl, rfl, 0, rfl⟩

/-- Linking a table does not change any translation. -/
theorem get_page_table_lookup {cfg : Config} {ps n cnt t i c : Nat} {s s1 : State}
    (hps1 : 3 ≤ ps) (hps2 : ps < 32)
    (h : Pre ps (n + 1) cnt t s) (hi : i < cnt)
    (hg : arm64_mmu_get_page_table cfg i ps t s = some (some c, s1)) :
    ∀ r, r / 2 ^ level_shift ps (n + 1) < cnt →
      lookup s1.mem ps (n + 1) t r = lookup s.mem ps (n + 1) t r := by
  obtain ⟨_, hdt, hoa, hrow, hrows, hcase⟩ := get_page_table_some hps1 hps2 h hi hg
  intro r hr
  rcases hcase with ⟨_, hs⟩ | ⟨hzero, hpin, hclear⟩
  · rw [hs]
  · by_cases hri : r / 2 ^ level_shift ps (n + 1) = i
    · have h1 : lookup s.mem ps (n + 1) t r = none := lookup_zero (by rw [hri]; exact hzero)
      rw [h1, lookup_table (by rw [hri]; exact hdt), hri, hoa]
      exact lookup_zero (hclear _ child_index_lt)
    · apply lookup_frame hr (hrow _ hri)
      intro x hx k
      apply hrows x
      · intro hxt
        exact Pre.not_desc_self h.wf (hxt ▸ hx)
      · intro hin
        exact (h.pool_fresh x hin).1 (h.owned x hx)

end Arm64Mmu

namespace Arm64Mmu

/-! ## The loops, one iteration at a time -/

theorem or_eq_zero_iff' (x y : Nat) : x ||| y = 0 ↔ x = 0 ∧ y = 0 := by
  constructor
  · intro h
    have key : ∀ i, x.testBit i = false ∧ y.testBit i = false := by
      intro i
      have := Nat.testBit_or x y i
      rw [h, Nat.zero_testBit] at this
      simpa using this.symm
    exact ⟨Nat.eq_of_testBit_eq (fun i => by rw [(key i).1, Nat.zero_testBit]),
      Nat.eq_of_testBit_eq (fun i => by rw [(key i).2, Nat.zero_testBit])⟩
  · rintro ⟨rfl, rfl⟩; rfl

theorem or_mod_ne_zero_iff (a b k : Nat) :
    (a ||| b) % 2 ^ k ≠ 0 ↔ (a % 2 ^ k ≠ 0 ∨ b % 2 ^ k ≠ 0) := by
  rw [← Nat.and_pow_two_sub_one_eq_mod, ← Nat.and_pow_two_sub_one_eq_mod,
    ← Nat.and_pow_two_sub_one_eq_mod, Nat.and_distrib_right, Ne, or_eq_zero_iff']
  tauto

theorem map_loop_succ (cfg : Config)
    (recurse : Nat → Nat → Nat → Nat → Nat → Nat → State → Option (Int × State))
    (attrs sh ps t fuel v a pa size : Nat) (s : State) (hsz : size ≠ 0) (hsh : sh < 64) :
    map_loop cfg recurse attrs sh ps t (fuel + 1) v a pa size s =
      match map_step cfg recurse attrs sh ps t v a pa size s with
      | none => none
      | some (false, s1) => some (some size, s1)
      | some (true, s1) =>
        if size - chunk_size sh a size = 0 then some (none, s1)
        else map_loop cfg recurse attrs sh ps t fuel ((v + chunk_size sh a size) % 2 ^ 64)
          ((a + chunk_size sh a size) % 2 ^ 64) ((pa + chunk_size sh a size) % 2 ^ 64)
          (size - chunk_size sh a size) s1 := by
  rw [map_loop]
  simp only [hsz, if_false, Nat.not_le.mpr hsh, Nat.shiftRight_eq_div_pow, Nat.one_shiftLeft,
    Nat.and_pow_two_sub_one_eq_mod, or_mod_ne_zero_iff]
  rfl

theorem unmap_loop_succ (recurse : Nat → Nat → Nat → Nat → Nat → State → Option State)
    (sh ps t asid fuel v a size : Nat) (s : State) (hsz : size ≠ 0) (hsh : sh < 64) :
    unmap_loop recurse sh ps t asid (fuel + 1) v a size s =
      match unmap_step recurse sh ps t asid v a size s with
      | none => none
      | some s2 =>
        if size - chunk_size sh a size = 0 then some s2
        else unmap_loop recurse sh ps t asid fuel ((v + chunk_size sh a size) % 2 ^ 64)
          ((a + chunk_size sh a size) % 2 ^ 64) (size - chunk_size sh a size) s2 := by
  rw [unmap_loop]
  simp only [hsz, if_false, Nat.not_le.mpr hsh, Nat.shiftRight_eq_div_pow, Nat.one_shiftLeft,
    Nat.and_pow_two_sub_one_eq_mod]
  rfl

end Arm64Mmu

namespace Arm64Mmu

/-! ## A successful iteration of the map loop -/

theorem sub32_level (ps m : Nat) (hps : 3 ≤ ps) (h : level_shift ps (m + 1) < 2 ^ 32) :
    sub32 (level_shift ps (m + 1)) (sub32 ps 3) = level_shift ps m := by
  rw [level_shift_succ] at h ⊢
  have hle : ps ≤ level_shift ps m := by unfold level_shift; omega
  generalize level_shift ps m = X at *
  unfold sub32
  norm_num at h ⊢
  omega

theorem level_shift_le_of_span {ps n cnt : Nat} (hcnt : 0 < cnt)
    (hspan : cnt * 2 ^ level_shift ps n ≤ 2 ^ 48) : level_shift ps n ≤ 48 := by
  by_contra hc
  have h1 : (2:Nat) ^ 49 ≤ 2 ^ level_shift ps n := Nat.pow_le_pow_right (by norm_num) (by omega)
  have h2 : 2 ^ level_shift ps n ≤ cnt * 2 ^ level_shift ps n := Nat.le_mul_of_pos_left _ hcnt
  norm_num at h1 hspan
  omega

theorem level_shift_gt_iff (ps n : Nat) (hps : 4 ≤ ps) : level_shift ps n > ps ↔ n ≠ 0 := by
  unfold level_shift
  constructor
  · intro h hn; subst hn; simp at h
  · intro hn
    have : 1 * (ps - 3) ≤ n * (ps - 3) := Nat.mul_le_mul_right _ (by omega)
    omega

theorem desc_type_of_mod {pa k : Nat} (hk : 2 ≤ k) (h : pa % 2 ^ k = 0) : desc_type pa = 0 := by
  unfold desc_type MMU_PTE_DESCRIPTOR_MASK
  have : (3:Nat) = 2 ^ 2 - 1 := by norm_num
  rw [this, Nat.and_pow_two_sub_one_eq_mod]
  have hd : 2 ^ 2 ∣ 2 ^ k := Nat.pow_dvd_pow 2 hk
  have := Nat.mod_mod_of_dvd pa hd
  rw [h] at this
  simpa using this.symm

theorem leaf_desc_type {pa attrs n : Nat} (hpa : desc_type pa = 0) (hattr : desc_type attrs = 0) :
    desc_type ((pa ||| attrs) ||| leaf_type n) = leaf_type n := by
  unfold desc_type at *
  rw [Nat.and_distrib_right, Nat.and_distrib_right, hpa, hattr]
  unfold leaf_type
  split_ifs <;> decide

/-- The walk from `t` reads the entry of `t` and the tables below that entry
only. -/
theorem lookup_frame_slot {mem mem' : Nat → Nat → Nat} {ps n t r : Nat}
    (he : mem' t (r / 2 ^ level_shift ps n) = mem t (r / 2 ^ level_shift ps n))
    (hsub : ∀ m, n = m + 1 →
      desc_type (mem t (r / 2 ^ level_shift ps n)) = MMU_PTE_L012_DESCRIPTOR_TABLE →
      ∀ x, Sub mem ps m (entries ps) (out_addr (mem t (r / 2 ^ level_shift ps n))) x →
        ∀ k, mem' x k = mem x k) :
    lookup mem' ps n t r = lookup mem ps n t r := by
  cases n with
  | zero =>
    rw [level_shift_zero] at he
    simp only [lookup, he]
  | succ n =>
    simp only [lookup, he]
    by_cases hb : desc_type (mem t (r / 2 ^ level_shift ps (n + 1))) = MMU_PTE_L012_DESCRIPTOR_BLOCK
    · simp only [hb, if_true]
    · simp only [hb, if_false]
      by_cases hd : desc_type (mem t (r / 2 ^ level_shift ps (n + 1))) =
          MMU_PTE_L012_DESCRIPTOR_TABLE
      · simp only [hd, if_true]
        exact lookup_congr n (entries ps) _ (hsub n rfl hd) _ child_index_lt
      · simp only [hd, if_false]

/-- A store into slot `i` of `t` does not change the translation of the
addresses of the other slots. -/
theorem lookup_store_other {ps n cnt t i e r : Nat} {s s' : State} (h : Pre ps n cnt t s)
    (hm : s'.mem = fun x k => if x = t ∧ k = i then e else s.mem x k)
    (hr : r / 2 ^ level_shift ps n < cnt) (hri : r / 2 ^ level_shift ps n ≠ i) :
    lookup s'.mem ps n t r = lookup s.mem ps n t r := by
  apply lookup_frame_slot
  · rw [hm]; simp [hri]
  · intro m hn hd x hx k
    subst hn
    have hxt : x ≠ t := fun e' => (h.wf.2.1 _ hr hd).1 (e' ▸ hx)
    rw [hm]; simp [hxt]

end Arm64Mmu

namespace Arm64Mmu

theorem chunk_size_le_size (sh a size : Nat) : chunk_size sh a size ≤ size := by
  unfold chunk_size; exact Nat.min_le_left _ _

theorem chunk_size_le_block (sh a size : Nat) :
    chunk_size sh a size ≤ 2 ^ sh - a % 2 ^ sh := by
  unfold chunk_size; exact Nat.min_le_right _ _

theorem chunk_size_pos (sh a size : Nat) (hsz : size ≠ 0) : 0 < chunk_size sh a size := by
  unfold chunk_size
  have : a % 2 ^ sh < 2 ^ sh := Nat.mod_lt _ (Nat.pow_pos (by norm_num))
  rw [Nat.lt_min]
  omega

/-- The leaf branch of an iteration: a block or page entry is stored into an
empty slot. -/
theorem map_store_ok {ps n cnt t attrs a pa : Nat} {s s1 : State}
    (hps : 12 ≤ ps) (hattr : desc_type attrs = 0)
    (hpre : Pre ps n cnt t s) (hrange : a + 2 ^ level_shift ps n ≤ cnt * 2 ^ level_shift ps n)
    (ha : a % 2 ^ level_shift ps n = 0) (hpa : pa % 2 ^ level_shift ps n = 0)
    (hzero : s.mem t (a / 2 ^ level_shift ps n) = 0)
    (hs1 : s1 = write_pte t (a / 2 ^ level_shift ps n) ((pa ||| attrs) ||| leaf_type n) s) :
    Step ps n cnt t s s1 ∧ Mapped ps n cnt t a pa (2 ^ level_shift ps n) attrs s s1 := by
  have hB : 0 < 2 ^ level_shift ps n := Nat.pow_pos (by norm_num)
  have hsh : 2 ≤ level_shift ps n := by unfold level_shift; omega
  generalize hBdef : 2 ^ level_shift ps n = B at *
  have hi : a / B < cnt := index_lt_of_lt hB (by omega)
  have hm : s1.mem = fun x k => if x = t ∧ k = a / B then (pa ||| attrs) ||| leaf_type n
      else s.mem x k := by rw [hs1]; rfl
  have hdesc : desc_type ((pa ||| attrs) ||| leaf_type n) = leaf_type n :=
    leaf_desc_type (desc_type_of_mod hsh (by rw [hBdef]; exact hpa)) hattr
  have hstep : Step ps n cnt t s s1 := by
    apply Step.store_leaf hpre hi _ (Or.inr hdesc) hm (by rw [hs1]; rfl) (by rw [hs1]; rfl)
    right
    rw [hzero]; exact not_table_zero
  refine ⟨hstep, ?_, ?_, ?_⟩
  · intro r hr1 hr2
    have hdm := chunk_div_mod (c := B) hB (by omega) hr1 hr2
    have hent : s1.mem t (r / 2 ^ level_shift ps n) = (pa ||| attrs) ||| leaf_type n := by
      rw [hBdef, hdm.1, hm]; simp
    refine ⟨r % B, n, ?_, by omega, by rw [hBdef]; omega⟩
    rw [lookup_leaf (by rw [hent]; exact hdesc), hent, hBdef]
    have : pa + (r - a) - r % B = pa := by omega
    rw [this]
  · intro r hr hout
    have hri : r / B ≠ a / B := by
      intro he
      have h1 := Nat.div_add_mod r B
      have h2 := Nat.div_add_mod a B
      have h3 := Nat.mod_lt r hB
      rw [he] at h1
      omega
    have hr' : r < cnt * B := by rw [← hBdef]; exact hr
    exact lookup_store_other hpre hm (by rw [hBdef]; exact index_lt_of_lt hB hr')
      (by rw [hBdef]; exact hri)
  · intro r hr1 hr2
    have hdm := chunk_div_mod (c := B) hB (by omega) hr1 hr2
    exact lookup_zero (by rw [hBdef, hdm.1]; exact hzero)

/-- The table branch of an iteration: the chunk is mapped below the table of
the slot. -/
theorem map_descend_ok {cfg : Config} {ps m cnt t attrs a pa chunk c : Nat} {s sA s2 : State}
    (hps : 12 ≤ ps) (hps2 : ps < 32)
    (hpre : Pre ps (m + 1) cnt t s)
    (hi : a / 2 ^ level_shift ps (m + 1) < cnt)
    (hchunk : chunk ≤ 2 ^ level_shift ps (m + 1) - a % 2 ^ level_shift ps (m + 1))
    (hg : arm64_mmu_get_page_table cfg (a / 2 ^ level_shift ps (m + 1)) ps t s =
      some (some c, sA))
    (hchild : Pre ps m (entries ps) c sA →
      Step ps m (entries ps) c sA s2 ∧
      Mapped ps m (entries ps) c (a % 2 ^ level_shift ps (m + 1)) pa chunk attrs sA s2) :
    Step ps (m + 1) cnt t s s2 ∧ Mapped ps (m + 1) cnt t a pa chunk attrs s s2 := by
  obtain ⟨hstepA, hdt, hoa, hrow, hrows, hcase⟩ := get_page_table_some (by omega) hps2 hpre hi hg
  have hlookA := get_page_table_lookup (by omega) hps2 hpre hi hg
  have hpreA : Pre ps (m + 1) cnt t sA := Step.pre hpre hstepA
  have hpreC : Pre ps m (entries ps) c sA := hoa ▸ Pre.of_child hpreA hi hdt
  obtain ⟨hstepC, hmapC⟩ := hchild hpreC
  have hstepC' : Step ps m (entries ps)
      (out_addr (sA.mem t (a / 2 ^ level_shift ps (m + 1)))) sA s2 := by rw [hoa]; exact hstepC
  have hlift : Step ps (m + 1) cnt t sA s2 := Step.lift hpreA hi hdt hstepC'
  have hrow2 := Step.parent_row hpreA hi hdt hstepC'
  have hB : 0 < 2 ^ level_shift ps (m + 1) := Nat.pow_pos (by norm_num)
  have hBN : 2 ^ level_shift ps (m + 1) = entries ps * 2 ^ level_shift ps m :=
    pow_level_shift_succ ps m
  refine ⟨Step.trans hpre hstepA hlift, ?_, ?_, ?_⟩
  · intro r hr1 hr2
    have hdm := chunk_div_mod hB hchunk hr1 hr2
    have hent : s2.mem t (r / 2 ^ level_shift ps (m + 1)) =
        sA.mem t (a / 2 ^ level_shift ps (m + 1)) := by rw [hdm.1, hrow2]
    rw [lookup_table (by rw [hent]; exact hdt), hent, hoa]
    obtain ⟨rem, m', hl, hb1, hb2⟩ := hmapC.inside (r % 2 ^ level_shift ps (m + 1))
      (by omega) (by omega)
    refine ⟨rem, m', ?_, by omega, by omega⟩
    rw [hl]
    have : r % 2 ^ level_shift ps (m + 1) - a % 2 ^ level_shift ps (m + 1) = r - a := by omega
    rw [this]
  · intro r hr hout
    have hr' : r / 2 ^ level_shift ps (m + 1) < cnt := index_lt_of_lt hB hr
    rw [← hlookA r hr']
    by_cases hri : r / 2 ^ level_shift ps (m + 1) = a / 2 ^ level_shift ps (m + 1)
    · have hentA : desc_type (sA.mem t (r / 2 ^ level_shift ps (m + 1))) =
          MMU_PTE_L012_DESCRIPTOR_TABLE := by rw [hri]; exact hdt
      have hent2 : s2.mem t (r / 2 ^ level_shift ps (m + 1)) =
          sA.mem t (r / 2 ^ level_shift ps (m + 1)) := hrow2 _
      rw [lookup_table (by rw [hent2]; exact hentA), lookup_table hentA, hent2, hri, hoa]
      apply hmapC.outside
      · rw [← hBN]; exact Nat.mod_lt _ hB
      · have h1 := Nat.div_add_mod r (2 ^ level_shift ps (m + 1))
        have h2 := Nat.div_add_mod a (2 ^ level_shift ps (m + 1))
        rw [hri] at h1
        omega
    · apply lookup_frame_slot (hrow2 _)
      intro m' hm' hd x hx k
      have hm'' : m' = m := by omega
      subst hm''
      exact Step.sibling hpreA hi hdt hstepC' hr' hri hd x hx k
  · intro r hr1 hr2
    have hdm := chunk_div_mod hB hchunk hr1 hr2
    rcases hcase with ⟨hd, hs⟩ | ⟨hzero, _, _⟩
    · subst hs
      rw [lookup_table (by rw [hdm.1]; exact hdt), hdm.1, hoa]
      exact hmapC.free_before _ (by omega) (by omega)
    · exact lookup_zero (by rw [hdm.1]; exact hzero)

end Arm64Mmu

namespace Arm64Mmu

/-- A successful iteration of the loop of `arm64_mmu_map_pt`. -/
theorem map_step_ok {cfg : Config} {ps n cnt t attrs v a pa size : Nat}
    {recurse : Nat → Nat → Nat → Nat → Nat → Nat → State → Option (Int × State)}
    {s s1 : State}
    (hps : 12 ≤ ps) (hps2 : ps ≤ 30) (hattr : desc_type attrs = 0)
    (hspan : cnt * 2 ^ level_shift ps n ≤ 2 ^ 48)
    (hpre : Pre ps n cnt t s) (hrange : a + size ≤ cnt * 2 ^ level_shift ps n) (hsz : size ≠ 0)
    (hpasz : pa + size ≤ 2 ^ 64)
    (halign : n = 0 → 2 ^ ps ∣ a ∧ 2 ^ ps ∣ pa ∧ 2 ^ ps ∣ size)
    (hrec : ∀ m, n = m + 1 → MapRec ps attrs m recurse)
    (h : map_step cfg recurse attrs (level_shift ps n) ps t v a pa size s = some (true, s1)) :
    Step ps n cnt t s s1 ∧
      Mapped ps n cnt t a pa (chunk_size (level_shift ps n) a size) attrs s s1 := by
  have hB : 0 < 2 ^ level_shift ps n := Nat.pow_pos (by norm_num)
  have hcnt : 0 < cnt := by
    rcases Nat.eq_zero_or_pos cnt with h0 | h0
    · subst h0; omega
    · exact h0
  have hi : a / 2 ^ level_shift ps n < cnt := index_lt_of_lt hB (by omega)
  have hc1 := chunk_size_le_size (level_shift ps n) a size
  have hc2 := chunk_size_le_block (level_shift ps n) a size
  have hty : (if level_shift ps n > ps then (pa ||| attrs) ||| MMU_PTE_L012_DESCRIPTOR_BLOCK
      else (pa ||| attrs) ||| MMU_PTE_L3_DESCRIPTOR_PAGE) = (pa ||| attrs) ||| leaf_type n := by
    unfold leaf_type
    by_cases hn : n = 0
    · subst hn
      simp [level_shift_zero]
    · have := (level_shift_gt_iff ps n (by omega)).mpr hn
      simp [hn, this]
  unfold map_step at h
  rw [hty] at h
  split_ifs at h with hC hnz
  · -- the table branch
    cases n with
    | zero =>
      exfalso
      obtain ⟨ha, hpa, hsize⟩ := halign rfl
      rw [level_shift_zero] at hC
      have ha' := Nat.mod_eq_zero_of_dvd ha
      have hpa' := Nat.mod_eq_zero_of_dvd hpa
      have hle : 2 ^ ps ≤ size := Nat.le_of_dvd (by omega) hsize
      unfold chunk_size MMU_PTE_DESCRIPTOR_BLOCK_MAX_SHIFT at hC
      rw [ha', hpa', Nat.sub_zero, Nat.min_eq_right hle] at hC
      omega
    | succ m =>
      have hls := level_shift_le_of_span hcnt hspan
      cases hg : arm64_mmu_get_page_table cfg (a / 2 ^ level_shift ps (m + 1)) ps t s with
      | none => simp [hg] at h
      | some r =>
        obtain ⟨o, sA⟩ := r
        cases o with
        | none => simp [hg] at h
        | some c =>
          simp only [hg] at h
          rw [sub32_level ps m (by omega) (by norm_num; omega)] at h
          cases hr : recurse v (a % 2 ^ level_shift ps (m + 1)) pa
              (chunk_size (level_shift ps (m + 1)) a size) (level_shift ps m) c sA with
          | none => simp [hr] at h
          | some r2 =>
            obtain ⟨ret, s2⟩ := r2
            simp only [hr, Option.some.injEq, Prod.mk.injEq, decide_eq_true_eq] at h
            obtain ⟨hret, hs2⟩ := h
            subst hret hs2
            apply map_descend_ok hps (by omega) hpre hi hc2 hg
            intro hpreC
            apply hrec m rfl v _ pa _ c sA s2 hpreC _ (by omega) hr
            rw [← pow_level_shift_succ]
            have := Nat.mod_lt a hB
            omega
  · simp at h
  · -- the leaf branch
    simp only [Option.some.injEq, Prod.mk.injEq, true_and] at h
    have hC' : a % 2 ^ level_shift ps n = 0 ∧ pa % 2 ^ level_shift ps n = 0 ∧
        chunk_size (level_shift ps n) a size = 2 ^ level_shift ps n := by
      refine ⟨?_, ?_, ?_⟩
      · by_contra hc; exact hC (Or.inl (Or.inl hc))
      · by_contra hc; exact hC (Or.inl (Or.inr hc))
      · by_contra hc; exact hC (Or.inr (Or.inl hc))
    obtain ⟨ha, hpa, hch⟩ := hC'
    rw [hch]
    have hzero : s.mem t (a / 2 ^ level_shift ps n) = 0 := by
      by_contra hc; exact hnz hc
    exact map_store_ok hps hattr hpre (by omega) ha hpa hzero h.symm

/-- A successful run of the loop of `arm64_mmu_map_pt`. -/
theorem map_loop_ok {cfg : Config} {ps n cnt t attrs : Nat}
    {recurse : Nat → Nat → Nat → Nat → Nat → Nat → State → Option (Int × State)}
    (hps : 12 ≤ ps) (hps2 : ps ≤ 30) (hattr : desc_type attrs = 0)
    (hspan : cnt * 2 ^ level_shift ps n ≤ 2 ^ 48)
    (hrec : ∀ m, n = m + 1 → MapRec ps attrs m recurse) :
    ∀ (fuel v a pa size : Nat) (s s' : State), size ≤ fuel →
      Pre ps n cnt t s → a + size ≤ cnt * 2 ^ level_shift ps n → pa + size ≤ 2 ^ 64 →
      (n = 0 → 2 ^ ps ∣ a ∧ 2 ^ ps ∣ pa ∧ 2 ^ ps ∣ size) →
      map_loop cfg recurse attrs (level_shift ps n) ps t fuel v a pa size s = some (none, s') →
      Step ps n cnt t s s' ∧ Mapped ps n cnt t a pa size attrs s s' := by
  intro fuel
  induction fuel with
  | zero =>
    intro v a pa size s s' hfuel hpre _ _ _ h
    have hsz : size = 0 := by omega
    subst hsz
    simp only [map_loop, if_true, Option.some.injEq, Prod.mk.injEq, true_and] at h
    subst h
    exact ⟨Step.refl hpre, Mapped.nil⟩
  | succ fuel ih =>
    intro v a pa size s s' hfuel hpre hrange hpasz halign h
    by_cases hsz : size = 0
    · subst hsz
      simp only [map_loop, if_true, Option.some.injEq, Prod.mk.injEq, true_and] at h
      subst h
      exact ⟨Step.refl hpre, Mapped.nil⟩
    · have hcnt : 0 < cnt := by
        rcases Nat.eq_zero_or_pos cnt with h0 | h0
        · subst h0; omega
        · exact h0
      have hls := level_shift_le_of_span hcnt hspan
      rw [map_loop_succ _ _ _ _ _ _ _ _ _ _ _ _ hsz (by omega)] at h
      have hc1 := chunk_size_le_size (level_shift ps n) a size
      have hc0 := chunk_size_pos (level_shift ps n) a size hsz
      cases hst : map_step cfg recurse attrs (level_shift ps n) ps t v a pa size s with
      | none => simp [hst] at h
      | some r =>
        obtain ⟨b, s1⟩ := r
        cases b with
        | false => simp [hst] at h
        | true =>
          simp only [hst] at h
          obtain ⟨hstep1, hmap1⟩ :=
            map_step_ok hps hps2 hattr hspan hpre hrange hsz hpasz halign hrec hst
          split_ifs at h with hrest
          · simp only [Option.some.injEq, Prod.mk.injEq, true_and] at h
            subst h
            have : chunk_size (level_shift ps n) a size = size := by omega
            rw [this] at hmap1
            exact ⟨hstep1, hmap1⟩
          · have h48 : cnt * 2 ^ level_shift ps n < 2 ^ 64 := by
              norm_num at hspan ⊢; omega
            rw [Nat.mod_eq_of_lt (a := a + _) (by norm_num at h48 ⊢; omega),
              Nat.mod_eq_of_lt (a := pa + _) (by
                have : pa + chunk_size (level_shift ps n) a size < pa + size := by omega
                norm_num at hpasz ⊢; omega)] at h
            have hpre1 := Step.pre hpre hstep1
            obtain ⟨hstep2, hmap2⟩ := ih _ _ _ _ s1 s' (by omega) hpre1 (by omega) (by omega)
              (by
                intro hn
                obtain ⟨ha, hpa, hsize⟩ := halign hn
                have hch : 2 ^ ps ∣ chunk_size (level_shift ps n) a size := by
                  subst hn
                  rw [level_shift_zero]
                  have ha' := Nat.mod_eq_zero_of_dvd ha
                  have hle : 2 ^ ps ≤ size := Nat.le_of_dvd (by omega) hsize
                  unfold chunk_size
                  rw [ha', Nat.sub_zero, Nat.min_eq_right hle]
                exact ⟨Nat.dvd_add ha hch, Nat.dvd_add hpa hch, Nat.dvd_sub' hsize hch⟩) h
            exact ⟨Step.trans hpre hstep1 hstep2, Mapped.append hc1 hrange hmap1 hmap2⟩

end Arm64Mmu

namespace Arm64Mmu

/-- The alignment test at the entry of `arm64_mmu_map_pt`. -/
theorem align_check_iff (a pa size ps : Nat) :
    ¬ ((a ||| pa ||| size) &&& ((1 <<< ps) - 1) ≠ 0) ↔
      2 ^ ps ∣ a ∧ 2 ^ ps ∣ pa ∧ 2 ^ ps ∣ size := by
  rw [Nat.one_shiftLeft, Nat.and_pow_two_sub_one_eq_mod, or_mod_ne_zero_iff, or_mod_ne_zero_iff]
  simp only [Nat.dvd_iff_mod_eq_zero]
  tauto

/-- A successful `arm64_mmu_map_pt` on a table with `n` levels below it. -/
theorem map_pt_ok {cfg : Config} {ps attrs asid : Nat}
    (hps : 12 ≤ ps) (hps2 : ps ≤ 30) (hattr : desc_type attrs = 0) :
    ∀ (n fuel cnt t v a pa size : Nat) (s s' : State), n < fuel → 0 < cnt →
      cnt * 2 ^ level_shift ps n ≤ 2 ^ 48 →
      Pre ps n cnt t s → a + size ≤ cnt * 2 ^ level_shift ps n → pa + size ≤ 2 ^ 64 →
      arm64_mmu_map_pt cfg fuel v a pa size attrs (level_shift ps n) ps t asid s =
        some (0, s') →
      Step ps n cnt t s s' ∧ Mapped ps n cnt t a pa size attrs s s' := by
  intro n
  induction n with
  | zero =>
    intro fuel cnt t v a pa size s s' hfuel hcnt hspan hpre hrange hpasz h
    cases fuel with
    | zero => omega
    | succ fuel =>
      rw [arm64_mmu_map_pt] at h
      split_ifs at h with h64 hal
      · simp [ERR_INVALID_ARGS] at h
      · have hal' := (align_check_iff a pa size ps).mp hal
        split at h
        · simp at h
        · rename_i s1 hloop
          simp only [Option.some.injEq, Prod.mk.injEq, true_and] at h
          subst h
          exact map_loop_ok hps hps2 hattr hspan (fun m hm => by omega) _ _ _ _ _ _ _
            (le_refl _) hpre hrange hpasz (fun _ => hal') hloop
        · split at h
          · simp at h
          · simp [ERR_GENERIC] at h
  | succ n ih =>
    intro fuel cnt t v a pa size s s' hfuel hcnt hspan hpre hrange hpasz h
    cases fuel with
    | zero => omega
    | succ fuel =>
      rw [arm64_mmu_map_pt] at h
      split_ifs at h with h64 hal
      · simp [ERR_INVALID_ARGS] at h
      · split at h
        · simp at h
        · rename_i s1 hloop
          simp only [Option.some.injEq, Prod.mk.injEq, true_and] at h
          subst h
          refine map_loop_ok hps hps2 hattr hspan ?_ _ _ _ _ _ _ _
            (le_refl _) hpre hrange hpasz (fun hn => by omega) hloop
          intro m hm
          have hmn : m = n := by omega
          subst hmn
          intro v' vr pa' sz c st st' hpc hr hp hrun
          refine ih fuel (entries ps) c v' vr pa' sz st st' (by omega)
            (Nat.pow_pos (by norm_num)) ?_ hpc hr hp hrun
          rw [← pow_level_shift_succ]
          have : 2 ^ level_shift ps (m + 1) ≤ cnt * 2 ^ level_shift ps (m + 1) :=
            Nat.le_mul_of_pos_left _ hcnt
          omega
        · split at h
          · simp at h
          · simp [ERR_GENERIC] at h

end Arm64Mmu

namespace Arm64Mmu

/-! ## `arch_mmu_query` is the walk of the tree -/

/-- The leaf values the loop of `arch_mmu_query` reports. -/
theorem query_loop_eq_lookup {ps : Nat} (hps : 12 ≤ ps) (s : State) :
    ∀ (n fuel cnt t r : Nat), n < fuel → cnt ≤ 2 ^ 32 → cnt * 2 ^ level_shift ps n ≤ 2 ^ 48 →
      WFT s.mem ps n cnt t → r < cnt * 2 ^ level_shift ps n →
      query_loop ps fuel (level_shift ps n) t r s =
        some ((lookup s.mem ps n t r).map fun x => (x.1, out_addr x.1, x.2.1)) := by
  intro n
  induction n with
  | zero =>
    intro fuel cnt t r hfuel hcnt hspan hwf hr
    cases fuel with
    | zero => omega
    | succ fuel =>
      have hcpos : 0 < cnt := by
        rcases Nat.eq_zero_or_pos cnt with h0 | h0
        · subst h0; omega
        · exact h0
      have hls := level_shift_le_of_span hcpos hspan
      rw [level_shift_zero] at hls hr hspan
      have hB : 0 < 2 ^ ps := Nat.pow_pos (by norm_num)
      have hidx : r / 2 ^ ps < cnt := index_lt_of_lt hB hr
      have hidx32 : (r >>> ps) % 2 ^ 32 = r / 2 ^ ps := by
        rw [Nat.shiftRight_eq_div_pow]
        exact Nat.mod_eq_of_lt (by omega)
      have hrem : sub64 r ((r / 2 ^ ps) <<< ps % 2 ^ 64) = r % 2 ^ ps := by
        rw [Nat.shiftLeft_eq]
        have h1 := Nat.div_add_mod r (2 ^ ps)
        have h2 : r / 2 ^ ps * 2 ^ ps = 2 ^ ps * (r / 2 ^ ps) := Nat.mul_comm _ _
        have h3 : r < 2 ^ 64 := by norm_num at hspan ⊢; omega
        rw [Nat.mod_eq_of_lt (by omega), sub64_of_le _ _ (by omega) h3]
        omega
      rw [level_shift_zero, query_loop]
      simp only [hidx32, hrem]
      rw [if_neg (by omega)]
      simp only [lookup]
      have hnot : ¬ ps > ps := by omega
      simp only [hnot, if_false]
      rcases hwf _ hidx with hz | hp
      · rw [hz]
        simp [MMU_PTE_DESCRIPTOR_MASK, MMU_PTE_DESCRIPTOR_INVALID, desc_type,
          MMU_PTE_L3_DESCRIPTOR_PAGE]
      · unfold desc_type at hp
        simp only [hp, desc_type]
        simp [MMU_PTE_L3_DESCRIPTOR_PAGE, MMU_PTE_DESCRIPTOR_INVALID, out_addr]
  | succ n ih =>
    intro fuel cnt t r hfuel hcnt hspan hwf hr
    cases fuel with
    | zero => omega
    | succ fuel =>
      have hcpos : 0 < cnt := by
        rcases Nat.eq_zero_or_pos cnt with h0 | h0
        · subst h0; omega
        · exact h0
      have hls := level_shift_le_of_span hcpos hspan
      have hB : 0 < 2 ^ level_shift ps (n + 1) := Nat.pow_pos (by norm_num)
      have hidx : r / 2 ^ level_shift ps (n + 1) < cnt := index_lt_of_lt hB hr
      have hidx32 : (r >>> level_shift ps (n + 1)) % 2 ^ 32 = r / 2 ^ level_shift ps (n + 1) := by
        rw [Nat.shiftRight_eq_div_pow]
        exact Nat.mod_eq_of_lt (by omega)
      have hrem : sub64 r ((r / 2 ^ level_shift ps (n + 1)) <<< level_shift ps (n + 1) % 2 ^ 64) =
          r % 2 ^ level_shift ps (n + 1) := by
        rw [Nat.shiftLeft_eq]
        have h1 := Nat.div_add_mod r (2 ^ level_shift ps (n + 1))
        have h2 : r / 2 ^ level_shift ps (n + 1) * 2 ^ level_shift ps (n + 1) =
            2 ^ level_shift ps (n + 1) * (r / 2 ^ level_shift ps (n + 1)) := Nat.mul_comm _ _
        have h3 : r < 2 ^ 64 := by norm_num at hspan ⊢; omega
        rw [Nat.mod_eq_of_lt (by omega), sub64_of_le _ _ (by omega) h3]
        omega
      have hgt : level_shift ps (n + 1) > ps :=
        (level_shift_gt_iff ps (n + 1) (by omega)).mpr (by omega)
      rw [query_loop]
      simp only [hidx32, hrem]
      rw [if_neg (by omega)]
      simp only [lookup, hgt, if_true]
      rcases hwf.1 _ hidx with hz | hb | ht
      · rw [hz]
        simp [MMU_PTE_DESCRIPTOR_MASK, MMU_PTE_DESCRIPTOR_INVALID, desc_type,
          MMU_PTE_L012_DESCRIPTOR_BLOCK, MMU_PTE_L012_DESCRIPTOR_TABLE]
      · unfold desc_type at hb
        simp only [hb, desc_type]
        simp [MMU_PTE_L012_DESCRIPTOR_BLOCK, MMU_PTE_DESCRIPTOR_INVALID, out_addr]
      · have ht' := ht
        unfold desc_type at ht'
        simp only [ht', desc_type]
        rw [if_neg (by decide), if_neg (by decide), if_neg (by omega), if_neg (by decide),
          if_pos trivial, sub32_level ps n (by omega) (by norm_num; omega)]
        have hchild := (hwf.2.1 _ hidx ht).2
        have := ih fuel (entries ps) (out_addr (s.mem t (r / 2 ^ level_shift ps (n + 1))))
          (r % 2 ^ level_shift ps (n + 1)) (by omega)
          (by unfold entries
              have h1 := level_shift_succ ps n
              have h2 : ps ≤ level_shift ps n := by unfold level_shift; omega
              exact Nat.pow_le_pow_right (by norm_num) (by omega))
          (by rw [← pow_level_shift_succ]
              have : 2 ^ level_shift ps (n + 1) ≤ cnt * 2 ^ level_shift ps (n + 1) :=
                Nat.le_mul_of_pos_left _ hcpos
              omega)
          hchild (by rw [← pow_level_shift_succ]; exact Nat.mod_lt _ hB)
        unfold out_addr at this
        exact this

end Arm64Mmu

namespace Arm64Mmu

/-! ## The translation regime of an address space -/

theorem Config.WF.ps_bounds {cfg : Config} (h : cfg.WF) :
    12 ≤ cfg.PAGE_SIZE_SHIFT ∧ cfg.PAGE_SIZE_SHIFT ≤ 30 := by
  obtain ⟨⟨_, _, h1, h2⟩, _, _⟩ := h
  exact ⟨h1, h2⟩

theorem Config.WF.top_shift_eq {cfg : Config} (h : cfg.WF) (a : Aspace) :
    cfg.top_shift a = level_shift cfg.PAGE_SIZE_SHIFT (cfg.height a) := by
  obtain ⟨⟨_, _, h1, h2⟩, ⟨k1, k2, _⟩, ⟨u1, u2, _⟩⟩ := h
  unfold Config.height level_shift
  have key : ∀ T, cfg.PAGE_SIZE_SHIFT ≤ T →
      (T - cfg.PAGE_SIZE_SHIFT) % (cfg.PAGE_SIZE_SHIFT - 3) = 0 →
      T = cfg.PAGE_SIZE_SHIFT +
        (T - cfg.PAGE_SIZE_SHIFT) / (cfg.PAGE_SIZE_SHIFT - 3) * (cfg.PAGE_SIZE_SHIFT - 3) := by
    intro T hT hm
    rw [Nat.div_mul_cancel (Nat.dvd_of_mod_eq_zero hm)]
    omega
  unfold Config.top_shift
  split_ifs
  · exact key _ k1 k2
  · exact key _ u1 u2

theorem Config.WF.shifts {cfg : Config} (h : cfg.WF) (a : Aspace) :
    cfg.top_shift a < cfg.size_shift a ∧ cfg.size_shift a ≤ 48 ∧
      cfg.size_shift a ≤ cfg.top_shift a + (cfg.PAGE_SIZE_SHIFT - 3) := by
  obtain ⟨_, ⟨_, _, k3, k4, k5⟩, ⟨_, _, u3, u4, u5⟩⟩ := h
  unfold Config.top_shift Config.size_shift
  split_ifs
  · exact ⟨k3, k4, k5⟩
  · exact ⟨u3, u4, u5⟩

theorem Config.WF.span {cfg : Config} (h : cfg.WF) (a : Aspace) :
    cfg.entries_top a * 2 ^ level_shift cfg.PAGE_SIZE_SHIFT (cfg.height a) =
      2 ^ cfg.size_shift a := by
  rw [← h.top_shift_eq a]
  unfold Config.entries_top
  rw [← Nat.pow_add]
  congr 1
  have := (h.shifts a).1
  omega

theorem Config.WF.span_le {cfg : Config} (h : cfg.WF) (a : Aspace) :
    cfg.entries_top a * 2 ^ level_shift cfg.PAGE_SIZE_SHIFT (cfg.height a) ≤ 2 ^ 48 := by
  rw [h.span a]
  exact Nat.pow_le_pow_right (by norm_num) (h.shifts a).2.1

theorem Config.WF.entries_top_le {cfg : Config} (h : cfg.WF) (a : Aspace) :
    cfg.entries_top a ≤ 2 ^ 32 ∧ 0 < cfg.entries_top a := by
  unfold Config.entries_top
  refine ⟨Nat.pow_le_pow_right (by norm_num) ?_, Nat.pow_pos (by norm_num)⟩
  have := h.shifts a
  have := h.ps_bounds
  omega

theorem Config.WF.page_shift {cfg : Config} (h : cfg.WF) (a : Aspace) :
    (if a.kernel then cfg.MMU_KERNEL_PAGE_SIZE_SHIFT else cfg.MMU_USER_PAGE_SIZE_SHIFT) =
      cfg.PAGE_SIZE_SHIFT := by
  obtain ⟨⟨h1, h2, _⟩, _, _⟩ := h
  split_ifs
  · exact h1
  · exact h2

/-- The relative address `vaddr - vaddr_base` of an address of the window. -/
theorem rel_lt {cfg : Config} {a : Aspace} {vaddr : Nat} (hcfg : cfg.WF) (ha : a.WF cfg)
    (hv : is_valid_vaddr a vaddr = true) :
    cfg.window_base a ≤ vaddr ∧ vaddr - cfg.window_base a < 2 ^ cfg.size_shift a ∧
      vaddr < 2 ^ 64 := by
  have hw := Aspace.WF.window cfg a hcfg ha
  have hin := (is_valid_vaddr_iff a vaddr ha.2.1 (by omega)).mp hv
  unfold Config.window_end at hw
  omega

theorem Pre.of_tree {cfg : Config} {a : Aspace} {s : State} {top : Nat}
    (htop : a.tt_virt = some top) (ht : TreeWF cfg a s) (hp : AllocOK a s) :
    Pre cfg.PAGE_SIZE_SHIFT (cfg.height a) (cfg.entries_top a) top s := by
  obtain ⟨top', htop', hwf, hnd, _, hlive⟩ := ht
  obtain ⟨top'', htop'', hpn, hpf⟩ := hp
  rw [htop] at htop' htop''
  cases htop'
  cases htop''
  exact ⟨hwf, fun x hx => (hlive x).mpr hx, hnd, hpn, hpf⟩

theorem TreeWF.of_step {cfg : Config} {a : Aspace} {s s' : State} {top : Nat}
    (htop : a.tt_virt = some top) (ht : TreeWF cfg a s) (hp : AllocOK a s)
    (hs : Step cfg.PAGE_SIZE_SHIFT (cfg.height a) (cfg.entries_top a) top s s') :
    TreeWF cfg a s' := by
  have hpre := Pre.of_tree htop ht hp
  obtain ⟨top', htop', hwf, hnd, hnl, hlive⟩ := ht
  rw [htop] at htop'
  cases htop'
  refine ⟨top, htop, hs.wf, hs.nodup, ?_, ?_⟩
  · intro hl
    rcases (hs.live top).mp hl with ⟨h1, _⟩ | h2
    · exact hnl h1
    · exact Pre.not_desc_self hs.wf h2
  · intro p
    rw [hs.live p]
    constructor
    · rintro (⟨h1, h2⟩ | h2)
      · exact absurd ((hlive p).mp h1) h2
      · exact h2
    · exact fun h => Or.inr h

end Arm64Mmu

namespace Arm64Mmu

/-! ## The public entry points in terms of the walk and of `arm64_mmu_map_pt` -/

theorem window_base_eq {cfg : Config} (hcfg : cfg.WF) (a : Aspace) (hk : a.kernel) :
    ((2 ^ 64 - 1) <<< cfg.MMU_KERNEL_SIZE_SHIFT) % 2 ^ 64 = cfg.window_base a := by
  have := hcfg.shifts a
  simp only [Config.size_shift, hk, if_true] at this
  rw [kernel_base_eq _ (by omega)]
  simp [Config.window_base, hk]

/-- On a well-formed tree `arch_mmu_query` reports the leaf found by the walk
from the top-level table. -/
theorem arch_mmu_query_eq {cfg : Config} {a : Aspace} {s : State} {top vaddr : Nat}
    (hcfg : cfg.WF) (ha : a.WF cfg) (htop : a.tt_virt = some top)
    (hwf : WFT s.mem cfg.PAGE_SIZE_SHIFT (cfg.height a) (cfg.entries_top a) top)
    (hv : is_valid_vaddr a vaddr = true) (wp wf : Bool) :
    arch_mmu_query cfg a vaddr wp wf s =
      query_of_leaf wp wf
        (lookup s.mem cfg.PAGE_SIZE_SHIFT (cfg.height a) top (vaddr - cfg.window_base a)) := by
  obtain ⟨hb, hrel, hv64⟩ := rel_lt hcfg ha hv
  have hsh := hcfg.shifts a
  have hps := hcfg.ps_bounds
  have hts := hcfg.top_shift_eq a
  have hspan := hcfg.span a
  have hloop := query_loop_eq_lookup hps.1 s (cfg.height a) (cfg.top_shift a + 1)
    (cfg.entries_top a) top (vaddr - cfg.window_base a)
    (by rw [hts]
        have : cfg.height a ≤ level_shift cfg.PAGE_SIZE_SHIFT (cfg.height a) := by
          unfold level_shift
          have : cfg.height a * 1 ≤ cfg.height a * (cfg.PAGE_SIZE_SHIFT - 3) :=
            Nat.mul_le_mul_left _ (by omega)
          omega
        omega)
    (hcfg.entries_top_le a).1 (hcfg.span_le a) hwf (by rw [hspan]; exact hrel)
  rw [← hts] at hloop
  have hidx : ((vaddr - cfg.window_base a) >>> cfg.top_shift a) % 2 ^ 32 < cfg.entries_top a := by
    rw [Nat.shiftRight_eq_div_pow]
    have h1 : (vaddr - cfg.window_base a) / 2 ^ cfg.top_shift a < cfg.entries_top a := by
      apply index_lt_of_lt (Nat.pow_pos (by norm_num))
      rw [hts, hspan]; exact hrel
    have := (hcfg.entries_top_le a).1
    rw [Nat.mod_eq_of_lt (by omega)]
    exact h1
  unfold arch_mmu_query
  simp only [hv, Bool.not_true, Bool.false_eq_true, if_false, htop]
  by_cases hk : a.kernel
  · have hk' : a.flags &&& ARCH_ASPACE_FLAG_KERNEL ≠ 0 := hk
    have hpsk := hcfg.page_shift a
    simp only [hk, if_true] at hpsk
    simp only [Config.size_shift, Config.top_shift, hk, if_true] at hsh hloop hidx
    have hE : cfg.MMU_KERNEL_PAGE_TABLE_ENTRIES_TOP = cfg.entries_top a := by
      simp [Config.MMU_KERNEL_PAGE_TABLE_ENTRIES_TOP, Config.entries_top, Config.size_shift,
        Config.top_shift, hk]
    simp only [if_pos hk', hpsk, window_base_eq hcfg a hk, sub64_of_le _ _ hb hv64, hE]
    rw [if_neg (by omega), if_neg (by omega), hloop]
    cases lookup s.mem cfg.PAGE_SIZE_SHIFT (cfg.height a) top (vaddr - cfg.window_base a) with
    | none => rfl
    | some x => rfl
  · have hk' : ¬ (a.flags &&& ARCH_ASPACE_FLAG_KERNEL ≠ 0) := hk
    have hpsk := hcfg.page_shift a
    simp only [hk, if_false] at hpsk
    have hwb : cfg.window_base a = 0 := by simp [Config.window_base, hk]
    simp only [Config.size_shift, Config.top_shift, hk, if_false] at hsh hloop hidx
    rw [hwb, Nat.sub_zero] at hloop hidx ⊢
    have hE : cfg.MMU_USER_PAGE_TABLE_ENTRIES_TOP = cfg.entries_top a := by
      simp [Config.MMU_USER_PAGE_TABLE_ENTRIES_TOP, Config.entries_top, Config.size_shift,
        Config.top_shift, hk]
    simp only [if_neg hk', hpsk, hE]
    rw [if_neg (by omega), if_neg (by omega), hloop]
    cases lookup s.mem cfg.PAGE_SIZE_SHIFT (cfg.height a) top vaddr with
    | none => rfl
    | some x => rfl

end Arm64Mmu

namespace Arm64Mmu

theorem range_check_pass {rel size M : Nat} (hM : M < 2 ^ 64)
    (h : ¬ (rel > sub64 M size ∨ size > M)) : rel + size ≤ M := by
  have h1 : ¬ size > M := fun hc => h (Or.inr hc)
  have h2 : ¬ rel > sub64 M size := fun hc => h (Or.inl hc)
  rw [sub64_of_le M size (by omega) hM] at h2
  omega

theorem arm64_mmu_map_inv {cfg : Config} {vaddr paddr size attrs vbase tss tis ps top asid : Nat}
    {s s' : State} {ret : Int} (htss : tss ≤ 48) (hb : vbase ≤ vaddr) (hv : vaddr < 2 ^ 64)
    (h : arm64_mmu_map cfg vaddr paddr size attrs vbase tss tis ps (some top) asid s =
      some (ret, s')) :
    (s' = s ∧ ret = ERR_INVALID_ARGS) ∨
    ((vaddr - vbase) + size ≤ 2 ^ tss ∧ ∃ s1,
      arm64_mmu_map_pt cfg (tis + 1) vaddr (vaddr - vbase) paddr size attrs tis ps top asid s =
        some (ret, s1) ∧ s' = emit Event.dsb s1) := by
  unfold arm64_mmu_map at h
  rw [if_neg (by omega)] at h
  simp only [Nat.one_shiftLeft, sub64_of_le _ _ hb hv] at h
  have h48 : (2:Nat) ^ tss ≤ 2 ^ 48 := Nat.pow_le_pow_right (by norm_num) htss
  split_ifs at h with hr
  · simp only [Option.some.injEq, Prod.mk.injEq] at h
    exact Or.inl ⟨h.2.symm, h.1.symm⟩
  · right
    refine ⟨range_check_pass (by norm_num at h48 ⊢; omega) hr, ?_⟩
    split at h
    · simp at h
    · rename_i r1 s1 hpt
      simp only [Option.some.injEq, Prod.mk.injEq] at h
      obtain ⟨h1, h2⟩ := h
      subst h1
      exact ⟨s1, hpt, h2.symm⟩

theorem arm64_mmu_unmap_inv {vaddr size vbase tss tis ps top asid : Nat}
    {s s' : State} {ret : Int} (htss : tss ≤ 48) (hb : vbase ≤ vaddr) (hv : vaddr < 2 ^ 64)
    (h : arm64_mmu_unmap vaddr size vbase tss tis ps (some top) asid s = some (ret, s')) :
    (s' = s ∧ ret = ERR_INVALID_ARGS) ∨
    ((vaddr - vbase) + size ≤ 2 ^ tss ∧ ret = 0 ∧ ∃ s1,
      arm64_mmu_unmap_pt (tis + 1) vaddr (vaddr - vbase) size tis ps top asid s = some s1 ∧
      s' = emit Event.dsb s1) := by
  unfold arm64_mmu_unmap at h
  rw [if_neg (by omega)] at h
  simp only [Nat.one_shiftLeft, sub64_of_le _ _ hb hv] at h
  have h48 : (2:Nat) ^ tss ≤ 2 ^ 48 := Nat.pow_le_pow_right (by norm_num) htss
  split_ifs at h with hr
  · simp only [Option.some.injEq, Prod.mk.injEq] at h
    exact Or.inl ⟨h.2.symm, h.1.symm⟩
  · right
    refine ⟨range_check_pass (by norm_num at h48 ⊢; omega) hr, ?_⟩
    split at h
    · simp at h
    · rename_i s1 hpt
      simp only [Option.some.injEq, Prod.mk.injEq] at h
      obtain ⟨h1, h2⟩ := h
      exact ⟨h1.symm, s1, hpt, h2.symm⟩

/-- What a returning `arch_mmu_map` has done: either it refused its arguments
(or `count` is zero) without touching the state, or it ran `arm64_mmu_map_pt`
on the top-level table for the range, which lies inside the translation
window. -/
theorem arch_mmu_map_inv {cfg : Config} {a : Aspace} {s s' : State}
    {top vaddr paddr count flags : Nat} {ret : Int}
    (hcfg : cfg.WF) (ha : a.WF cfg) (htop : a.tt_virt = some top)
    (h : arch_mmu_map cfg a vaddr paddr count flags s = some (ret, s')) :
    (s' = s ∧ (ret = ERR_OUT_OF_RANGE ∨ ret = ERR_INVALID_ARGS ∨ (ret = NO_ERROR ∧ count = 0))) ∨
    (is_valid_vaddr a vaddr = true ∧ cfg.PAGE_SIZE ∣ vaddr ∧ cfg.PAGE_SIZE ∣ paddr ∧
      paddr &&& MMU_PTE_OUTPUT_ADDR_MASK_COMPL = 0 ∧ count ≠ 0 ∧
      (vaddr - cfg.window_base a) + cfg.byte_count count ≤ 2 ^ cfg.size_shift a ∧
      ∃ s1, arm64_mmu_map_pt cfg (cfg.top_shift a + 1) vaddr (vaddr - cfg.window_base a) paddr
          (cfg.byte_count count) (Config.attrs a flags) (cfg.top_shift a) cfg.PAGE_SIZE_SHIFT
          top a.tlb_asid s = some (ret, s1) ∧
        s'.mem = s1.mem ∧ s'.live = s1.live ∧ s'.pool = s1.pool) := by
  unfold arch_mmu_map at h
  by_cases hv : is_valid_vaddr a vaddr = true
  swap
  · have hv' : is_valid_vaddr a vaddr = false := by
      cases hh : is_valid_vaddr a vaddr with
      | false => rfl
      | true => exact absurd hh hv
    simp only [hv', Bool.not_false, if_true, Option.some.injEq, Prod.mk.injEq] at h
    exact Or.inl ⟨h.2.symm, Or.inl h.1.symm⟩
  simp only [hv, Bool.not_true, Bool.false_eq_true, if_false] at h
  obtain ⟨hb, hrel, hv64⟩ := rel_lt hcfg ha hv
  have hsh := hcfg.shifts a
  split_ifs at h with h1 h2 h3 h4 h5
  · simp only [Option.some.injEq, Prod.mk.injEq] at h
    exact Or.inl ⟨h.2.symm, Or.inr (Or.inl h.1.symm)⟩
  · simp only [Option.some.injEq, Prod.mk.injEq] at h
    exact Or.inl ⟨h.2.symm, Or.inr (Or.inl h.1.symm)⟩
  · simp only [Option.some.injEq, Prod.mk.injEq] at h
    exact Or.inl ⟨h.2.symm, Or.inr (Or.inr ⟨h.1.symm, h3⟩)⟩
  · -- kernel
    have hk : a.kernel := h4
    have hal : cfg.PAGE_SIZE ∣ vaddr ∧ cfg.PAGE_SIZE ∣ paddr := by
      simp only [Bool.or_eq_true, Bool.not_eq_true', not_or, Bool.not_eq_false] at h1
      exact ⟨(is_page_aligned_iff cfg vaddr).mp h1.1, (is_page_aligned_iff cfg paddr).mp h1.2⟩
    have hpa : paddr &&& MMU_PTE_OUTPUT_ADDR_MASK_COMPL = 0 := by
      by_contra hc; exact h2 hc
    rw [window_base_eq hcfg a hk, htop] at h
    have hpsk := hcfg.page_shift a
    simp only [hk, if_true] at hpsk
    simp only [Config.size_shift, Config.top_shift, Config.attrs, Aspace.tlb_asid, hk, if_true]
      at hsh ⊢
    rcases arm64_mmu_map_inv hsh.2.1 hb hv64 h with ⟨e1, e2⟩ | ⟨hr, s1, hpt, hs'⟩
    · exact Or.inl ⟨e1, Or.inr (Or.inl e2)⟩
    · right
      rw [hpsk] at hpt
      refine ⟨hv, hal.1, hal.2, hpa, h3, hr, s1, hpt, ?_⟩
      rw [hs']
      exact ⟨rfl, rfl, rfl⟩
  · -- user
    have hk : ¬ a.kernel := h4
    have hal : cfg.PAGE_SIZE ∣ vaddr ∧ cfg.PAGE_SIZE ∣ paddr := by
      simp only [Bool.or_eq_true, Bool.not_eq_true', not_or, Bool.not_eq_false] at h1
      exact ⟨(is_page_aligned_iff cfg vaddr).mp h1.1, (is_page_aligned_iff cfg paddr).mp h1.2⟩
    have hpa : paddr &&& MMU_PTE_OUTPUT_ADDR_MASK_COMPL = 0 := by
      by_contra hc; exact h2 hc
    have hwb : cfg.window_base a = 0 := by simp [Config.window_base, hk]
    rw [htop] at h
    have hpsk := hcfg.page_shift a
    simp only [hk, if_false] at hpsk
    simp only [Config.size_shift, Config.top_shift, Config.attrs, Aspace.tlb_asid, hk, if_false]
      at hsh ⊢
    rw [hwb] at hb ⊢
    split at h
    · simp at h
    · rename_i r1 s2 hm
      simp only [Option.some.injEq, Prod.mk.injEq, arm64_tlbflush_same] at h
      obtain ⟨e1, e2⟩ := h
      subst e1 e2
      rcases arm64_mmu_map_inv hsh.2.1 hb hv64 hm with ⟨e1, e2⟩ | ⟨hr, s1, hpt, hs'⟩
      · exact Or.inl ⟨e1, Or.inr (Or.inl e2)⟩
      · right
        rw [hpsk] at hpt
        refine ⟨hv, hal.1, hal.2, hpa, h3, hr, s1, hpt, ?_⟩
        rw [hs']
        exact ⟨rfl, rfl, rfl⟩

end Arm64Mmu

namespace Arm64Mmu

/-! ## Attribute words and physical addresses accepted by `arch_mmu_map` -/

theorem and_mod_64 (flags m : Nat) (hm : 63 &&& m = m) : flags % 64 &&& m = flags &&& m := by
  have h : flags % 64 = flags &&& 63 := by
    have := Nat.and_pow_two_sub_one_eq_mod flags 6
    simpa using this.symm
  rw [h, Nat.and_assoc, hm]

/-- The attribute word depends on the six low bits of the flags only. -/
theorem mmu_flags_to_pte_attr_mod (flags : Nat) :
    mmu_flags_to_pte_attr (flags % 64) = mmu_flags_to_pte_attr flags := by
  unfold mmu_flags_to_pte_attr
  rw [and_mod_64 flags ARCH_MMU_FLAG_CACHE_MASK (by decide),
    and_mod_64 flags (ARCH_MMU_FLAG_PERM_USER ||| ARCH_MMU_FLAG_PERM_RO) (by decide),
    and_mod_64 flags ARCH_MMU_FLAG_PERM_NO_EXECUTE (by decide),
    and_mod_64 flags ARCH_MMU_FLAG_PERM_USER (by decide),
    and_mod_64 flags ARCH_MMU_FLAG_NS (by decide)]

theorem mmu_flags_to_pte_attr_desc_type (flags : Nat) :
    desc_type (mmu_flags_to_pte_attr flags) = 0 := by
  rw [← mmu_flags_to_pte_attr_mod]
  have key : ∀ f, f < 64 → desc_type (mmu_flags_to_pte_attr f) = 0 := by decide!
  exact key _ (Nat.mod_lt _ (by norm_num))

theorem attrs_desc_type (a : Aspace) (flags : Nat) : desc_type (Config.attrs a flags) = 0 := by
  unfold Config.attrs
  split_ifs
  · exact mmu_flags_to_pte_attr_desc_type flags
  · have h := mmu_flags_to_pte_attr_desc_type flags
    unfold desc_type at h ⊢
    rw [Nat.and_distrib_right, h]
    decide

/-- A 64-bit physical address without bits outside the output-address field is
a 4 KiB aligned address below `2^48`. -/
theorem paddr_of_mask {paddr : Nat} (h64 : paddr < 2 ^ 64)
    (h : paddr &&& MMU_PTE_OUTPUT_ADDR_MASK_COMPL = 0) :
    out_addr paddr = paddr ∧ paddr < 2 ^ 48 := by
  have h1 : paddr &&& (2 ^ 64 - 1) = paddr := by
    rw [Nat.and_pow_two_sub_one_eq_mod]; exact Nat.mod_eq_of_lt h64
  have h2 : (2:Nat) ^ 64 - 1 = MMU_PTE_OUTPUT_ADDR_MASK ||| MMU_PTE_OUTPUT_ADDR_MASK_COMPL := by
    decide
  rw [h2, Nat.and_or_distrib_left, h, Nat.or_zero] at h1
  refine ⟨h1, ?_⟩
  have h3 : paddr &&& MMU_PTE_OUTPUT_ADDR_MASK ≤ MMU_PTE_OUTPUT_ADDR_MASK := Nat.and_le_right
  rw [h1] at h3
  unfold MMU_PTE_OUTPUT_ADDR_MASK at h3
  norm_num at h3 ⊢
  omega

theorem byte_count_le (cfg : Config) (count : Nat) :
    cfg.byte_count count ≤ count * cfg.PAGE_SIZE := by
  unfold Config.byte_count
  exact Nat.mod_le _ _

/-- A cleared top-level table with no live frame is a well-formed tree. -/
theorem tree_wf_of_clear {cfg : Config} {a : Aspace} {s : State} {top : Nat}
    (htop : a.tt_virt = some top) (hclear : ∀ i, i < cfg.entries_top a → s.mem top i = 0)
    (hlive : s.live = []) : TreeWF cfg a s := by
  refine ⟨top, htop, WFT_of_clear hclear, by rw [hlive]; exact List.nodup_nil,
    by rw [hlive]; simp, ?_⟩
  intro p
  rw [hlive]
  constructor
  · intro h; simp at h
  · intro h; exact absurd h (Desc_of_clear hclear p)

/-- The footprint and the meaning of a successful descent of `arch_mmu_map`. -/
theorem arch_map_descent_ok {cfg : Config} {a : Aspace} {s s1 : State}
    {top vaddr paddr count flags : Nat}
    (hcfg : cfg.WF) (htop : a.tt_virt = some top) (ht : TreeWF cfg a s) (hp : AllocOK a s)
    (hpa64 : paddr < 2 ^ 64) (hpa : paddr &&& MMU_PTE_OUTPUT_ADDR_MASK_COMPL = 0)
    (hr : (vaddr - cfg.window_base a) + cfg.byte_count count ≤ 2 ^ cfg.size_shift a)
    (hpt : arm64_mmu_map_pt cfg (cfg.top_shift a + 1) vaddr (vaddr - cfg.window_base a) paddr
      (cfg.byte_count count) (Config.attrs a flags) (cfg.top_shift a) cfg.PAGE_SIZE_SHIFT
      top a.tlb_asid s = some (0, s1)) :
    Step cfg.PAGE_SIZE_SHIFT (cfg.height a) (cfg.entries_top a) top s s1 ∧
    Mapped cfg.PAGE_SIZE_SHIFT (cfg.height a) (cfg.entries_top a) top
      (vaddr - cfg.window_base a) paddr (cfg.byte_count count) (Config.attrs a flags) s s1 := by
  have hps := hcfg.ps_bounds
  have hts := hcfg.top_shift_eq a
  have hsh := hcfg.shifts a
  have h48 : (2:Nat) ^ cfg.size_shift a ≤ 2 ^ 48 := Nat.pow_le_pow_right (by norm_num) hsh.2.1
  have hpa48 := (paddr_of_mask hpa64 hpa).2
  rw [hts] at hpt
  apply map_pt_ok hps.1 hps.2 (attrs_desc_type a flags) (cfg.height a) _ (cfg.entries_top a) top
    vaddr _ paddr _ s s1 _ (hcfg.entries_top_le a).2 (hcfg.span_le a) (Pre.of_tree htop ht hp)
    (by rw [hcfg.span a]; exact hr) _ hpt
  · have : cfg.height a ≤ level_shift cfg.PAGE_SIZE_SHIFT (cfg.height a) := by
      unfold level_shift
      have : cfg.height a * 1 ≤ cfg.height a * (cfg.PAGE_SIZE_SHIFT - 3) :=
        Nat.mul_le_mul_left _ (by omega)
      omega
    omega
  · norm_num at h48 hpa48 ⊢
    omega

end Arm64Mmu

namespace Arm64Mmu

/-! ## Facts about the example states -/

theorem tree_wf_zero_state (cfg : Config) (a : Aspace) (top : Nat) (pool : List (Option Nat))
    (htop : a.tt_virt = some top) : TreeWF cfg a (zero_state pool) :=
  tree_wf_of_clear htop (fun _ _ => rfl) rfl

theorem alloc_ok_three_frames : AllocOK user_aspace (zero_state three_frames) := by
  refine ⟨0x80000, rfl, by decide, ?_⟩
  intro p hp
  simp only [zero_state, three_frames, List.mem_cons, Option.some.injEq, List.mem_singleton,
    List.not_mem_nil, or_false] at hp
  rcases hp with rfl | rfl | rfl <;> exact ⟨by simp [zero_state], by decide, by decide⟩

/-! ## Claims on successful maps -/

/-- C2. Frame of a successful map: on a well-formed tree, with an allocator
that hands out fresh table frames, a successful `arch_mmu_map` of
`[vaddr, vaddr + count * PAGE_SIZE)` does not change the result of
`arch_mmu_query` for any address of the window of the address space outside
that range. -/
theorem map_frame (cfg : Config) (a : Aspace) (s s' : State)
    (vaddr paddr count flags v : Nat) (wp wf : Bool)
    (hcfg : cfg.WF) (ha : a.WF cfg) (ht : TreeWF cfg a s) (hp : AllocOK a s)
    (hpa64 : paddr < 2 ^ 64)
    (hmap : arch_mmu_map cfg a vaddr paddr count flags s = some (NO_ERROR, s'))
    (hv : is_valid_vaddr a v = true)
    (hout : ¬ (vaddr ≤ v ∧ v < vaddr + count * cfg.PAGE_SIZE)) :
    arch_mmu_query cfg a v wp wf s' = arch_mmu_query cfg a v wp wf s := by
  obtain ⟨top, htop, hwf, _⟩ := id ht
  rcases arch_mmu_map_inv hcfg ha htop hmap with ⟨hs, _⟩ | ⟨hvv, _, _, hpa, _, hr, s1, hpt, hm, _, _⟩
  · rw [hs]
  · obtain ⟨hstep, hmapped⟩ := arch_map_descent_ok hcfg htop ht hp hpa64 hpa hr hpt
    have hwf' : WFT s'.mem cfg.PAGE_SIZE_SHIFT (cfg.height a) (cfg.entries_top a) top := by
      rw [hm]; exact hstep.wf
    rw [arch_mmu_query_eq hcfg ha htop hwf' hv, arch_mmu_query_eq hcfg ha htop hwf hv, hm]
    obtain ⟨hb, hrel, _⟩ := rel_lt hcfg ha hv
    obtain ⟨hbv, _, _⟩ := rel_lt hcfg ha hvv
    have hbc := byte_count_le cfg count
    rw [hmapped.outside _ (by rw [hcfg.span a]; exact hrel) (by omega)]

/-- Witness of `map_frame`: the concrete scenario of the specification. After
`map(0x1000, 0xAAAA000, 2 pages, CACHED | PERM_RO)` on an empty user address
space the first page after the range, `0x3000`, still queries as
`ERR_NOT_FOUND`. -/
theorem map_frame_witness :
    arch_mmu_query cfg4k user_aspace 0x3000 true true
        (state_after (arch_mmu_map cfg4k user_aspace 0x1000 0xAAAA000 2 8
          (zero_state three_frames)) (zero_state [])) =
      arch_mmu_query cfg4k user_aspace 0x3000 true true (zero_state three_frames) ∧
    arch_mmu_query cfg4k user_aspace 0x3000 true true (zero_state three_frames) =
      some (ERR_NOT_FOUND, none, none) :=
  ⟨map_frame cfg4k user_aspace (zero_state three_frames) _ 0x1000 0xAAAA000 2 8 0x3000 true true
    (by decide) (by decide) (tree_wf_zero_state _ _ 0x80000 _ rfl) alloc_ok_three_frames
    (by decide) rfl (by decide) (by decide), by decide⟩

end Arm64Mmu

namespace Arm64Mmu

/-! ## Decoding the attributes of a leaf entry -/

theorem pte_to_mmu_flags_congr {e e' : Nat}
    (h1 : e &&& MMU_PTE_ATTR_NON_SECURE = e' &&& MMU_PTE_ATTR_NON_SECURE)
    (h2 : e &&& MMU_PTE_ATTR_ATTR_INDEX_MASK = e' &&& MMU_PTE_ATTR_ATTR_INDEX_MASK)
    (h3 : e &&& MMU_PTE_ATTR_AP_MASK = e' &&& MMU_PTE_ATTR_AP_MASK)
    (h4 : e &&& MMU_PTE_ATTR_UXN = e' &&& MMU_PTE_ATTR_UXN)
    (h5 : e &&& MMU_PTE_ATTR_PXN = e' &&& MMU_PTE_ATTR_PXN) :
    pte_to_mmu_flags e = pte_to_mmu_flags e' := by
  unfold pte_to_mmu_flags
  rw [h1, h2, h3, h4, h5]

/-- The bits of a leaf entry outside the output address and the descriptor
type are the attribute bits. -/
theorem leaf_and_mask {x attrs m M : Nat} (hx : out_addr x = x)
    (hM : MMU_PTE_OUTPUT_ADDR_MASK &&& M = 0) (hM1 : 1 &&& M = 0) (hM3 : 3 &&& M = 0) :
    ((x ||| attrs) ||| leaf_type m) &&& M = attrs &&& M := by
  have hxM : x &&& M = 0 := by
    unfold out_addr at hx
    rw [← hx, Nat.and_assoc, hM, Nat.and_zero]
  have hty : leaf_type m &&& M = 0 := by
    unfold leaf_type MMU_PTE_L3_DESCRIPTOR_PAGE MMU_PTE_L012_DESCRIPTOR_BLOCK
    split_ifs
    · exact hM3
    · exact hM1
  rw [Nat.and_distrib_right, Nat.and_distrib_right, hxM, hty]
  simp

theorem leaf_flags {x attrs m : Nat} (hx : out_addr x = x) :
    pte_to_mmu_flags ((x ||| attrs) ||| leaf_type m) = pte_to_mmu_flags attrs :=
  pte_to_mmu_flags_congr
    (leaf_and_mask hx (by decide) (by decide) (by decide))
    (leaf_and_mask hx (by decide) (by decide) (by decide))
    (leaf_and_mask hx (by decide) (by decide) (by decide))
    (leaf_and_mask hx (by decide) (by decide) (by decide))
    (leaf_and_mask hx (by decide) (by decide) (by decide))

theorem leaf_out_addr {x attrs m : Nat} (hx : out_addr x = x) (hattr : out_addr attrs = 0) :
    out_addr ((x ||| attrs) ||| leaf_type m) = x := by
  have hty : out_addr (leaf_type m) = 0 := by
    unfold leaf_type
    split_ifs <;> decide
  unfold out_addr at *
  rw [Nat.and_distrib_right, Nat.and_distrib_right, hx, hattr, hty]
  simp

/-- For a recognised cache mode the attribute word has no output-address bit
and decodes to the flags it was made from, with or without the non-global
bit. -/
theorem attrs_round_trip (a : Aspace) (flags : Nat) (hf : flags < 64)
    (hc : flags &&& ARCH_MMU_FLAG_CACHE_MASK ≠ 3) :
    out_addr (Config.attrs a flags) = 0 ∧ pte_to_mmu_flags (Config.attrs a flags) = some flags := by
  have key : ∀ f, f < 64 → f &&& ARCH_MMU_FLAG_CACHE_MASK ≠ 3 →
      (out_addr (mmu_flags_to_pte_attr f) = 0 ∧
        pte_to_mmu_flags (mmu_flags_to_pte_attr f) = some f) ∧
      (out_addr (mmu_flags_to_pte_attr f ||| MMU_PTE_ATTR_NON_GLOBAL) = 0 ∧
        pte_to_mmu_flags (mmu_flags_to_pte_attr f ||| MMU_PTE_ATTR_NON_GLOBAL) = some f) := by
    decide!
  unfold Config.attrs
  split_ifs
  · exact (key flags hf hc).1
  · exact (key flags hf hc).2

/-- An aligned address below `2^48` is its own output address. -/
theorem out_addr_of_aligned {x : Nat} (h1 : 2 ^ 12 ∣ x) (h2 : x < 2 ^ 48) : out_addr x = x := by
  obtain ⟨k, rfl⟩ := h1
  unfold out_addr
  have hk : k < 2 ^ 36 := by
    norm_num at h2 ⊢; omega
  have hm : MMU_PTE_OUTPUT_ADDR_MASK = 2 ^ 12 * (2 ^ 36 - 1) := by decide
  apply Nat.eq_of_testBit_eq
  intro i
  rw [Nat.testBit_and, hm, Nat.testBit_mul_pow_two, Nat.testBit_mul_pow_two,
    Nat.testBit_two_pow_sub_one]
  by_cases hi : i ≥ 12
  · simp only [hi, decide_True, Bool.true_and]
    by_cases hi2 : i - 12 < 36
    · simp [hi2]
    · simp only [hi2, decide_False, Bool.and_false]
      symm
      apply Nat.testBit_lt_two_pow
      calc k < 2 ^ 36 := hk
        _ ≤ 2 ^ (i - 12) := Nat.pow_le_pow_right (by norm_num) (by omega)
  · simp [hi]

end Arm64Mmu

namespace Arm64Mmu

theorem window_base_aligned {cfg : Config} (hcfg : cfg.WF) (a : Aspace) :
    2 ^ cfg.PAGE_SIZE_SHIFT ∣ cfg.window_base a := by
  unfold Config.window_base
  split_ifs with hk
  · have hsh := hcfg.shifts a
    have hts := hcfg.top_shift_eq a
    have hle : cfg.PAGE_SIZE_SHIFT ≤ cfg.top_shift a := by
      rw [hts]; unfold level_shift; omega
    simp only [Config.size_shift, hk, if_true] at hsh
    exact Nat.dvd_sub' (Nat.pow_dvd_pow 2 (by omega)) (Nat.pow_dvd_pow 2 (by omega))
  · exact Nat.dvd_zero _

/-- C1 (amended). Round trip: on a well-formed tree, with an allocator that
hands out fresh table frames, for flags made of a recognised cache mode and any
of `PERM_USER`, `PERM_RO`, `PERM_NO_EXECUTE`, `NS`, for a virtual range
`[vaddr, vaddr + count * PAGE_SIZE)` inside the window of the address space and
a physical range `[paddr, paddr + count * PAGE_SIZE)` below `2^48`: if
`arch_mmu_map` returns `NO_ERROR` then for every byte offset `off` of the range
`arch_mmu_query(vaddr + off)` returns `NO_ERROR` with the physical address
`paddr + off` and the flags passed to map. -/
theorem map_query_round_trip (cfg : Config) (a : Aspace) (s s' : State)
    (vaddr paddr count flags off : Nat)
    (hcfg : cfg.WF) (ha : a.WF cfg) (ht : TreeWF cfg a s) (hp : AllocOK a s)
    (hf : flags < 64) (hc : flags &&& ARCH_MMU_FLAG_CACHE_MASK ≠ 3)
    (hwin : vaddr + count * cfg.PAGE_SIZE ≤ a.base + a.size)
    (hphys : paddr + count * cfg.PAGE_SIZE ≤ 2 ^ 48)
    (hmap : arch_mmu_map cfg a vaddr paddr count flags s = some (NO_ERROR, s'))
    (hoff : off < count * cfg.PAGE_SIZE) :
    arch_mmu_query cfg a (vaddr + off) true true s' =
      some (NO_ERROR, some (paddr + off), some flags) := by
  obtain ⟨top, htop, hwf, _⟩ := id ht
  have hpa64 : paddr < 2 ^ 64 := by norm_num at hphys ⊢; omega
  rcases arch_mmu_map_inv hcfg ha htop hmap with ⟨_, h1 | h1 | ⟨_, h1⟩⟩ |
      ⟨hvv, hva, hpal, hpa, _, hr, s1, hpt, hm, _, _⟩
  · simp [NO_ERROR, ERR_OUT_OF_RANGE] at h1
  · simp [NO_ERROR, ERR_INVALID_ARGS] at h1
  · subst h1; omega
  · obtain ⟨hstep, hmapped⟩ := arch_map_descent_ok hcfg htop ht hp hpa64 hpa hr hpt
    have hwf' : WFT s'.mem cfg.PAGE_SIZE_SHIFT (cfg.height a) (cfg.entries_top a) top := by
      rw [hm]; exact hstep.wf
    have hww := Aspace.WF.window cfg a hcfg ha
    have hin := (is_valid_vaddr_iff a vaddr ha.2.1 (by omega)).mp hvv
    have hv : is_valid_vaddr a (vaddr + off) = true :=
      (is_valid_vaddr_iff a (vaddr + off) ha.2.1 (by omega)).mpr (by omega)
    obtain ⟨hbv, _, _⟩ := rel_lt hcfg ha hvv
    have hbc : cfg.byte_count count = count * cfg.PAGE_SIZE := by
      unfold Config.byte_count
      apply Nat.mod_eq_of_lt
      have h48 : (2:Nat) ^ 48 < 2 ^ 64 := by norm_num
      omega
    rw [arch_mmu_query_eq hcfg ha htop hwf' hv, hm]
    have hrel : vaddr + off - cfg.window_base a = vaddr - cfg.window_base a + off := by omega
    rw [hrel]
    obtain ⟨rem, m, hl, hb1, hb2⟩ := hmapped.inside (vaddr - cfg.window_base a + off)
      (by omega) (by omega)
    rw [hl]
    have hoffeq : vaddr - cfg.window_base a + off - (vaddr - cfg.window_base a) = off := by omega
    rw [hoffeq] at hl hb1 ⊢
    obtain ⟨_, hrem⟩ := lookup_rem_lt _ _ _ _ _ _ hl
    -- the block of the entry starts at an aligned physical address below 2^48
    have hps := hcfg.ps_bounds
    have hx : out_addr (paddr + off - rem) = paddr + off - rem := by
      apply out_addr_of_aligned
      · have h12 : (2:Nat) ^ 12 ∣ 2 ^ cfg.PAGE_SIZE_SHIFT := Nat.pow_dvd_pow 2 hps.1
        have hm12 : (2:Nat) ^ 12 ∣ 2 ^ level_shift cfg.PAGE_SIZE_SHIFT m :=
          Nat.pow_dvd_pow 2 (by unfold level_shift; omega)
        have hrel12 : 2 ^ 12 ∣ vaddr - cfg.window_base a :=
          Nat.dvd_sub' (Nat.dvd_trans h12 hva) (Nat.dvd_trans h12 (window_base_aligned hcfg a))
        have hstart : 2 ^ 12 ∣ (vaddr - cfg.window_base a + off - rem) := by
          rw [hrem]
          apply Nat.dvd_trans hm12
          exact Nat.dvd_sub_mod _
        have hoffrem : 2 ^ 12 ∣ off - rem := by
          have : off - rem = (vaddr - cfg.window_base a + off - rem) -
              (vaddr - cfg.window_base a) := by omega
          rw [this]
          exact Nat.dvd_sub' hstart hrel12
        have : paddr + off - rem = paddr + (off - rem) := by omega
        rw [this]
        exact Nat.dvd_add (Nat.dvd_trans h12 hpal) hoffrem
      · omega
    obtain ⟨hattr0, hdec⟩ := attrs_round_trip a flags hf hc
    simp only [query_of_leaf, if_true, leaf_flags hx, hdec, leaf_out_addr hx hattr0]
    have : (paddr + off - rem + rem) % 2 ^ 64 = paddr + off := by
      rw [Nat.sub_add_cancel (by omega)]
      apply Nat.mod_eq_of_lt
      have h48 : (2:Nat) ^ 48 < 2 ^ 64 := by norm_num
      omega
    rw [this]

/-- Witness of `map_query_round_trip`: the concrete scenario of the
specification, `map(0x1000, 0xAAAA000, 2 pages, CACHED | PERM_RO)` and then
`query(0x2000)`. -/
theorem map_query_round_trip_witness :
    arch_mmu_query cfg4k user_aspace (0x1000 + 0x1000) true true
        (state_after (arch_mmu_map cfg4k user_aspace 0x1000 0xAAAA000 2 8
          (zero_state three_frames)) (zero_state [])) =
      some (NO_ERROR, some (0xAAAA000 + 0x1000), some 8) :=
  map_query_round_trip cfg4k user_aspace (zero_state three_frames) _ 0x1000 0xAAAA000 2 8 0x1000
    (by decide) (by decide) (tree_wf_zero_state _ _ 0x80000 _ rfl) alloc_ok_three_frames
    (by decide) (by decide) (by decide) (by decide) rfl (by decide)

/-- C1 (counterexample). A range that lies inside the translation window but
leaves the window of the address space (`[0, 0x10000)`) is mapped with
`NO_ERROR`, and the query of its second page returns `ERR_OUT_OF_RANGE`. -/
theorem round_trip_counterexample :
    is_valid_vaddr small_user_aspace 0xF000 = true ∧
    0xF000 + 2 * cfg4k.PAGE_SIZE ≤ cfg4k.window_end small_user_aspace ∧
    status (arch_mmu_map cfg4k small_user_aspace 0xF000 0 2 0 (zero_state three_frames)) =
      some NO_ERROR ∧
    arch_mmu_query cfg4k small_user_aspace (0xF000 + 0x1000) true true
        (state_after (arch_mmu_map cfg4k small_user_aspace 0xF000 0 2 0
          (zero_state three_frames)) (zero_state [])) =
      some (ERR_OUT_OF_RANGE, none, none) := by
  decide

end Arm64Mmu

namespace Arm64Mmu

/-! ## Unmapping: one slot -/

theorem page_table_is_clear_iff (c ps : Nat) (s : State) (h1 : 3 ≤ ps) (h2 : ps < 32) :
    page_table_is_clear c ps s = true ↔ ∀ k, k < entries ps → s.mem c k = 0 := by
  unfold page_table_is_clear
  have hs : sub32 ps 3 = ps - 3 := by
    unfold sub32; norm_num; omega
  have hc : (1 <<< (ps - 3)) % 2 ^ 32 = entries ps := by
    rw [Nat.one_shiftLeft, entries]
    exact Nat.mod_eq_of_lt (Nat.pow_lt_pow_right (by norm_num) (by omega))
  simp only [hs, hc, List.all_eq_true, List.mem_range, beq_iff_eq, MMU_PTE_DESCRIPTOR_INVALID]

/-- The slot of an address of the chunk is the slot of the start of the chunk;
a slot that does not meet the chunk is another slot. -/
theorem slot_meets {a i c B : Nat} (hB : 0 < B) (hc : 0 < c)
    (h : (i + 1) * B ≤ a ∨ a + c ≤ i * B) : i ≠ a / B := by
  intro hi
  subst hi
  have h1 := Nat.div_add_mod a B
  have h2 : (a / B + 1) * B = B * (a / B) + B := by ring
  have h3 : a / B * B = B * (a / B) := Nat.mul_comm _ _
  have := Nat.mod_lt a hB
  omega

theorem slot_covered {a i c B : Nat} (hB : 0 < B) (hc : c ≤ B - a % B)
    (h1 : a ≤ i * B) (h2 : (i + 1) * B ≤ a + c) : i = a / B ∧ a % B = 0 ∧ c = B := by
  have e1 := Nat.div_add_mod a B
  have e2 : (i + 1) * B = i * B + B := by ring
  have e3 := Nat.mod_lt a hB
  have e4 : i * B ≤ a / B * B := by
    have : B * (a / B) = a / B * B := Nat.mul_comm _ _
    omega
  have e5 : a / B * B ≤ i * B := by
    have : B * (a / B) = a / B * B := Nat.mul_comm _ _
    omega
  have e6 : i * B = a / B * B := Nat.le_antisymm e4 e5
  have e7 : i = a / B := Nat.eq_of_mul_eq_mul_right hB e6
  have : B * (a / B) = a / B * B := Nat.mul_comm _ _
  refine ⟨e7, by omega, by omega⟩

/-- Clearing a slot that holds a block, a page or nothing. -/
theorem unmap_clear_ok {ps n cnt t a c : Nat} {s s1 : State}
    (hpre : Pre ps n cnt t s) (hi : a / 2 ^ level_shift ps n < cnt)
    (hc0 : 0 < c) (hc : c ≤ 2 ^ level_shift ps n - a % 2 ^ level_shift ps n)
    (hold : n = 0 ∨ desc_type (s.mem t (a / 2 ^ level_shift ps n)) ≠ MMU_PTE_L012_DESCRIPTOR_TABLE)
    (hm : s1.mem = fun x k => if x = t ∧ k = a / 2 ^ level_shift ps n then 0 else s.mem x k)
    (hl : s1.live = s.live) (hq : s1.pool = s.pool) :
    Step ps n cnt t s s1 ∧ Unmapped ps n cnt t a c s s1 := by
  have hB : 0 < 2 ^ level_shift ps n := Nat.pow_pos (by norm_num)
  have hstep : Step ps n cnt t s s1 := Step.store_leaf hpre hi hold (Or.inl rfl) hm hl hq
  have hz : s1.mem t (a / 2 ^ level_shift ps n) = 0 := by rw [hm]; simp
  have hother : ∀ r, r < cnt * 2 ^ level_shift ps n →
      r / 2 ^ level_shift ps n ≠ a / 2 ^ level_shift ps n →
      lookup s1.mem ps n t r = lookup s.mem ps n t r :=
    fun r hr hri => lookup_store_other hpre hm (index_lt_of_lt hB hr) hri
  refine ⟨hstep, ?_, ?_, ?_, ?_, ?_⟩
  · intro r hr1 hr2
    have hdm := chunk_div_mod hB hc hr1 hr2
    exact lookup_zero (by rw [hdm.1]; exact hz)
  · intro r hr hnone
    by_cases hri : r / 2 ^ level_shift ps n = a / 2 ^ level_shift ps n
    · exact lookup_zero (by rw [hri]; exact hz)
    · rw [hother r hr hri]; exact hnone
  · intro r e rem m hr hsome hdis
    by_cases hri : r / 2 ^ level_shift ps n = a / 2 ^ level_shift ps n
    · exfalso
      -- the entry of the slot is a leaf: its block is the slot, which meets the chunk
      have hm' : m = n ∧ rem = r % 2 ^ level_shift ps n := by
        cases n with
        | zero =>
          have := lookup_rem_lt _ _ _ _ _ _ hsome
          have hm0 : m = 0 := by omega
          subst hm0
          exact ⟨rfl, this.2⟩
        | succ n' =>
          have hnt : desc_type (s.mem t (r / 2 ^ level_shift ps (n' + 1))) ≠
              MMU_PTE_L012_DESCRIPTOR_TABLE := by
            rw [hri]
            rcases hold with h0 | h0
            · omega
            · exact h0
          simp only [lookup, hnt, if_false] at hsome
          split_ifs at hsome
          simp only [Option.some.injEq, Prod.mk.injEq] at hsome
          exact ⟨hsome.2.2.symm, hsome.2.1.symm⟩
      obtain ⟨hmn, hrem⟩ := hm'
      subst hmn
      have e1 := Nat.div_add_mod r (2 ^ level_shift ps m)
      have e2 := Nat.div_add_mod a (2 ^ level_shift ps m)
      have e3 := Nat.mod_lt a hB
      rw [hri] at e1
      omega
    · rw [hother r hr hri]; exact hsome
  · intro i h1 h2
    obtain ⟨e1, _, _⟩ := slot_covered hB hc h1 h2
    rw [e1]; exact hz
  · intro i hi'
    have := slot_meets hB hc0 hi'
    rw [hm]; simp [this]

end Arm64Mmu

namespace Arm64Mmu

/-- Unmapping below the table of a slot, and unlinking that table when it has
become empty or the chunk is the whole slot. -/
theorem unmap_descend_ok {ps m cnt t a chunk : Nat} {s s1 s2 : State}
    (hpre : Pre ps (m + 1) cnt t s)
    (hi : a / 2 ^ level_shift ps (m + 1) < cnt)
    (hc0 : 0 < chunk)
    (hchunk : chunk ≤ 2 ^ level_shift ps (m + 1) - a % 2 ^ level_shift ps (m + 1))
    (hdt : desc_type (s.mem t (a / 2 ^ level_shift ps (m + 1))) = MMU_PTE_L012_DESCRIPTOR_TABLE)
    (hstepC : Step ps m (entries ps) (out_addr (s.mem t (a / 2 ^ level_shift ps (m + 1)))) s s1)
    (hunC : Unmapped ps m (entries ps) (out_addr (s.mem t (a / 2 ^ level_shift ps (m + 1))))
      (a % 2 ^ level_shift ps (m + 1)) chunk s s1)
    (hfin : (chunk ≠ 2 ^ level_shift ps (m + 1) ∧
        s2.mem = s1.mem ∧ s2.live = s1.live ∧ s2.pool = s1.pool) ∨
      ((chunk = 2 ^ level_shift ps (m + 1) ∨
          ∀ k, k < entries ps →
            s1.mem (out_addr (s.mem t (a / 2 ^ level_shift ps (m + 1)))) k = 0) ∧
        (s2.mem = fun x k =>
          if x = t ∧ k = a / 2 ^ level_shift ps (m + 1) then 0 else s1.mem x k) ∧
        s2.live = s1.live.erase (out_addr (s.mem t (a / 2 ^ level_shift ps (m + 1)))) ∧
        s2.pool = s1.pool)) :
    Step ps (m + 1) cnt t s s2 ∧ Unmapped ps (m + 1) cnt t a chunk s s2 := by
  have hB : 0 < 2 ^ level_shift ps (m + 1) := Nat.pow_pos (by norm_num)
  have hBN : 2 ^ level_shift ps (m + 1) = entries ps * 2 ^ level_shift ps m :=
    pow_level_shift_succ ps m
  have hlift : Step ps (m + 1) cnt t s s1 := Step.lift hpre hi hdt hstepC
  have hrow := Step.parent_row hpre hi hdt hstepC
  have hpre1 : Pre ps (m + 1) cnt t s1 := Step.pre hpre hlift
  have hdt1 : desc_type (s1.mem t (a / 2 ^ level_shift ps (m + 1))) =
      MMU_PTE_L012_DESCRIPTOR_TABLE := by rw [hrow]; exact hdt
  -- translations through the other slots are those of before
  have hother : ∀ r, r < cnt * 2 ^ level_shift ps (m + 1) →
      r / 2 ^ level_shift ps (m + 1) ≠ a / 2 ^ level_shift ps (m + 1) →
      lookup s1.mem ps (m + 1) t r = lookup s.mem ps (m + 1) t r := by
    intro r hr hri
    have hr' : r / 2 ^ level_shift ps (m + 1) < cnt := index_lt_of_lt hB hr
    apply lookup_frame_slot (hrow _)
    intro m' hm' hd x hx k
    have hm'' : m' = m := by omega
    subst hm''
    exact Step.sibling hpre hi hdt hstepC hr' hri hd x hx k
  -- translations through the slot are those of the table below
  have hslot : ∀ r, r / 2 ^ level_shift ps (m + 1) = a / 2 ^ level_shift ps (m + 1) →
      lookup s.mem ps (m + 1) t r =
        lookup s.mem ps m (out_addr (s.mem t (a / 2 ^ level_shift ps (m + 1))))
          (r % 2 ^ level_shift ps (m + 1)) := by
    intro r hri
    rw [lookup_table (by rw [hri]; exact hdt), hri]
  have hslot1 : ∀ r, r / 2 ^ level_shift ps (m + 1) = a / 2 ^ level_shift ps (m + 1) →
      lookup s1.mem ps (m + 1) t r =
        lookup s1.mem ps m (out_addr (s.mem t (a / 2 ^ level_shift ps (m + 1))))
          (r % 2 ^ level_shift ps (m + 1)) := by
    intro r hri
    rw [lookup_table (by rw [hri]; exact hdt1), hri, hrow]
  have hmodlt : ∀ r, r % 2 ^ level_shift ps (m + 1) < entries ps * 2 ^ level_shift ps m := by
    intro r; rw [← hBN]; exact Nat.mod_lt _ hB
  -- a kept translation through the slot, in the coordinates of the table below
  have hkeepC : ∀ r e rem m', r / 2 ^ level_shift ps (m + 1) = a / 2 ^ level_shift ps (m + 1) →
      lookup s.mem ps (m + 1) t r = some (e, rem, m') →
      (r - rem + 2 ^ level_shift ps m' ≤ a ∨ a + chunk ≤ r - rem) →
      lookup s1.mem ps (m + 1) t r = some (e, rem, m') := by
    intro r e rem m' hri hsome hdis
    rw [hslot r hri] at hsome
    rw [hslot1 r hri]
    apply hunC.keep _ _ _ _ (hmodlt r) hsome
    have hrem := (lookup_rem_lt _ _ _ _ _ _ hsome).2
    have hle : rem ≤ r % 2 ^ level_shift ps (m + 1) := by
      rw [hrem]; exact Nat.mod_le _ _
    have h1 := Nat.div_add_mod r (2 ^ level_shift ps (m + 1))
    have h2 := Nat.div_add_mod a (2 ^ level_shift ps (m + 1))
    rw [hri] at h1
    omega
  rcases hfin with ⟨hne, hm2, hl2, hq2⟩ | ⟨hcl, hm2, hl2, hq2⟩
  · refine ⟨Step.of_eq hlift hm2 hl2 hq2, ?_, ?_, ?_, ?_, ?_⟩
    · intro r hr1 hr2
      have hdm := chunk_div_mod hB hchunk hr1 hr2
      rw [hm2, hslot1 r hdm.1]
      exact hunC.inside _ (by omega) (by omega)
    · intro r hr hnone
      rw [hm2]
      by_cases hri : r / 2 ^ level_shift ps (m + 1) = a / 2 ^ level_shift ps (m + 1)
      · rw [hslot1 r hri]
        rw [hslot r hri] at hnone
        exact hunC.keep_none _ (hmodlt r) hnone
      · rw [hother r hr hri]; exact hnone
    · intro r e rem m' hr hsome hdis
      rw [hm2]
      by_cases hri : r / 2 ^ level_shift ps (m + 1) = a / 2 ^ level_shift ps (m + 1)
      · exact hkeepC r e rem m' hri hsome (by omega)
      · rw [hother r hr hri]; exact hsome
    · intro i h1 h2
      exact absurd (slot_covered hB hchunk h1 h2).2.2 hne
    · intro i _
      rw [hm2]; exact hrow i
  · have hclear : ∀ k, k < entries ps →
        s1.mem (out_addr (s.mem t (a / 2 ^ level_shift ps (m + 1)))) k = 0 := by
      rcases hcl with hfull | hclear
      · intro k hk
        have ha0 : a % 2 ^ level_shift ps (m + 1) = 0 := by omega
        apply hunC.full k
        · rw [ha0]; exact Nat.zero_le _
        · rw [ha0, hfull, hBN, Nat.zero_add]
          exact Nat.mul_le_mul_right _ hk
      · exact hclear
    have hclear1 : ∀ k, k < entries ps →
        s1.mem (out_addr (s1.mem t (a / 2 ^ level_shift ps (m + 1)))) k = 0 := by
      rw [hrow]; exact hclear
    have hl2' : s2.live = s1.live.erase (out_addr (s1.mem t (a / 2 ^ level_shift ps (m + 1)))) := by
      rw [hrow]; exact hl2
    have hun : Step ps (m + 1) cnt t s1 s2 := Step.unlink hpre1 hi hdt1 hclear1 hm2 hl2' hq2
    have hz : s2.mem t (a / 2 ^ level_shift ps (m + 1)) = 0 := by rw [hm2]; simp
    have hother2 : ∀ r, r < cnt * 2 ^ level_shift ps (m + 1) →
        r / 2 ^ level_shift ps (m + 1) ≠ a / 2 ^ level_shift ps (m + 1) →
        lookup s2.mem ps (m + 1) t r = lookup s.mem ps (m + 1) t r := by
      intro r hr hri
      rw [lookup_store_other hpre1 hm2 (index_lt_of_lt hB hr) hri]
      exact hother r hr hri
    refine ⟨Step.trans hpre hlift hun, ?_, ?_, ?_, ?_, ?_⟩
    · intro r hr1 hr2
      have hdm := chunk_div_mod hB hchunk hr1 hr2
      exact lookup_zero (by rw [hdm.1]; exact hz)
    · intro r hr hnone
      by_cases hri : r / 2 ^ level_shift ps (m + 1) = a / 2 ^ level_shift ps (m + 1)
      · exact lookup_zero (by rw [hri]; exact hz)
      · rw [hother2 r hr hri]; exact hnone
    · intro r e rem m' hr hsome hdis
      by_cases hri : r / 2 ^ level_shift ps (m + 1) = a / 2 ^ level_shift ps (m + 1)
      · exfalso
        have h1 := hkeepC r e rem m' hri hsome (by omega)
        rw [hslot1 r hri, lookup_zero (hclear _ child_index_lt)] at h1
        exact Option.noConfusion h1
      · rw [hother2 r hr hri]; exact hsome
    · intro i h1 h2
      rw [(slot_covered hB hchunk h1 h2).1]; exact hz
    · intro i hi'
      have hne := slot_meets hB hc0 hi'
      rw [hm2]
      simp only [hne, and_false, if_false]
      exact hrow i

end Arm64Mmu

namespace Arm64Mmu

/-- One iteration of the loop of `arm64_mmu_unmap_pt` returns, and unmaps its
chunk. -/
theorem unmap_step_ok {ps n cnt t z v a size : Nat}
    {recurse : Nat → Nat → Nat → Nat → Nat → State → Option State} {s : State}
    (hps : 12 ≤ ps) (hps2 : ps ≤ 30)
    (hspan : cnt * 2 ^ level_shift ps n ≤ 2 ^ 48)
    (hpre : Pre ps n cnt t s) (hrange : a + size ≤ cnt * 2 ^ level_shift ps n) (hsz : size ≠ 0)
    (hrec : ∀ m, n = m + 1 → UnmapRec ps m recurse) :
    ∃ s2, unmap_step recurse (level_shift ps n) ps t z v a size s = some s2 ∧
      Step ps n cnt t s s2 ∧
      Unmapped ps n cnt t a (chunk_size (level_shift ps n) a size) s s2 := by
  have hB : 0 < 2 ^ level_shift ps n := Nat.pow_pos (by norm_num)
  have hcnt : 0 < cnt := by
    rcases Nat.eq_zero_or_pos cnt with h0 | h0
    · subst h0; omega
    · exact h0
  have hi : a / 2 ^ level_shift ps n < cnt := index_lt_of_lt hB (by omega)
  have hc0 := chunk_size_pos (level_shift ps n) a size hsz
  have hc1 := chunk_size_le_size (level_shift ps n) a size
  have hc2 := chunk_size_le_block (level_shift ps n) a size
  unfold unmap_step
  dsimp only
  by_cases hC : level_shift ps n > ps ∧
      desc_type (s.mem t (a / 2 ^ level_shift ps n)) = MMU_PTE_L012_DESCRIPTOR_TABLE
  · rw [if_pos hC]
    cases n with
    | zero => rw [level_shift_zero] at hC; omega
    | succ m =>
      have hls := level_shift_le_of_span hcnt hspan
      rw [sub32_level ps m (by omega) (by norm_num; omega)]
      have hpreC := Pre.of_child hpre hi hC.2
      obtain ⟨s1, hr, hstepC, hunC⟩ := hrec m rfl v (a % 2 ^ level_shift ps (m + 1))
        (chunk_size (level_shift ps (m + 1)) a size) _ s hpreC (by
          rw [← pow_level_shift_succ]
          have := Nat.mod_lt a hB
          omega)
      rw [hr]
      dsimp only
      by_cases hF : chunk_size (level_shift ps (m + 1)) a size = 2 ^ level_shift ps (m + 1) ∨
          page_table_is_clear (out_addr (s.mem t (a / 2 ^ level_shift ps (m + 1)))) ps s1 = true
      · rw [if_pos hF]
        refine ⟨_, rfl, ?_⟩
        apply unmap_descend_ok hpre hi hc0 hc2 hC.2 hstepC hunC
        right
        refine ⟨?_, rfl, rfl, rfl⟩
        rcases hF with h1 | h2
        · exact Or.inl h1
        · exact Or.inr ((page_table_is_clear_iff _ _ _ (by omega) (by omega)).mp h2)
      · rw [if_neg hF]
        refine ⟨_, rfl, ?_⟩
        apply unmap_descend_ok hpre hi hc0 hc2 hC.2 hstepC hunC
        left
        exact ⟨fun h => hF (Or.inl h), rfl, rfl, rfl⟩
  · rw [if_neg hC]
    have hold : n = 0 ∨ desc_type (s.mem t (a / 2 ^ level_shift ps n)) ≠
        MMU_PTE_L012_DESCRIPTOR_TABLE := by
      by_cases hn : n = 0
      · exact Or.inl hn
      · right
        intro hd
        exact hC ⟨(level_shift_gt_iff ps n (by omega)).mpr hn, hd⟩
    by_cases hz : s.mem t (a / 2 ^ level_shift ps n) ≠ 0
    · rw [if_pos hz]
      refine ⟨_, rfl, ?_⟩
      apply unmap_clear_ok hpre hi hc0 hc2 hold
      · unfold tlbi_page
        split_ifs <;> rfl
      · unfold tlbi_page
        split_ifs <;> rfl
      · unfold tlbi_page
        split_ifs <;> rfl
    · rw [if_neg hz]
      refine ⟨_, rfl, Step.refl hpre, ?_, ?_, ?_, ?_, ?_⟩
      · intro r hr1 hr2
        have hdm := chunk_div_mod hB hc2 hr1 hr2
        exact lookup_zero (by rw [hdm.1]; exact not_not.mp hz)
      · intro r _ h; exact h
      · intro r e rem m _ h _; exact h
      · intro i h1 h2
        rw [(slot_covered hB hc2 h1 h2).1]; exact not_not.mp hz
      · intro i _; rfl

end Arm64Mmu

namespace Arm64Mmu

theorem Unmapped.empty_range {ps n cnt t a : Nat} {s : State} : Unmapped ps n cnt t a 0 s s where
  inside := fun r h1 h2 => by omega
  keep_none := fun _ _ h => h
  keep := fun _ _ _ _ _ h _ => h
  full := fun i h1 h2 => by
    have : (i + 1) * 2 ^ level_shift ps n = i * 2 ^ level_shift ps n + 2 ^ level_shift ps n := by
      ring
    have hB : 0 < 2 ^ level_shift ps n := Nat.pow_pos (by norm_num)
    omega
  row := fun _ _ => rfl

theorem Unmapped.concat {ps n cnt t a c size : Nat} {s s1 s2 : State}
    (hc : c ≤ size) (hsz : a + size ≤ cnt * 2 ^ level_shift ps n)
    (hcb : c = size ∨ c = 2 ^ level_shift ps n - a % 2 ^ level_shift ps n)
    (h1 : Unmapped ps n cnt t a c s s1)
    (h2 : Unmapped ps n cnt t (a + c) (size - c) s1 s2) :
    Unmapped ps n cnt t a size s s2 where
  inside := fun r hr1 hr2 => by
    by_cases hrc : r < a + c
    · exact h2.keep_none r (by omega) (h1.inside r hr1 hrc)
    · exact h2.inside r (by omega) (by omega)
  keep_none := fun r hr h => h2.keep_none r hr (h1.keep_none r hr h)
  keep := fun r e rem m hr h hdis =>
    h2.keep r e rem m hr (h1.keep r e rem m hr h (by omega)) (by omega)
  full := fun i hi1 hi2 => by
    have hB : 0 < 2 ^ level_shift ps n := Nat.pow_pos (by norm_num)
    by_cases hle : (i + 1) * 2 ^ level_shift ps n ≤ a + c
    · rw [h2.row i (Or.inl hle)]
      exact h1.full i hi1 hle
    · apply h2.full i _ (by omega)
      rcases hcb with hcs | hcb
      · omega
      · have e1 := Nat.div_add_mod a (2 ^ level_shift ps n)
        have e2 := Nat.mod_lt a hB
        have e3 : (a / 2 ^ level_shift ps n + 1) * 2 ^ level_shift ps n =
            2 ^ level_shift ps n * (a / 2 ^ level_shift ps n) + 2 ^ level_shift ps n := by ring
        have e4 : a + c = (a / 2 ^ level_shift ps n + 1) * 2 ^ level_shift ps n := by omega
        rw [e4] at hle ⊢
        have hlt : a / 2 ^ level_shift ps n + 1 < i + 1 := by
          by_contra hcon
          exact hle (Nat.mul_le_mul_right _ (by omega))
        exact Nat.mul_le_mul_right _ (by omega)
  row := fun i hi => by
    rw [h2.row i (by omega), h1.row i (by omega)]

theorem chunk_size_cases (sh a size : Nat) :
    chunk_size sh a size = size ∨ chunk_size sh a size = 2 ^ sh - a % 2 ^ sh := by
  unfold chunk_size
  rcases Nat.le_total size (2 ^ sh - a % 2 ^ sh) with h | h
  · exact Or.inl (Nat.min_eq_left h)
  · exact Or.inr (Nat.min_eq_right h)

/-- The loop of `arm64_mmu_unmap_pt` returns, and unmaps its range. -/
theorem unmap_loop_ok {ps n cnt t asid : Nat}
    {recurse : Nat → Nat → Nat → Nat → Nat → State → Option State}
    (hps : 12 ≤ ps) (hps2 : ps ≤ 30) (hcnt : 0 < cnt)
    (hspan : cnt * 2 ^ level_shift ps n ≤ 2 ^ 48)
    (hrec : ∀ m, n = m + 1 → UnmapRec ps m recurse) :
    ∀ (fuel v a size : Nat) (s : State), size ≤ fuel → Pre ps n cnt t s →
      a + size ≤ cnt * 2 ^ level_shift ps n →
      ∃ s', unmap_loop recurse (level_shift ps n) ps t asid fuel v a size s = some s' ∧
        Step ps n cnt t s s' ∧ Unmapped ps n cnt t a size s s' := by
  have hls := level_shift_le_of_span hcnt hspan
  intro fuel
  induction fuel with
  | zero =>
    intro v a size s hf hpre _
    have h0 : size = 0 := by omega
    subst h0
    exact ⟨s, by simp [unmap_loop], Step.refl hpre, Unmapped.empty_range⟩
  | succ fuel ih =>
    intro v a size s hf hpre hrange
    by_cases hsz : size = 0
    · subst hsz
      exact ⟨s, by simp [unmap_loop], Step.refl hpre, Unmapped.empty_range⟩
    · rw [unmap_loop_succ recurse _ ps t asid fuel v a size s hsz (by omega)]
      obtain ⟨s2, hs2, hstep, hun⟩ :=
        unmap_step_ok (z := asid) (v := v) hps hps2 hspan hpre hrange hsz hrec
      rw [hs2]
      dsimp only
      have hc0 := chunk_size_pos (level_shift ps n) a size hsz
      have hc1 := chunk_size_le_size (level_shift ps n) a size
      by_cases hrest : size - chunk_size (level_shift ps n) a size = 0
      · rw [if_pos hrest]
        have : chunk_size (level_shift ps n) a size = size := by omega
        rw [this] at hun
        exact ⟨s2, rfl, hstep, hun⟩
      · rw [if_neg hrest]
        have hpre2 := Step.pre hpre hstep
        have hmod : (a + chunk_size (level_shift ps n) a size) % 2 ^ 64 =
            a + chunk_size (level_shift ps n) a size := by
          apply Nat.mod_eq_of_lt
          have : (2:Nat) ^ 48 < 2 ^ 64 := by norm_num
          omega
        rw [hmod]
        obtain ⟨s', hs', hstep', hun'⟩ := ih ((v + chunk_size (level_shift ps n) a size) % 2 ^ 64)
          (a + chunk_size (level_shift ps n) a size)
          (size - chunk_size (level_shift ps n) a size) s2 (by omega) hpre2 (by omega)
        exact ⟨s', hs', Step.trans hpre hstep hstep',
          Unmapped.concat hc1 hrange (chunk_size_cases _ _ _) hun hun'⟩

/-- The function `arm64_mmu_unmap_pt` returns on every range of the table, and
unmaps it. -/
theorem unmap_pt_ok {ps z : Nat} (hps : 12 ≤ ps) (hps2 : ps ≤ 30) :
    ∀ (n fuel cnt t v a size : Nat) (s : State), n < fuel → 0 < cnt →
      cnt * 2 ^ level_shift ps n ≤ 2 ^ 48 → Pre ps n cnt t s →
      a + size ≤ cnt * 2 ^ level_shift ps n →
      ∃ s', arm64_mmu_unmap_pt fuel v a size (level_shift ps n) ps t z s = some s' ∧
        Step ps n cnt t s s' ∧ Unmapped ps n cnt t a size s s' := by
  intro n
  induction n with
  | zero =>
    intro fuel cnt t v a size s hf hcnt hspan hpre hrange
    obtain ⟨f, rfl⟩ : ∃ f, fuel = f + 1 := ⟨fuel - 1, by omega⟩
    rw [arm64_mmu_unmap_pt]
    exact unmap_loop_ok hps hps2 hcnt hspan (fun m hm => by omega) size v a size s
      (Nat.le_refl _) hpre hrange
  | succ m ih =>
    intro fuel cnt t v a size s hf hcnt hspan hpre hrange
    obtain ⟨f, rfl⟩ : ∃ f, fuel = f + 1 := ⟨fuel - 1, by omega⟩
    rw [arm64_mmu_unmap_pt]
    apply unmap_loop_ok hps hps2 hcnt hspan _ size v a size s (Nat.le_refl _) hpre hrange
    intro m' hm'
    have hmm : m' = m := by omega
    subst hmm
    intro v' vr sz c st hpreC hr
    have hspanC : entries ps * 2 ^ level_shift ps m' ≤ 2 ^ 48 := by
      rw [← pow_level_shift_succ]
      have hB : 0 < 2 ^ level_shift ps (m' + 1) := Nat.pow_pos (by norm_num)
      calc 2 ^ level_shift ps (m' + 1) = 1 * 2 ^ level_shift ps (m' + 1) := (Nat.one_mul _).symm
        _ ≤ cnt * 2 ^ level_shift ps (m' + 1) := Nat.mul_le_mul_right _ hcnt
        _ ≤ 2 ^ 48 := hspan
    exact ih f (entries ps) c v' vr sz st (by omega)
      (by unfold entries; exact Nat.pow_pos (by norm_num)) hspanC hpreC hr

end Arm64Mmu

namespace Arm64Mmu

/-! ## A failed map -/

theorem block_in_slot {d B y : Nat} (hd : d ∣ B) (hy : d ∣ y) (hlt : y < B) : y + d ≤ B := by
  obtain ⟨j, rfl⟩ := hd
  obtain ⟨k, rfl⟩ := hy
  rcases Nat.eq_zero_or_pos d with h0 | h0
  · subst h0; simp at hlt
  · have hkj : k < j := Nat.lt_of_mul_lt_mul_left hlt
    calc d * k + d = d * (k + 1) := by ring
      _ ≤ d * j := Nat.mul_le_mul_left _ hkj

theorem level_shift_dvd (ps : Nat) {m n : Nat} (h : m ≤ n) :
    2 ^ level_shift ps m ∣ 2 ^ level_shift ps n := by
  apply Nat.pow_dvd_pow
  unfold level_shift
  have : m * (ps - 3) ≤ n * (ps - 3) := Nat.mul_le_mul_right _ h
  omega

/-- Every address of the block or page that translates `r` is translated by
the same entry. -/
theorem lookup_block {mem : Nat → Nat → Nat} {ps : Nat} :
    ∀ (n t r e rem m : Nat), lookup mem ps n t r = some (e, rem, m) →
      ∀ x, r - rem ≤ x → x < r - rem + 2 ^ level_shift ps m →
        lookup mem ps n t x = some (e, x - (r - rem), m) := by
  intro n
  induction n with
  | zero =>
    intro t r e rem m h x hx1 hx2
    have hrl := lookup_rem_lt _ _ _ _ _ _ h
    have hm : m = 0 := by omega
    subst hm
    rw [level_shift_zero] at hrl hx2
    have hB : 0 < 2 ^ ps := Nat.pow_pos (by norm_num)
    have e1 := Nat.div_add_mod r (2 ^ ps)
    have e2 := Nat.mod_lt r hB
    have hdm := div_mod_unique (r := x) (q := r / 2 ^ ps) (m := x - (r - rem)) (B := 2 ^ ps)
      (by rw [Nat.mul_comm]; omega) (by omega)
    simp only [lookup] at h ⊢
    rw [hdm.1, hdm.2]
    split_ifs at h ⊢
    simp only [Option.some.injEq, Prod.mk.injEq] at h
    obtain ⟨h1, _, _⟩ := h
    subst h1
    rfl
  | succ n ih =>
    intro t r e rem m h x hx1 hx2
    have hrl := lookup_rem_lt _ _ _ _ _ _ h
    have hB : 0 < 2 ^ level_shift ps (n + 1) := Nat.pow_pos (by norm_num)
    have e1 := Nat.div_add_mod r (2 ^ level_shift ps (n + 1))
    have e2 := Nat.mod_lt r hB
    have hdvd := level_shift_dvd ps hrl.1
    have hrem : rem = (r % 2 ^ level_shift ps (n + 1)) % 2 ^ level_shift ps m := by
      rw [hrl.2]; exact (Nat.mod_mod_of_dvd r hdvd).symm
    have hle : rem ≤ r % 2 ^ level_shift ps (n + 1) := by rw [hrem]; exact Nat.mod_le _ _
    have hdy : 2 ^ level_shift ps m ∣ r % 2 ^ level_shift ps (n + 1) - rem := by
      rw [hrem]; exact Nat.dvd_sub_mod _
    have hin := block_in_slot hdvd hdy (by omega)
    have hdm := div_mod_unique (r := x) (q := r / 2 ^ level_shift ps (n + 1))
      (m := x - (r - r % 2 ^ level_shift ps (n + 1))) (B := 2 ^ level_shift ps (n + 1))
      (by rw [Nat.mul_comm]; omega) (by omega)
    simp only [lookup] at h ⊢
    rw [hdm.1]
    split_ifs at h ⊢ with hb ht
    · simp only [Option.some.injEq, Prod.mk.injEq] at h ⊢
      obtain ⟨h1, h2, h3⟩ := h
      refine ⟨h1, ?_, h3⟩
      rw [hdm.2]
      omega
    · have := ih _ _ _ _ _ h (x % 2 ^ level_shift ps (n + 1)) (by rw [hdm.2]; omega)
        (by rw [hdm.2]; omega)
      rw [this, hdm.2]
      have : x - (r - r % 2 ^ level_shift ps (n + 1)) - (r % 2 ^ level_shift ps (n + 1) - rem) =
          x - (r - rem) := by omega
      rw [this]

theorem Step.of_drop {ps n cnt t k : Nat} {s s1 : State} (h : Pre ps n cnt t s)
    (hm : s1.mem = s.mem) (hl : s1.live = s.live) (hq : s1.pool = s.pool.drop k) :
    Step ps n cnt t s s1 where
  frame := fun _ _ _ _ _ => by rw [hm]
  desc := fun _ hx => Or.inl (by rw [hm] at hx; exact hx)
  live := fun p => by
    rw [hm, hl]
    exact (Step.refl h).live p
  pool := ⟨k, hq⟩
  wf := by rw [hm]; exact h.wf
  nodup := by rw [hl]; exact h.nodup

theorem Quiet.of_same_mem {ps n cnt t : Nat} {s s1 : State} (hm : s1.mem = s.mem) :
    Quiet ps n cnt t s s1 := fun _ _ => by rw [hm]

theorem Mapped.of_quiet {ps n cnt t a pa attrs : Nat} {s s1 : State}
    (h : Quiet ps n cnt t s s1) : Mapped ps n cnt t a pa 0 attrs s s1 where
  inside := fun r h1 h2 => by omega
  outside := fun r hr _ => h r hr
  free_before := fun r h1 h2 => by omega

/-- Unmapping what a map has mapped gives back the translations of before the
map. -/
theorem Quiet.of_unmap {ps n cnt t a pa size attrs : Nat} {s s1 s2 : State}
    (hmap : Mapped ps n cnt t a pa size attrs s s1)
    (hun : Unmapped ps n cnt t a size s1 s2) : Quiet ps n cnt t s s2 := by
  intro r hr
  by_cases hin : a ≤ r ∧ r < a + size
  · rw [hun.inside r hin.1 hin.2, hmap.free_before r hin.1 hin.2]
  · have hsame := hmap.outside r hr hin
    rw [← hsame]
    cases hl : lookup s1.mem ps n t r with
    | none => exact hun.keep_none r hr hl
    | some v =>
      obtain ⟨e, rem, m⟩ := v
      apply hun.keep r e rem m hr hl
      have hrl := lookup_rem_lt _ _ _ _ _ _ hl
      have hle : rem ≤ r := by rw [hrl.2]; exact Nat.mod_le _ _
      have hB : 0 < 2 ^ level_shift ps m := Nat.pow_pos (by norm_num)
      by_contra hcon
      have hpos : 0 < size := by omega
      -- an address of the range in the block of `r`
      have hx : ∃ x, r - rem ≤ x ∧ x < r - rem + 2 ^ level_shift ps m ∧ a ≤ x ∧ x < a + size := by
        by_cases h1 : a ≤ r - rem
        · exact ⟨r - rem, le_refl _, by omega, h1, by omega⟩
        · exact ⟨a, by omega, by omega, le_refl _, by omega⟩
      obtain ⟨x, hx1, hx2, hx3, hx4⟩ := hx
      have hbx := lookup_block _ _ _ _ _ _ hl x hx1 hx2
      obtain ⟨rem', m', hl', hb1, hb2⟩ := hmap.inside x hx3 hx4
      rw [hbx] at hl'
      simp only [Option.some.injEq, Prod.mk.injEq] at hl'
      obtain ⟨_, h2, h3⟩ := hl'
      subst h2 h3
      omega

end Arm64Mmu

namespace Arm64Mmu

/-- An iteration of the loop of `arm64_mmu_map_pt` that ends in `goto err`
changes no translation. -/
theorem map_step_fail {cfg : Config} {ps n cnt t attrs v a pa size : Nat}
    {recurse : Nat → Nat → Nat → Nat → Nat → Nat → State → Option (Int × State)}
    {s s1 : State}
    (hps : 12 ≤ ps) (hps2 : ps ≤ 30)
    (hspan : cnt * 2 ^ level_shift ps n ≤ 2 ^ 48)
    (hpre : Pre ps n cnt t s) (hrange : a + size ≤ cnt * 2 ^ level_shift ps n) (hsz : size ≠ 0)
    (hpasz : pa + size ≤ 2 ^ 64)
    (halign : n = 0 → 2 ^ ps ∣ a ∧ 2 ^ ps ∣ pa ∧ 2 ^ ps ∣ size)
    (hrec : ∀ m, n = m + 1 → MapRecFail ps m recurse)
    (h : map_step cfg recurse attrs (level_shift ps n) ps t v a pa size s = some (false, s1)) :
    Step ps n cnt t s s1 ∧ Quiet ps n cnt t s s1 := by
  have hB : 0 < 2 ^ level_shift ps n := Nat.pow_pos (by norm_num)
  have hcnt : 0 < cnt := by
    rcases Nat.eq_zero_or_pos cnt with h0 | h0
    · subst h0; omega
    · exact h0
  have hi : a / 2 ^ level_shift ps n < cnt := index_lt_of_lt hB (by omega)
  have hc1 := chunk_size_le_size (level_shift ps n) a size
  have hc2 := chunk_size_le_block (level_shift ps n) a size
  unfold map_step at h
  split_ifs at h with hC hnz
  · -- the table branch
    cases n with
    | zero =>
      exfalso
      obtain ⟨ha, hpa, hsize⟩ := halign rfl
      rw [level_shift_zero] at hC
      have ha' := Nat.mod_eq_zero_of_dvd ha
      have hpa' := Nat.mod_eq_zero_of_dvd hpa
      have hle : 2 ^ ps ≤ size := Nat.le_of_dvd (by omega) hsize
      unfold chunk_size MMU_PTE_DESCRIPTOR_BLOCK_MAX_SHIFT at hC
      rw [ha', hpa', Nat.sub_zero, Nat.min_eq_right hle] at hC
      omega
    | succ m =>
      have hls := level_shift_le_of_span hcnt hspan
      cases hg : arm64_mmu_get_page_table cfg (a / 2 ^ level_shift ps (m + 1)) ps t s with
      | none => simp [hg] at h
      | some r =>
        obtain ⟨o, sA⟩ := r
        cases o with
        | none =>
          simp only [hg, Option.some.injEq, Prod.mk.injEq, true_and] at h
          subst h
          obtain ⟨hm, hl, k, hq⟩ := get_page_table_none hg
          exact ⟨Step.of_drop hpre hm hl hq, Quiet.of_same_mem hm⟩
        | some c =>
          simp only [hg] at h
          rw [sub32_level ps m (by omega) (by norm_num; omega)] at h
          cases hr : recurse v (a % 2 ^ level_shift ps (m + 1)) pa
              (chunk_size (level_shift ps (m + 1)) a size) (level_shift ps m) c sA with
          | none => simp [hr] at h
          | some r2 =>
            obtain ⟨ret, s2⟩ := r2
            simp only [hr, Option.some.injEq, Prod.mk.injEq, decide_eq_false_iff_not] at h
            obtain ⟨hret, hs2⟩ := h
            subst hs2
            obtain ⟨hstepA, hdt, hoa, hrow, hrows, hcase⟩ :=
              get_page_table_some (by omega) (by omega) hpre hi hg
            have hlookA := get_page_table_lookup (by omega) (by omega) hpre hi hg
            have hpreA : Pre ps (m + 1) cnt t sA := Step.pre hpre hstepA
            have hpreC : Pre ps m (entries ps) c sA := hoa ▸ Pre.of_child hpreA hi hdt
            have hBN : 2 ^ level_shift ps (m + 1) = entries ps * 2 ^ level_shift ps m :=
              pow_level_shift_succ ps m
            obtain ⟨hstepC, hquiet⟩ := hrec m rfl v _ pa _ c sA s2 ret hpreC (by
              rw [← hBN]
              have := Nat.mod_lt a hB
              omega) (by omega) hr hret
            have hstepC' : Step ps m (entries ps)
                (out_addr (sA.mem t (a / 2 ^ level_shift ps (m + 1)))) sA s2 := by
              rw [hoa]; exact hstepC
            have hlift : Step ps (m + 1) cnt t sA s2 := Step.lift hpreA hi hdt hstepC'
            have hrow2 := Step.parent_row hpreA hi hdt hstepC'
            refine ⟨Step.trans hpre hstepA hlift, ?_⟩
            intro r hr'
            have hri' : r / 2 ^ level_shift ps (m + 1) < cnt := index_lt_of_lt hB hr'
            rw [← hlookA r hri']
            by_cases hri : r / 2 ^ level_shift ps (m + 1) = a / 2 ^ level_shift ps (m + 1)
            · have hentA : desc_type (sA.mem t (r / 2 ^ level_shift ps (m + 1))) =
                  MMU_PTE_L012_DESCRIPTOR_TABLE := by rw [hri]; exact hdt
              have hent2 : s2.mem t (r / 2 ^ level_shift ps (m + 1)) =
                  sA.mem t (r / 2 ^ level_shift ps (m + 1)) := hrow2 _
              rw [lookup_table (by rw [hent2]; exact hentA), lookup_table hentA, hent2, hri, hoa]
              apply hquiet
              rw [← hBN]; exact Nat.mod_lt _ hB
            · apply lookup_frame_slot (hrow2 _)
              intro m' hm' hd x hx k
              have hm'' : m' = m := by omega
              subst hm''
              exact Step.sibling hpreA hi hdt hstepC' hri' hri hd x hx k
  · -- the slot is taken
    simp only [Option.some.injEq, Prod.mk.injEq, true_and] at h
    subst h
    exact ⟨Step.refl hpre, fun _ _ => rfl⟩
  all_goals simp at h

/-- A run of the loop of `arm64_mmu_map_pt` that ends in `goto err` with
`rest` bytes to go has mapped the first `size - rest` bytes of its range and
has changed no other translation. -/
theorem map_loop_fail {cfg : Config} {ps n cnt t attrs : Nat}
    {recurse : Nat → Nat → Nat → Nat → Nat → Nat → State → Option (Int × State)}
    (hps : 12 ≤ ps) (hps2 : ps ≤ 30) (hattr : desc_type attrs = 0)
    (hspan : cnt * 2 ^ level_shift ps n ≤ 2 ^ 48)
    (hrec : ∀ m, n = m + 1 → MapRec ps attrs m recurse)
    (hrecF : ∀ m, n = m + 1 → MapRecFail ps m recurse) :
    ∀ (fuel v a pa size rest : Nat) (s s' : State), size ≤ fuel →
      Pre ps n cnt t s → a + size ≤ cnt * 2 ^ level_shift ps n → pa + size ≤ 2 ^ 64 →
      (n = 0 → 2 ^ ps ∣ a ∧ 2 ^ ps ∣ pa ∧ 2 ^ ps ∣ size) →
      map_loop cfg recurse attrs (level_shift ps n) ps t fuel v a pa size s =
        some (some rest, s') →
      rest ≤ size ∧ Step ps n cnt t s s' ∧ Mapped ps n cnt t a pa (size - rest) attrs s s' := by
  intro fuel
  induction fuel with
  | zero =>
    intro v a pa size rest s s' hfuel hpre _ _ _ h
    have hsz : size = 0 := by omega
    subst hsz
    simp [map_loop] at h
  | succ fuel ih =>
    intro v a pa size rest s s' hfuel hpre hrange hpasz halign h
    by_cases hsz : size = 0
    · subst hsz
      simp [map_loop] at h
    · have hcnt : 0 < cnt := by
        rcases Nat.eq_zero_or_pos cnt with h0 | h0
        · subst h0; omega
        · exact h0
      have hls := level_shift_le_of_span hcnt hspan
      rw [map_loop_succ _ _ _ _ _ _ _ _ _ _ _ _ hsz (by omega)] at h
      have hc1 := chunk_size_le_size (level_shift ps n) a size
      have hc0 := chunk_size_pos (level_shift ps n) a size hsz
      cases hst : map_step cfg recurse attrs (level_shift ps n) ps t v a pa size s with
      | none => simp [hst] at h
      | some r =>
        obtain ⟨b, s1⟩ := r
        cases b with
        | false =>
          simp only [hst, Option.some.injEq, Prod.mk.injEq] at h
          obtain ⟨h1, h2⟩ := h
          subst h1 h2
          obtain ⟨hstep, hq⟩ :=
            map_step_fail hps hps2 hspan hpre hrange hsz hpasz halign hrecF hst
          rw [Nat.sub_self]
          exact ⟨le_refl _, hstep, Mapped.of_quiet hq⟩
        | true =>
          simp only [hst] at h
          obtain ⟨hstep1, hmap1⟩ :=
            map_step_ok hps hps2 hattr hspan hpre hrange hsz hpasz halign hrec hst
          split_ifs at h with hrest
          · simp at h
          have h48 : cnt * 2 ^ level_shift ps n < 2 ^ 64 := by
            norm_num at hspan ⊢; omega
          rw [Nat.mod_eq_of_lt (a := a + _) (by norm_num at h48 ⊢; omega),
            Nat.mod_eq_of_lt (a := pa + _) (by
              have : pa + chunk_size (level_shift ps n) a size < pa + size := by omega
              norm_num at hpasz ⊢; omega)] at h
          have hpre1 := Step.pre hpre hstep1
          obtain ⟨hle, hstep2, hmap2⟩ := ih _ _ _ _ rest s1 s' (by omega) hpre1 (by omega)
            (by omega)
            (by
              intro hn
              obtain ⟨ha, hpa, hsize⟩ := halign hn
              have hch : 2 ^ ps ∣ chunk_size (level_shift ps n) a size := by
                subst hn
                rw [level_shift_zero]
                have ha' := Nat.mod_eq_zero_of_dvd ha
                have hle : 2 ^ ps ≤ size := Nat.le_of_dvd (by omega) hsize
                unfold chunk_size
                rw [ha', Nat.sub_zero, Nat.min_eq_right hle]
              exact ⟨Nat.dvd_add ha hch, Nat.dvd_add hpa hch, Nat.dvd_sub' hsize hch⟩) h
          have hsub : size - chunk_size (level_shift ps n) a size - rest =
              size - rest - chunk_size (level_shift ps n) a size := by omega
          rw [hsub] at hmap2
          exact ⟨by omega, Step.trans hpre hstep1 hstep2,
            Mapped.append (by omega) (by omega) hmap1 hmap2⟩

end Arm64Mmu

namespace Arm64Mmu

theorem span_child {ps m cnt : Nat} (hcnt : 0 < cnt)
    (hspan : cnt * 2 ^ level_shift ps (m + 1) ≤ 2 ^ 48) :
    entries ps * 2 ^ level_shift ps m ≤ 2 ^ 48 := by
  rw [← pow_level_shift_succ]
  have : 2 ^ level_shift ps (m + 1) ≤ cnt * 2 ^ level_shift ps (m + 1) :=
    Nat.le_mul_of_pos_left _ hcnt
  omega

/-- The end of a failed `arm64_mmu_map_pt`: the loop has mapped a first part
of the range, the unwind unmaps that part. -/
theorem map_unwind_ok {ps n cnt t attrs asid fuel v a pa size rest : Nat} {s s1 s2 : State}
    (hps : 12 ≤ ps) (hps2 : ps ≤ 30) (hfuel : n < fuel) (hcnt : 0 < cnt)
    (hspan : cnt * 2 ^ level_shift ps n ≤ 2 ^ 48)
    (hpre : Pre ps n cnt t s) (hrange : a + size ≤ cnt * 2 ^ level_shift ps n)
    (hle : rest ≤ size) (hstep : Step ps n cnt t s s1)
    (hmap : Mapped ps n cnt t a pa (size - rest) attrs s s1)
    (hun : arm64_mmu_unmap_pt fuel v a (size - rest) (level_shift ps n) ps t asid s1 = some s2) :
    Step ps n cnt t s (emit Event.dsb s2) ∧ Quiet ps n cnt t s (emit Event.dsb s2) := by
  have hpre1 := Step.pre hpre hstep
  obtain ⟨s2', hs2, hstep2, hunm⟩ := unmap_pt_ok (z := asid) hps hps2 n fuel cnt t v a
    (size - rest) s1 hfuel hcnt hspan hpre1 (by omega)
  rw [hun] at hs2
  simp only [Option.some.injEq] at hs2
  subst hs2
  exact ⟨Step.of_eq (Step.trans hpre hstep hstep2) rfl rfl rfl,
    fun r hr => Quiet.of_unmap hmap hunm r hr⟩

/-- A call of `arm64_mmu_map_pt` that returns an error changes no
translation. -/
theorem map_pt_fail {cfg : Config} {ps attrs asid : Nat}
    (hps : 12 ≤ ps) (hps2 : ps ≤ 30) (hattr : desc_type attrs = 0) :
    ∀ (n fuel cnt t v a pa size : Nat) (s s' : State) (ret : Int), n < fuel → 0 < cnt →
      cnt * 2 ^ level_shift ps n ≤ 2 ^ 48 →
      Pre ps n cnt t s → a + size ≤ cnt * 2 ^ level_shift ps n → pa + size ≤ 2 ^ 64 →
      arm64_mmu_map_pt cfg fuel v a pa size attrs (level_shift ps n) ps t asid s =
        some (ret, s') → ret ≠ 0 →
      Step ps n cnt t s s' ∧ Quiet ps n cnt t s s' := by
  intro n
  induction n with
  | zero =>
    intro fuel cnt t v a pa size s s' ret hfuel hcnt hspan hpre hrange hpasz h hret
    cases fuel with
    | zero => omega
    | succ fuel =>
      rw [arm64_mmu_map_pt] at h
      split_ifs at h with h64 hal
      · simp only [Option.some.injEq, Prod.mk.injEq] at h
        rw [← h.2]
        exact ⟨Step.refl hpre, fun _ _ => rfl⟩
      · have hal' := (align_check_iff a pa size ps).mp hal
        split at h
        · simp at h
        · simp only [Option.some.injEq, Prod.mk.injEq] at h
          exact absurd h.1.symm hret
        · rename_i rest s1 hloop
          obtain ⟨hle, hstep, hmap⟩ := map_loop_fail hps hps2 hattr hspan
            (fun m hm => by omega) (fun m hm => by omega) _ _ _ _ _ _ _ _
            (le_refl _) hpre hrange hpasz (fun _ => hal') hloop
          split at h
          · simp at h
          · rename_i s2 hun
            simp only [Option.some.injEq, Prod.mk.injEq] at h
            rw [← h.2]
            exact map_unwind_ok hps hps2 hfuel hcnt hspan hpre hrange hle hstep hmap hun
  | succ n ih =>
    intro fuel cnt t v a pa size s s' ret hfuel hcnt hspan hpre hrange hpasz h hret
    cases fuel with
    | zero => omega
    | succ fuel =>
      rw [arm64_mmu_map_pt] at h
      split_ifs at h with h64 hal
      · simp only [Option.some.injEq, Prod.mk.injEq] at h
        rw [← h.2]
        exact ⟨Step.refl hpre, fun _ _ => rfl⟩
      · split at h
        · simp at h
        · simp only [Option.some.injEq, Prod.mk.injEq] at h
          exact absurd h.1.symm hret
        · rename_i rest s1 hloop
          have hspanC := span_child hcnt hspan
          have hN : 0 < entries ps := Nat.pow_pos (by norm_num)
          obtain ⟨hle, hstep, hmap⟩ := map_loop_fail hps hps2 hattr hspan
            (fun m hm => by
              have hmn : m = n := by omega
              subst hmn
              intro v' vr pa' sz c st st' hpc hr hp hrun
              exact map_pt_ok hps hps2 hattr m fuel (entries ps) c v' vr pa' sz st st'
                (by omega) hN hspanC hpc hr hp hrun)
            (fun m hm => by
              have hmn : m = n := by omega
              subst hmn
              intro v' vr pa' sz c st st' ret' hpc hr hp hrun hret'
              exact ih fuel (entries ps) c v' vr pa' sz st st' ret' (by omega) hN hspanC
                hpc hr hp hrun hret')
            _ _ _ _ _ _ _ _ (le_refl _) hpre hrange hpasz (fun hn => by omega) hloop
          split at h
          · simp at h
          · rename_i s2 hun
            simp only [Option.some.injEq, Prod.mk.injEq] at h
            rw [← h.2]
            exact map_unwind_ok hps hps2 hfuel hcnt hspan hpre hrange hle hstep hmap hun

end Arm64Mmu

namespace Arm64Mmu

/-! ## Claims on failed maps -/

theorem arch_map_descent_fail {cfg : Config} {a : Aspace} {s s1 : State}
    {top vaddr paddr count flags : Nat} {ret : Int}
    (hcfg : cfg.WF) (htop : a.tt_virt = some top) (ht : TreeWF cfg a s) (hp : AllocOK a s)
    (hpa64 : paddr < 2 ^ 64) (hpa : paddr &&& MMU_PTE_OUTPUT_ADDR_MASK_COMPL = 0)
    (hr : (vaddr - cfg.window_base a) + cfg.byte_count count ≤ 2 ^ cfg.size_shift a)
    (hpt : arm64_mmu_map_pt cfg (cfg.top_shift a + 1) vaddr (vaddr - cfg.window_base a) paddr
      (cfg.byte_count count) (Config.attrs a flags) (cfg.top_shift a) cfg.PAGE_SIZE_SHIFT
      top a.tlb_asid s = some (ret, s1))
    (hret : ret ≠ 0) :
    Step cfg.PAGE_SIZE_SHIFT (cfg.height a) (cfg.entries_top a) top s s1 ∧
    Quiet cfg.PAGE_SIZE_SHIFT (cfg.height a) (cfg.entries_top a) top s s1 := by
  have hps := hcfg.ps_bounds
  have hts := hcfg.top_shift_eq a
  have hsh := hcfg.shifts a
  have h48 : (2:Nat) ^ cfg.size_shift a ≤ 2 ^ 48 := Nat.pow_le_pow_right (by norm_num) hsh.2.1
  have hpa48 := (paddr_of_mask hpa64 hpa).2
  rw [hts] at hpt
  apply map_pt_fail hps.1 hps.2 (attrs_desc_type a flags) (cfg.height a) _ (cfg.entries_top a) top
    vaddr _ paddr _ s s1 ret _ (hcfg.entries_top_le a).2 (hcfg.span_le a)
    (Pre.of_tree htop ht hp) (by rw [hcfg.span a]; exact hr) _ hpt hret
  · have : cfg.height a ≤ level_shift cfg.PAGE_SIZE_SHIFT (cfg.height a) := by
      unfold level_shift
      have : cfg.height a * 1 ≤ cfg.height a * (cfg.PAGE_SIZE_SHIFT - 3) :=
        Nat.mul_le_mul_left _ (by omega)
      omega
    omega
  · norm_num at h48 hpa48 ⊢
    omega

/-- C4. No partially mapped range remains after a failed map: on a well-formed
tree, with an allocator that hands out fresh table frames, if `arch_mmu_map`
returns an error then `arch_mmu_query` of every address returns the same
result after the call as before it. -/
theorem failed_map_keeps_queries (cfg : Config) (a : Aspace) (s s' : State)
    (vaddr paddr count flags v : Nat) (wp wf : Bool) (ret : Int)
    (hcfg : cfg.WF) (ha : a.WF cfg) (ht : TreeWF cfg a s) (hp : AllocOK a s)
    (hpa64 : paddr < 2 ^ 64)
    (hmap : arch_mmu_map cfg a vaddr paddr count flags s = some (ret, s'))
    (hret : ret ≠ NO_ERROR) :
    arch_mmu_query cfg a v wp wf s' = arch_mmu_query cfg a v wp wf s := by
  obtain ⟨top, htop, hwf, _⟩ := id ht
  by_cases hv : is_valid_vaddr a v = true
  · rcases arch_mmu_map_inv hcfg ha htop hmap with
      ⟨hs, _⟩ | ⟨hvv, _, _, hpa, _, hr, s1, hpt, hm, _, _⟩
    · rw [hs]
    · obtain ⟨hstep, hquiet⟩ := arch_map_descent_fail hcfg htop ht hp hpa64 hpa hr hpt hret
      have hwf' : WFT s'.mem cfg.PAGE_SIZE_SHIFT (cfg.height a) (cfg.entries_top a) top := by
        rw [hm]; exact hstep.wf
      rw [arch_mmu_query_eq hcfg ha htop hwf' hv, arch_mmu_query_eq hcfg ha htop hwf hv, hm]
      obtain ⟨hb, hrel, _⟩ := rel_lt hcfg ha hv
      rw [hquiet _ (by rw [hcfg.span a]; exact hrel)]
  · unfold arch_mmu_query
    simp [hv]

set_option maxRecDepth 100000 in
/-- Witness of `failed_map_keeps_queries`: a two-page map at `0x1ff000` on an
empty user address space, with an allocator that has three frames.  The first
page is installed with the three frames, the second page needs a fourth table,
the map returns `ERR_GENERIC`, and the first page queries as `ERR_NOT_FOUND`
as before the call. -/
theorem failed_map_keeps_queries_witness :
    status (arch_mmu_map cfg4k user_aspace 0x1ff000 0xAAAA000 2 8 (zero_state three_frames)) =
      some ERR_GENERIC ∧
    arch_mmu_query cfg4k user_aspace 0x1ff000 true true
        (state_after (arch_mmu_map cfg4k user_aspace 0x1ff000 0xAAAA000 2 8
          (zero_state three_frames)) (zero_state [])) =
      arch_mmu_query cfg4k user_aspace 0x1ff000 true true (zero_state three_frames) ∧
    arch_mmu_query cfg4k user_aspace 0x1ff000 true true (zero_state three_frames) =
      some (ERR_NOT_FOUND, none, none) :=
  ⟨by decide!,
    failed_map_keeps_queries cfg4k user_aspace (zero_state three_frames) _ 0x1ff000 0xAAAA000 2 8
      0x1ff000 true true ERR_GENERIC (by decide) (by decide)
      (tree_wf_zero_state _ _ 0x80000 _ rfl) alloc_ok_three_frames (by decide) rfl (by decide),
    by decide⟩

end Arm64Mmu

namespace Arm64Mmu

/-! ## Tables that are not empty -/

theorem NoEmpty_congr {mem mem' : Nat → Nat → Nat} {ps : Nat} :
    ∀ (n cnt t : Nat), (∀ x, Sub mem ps n cnt t x → ∀ i, mem' x i = mem x i) →
      NoEmpty mem ps n cnt t → NoEmpty mem' ps n cnt t := by
  intro n
  induction n with
  | zero => intro cnt t _ _; trivial
  | succ n ih =>
    intro cnt t h hne i hi hd
    have ht : ∀ i, mem' t i = mem t i := h t (Or.inl rfl)
    rw [ht i] at hd ⊢
    obtain ⟨⟨k, hk, hnz⟩, hc⟩ := hne i hi hd
    have hsub : ∀ x, Sub mem ps n (entries ps) (out_addr (mem t i)) x → ∀ j, mem' x j = mem x j :=
      fun x hx => h x (Or.inr (Sub.child hi hd hx))
    refine ⟨⟨k, hk, ?_⟩, ih _ _ hsub hc⟩
    rw [hsub _ (Or.inl rfl) k]
    exact hnz

theorem NoEmpty_of_clear {mem : Nat → Nat → Nat} {ps n cnt c : Nat}
    (h : ∀ k, k < cnt → mem c k = 0) : NoEmpty mem ps n cnt c := by
  cases n with
  | zero => trivial
  | succ n =>
    intro i hi hd
    rw [h i hi] at hd
    exact absurd hd not_table_zero

/-- The tables below `t` after a change of one slot of `t` and of the tables
below that slot. -/
theorem NoEmpty.update {mem mem' : Nat → Nat → Nat} {ps m cnt t d : Nat}
    (hne : NoEmpty mem ps (m + 1) cnt t)
    (hrow : ∀ j, j < cnt → j ≠ d → mem' t j = mem t j)
    (hsib : ∀ j, j < cnt → j ≠ d → desc_type (mem t j) = MMU_PTE_L012_DESCRIPTOR_TABLE →
      ∀ x, Sub mem ps m (entries ps) (out_addr (mem t j)) x → ∀ k, mem' x k = mem x k)
    (hslot : desc_type (mem' t d) = MMU_PTE_L012_DESCRIPTOR_TABLE →
      (∃ k, k < entries ps ∧ mem' (out_addr (mem' t d)) k ≠ 0) ∧
      NoEmpty mem' ps m (entries ps) (out_addr (mem' t d))) :
    NoEmpty mem' ps (m + 1) cnt t := by
  intro i hi hd
  by_cases hii : i = d
  · subst hii; exact hslot hd
  · rw [hrow i hi hii] at hd ⊢
    obtain ⟨⟨k, hk, hnz⟩, hc⟩ := hne i hi hd
    refine ⟨⟨k, hk, ?_⟩, NoEmpty_congr _ _ _ (hsib i hi hii hd) hc⟩
    rw [hsib i hi hii hd _ (Or.inl rfl) k]
    exact hnz

theorem lookup_some_entry {mem : Nat → Nat → Nat} {ps n t r : Nat} {v : Nat × Nat × Nat}
    (h : lookup mem ps n t r = some v) : mem t (r / 2 ^ level_shift ps n) ≠ 0 := by
  intro hz
  rw [lookup_zero hz] at h
  exact Option.noConfusion h

/-- Below an entry that is not zero some address is translated, when no table
is empty. -/
theorem nonempty_lookup {mem : Nat → Nat → Nat} {ps : Nat} :
    ∀ (n cnt t i : Nat), WFT mem ps n cnt t → NoEmpty mem ps n cnt t → i < cnt →
      mem t i ≠ 0 →
      ∃ r, i * 2 ^ level_shift ps n ≤ r ∧ r < (i + 1) * 2 ^ level_shift ps n ∧
        lookup mem ps n t r ≠ none := by
  intro n
  induction n with
  | zero =>
    intro cnt t i hwf _ hi hnz
    have hB : 0 < 2 ^ level_shift ps 0 := Nat.pow_pos (by norm_num)
    refine ⟨i * 2 ^ level_shift ps 0, le_refl _, by rw [Nat.add_mul]; omega, ?_⟩
    have hd : desc_type (mem t i) = leaf_type 0 := by
      rcases hwf i hi with h0 | h0
      · exact absurd h0 hnz
      · exact h0
    have hidx : i * 2 ^ level_shift ps 0 / 2 ^ level_shift ps 0 = i := Nat.mul_div_cancel _ hB
    rw [lookup_leaf (by rw [hidx]; exact hd)]
    exact Option.noConfusion
  | succ n ih =>
    intro cnt t i hwf hne hi hnz
    have hB : 0 < 2 ^ level_shift ps (n + 1) := Nat.pow_pos (by norm_num)
    have hB' : 0 < 2 ^ level_shift ps n := Nat.pow_pos (by norm_num)
    have hidx : i * 2 ^ level_shift ps (n + 1) / 2 ^ level_shift ps (n + 1) = i :=
      Nat.mul_div_cancel _ hB
    rcases hwf.1 i hi with h0 | h0 | h0
    · exact absurd h0 hnz
    · refine ⟨i * 2 ^ level_shift ps (n + 1), le_refl _, by rw [Nat.add_mul]; omega, ?_⟩
      have hd : desc_type (mem t i) = leaf_type (n + 1) := h0
      rw [lookup_leaf (by rw [hidx]; exact hd)]
      exact Option.noConfusion
    · obtain ⟨⟨k, hk, hknz⟩, hcne⟩ := hne i hi h0
      obtain ⟨r', hr1, hr2, hl⟩ := ih (entries ps) (out_addr (mem t i)) k (hwf.2.1 i hi h0).2
        hcne hk hknz
      have hBN := pow_level_shift_succ ps n
      have hlt : r' < 2 ^ level_shift ps (n + 1) := by
        rw [hBN]
        calc r' < (k + 1) * 2 ^ level_shift ps n := hr2
          _ ≤ entries ps * 2 ^ level_shift ps n := Nat.mul_le_mul_right _ hk
      have hdm := div_mod_unique (r := i * 2 ^ level_shift ps (n + 1) + r') (q := i) rfl hlt
      refine ⟨i * 2 ^ level_shift ps (n + 1) + r', by omega, by rw [Nat.add_mul]; omega, ?_⟩
      rw [lookup_table (by rw [hdm.1]; exact h0), hdm.1, hdm.2]
      exact hl

end Arm64Mmu

namespace Arm64Mmu

/-! ## Entries kept by a map, entries zeroed by an unmap -/

theorem Keeps.keeps_refl (s : State) : Keeps s s := ⟨fun _ _ _ _ => rfl, fun _ h => h⟩

theorem Keeps.keeps_trans {s s1 s2 : State} (h1 : Keeps s s1) (h2 : Keeps s1 s2) : Keeps s s2 := by
  refine ⟨?_, fun x hx => h1.2 x (h2.2 x hx)⟩
  intro x hx i hd
  have e1 := h1.1 x hx i hd
  rw [h2.1 x (fun hc => hx (h1.2 _ hc)) i (by rw [e1]; exact hd), e1]

theorem Zeroes.zeroes_refl (s : State) : Zeroes s s := fun _ _ => Or.inl rfl

theorem Zeroes.zeroes_trans {s s1 s2 : State} (h1 : Zeroes s s1) (h2 : Zeroes s1 s2) : Zeroes s s2 := by
  intro x i
  rcases h2 x i with e2 | e2
  · rcases h1 x i with e1 | e1
    · exact Or.inl (e2.trans e1)
    · exact Or.inr (e2.trans e1)
  · exact Or.inr e2

theorem Zeroes.store_zero {t idx : Nat} {s s' : State}
    (hm : s'.mem = fun x k => if x = t ∧ k = idx then 0 else s.mem x k) : Zeroes s s' := by
  intro x i
  rw [hm]
  by_cases h : x = t ∧ i = idx
  · exact Or.inr (by simp [h])
  · exact Or.inl (by simp [h])

/-- A store into an empty slot keeps the entries of before. -/
theorem Keeps.store_empty {t idx e : Nat} {s s' : State} (hz : s.mem t idx = 0)
    (hm : s'.mem = fun x k => if x = t ∧ k = idx then e else s.mem x k)
    (hq : s'.pool = s.pool) : Keeps s s' := by
  refine ⟨?_, fun x hx => by rw [hq] at hx; exact hx⟩
  intro x _ i hd
  rw [hm]
  by_cases h : x = t ∧ i = idx
  · exfalso
    rw [h.1, h.2, hz] at hd
    exact hd (by decide)
  · simp [h]

/-- The call `arm64_mmu_get_page_table` keeps the entries of before. -/
theorem get_page_table_keeps {cfg : Config} {ps n cnt t i c : Nat} {s s1 : State}
    (hps1 : 3 ≤ ps) (hps2 : ps < 32)
    (h : Pre ps (n + 1) cnt t s) (hi : i < cnt)
    (hg : arm64_mmu_get_page_table cfg i ps t s = some (some c, s1)) : Keeps s s1 := by
  obtain ⟨hstep, _, _, hrow, hrows, hcase⟩ := get_page_table_some hps1 hps2 h hi hg
  refine ⟨?_, fun x hx => hstep.pool_sub x hx⟩
  intro x hx j hd
  by_cases hxt : x = t
  · subst hxt
    by_cases hj : j = i
    · subst hj
      rcases hcase with ⟨_, hs⟩ | ⟨hz, _, _⟩
      · rw [hs]
      · rw [hz] at hd
        exact absurd rfl hd
    · exact hrow j hj
  · exact hrows x hxt hx j

end Arm64Mmu

namespace Arm64Mmu

/-! ## A successful map leaves no empty table -/

/-- A store of a block or page entry, or of zero, into one slot. -/
theorem NoEmpty.store_entry {ps n cnt t idx e : Nat} {s s' : State}
    (hwf : WFT s.mem ps n cnt t) (hne : NoEmpty s.mem ps n cnt t)
    (he : desc_type e ≠ MMU_PTE_L012_DESCRIPTOR_TABLE ∨ n = 0)
    (hm : s'.mem = fun x k => if x = t ∧ k = idx then e else s.mem x k) :
    NoEmpty s'.mem ps n cnt t := by
  cases n with
  | zero => trivial
  | succ m =>
    apply NoEmpty.update (d := idx) hne
    · intro j _ hj
      rw [hm]; simp [hj]
    · intro j hj _ hd x hx k
      have hxt : x ≠ t := by
        intro hc
        subst hc
        exact (hwf.2.1 j hj hd).1 hx
      rw [hm]; simp [hxt]
    · intro hd
      exfalso
      rw [hm] at hd
      simp only [and_self, if_true] at hd
      rcases he with he | he
      · exact he hd
      · omega

/-- The table branch of an iteration: the table of the slot, new or not, has
an entry after the recursive call. -/
theorem map_descend_ne {cfg : Config} {ps m cnt t attrs a pa chunk c : Nat} {s sA s2 : State}
    (hps : 12 ≤ ps) (hps2 : ps < 32)
    (hpre : Pre ps (m + 1) cnt t s) (hne : NoEmpty s.mem ps (m + 1) cnt t)
    (hi : a / 2 ^ level_shift ps (m + 1) < cnt) (hc0 : 0 < chunk)
    (hg : arm64_mmu_get_page_table cfg (a / 2 ^ level_shift ps (m + 1)) ps t s =
      some (some c, sA))
    (hchild : Pre ps m (entries ps) c sA → NoEmpty sA.mem ps m (entries ps) c →
      (Step ps m (entries ps) c sA s2 ∧
        Mapped ps m (entries ps) c (a % 2 ^ level_shift ps (m + 1)) pa chunk attrs sA s2) ∧
      NoEmpty s2.mem ps m (entries ps) c ∧ Keeps sA s2) :
    NoEmpty s2.mem ps (m + 1) cnt t ∧ Keeps s s2 := by
  obtain ⟨hstepA, hdt, hoa, hrow, hrows, hcase⟩ := get_page_table_some (by omega) hps2 hpre hi hg
  have hkeepA := get_page_table_keeps (by omega) hps2 hpre hi hg
  have hpreA : Pre ps (m + 1) cnt t sA := Step.pre hpre hstepA
  have hpreC : Pre ps m (entries ps) c sA := hoa ▸ Pre.of_child hpreA hi hdt
  have hneC : NoEmpty sA.mem ps m (entries ps) c := by
    rcases hcase with ⟨hd, hs⟩ | ⟨_, _, hz⟩
    · subst hs
      rw [← hoa]
      exact (hne _ hi hd).2
    · exact NoEmpty_of_clear hz
  obtain ⟨⟨hstepC, hmapC⟩, hne2, hkeep2⟩ := hchild hpreC hneC
  have hstepC' : Step ps m (entries ps)
      (out_addr (sA.mem t (a / 2 ^ level_shift ps (m + 1)))) sA s2 := by rw [hoa]; exact hstepC
  have hrow2 := Step.parent_row hpreA hi hdt hstepC'
  have hB : 0 < 2 ^ level_shift ps (m + 1) := Nat.pow_pos (by norm_num)
  refine ⟨?_, hkeepA.keeps_trans hkeep2⟩
  apply NoEmpty.update (d := a / 2 ^ level_shift ps (m + 1)) hne
  · intro j _ hj
    rw [hrow2, hrow j hj]
  · intro j hj hij hd x hx k
    have hA : ∀ y, Sub s.mem ps m (entries ps) (out_addr (s.mem t j)) y →
        ∀ k, sA.mem y k = s.mem y k := other_slots hpre hrows hj hd
    have hdA : desc_type (sA.mem t j) = MMU_PTE_L012_DESCRIPTOR_TABLE := by
      rw [hrow j hij]; exact hd
    have hxA : Sub sA.mem ps m (entries ps) (out_addr (sA.mem t j)) x := by
      rw [hrow j hij]
      exact (Sub_congr hA x).mpr hx
    rw [Step.sibling hpreA hi hdt hstepC' hj hij hdA x hxA k, hA x hx k]
  · intro _
    rw [hrow2, hoa]
    refine ⟨?_, hne2⟩
    obtain ⟨rem, m', hl, _, _⟩ := hmapC.inside (a % 2 ^ level_shift ps (m + 1)) (le_refl _)
      (by omega)
    exact ⟨_, child_index_lt, lookup_some_entry hl⟩

end Arm64Mmu

namespace Arm64Mmu

theorem leaf_type_ne_table (m : Nat) : leaf_type (m + 1) ≠ MMU_PTE_L012_DESCRIPTOR_TABLE := by
  unfold leaf_type
  simp only [Nat.succ_ne_zero, if_false]
  decide

/-- A successful iteration of the loop of `arm64_mmu_map_pt` leaves no empty
table and keeps the entries of before. -/
theorem map_step_ne {cfg : Config} {ps n cnt t attrs v a pa size : Nat}
    {recurse : Nat → Nat → Nat → Nat → Nat → Nat → State → Option (Int × State)}
    {s s1 : State}
    (hps : 12 ≤ ps) (hps2 : ps ≤ 30) (hattr : desc_type attrs = 0)
    (hspan : cnt * 2 ^ level_shift ps n ≤ 2 ^ 48)
    (hpre : Pre ps n cnt t s) (hne : NoEmpty s.mem ps n cnt t)
    (hrange : a + size ≤ cnt * 2 ^ level_shift ps n) (hsz : size ≠ 0)
    (hpasz : pa + size ≤ 2 ^ 64)
    (halign : n = 0 → 2 ^ ps ∣ a ∧ 2 ^ ps ∣ pa ∧ 2 ^ ps ∣ size)
    (hrec : ∀ m, n = m + 1 → MapRec ps attrs m recurse)
    (hrecN : ∀ m, n = m + 1 → MapRecNE ps m recurse)
    (h : map_step cfg recurse attrs (level_shift ps n) ps t v a pa size s = some (true, s1)) :
    NoEmpty s1.mem ps n cnt t ∧ Keeps s s1 := by
  have hB : 0 < 2 ^ level_shift ps n := Nat.pow_pos (by norm_num)
  have hcnt : 0 < cnt := by
    rcases Nat.eq_zero_or_pos cnt with h0 | h0
    · subst h0; omega
    · exact h0
  have hi : a / 2 ^ level_shift ps n < cnt := index_lt_of_lt hB (by omega)
  have hc0 := chunk_size_pos (level_shift ps n) a size hsz
  have hc1 := chunk_size_le_size (level_shift ps n) a size
  have hc2 := chunk_size_le_block (level_shift ps n) a size
  have hty : (if level_shift ps n > ps then (pa ||| attrs) ||| MMU_PTE_L012_DESCRIPTOR_BLOCK
      else (pa ||| attrs) ||| MMU_PTE_L3_DESCRIPTOR_PAGE) = (pa ||| attrs) ||| leaf_type n := by
    unfold leaf_type
    by_cases hn : n = 0
    · subst hn
      simp [level_shift_zero]
    · have := (level_shift_gt_iff ps n (by omega)).mpr hn
      simp [hn, this]
  unfold map_step at h
  rw [hty] at h
  split_ifs at h with hC hnz
  · -- the table branch
    cases n with
    | zero =>
      exfalso
      obtain ⟨ha, hpa, hsize⟩ := halign rfl
      rw [level_shift_zero] at hC
      have ha' := Nat.mod_eq_zero_of_dvd ha
      have hpa' := Nat.mod_eq_zero_of_dvd hpa
      have hle : 2 ^ ps ≤ size := Nat.le_of_dvd (by omega) hsize
      unfold chunk_size MMU_PTE_DESCRIPTOR_BLOCK_MAX_SHIFT at hC
      rw [ha', hpa', Nat.sub_zero, Nat.min_eq_right hle] at hC
      omega
    | succ m =>
      have hls := level_shift_le_of_span hcnt hspan
      cases hg : arm64_mmu_get_page_table cfg (a / 2 ^ level_shift ps (m + 1)) ps t s with
      | none => simp [hg] at h
      | some r =>
        obtain ⟨o, sA⟩ := r
        cases o with
        | none => simp [hg] at h
        | some c =>
          simp only [hg] at h
          rw [sub32_level ps m (by omega) (by norm_num; omega)] at h
          cases hr : recurse v (a % 2 ^ level_shift ps (m + 1)) pa
              (chunk_size (level_shift ps (m + 1)) a size) (level_shift ps m) c sA with
          | none => simp [hr] at h
          | some r2 =>
            obtain ⟨ret, s2⟩ := r2
            simp only [hr, Option.some.injEq, Prod.mk.injEq, decide_eq_true_eq] at h
            obtain ⟨hret, hs2⟩ := h
            subst hret hs2
            apply map_descend_ne hps (by omega) hpre hne hi hc0 hg
            intro hpreC hneC
            have hbound : a % 2 ^ level_shift ps (m + 1) +
                chunk_size (level_shift ps (m + 1)) a size ≤
                entries ps * 2 ^ level_shift ps m := by
              rw [← pow_level_shift_succ]
              have := Nat.mod_lt a hB
              omega
            exact ⟨hrec m rfl v _ pa _ c sA s2 hpreC hbound (by omega) hr,
              hrecN m rfl v _ pa _ c sA s2 hpreC hbound (by omega) hneC hr⟩
  · simp at h
  · -- the leaf branch
    simp only [Option.some.injEq, Prod.mk.injEq, true_and] at h
    have hpa : pa % 2 ^ level_shift ps n = 0 := by
      by_contra hc; exact hC (Or.inl (Or.inr hc))
    have hzero : s.mem t (a / 2 ^ level_shift ps n) = 0 := by
      by_contra hc; exact hnz hc
    have hsh : 2 ≤ level_shift ps n := by unfold level_shift; omega
    have hdesc : desc_type ((pa ||| attrs) ||| leaf_type n) = leaf_type n :=
      leaf_desc_type (desc_type_of_mod hsh hpa) hattr
    have hm : s1.mem = fun x k => if x = t ∧ k = a / 2 ^ level_shift ps n then
        (pa ||| attrs) ||| leaf_type n else s.mem x k := by rw [← h]; rfl
    refine ⟨NoEmpty.store_entry hpre.wf hne ?_ hm, Keeps.store_empty hzero hm (by rw [← h]; rfl)⟩
    cases n with
    | zero => exact Or.inr rfl
    | succ m =>
      left
      rw [hdesc]
      exact leaf_type_ne_table m

/-- A successful run of the loop of `arm64_mmu_map_pt` leaves no empty table
and keeps the entries of before. -/
theorem map_loop_ne {cfg : Config} {ps n cnt t attrs : Nat}
    {recurse : Nat → Nat → Nat → Nat → Nat → Nat → State → Option (Int × State)}
    (hps : 12 ≤ ps) (hps2 : ps ≤ 30) (hattr : desc_type attrs = 0)
    (hspan : cnt * 2 ^ level_shift ps n ≤ 2 ^ 48)
    (hrec : ∀ m, n = m + 1 → MapRec ps attrs m recurse)
    (hrecN : ∀ m, n = m + 1 → MapRecNE ps m recurse) :
    ∀ (fuel v a pa size : Nat) (s s' : State), size ≤ fuel →
      Pre ps n cnt t s → NoEmpty s.mem ps n cnt t →
      a + size ≤ cnt * 2 ^ level_shift ps n → pa + size ≤ 2 ^ 64 →
      (n = 0 → 2 ^ ps ∣ a ∧ 2 ^ ps ∣ pa ∧ 2 ^ ps ∣ size) →
      map_loop cfg recurse attrs (level_shift ps n) ps t fuel v a pa size s = some (none, s') →
      NoEmpty s'.mem ps n cnt t ∧ Keeps s s' := by
  intro fuel
  induction fuel with
  | zero =>
    intro v a pa size s s' hfuel hpre hne _ _ _ h
    have hsz : size = 0 := by omega
    subst hsz
    simp only [map_loop, if_true, Option.some.injEq, Prod.mk.injEq, true_and] at h
    subst h
    exact ⟨hne, Keeps.keeps_refl s⟩
  | succ fuel ih =>
    intro v a pa size s s' hfuel hpre hne hrange hpasz halign h
    by_cases hsz : size = 0
    · subst hsz
      simp only [map_loop, if_true, Option.some.injEq, Prod.mk.injEq, true_and] at h
      subst h
      exact ⟨hne, Keeps.keeps_refl s⟩
    · have hcnt : 0 < cnt := by
        rcases Nat.eq_zero_or_pos cnt with h0 | h0
        · subst h0; omega
        · exact h0
      have hls := level_shift_le_of_span hcnt hspan
      rw [map_loop_succ _ _ _ _ _ _ _ _ _ _ _ _ hsz (by omega)] at h
      have hc1 := chunk_size_le_size (level_shift ps n) a size
      have hc0 := chunk_size_pos (level_shift ps n) a size hsz
      cases hst : map_step cfg recurse attrs (level_shift ps n) ps t v a pa size s with
      | none => simp [hst] at h
      | some r =>
        obtain ⟨b, s1⟩ := r
        cases b with
        | false => simp [hst] at h
        | true =>
          simp only [hst] at h
          obtain ⟨hstep1, hmap1⟩ :=
            map_step_ok hps hps2 hattr hspan hpre hrange hsz hpasz halign hrec hst
          obtain ⟨hne1, hkeep1⟩ :=
            map_step_ne hps hps2 hattr hspan hpre hne hrange hsz hpasz halign hrec hrecN hst
          split_ifs at h with hrest
          · simp only [Option.some.injEq, Prod.mk.injEq, true_and] at h
            subst h
            exact ⟨hne1, hkeep1⟩
          · have h48 : cnt * 2 ^ level_shift ps n < 2 ^ 64 := by
              norm_num at hspan ⊢; omega
            rw [Nat.mod_eq_of_lt (a := a + _) (by norm_num at h48 ⊢; omega),
              Nat.mod_eq_of_lt (a := pa + _) (by
                have : pa + chunk_size (level_shift ps n) a size < pa + size := by omega
                norm_num at hpasz ⊢; omega)] at h
            have hpre1 := Step.pre hpre hstep1
            obtain ⟨hne2, hkeep2⟩ := ih _ _ _ _ s1 s' (by omega) hpre1 hne1 (by omega) (by omega)
              (by
                intro hn
                obtain ⟨ha, hpa, hsize⟩ := halign hn
                have hch : 2 ^ ps ∣ chunk_size (level_shift ps n) a size := by
                  subst hn
                  rw [level_shift_zero]
                  have ha' := Nat.mod_eq_zero_of_dvd ha
                  have hle : 2 ^ ps ≤ size := Nat.le_of_dvd (by omega) hsize
                  unfold chunk_size
                  rw [ha', Nat.sub_zero, Nat.min_eq_right hle]
                exact ⟨Nat.dvd_add ha hch, Nat.dvd_add hpa hch, Nat.dvd_sub' hsize hch⟩) h
            exact ⟨hne2, hkeep1.keeps_trans hkeep2⟩

/-- A successful `arm64_mmu_map_pt` leaves no empty table and keeps the
entries of before. -/
theorem map_pt_ne {cfg : Config} {ps attrs asid : Nat}
    (hps : 12 ≤ ps) (hps2 : ps ≤ 30) (hattr : desc_type attrs = 0) :
    ∀ (n fuel cnt t v a pa size : Nat) (s s' : State), n < fuel → 0 < cnt →
      cnt * 2 ^ level_shift ps n ≤ 2 ^ 48 →
      Pre ps n cnt t s → NoEmpty s.mem ps n cnt t →
      a + size ≤ cnt * 2 ^ level_shift ps n → pa + size ≤ 2 ^ 64 →
      arm64_mmu_map_pt cfg fuel v a pa size attrs (level_shift ps n) ps t asid s =
        some (0, s') →
      NoEmpty s'.mem ps n cnt t ∧ Keeps s s' := by
  intro n
  induction n with
  | zero =>
    intro fuel cnt t v a pa size s s' hfuel hcnt hspan hpre hne hrange hpasz h
    cases fuel with
    | zero => omega
    | succ fuel =>
      rw [arm64_mmu_map_pt] at h
      split_ifs at h with h64 hal
      · simp [ERR_INVALID_ARGS] at h
      · have hal' := (align_check_iff a pa size ps).mp hal
        split at h
        · simp at h
        · rename_i s1 hloop
          simp only [Option.some.injEq, Prod.mk.injEq, true_and] at h
          subst h
          exact map_loop_ne hps hps2 hattr hspan (fun m hm => by omega) (fun m hm => by omega)
            _ _ _ _ _ _ _ (le_refl _) hpre hne hrange hpasz (fun _ => hal') hloop
        · split at h
          · simp at h
          · simp [ERR_GENERIC] at h
  | succ n ih =>
    intro fuel cnt t v a pa size s s' hfuel hcnt hspan hpre hne hrange hpasz h
    cases fuel with
    | zero => omega
    | succ fuel =>
      rw [arm64_mmu_map_pt] at h
      split_ifs at h with h64 hal
      · simp [ERR_INVALID_ARGS] at h
      · split at h
        · simp at h
        · rename_i s1 hloop
          simp only [Option.some.injEq, Prod.mk.injEq, true_and] at h
          subst h
          have hspanC := span_child hcnt hspan
          have hN : 0 < entries ps := Nat.pow_pos (by norm_num)
          refine map_loop_ne hps hps2 hattr hspan ?_ ?_ _ _ _ _ _ _ _
            (le_refl _) hpre hne hrange hpasz (fun hn => by omega) hloop
          · intro m hm
            have hmn : m = n := by omega
            subst hmn
            intro v' vr pa' sz c st st' hpc hr hp hrun
            exact map_pt_ok hps hps2 hattr m fuel (entries ps) c v' vr pa' sz st st'
              (by omega) hN hspanC hpc hr hp hrun
          · intro m hm
            have hmn : m = n := by omega
            subst hmn
            intro v' vr pa' sz c st st' hpc hr hp hnec hrun
            exact ih fuel (entries ps) c v' vr pa' sz st st' (by omega) hN hspanC hpc hnec
              hr hp hrun
        · split at h
          · simp at h
          · simp [ERR_GENERIC] at h

end Arm64Mmu

namespace Arm64Mmu

/-! ## An unmap leaves no empty table -/

/-- The table branch of an iteration of the loop of `arm64_mmu_unmap_pt`: the
table of the slot is unlinked, or it has an entry. -/
theorem unmap_descend_ne {ps m cnt t a : Nat} {s s1 s2 : State}
    (hpre : Pre ps (m + 1) cnt t s) (hne : NoEmpty s.mem ps (m + 1) cnt t)
    (hi : a / 2 ^ level_shift ps (m + 1) < cnt)
    (hdt : desc_type (s.mem t (a / 2 ^ level_shift ps (m + 1))) = MMU_PTE_L012_DESCRIPTOR_TABLE)
    (hstepC : Step ps m (entries ps) (out_addr (s.mem t (a / 2 ^ level_shift ps (m + 1)))) s s1)
    (hneC : NoEmpty s1.mem ps m (entries ps)
      (out_addr (s.mem t (a / 2 ^ level_shift ps (m + 1)))))
    (hfin : ((∃ k, k < entries ps ∧
          s1.mem (out_addr (s.mem t (a / 2 ^ level_shift ps (m + 1)))) k ≠ 0) ∧
        s2.mem = s1.mem) ∨
      (s2.mem = fun x k =>
          if x = t ∧ k = a / 2 ^ level_shift ps (m + 1) then 0 else s1.mem x k)) :
    NoEmpty s2.mem ps (m + 1) cnt t := by
  have hrow := Step.parent_row hpre hi hdt hstepC
  have hsib1 : ∀ j, j < cnt → j ≠ a / 2 ^ level_shift ps (m + 1) →
      desc_type (s.mem t j) = MMU_PTE_L012_DESCRIPTOR_TABLE →
      ∀ x, Sub s.mem ps m (entries ps) (out_addr (s.mem t j)) x → ∀ k, s1.mem x k = s.mem x k :=
    fun j hj hij hd x hx k => Step.sibling hpre hi hdt hstepC hj hij hd x hx k
  rcases hfin with ⟨hnz, hm2⟩ | hm2
  · apply NoEmpty.update (d := a / 2 ^ level_shift ps (m + 1)) hne
    · intro j _ _
      rw [hm2, hrow]
    · intro j hj hij hd x hx k
      rw [hm2]; exact hsib1 j hj hij hd x hx k
    · intro _
      rw [hm2, hrow]
      exact ⟨hnz, hneC⟩
  · apply NoEmpty.update (d := a / 2 ^ level_shift ps (m + 1)) hne
    · intro j _ hj
      rw [hm2]
      simp only [hj, and_false, if_false]
      exact hrow j
    · intro j hj hij hd x hx k
      have hxt : x ≠ t := by
        intro hc
        subst hc
        exact (hpre.wf.2.1 j hj hd).1 hx
      rw [hm2]
      simp only [hxt, false_and, if_false]
      exact hsib1 j hj hij hd x hx k
    · intro hd
      exfalso
      rw [hm2] at hd
      simp only [and_self, if_true] at hd
      exact not_table_zero hd

/-- One iteration of the loop of `arm64_mmu_unmap_pt` leaves no empty table
and writes nothing but zero entries. -/
theorem unmap_step_ne {ps n cnt t asid v a size : Nat}
    {recurse : Nat → Nat → Nat → Nat → Nat → State → Option State} {s s2 : State}
    (hps : 12 ≤ ps) (hps2 : ps ≤ 30)
    (hspan : cnt * 2 ^ level_shift ps n ≤ 2 ^ 48)
    (hpre : Pre ps n cnt t s) (hne : NoEmpty s.mem ps n cnt t)
    (hrange : a + size ≤ cnt * 2 ^ level_shift ps n) (hsz : size ≠ 0)
    (hrec : ∀ m, n = m + 1 → UnmapRec ps m recurse)
    (hrecN : ∀ m, n = m + 1 → UnmapRecNE ps m recurse)
    (h : unmap_step recurse (level_shift ps n) ps t asid v a size s = some s2) :
    NoEmpty s2.mem ps n cnt t ∧ Zeroes s s2 := by
  have hB : 0 < 2 ^ level_shift ps n := Nat.pow_pos (by norm_num)
  have hcnt : 0 < cnt := by
    rcases Nat.eq_zero_or_pos cnt with h0 | h0
    · subst h0; omega
    · exact h0
  have hi : a / 2 ^ level_shift ps n < cnt := index_lt_of_lt hB (by omega)
  have hc2 := chunk_size_le_block (level_shift ps n) a size
  unfold unmap_step at h
  dsimp only at h
  by_cases hC : level_shift ps n > ps ∧
      desc_type (s.mem t (a / 2 ^ level_shift ps n)) = MMU_PTE_L012_DESCRIPTOR_TABLE
  · rw [if_pos hC] at h
    cases n with
    | zero => rw [level_shift_zero] at hC; omega
    | succ m =>
      have hls := level_shift_le_of_span hcnt hspan
      rw [sub32_level ps m (by omega) (by norm_num; omega)] at h
      have hpreC := Pre.of_child hpre hi hC.2
      have hbound : a % 2 ^ level_shift ps (m + 1) +
          chunk_size (level_shift ps (m + 1)) a size ≤ entries ps * 2 ^ level_shift ps m := by
        rw [← pow_level_shift_succ]
        have := Nat.mod_lt a hB
        omega
      obtain ⟨s1, hr, hstepC, _⟩ := hrec m rfl v (a % 2 ^ level_shift ps (m + 1))
        (chunk_size (level_shift ps (m + 1)) a size) _ s hpreC hbound
      obtain ⟨hneC, hz1⟩ := hrecN m rfl v _ _ _ s s1 hpreC hbound (hne _ hi hC.2).2 hr
      rw [hr] at h
      dsimp only at h
      by_cases hF : chunk_size (level_shift ps (m + 1)) a size = 2 ^ level_shift ps (m + 1) ∨
          page_table_is_clear (out_addr (s.mem t (a / 2 ^ level_shift ps (m + 1)))) ps s1 = true
      · rw [if_pos hF] at h
        simp only [Option.some.injEq] at h
        have hm2 : s2.mem = fun x k =>
            if x = t ∧ k = a / 2 ^ level_shift ps (m + 1) then 0 else s1.mem x k := by
          rw [← h]; rfl
        exact ⟨unmap_descend_ne hpre hne hi hC.2 hstepC hneC (Or.inr hm2),
          hz1.zeroes_trans (Zeroes.store_zero hm2)⟩
      · rw [if_neg hF] at h
        simp only [Option.some.injEq] at h
        subst h
        refine ⟨unmap_descend_ne hpre hne hi hC.2 hstepC hneC (Or.inl ⟨?_, rfl⟩), hz1⟩
        have hncl : ¬ page_table_is_clear
            (out_addr (s.mem t (a / 2 ^ level_shift ps (m + 1)))) ps s1 = true :=
          fun hc => hF (Or.inr hc)
        rw [page_table_is_clear_iff _ _ _ (by omega) (by omega)] at hncl
        by_contra hcon
        apply hncl
        intro k hk
        by_contra hk0
        exact hcon ⟨k, hk, hk0⟩
  · rw [if_neg hC] at h
    have hold : desc_type (0 : Nat) ≠ MMU_PTE_L012_DESCRIPTOR_TABLE ∨ n = 0 :=
      Or.inl not_table_zero
    by_cases hz : s.mem t (a / 2 ^ level_shift ps n) ≠ 0
    · rw [if_pos hz] at h
      simp only [Option.some.injEq] at h
      have hm2 : s2.mem = fun x k =>
          if x = t ∧ k = a / 2 ^ level_shift ps n then 0 else s.mem x k := by
        rw [← h]
        unfold tlbi_page
        split_ifs <;> rfl
      exact ⟨NoEmpty.store_entry hpre.wf hne hold hm2, Zeroes.store_zero hm2⟩
    · rw [if_neg hz] at h
      simp only [Option.some.injEq] at h
      subst h
      exact ⟨hne, Zeroes.zeroes_refl s⟩

/-- The loop of `arm64_mmu_unmap_pt` leaves no empty table and writes nothing
but zero entries. -/
theorem unmap_loop_ne {ps n cnt t asid : Nat}
    {recurse : Nat → Nat → Nat → Nat → Nat → State → Option State}
    (hps : 12 ≤ ps) (hps2 : ps ≤ 30) (hcnt : 0 < cnt)
    (hspan : cnt * 2 ^ level_shift ps n ≤ 2 ^ 48)
    (hrec : ∀ m, n = m + 1 → UnmapRec ps m recurse)
    (hrecN : ∀ m, n = m + 1 → UnmapRecNE ps m recurse) :
    ∀ (fuel v a size : Nat) (s s' : State), size ≤ fuel → Pre ps n cnt t s →
      NoEmpty s.mem ps n cnt t → a + size ≤ cnt * 2 ^ level_shift ps n →
      unmap_loop recurse (level_shift ps n) ps t asid fuel v a size s = some s' →
      NoEmpty s'.mem ps n cnt t ∧ Zeroes s s' := by
  have hls := level_shift_le_of_span hcnt hspan
  intro fuel
  induction fuel with
  | zero =>
    intro v a size s s' hf hpre hne _ h
    have h0 : size = 0 := by omega
    subst h0
    simp only [unmap_loop, if_true, Option.some.injEq] at h
    subst h
    exact ⟨hne, Zeroes.zeroes_refl s⟩
  | succ fuel ih =>
    intro v a size s s' hf hpre hne hrange h
    by_cases hsz : size = 0
    · subst hsz
      simp only [unmap_loop, if_true, Option.some.injEq] at h
      subst h
      exact ⟨hne, Zeroes.zeroes_refl s⟩
    · rw [unmap_loop_succ recurse _ ps t asid fuel v a size s hsz (by omega)] at h
      obtain ⟨s2, hs2, hstep, _⟩ :=
        unmap_step_ok (z := asid) (v := v) hps hps2 hspan hpre hrange hsz hrec
      obtain ⟨hne2, hz2⟩ := unmap_step_ne hps hps2 hspan hpre hne hrange hsz hrec hrecN hs2
      rw [hs2] at h
      dsimp only at h
      have hc0 := chunk_size_pos (level_shift ps n) a size hsz
      have hc1 := chunk_size_le_size (level_shift ps n) a size
      by_cases hrest : size - chunk_size (level_shift ps n) a size = 0
      · rw [if_pos hrest] at h
        simp only [Option.some.injEq] at h
        subst h
        exact ⟨hne2, hz2⟩
      · rw [if_neg hrest] at h
        have hpre2 := Step.pre hpre hstep
        have hmod : (a + chunk_size (level_shift ps n) a size) % 2 ^ 64 =
            a + chunk_size (level_shift ps n) a size := by
          apply Nat.mod_eq_of_lt
          have : (2:Nat) ^ 48 < 2 ^ 64 := by norm_num
          omega
        rw [hmod] at h
        obtain ⟨hne', hz'⟩ := ih _ _ _ s2 s' (by omega) hpre2 hne2 (by omega) h
        exact ⟨hne', hz2.zeroes_trans hz'⟩

/-- The function `arm64_mmu_unmap_pt` leaves no empty table and writes nothing
but zero entries. -/
theorem unmap_pt_ne {ps asid : Nat} (hps : 12 ≤ ps) (hps2 : ps ≤ 30) :
    ∀ (n fuel cnt t v a size : Nat) (s s' : State), n < fuel → 0 < cnt →
      cnt * 2 ^ level_shift ps n ≤ 2 ^ 48 → Pre ps n cnt t s →
      NoEmpty s.mem ps n cnt t → a + size ≤ cnt * 2 ^ level_shift ps n →
      arm64_mmu_unmap_pt fuel v a size (level_shift ps n) ps t asid s = some s' →
      NoEmpty s'.mem ps n cnt t ∧ Zeroes s s' := by
  intro n
  induction n with
  | zero =>
    intro fuel cnt t v a size s s' hf hcnt hspan hpre hne hrange h
    obtain ⟨f, rfl⟩ : ∃ f, fuel = f + 1 := ⟨fuel - 1, by omega⟩
    rw [arm64_mmu_unmap_pt] at h
    exact unmap_loop_ne hps hps2 hcnt hspan (fun m hm => by omega) (fun m hm => by omega)
      size v a size s s' (Nat.le_refl _) hpre hne hrange h
  | succ m ih =>
    intro fuel cnt t v a size s s' hf hcnt hspan hpre hne hrange h
    obtain ⟨f, rfl⟩ : ∃ f, fuel = f + 1 := ⟨fuel - 1, by omega⟩
    rw [arm64_mmu_unmap_pt] at h
    have hspanC := span_child hcnt hspan
    have hN : 0 < entries ps := Nat.pow_pos (by norm_num)
    refine unmap_loop_ne hps hps2 hcnt hspan ?_ ?_ size v a size s s' (Nat.le_refl _)
      hpre hne hrange h
    · intro m' hm'
      have hmm : m' = m := by omega
      subst hmm
      intro v' vr sz c st hpreC hr
      exact unmap_pt_ok hps hps2 m' f (entries ps) c v' vr sz st (by omega) hN hspanC hpreC hr
    · intro m' hm'
      have hmm : m' = m := by omega
      subst hmm
      intro v' vr sz c st st' hpreC hr hnec hrun
      exact ih f (entries ps) c v' vr sz st st' (by omega) hN hspanC hpreC hnec hr hrun

end Arm64Mmu

namespace Arm64Mmu

/-! ## Two trees with the same translations -/

theorem slot_of_range {i r cnt B : Nat} (hi : i < cnt) (h1 : i * B ≤ r)
    (h2 : r < (i + 1) * B) : r / B = i ∧ r % B = r - i * B ∧ r < cnt * B := by
  have e : (i + 1) * B = i * B + B := by ring
  have hdm := div_mod_unique (r := r) (q := i) (m := r - i * B) (B := B) (by omega) (by omega)
  refine ⟨hdm.1, hdm.2, ?_⟩
  calc r < (i + 1) * B := h2
    _ ≤ cnt * B := Nat.mul_le_mul_right _ hi

theorem leaf_type_zero : leaf_type 0 = MMU_PTE_L3_DESCRIPTOR_PAGE := rfl

theorem leaf_type_succ (n : Nat) : leaf_type (n + 1) = MMU_PTE_L012_DESCRIPTOR_BLOCK := by
  unfold leaf_type
  simp

/-- The entries of the table `t` are the same in two trees that translate the
same and have no empty table, when the second keeps or clears the table
descriptors of the first. -/
theorem restore_row {mem mem2 : Nat → Nat → Nat} {ps n cnt t : Nat}
    (hwf : WFT mem ps n cnt t) (hne : NoEmpty mem ps n cnt t)
    (hwf2 : WFT mem2 ps n cnt t) (hne2 : NoEmpty mem2 ps n cnt t)
    (heq : ∀ r, r < cnt * 2 ^ level_shift ps n → lookup mem2 ps n t r = lookup mem ps n t r)
    (hK : ∀ i, desc_type (mem t i) = MMU_PTE_L012_DESCRIPTOR_TABLE →
      mem2 t i = mem t i ∨ mem2 t i = 0) :
    ∀ i, i < cnt → mem2 t i = mem t i := by
  intro i hi
  have hB : 0 < 2 ^ level_shift ps n := Nat.pow_pos (by norm_num)
  have h0 := slot_of_range (r := i * 2 ^ level_shift ps n) hi (le_refl _)
    (by rw [Nat.add_mul]; omega)
  have hq := heq _ h0.2.2
  -- the cases of the entry of the first tree
  have hcases : mem t i = 0 ∨ desc_type (mem t i) = leaf_type n ∨
      (0 < n ∧ desc_type (mem t i) = MMU_PTE_L012_DESCRIPTOR_TABLE) := by
    cases n with
    | zero =>
      rcases hwf i hi with h | h
      · exact Or.inl h
      · exact Or.inr (Or.inl h)
    | succ m =>
      rcases hwf.1 i hi with h | h | h
      · exact Or.inl h
      · exact Or.inr (Or.inl (by rw [leaf_type_succ]; exact h))
      · exact Or.inr (Or.inr ⟨Nat.succ_pos _, h⟩)
  have hcases2 : mem2 t i = 0 ∨ desc_type (mem2 t i) = leaf_type n ∨
      (0 < n ∧ desc_type (mem2 t i) = MMU_PTE_L012_DESCRIPTOR_TABLE) := by
    cases n with
    | zero =>
      rcases hwf2 i hi with h | h
      · exact Or.inl h
      · exact Or.inr (Or.inl h)
    | succ m =>
      rcases hwf2.1 i hi with h | h | h
      · exact Or.inl h
      · exact Or.inr (Or.inl (by rw [leaf_type_succ]; exact h))
      · exact Or.inr (Or.inr ⟨Nat.succ_pos _, h⟩)
  rcases hcases with hz | hl | ⟨hn, ht⟩
  · -- nothing is translated below the slot
    rw [hz]
    by_contra hnz
    obtain ⟨r, hr1, hr2, hl⟩ := nonempty_lookup n cnt t i hwf2 hne2 hi hnz
    have hs := slot_of_range hi hr1 hr2
    rw [heq r hs.2.2, lookup_zero (by rw [hs.1]; exact hz)] at hl
    exact hl rfl
  · -- a block or page
    have hlm : lookup mem ps n t (i * 2 ^ level_shift ps n) =
        some (mem t i, i * 2 ^ level_shift ps n % 2 ^ level_shift ps n, n) := by
      have := @lookup_leaf mem ps n t (i * 2 ^ level_shift ps n) (by rw [h0.1]; exact hl)
      rw [h0.1] at this
      exact this
    rw [hlm] at hq
    rcases hcases2 with hz2 | hl2 | ⟨hn2, ht2⟩
    · have := @lookup_zero mem2 ps n t (i * 2 ^ level_shift ps n) (by rw [h0.1]; exact hz2)
      rw [this] at hq
      exact Option.noConfusion hq
    · have := @lookup_leaf mem2 ps n t (i * 2 ^ level_shift ps n) (by rw [h0.1]; exact hl2)
      rw [this, h0.1] at hq
      simp only [Option.some.injEq, Prod.mk.injEq] at hq
      exact hq.1
    · exfalso
      obtain ⟨m, rfl⟩ : ∃ m, n = m + 1 := ⟨n - 1, by omega⟩
      have := @lookup_table mem2 ps m t (i * 2 ^ level_shift ps (m + 1))
        (by rw [h0.1]; exact ht2)
      rw [this] at hq
      have := (lookup_rem_lt _ _ _ _ _ _ hq).1
      omega
  · -- a table
    rcases hK i ht with h | h
    · exact h
    · exfalso
      have hnz : mem t i ≠ 0 := by
        intro hc
        rw [hc] at ht
        exact not_table_zero ht
      obtain ⟨r, hr1, hr2, hl⟩ := nonempty_lookup n cnt t i hwf hne hi hnz
      have hs := slot_of_range hi hr1 hr2
      rw [← heq r hs.2.2, lookup_zero (by rw [hs.1]; exact h)] at hl
      exact hl rfl

/-- The tables of two trees are the same, entry by entry, when the trees
translate the same and have no empty table, and the second keeps or clears the
table descriptors of the first. -/
theorem tree_restore {mem mem2 : Nat → Nat → Nat} {ps : Nat} :
    ∀ (n cnt t : Nat), WFT mem ps n cnt t → NoEmpty mem ps n cnt t →
      WFT mem2 ps n cnt t → NoEmpty mem2 ps n cnt t →
      (∀ r, r < cnt * 2 ^ level_shift ps n → lookup mem2 ps n t r = lookup mem ps n t r) →
      (∀ x i, Sub mem ps n cnt t x → desc_type (mem x i) = MMU_PTE_L012_DESCRIPTOR_TABLE →
        mem2 x i = mem x i ∨ mem2 x i = 0) →
      (∀ i, i < cnt → mem2 t i = mem t i) ∧
      (∀ x, Desc mem ps n cnt t x → ∀ k, k < entries ps → mem2 x k = mem x k) := by
  intro n
  induction n with
  | zero =>
    intro cnt t hwf hne hwf2 hne2 heq hK
    exact ⟨restore_row hwf hne hwf2 hne2 heq (fun i => hK t i (Or.inl rfl)),
      fun x hx => absurd hx (by simp [Desc])⟩
  | succ n ih =>
    intro cnt t hwf hne hwf2 hne2 heq hK
    have hrow := restore_row hwf hne hwf2 hne2 heq (fun i => hK t i (Or.inl rfl))
    refine ⟨hrow, ?_⟩
    intro x hx
    obtain ⟨i, hi, hd, hsub⟩ := Desc.cases hx
    have hd2 : desc_type (mem2 t i) = MMU_PTE_L012_DESCRIPTOR_TABLE := by rw [hrow i hi]; exact hd
    have hwfC2 := (hwf2.2.1 i hi hd2).2
    have hneC2 := (hne2 i hi hd2).2
    rw [hrow i hi] at hwfC2 hneC2
    have hB : 0 < 2 ^ level_shift ps (n + 1) := Nat.pow_pos (by norm_num)
    have hBN := pow_level_shift_succ ps n
    obtain ⟨h1, h2⟩ := ih (entries ps) (out_addr (mem t i)) (hwf.2.1 i hi hd).2 (hne i hi hd).2
      hwfC2 hneC2
      (by
        intro r' hr'
        have hr'' : r' < 2 ^ level_shift ps (n + 1) := by rw [hBN]; exact hr'
        have hs := slot_of_range (r := i * 2 ^ level_shift ps (n + 1) + r') hi
          (Nat.le_add_right _ _) (by rw [Nat.add_mul, Nat.one_mul]; omega)
        have hq := heq _ hs.2.2
        have e2 := @lookup_table mem2 ps n t (i * 2 ^ level_shift ps (n + 1) + r')
          (by rw [hs.1]; exact hd2)
        have e1 := @lookup_table mem ps n t (i * 2 ^ level_shift ps (n + 1) + r')
          (by rw [hs.1]; exact hd)
        rw [e1, e2, hs.1, hs.2.1, hrow i hi, Nat.add_sub_cancel_left] at hq
        exact hq)
      (fun y j hy hdy => hK y j (Or.inr (Sub.child hi hd hy)) hdy)
    rcases hsub with hxc | hxd
    · rw [hxc]; exact h1
    · exact h2 x hxd

end Arm64Mmu

namespace Arm64Mmu

/-! ## `arch_mmu_unmap` on the top-level table -/

theorem arm64_mmu_unmap_run {vaddr size vbase tss tis ps top asid : Nat} {s s1 : State}
    (htss : tss ≤ 48) (hb : vbase ≤ vaddr) (hv : vaddr < 2 ^ 64)
    (hr : (vaddr - vbase) + size ≤ 2 ^ tss)
    (hpt : arm64_mmu_unmap_pt (tis + 1) vaddr (vaddr - vbase) size tis ps top asid s = some s1) :
    arm64_mmu_unmap vaddr size vbase tss tis ps (some top) asid s =
      some (0, emit Event.dsb s1) := by
  unfold arm64_mmu_unmap
  rw [if_neg (by omega)]
  simp only [Nat.one_shiftLeft, sub64_of_le _ _ hb hv]
  have h48 : (2:Nat) ^ tss ≤ 2 ^ 48 := Nat.pow_le_pow_right (by norm_num) htss
  have hsub : sub64 (2 ^ tss) size = 2 ^ tss - size :=
    sub64_of_le _ _ (by omega) (by norm_num at h48 ⊢; omega)
  rw [hsub, if_neg (by omega), hpt]

/-- What a returning `arch_mmu_unmap` has done: either it refused its
arguments without touching the state, or it ran `arm64_mmu_unmap_pt` on the
top-level table for the range, which lies inside the translation window. -/
theorem arch_mmu_unmap_inv {cfg : Config} {a : Aspace} {s s' : State}
    {top vaddr count : Nat} {ret : Int}
    (hcfg : cfg.WF) (ha : a.WF cfg) (htop : a.tt_virt = some top)
    (h : arch_mmu_unmap cfg a vaddr count s = some (ret, s')) :
    (s' = s ∧ (ret = ERR_OUT_OF_RANGE ∨ ret = ERR_INVALID_ARGS)) ∨
    (is_valid_vaddr a vaddr = true ∧ cfg.PAGE_SIZE ∣ vaddr ∧
      (vaddr - cfg.window_base a) + cfg.byte_count count ≤ 2 ^ cfg.size_shift a ∧ ret = 0 ∧
      ∃ s1, arm64_mmu_unmap_pt (cfg.top_shift a + 1) vaddr (vaddr - cfg.window_base a)
          (cfg.byte_count count) (cfg.top_shift a) cfg.PAGE_SIZE_SHIFT
          top a.tlb_asid s = some s1 ∧ s' = emit Event.dsb s1) := by
  unfold arch_mmu_unmap at h
  by_cases hv : is_valid_vaddr a vaddr = true
  swap
  · have hv' : is_valid_vaddr a vaddr = false := by
      cases hh : is_valid_vaddr a vaddr with
      | false => rfl
      | true => exact absurd hh hv
    simp only [hv', Bool.not_false, if_true, Option.some.injEq, Prod.mk.injEq] at h
    exact Or.inl ⟨h.2.symm, Or.inl h.1.symm⟩
  simp only [hv, Bool.not_true, Bool.false_eq_true, if_false] at h
  obtain ⟨hb, hrel, hv64⟩ := rel_lt hcfg ha hv
  have hsh := hcfg.shifts a
  split_ifs at h with h1 h4 h5
  · simp only [Option.some.injEq, Prod.mk.injEq] at h
    exact Or.inl ⟨h.2.symm, Or.inr h.1.symm⟩
  · -- kernel
    have hk : a.kernel := h4
    have hal : cfg.PAGE_SIZE ∣ vaddr := by
      simp only [Bool.not_eq_true', Bool.not_eq_false] at h1
      exact (is_page_aligned_iff cfg vaddr).mp h1
    rw [window_base_eq hcfg a hk, htop] at h
    have hpsk := hcfg.page_shift a
    simp only [hk, if_true] at hpsk
    simp only [Config.size_shift, Config.top_shift, Aspace.tlb_asid, hk, if_true] at hsh ⊢
    rcases arm64_mmu_unmap_inv hsh.2.1 hb hv64 h with ⟨e1, e2⟩ | ⟨hr, hret, s1, hpt, hs'⟩
    · exact Or.inl ⟨e1, Or.inr e2⟩
    · right
      rw [hpsk] at hpt
      exact ⟨hv, hal, hr, hret, s1, hpt, hs'⟩
  · -- user
    have hk : ¬ a.kernel := h4
    have hal : cfg.PAGE_SIZE ∣ vaddr := by
      simp only [Bool.not_eq_true', Bool.not_eq_false] at h1
      exact (is_page_aligned_iff cfg vaddr).mp h1
    have hwb : cfg.window_base a = 0 := by simp [Config.window_base, hk]
    rw [htop] at h
    have hpsk := hcfg.page_shift a
    simp only [hk, if_false] at hpsk
    simp only [Config.size_shift, Config.top_shift, Aspace.tlb_asid, hk, if_false] at hsh ⊢
    rw [hwb] at hb ⊢
    split at h
    · simp at h
    · rename_i r1 s2 hm
      simp only [Option.some.injEq, Prod.mk.injEq, arm64_tlbflush_same] at h
      obtain ⟨e1, e2⟩ := h
      subst e1 e2
      rcases arm64_mmu_unmap_inv hsh.2.1 hb hv64 hm with ⟨e1, e2⟩ | ⟨hr, hret, s1, hpt, hs'⟩
      · exact Or.inl ⟨e1, Or.inr e2⟩
      · right
        rw [hpsk] at hpt
        exact ⟨hv, hal, hr, hret, s1, hpt, hs'⟩

/-- The call `arch_mmu_unmap` on a range of the translation window that starts
at a page-aligned address of the address space. -/
theorem arch_mmu_unmap_run {cfg : Config} {a : Aspace} {s s1 : State}
    {top vaddr count : Nat}
    (hcfg : cfg.WF) (ha : a.WF cfg) (htop : a.tt_virt = some top)
    (hv : is_valid_vaddr a vaddr = true) (hal : cfg.PAGE_SIZE ∣ vaddr)
    (hr : (vaddr - cfg.window_base a) + cfg.byte_count count ≤ 2 ^ cfg.size_shift a)
    (hpt : arm64_mmu_unmap_pt (cfg.top_shift a + 1) vaddr (vaddr - cfg.window_base a)
      (cfg.byte_count count) (cfg.top_shift a) cfg.PAGE_SIZE_SHIFT
      top a.tlb_asid s = some s1) :
    arch_mmu_unmap cfg a vaddr count s = some (NO_ERROR, emit Event.dsb s1) := by
  unfold arch_mmu_unmap
  obtain ⟨hb, hrel, hv64⟩ := rel_lt hcfg ha hv
  have hsh := hcfg.shifts a
  have hal' := (is_page_aligned_iff cfg vaddr).mpr hal
  simp only [hv, hal', Bool.not_true, Bool.false_eq_true, if_false]
  have hpsk := hcfg.page_shift a
  by_cases hk : a.kernel
  · have hk' : a.flags &&& ARCH_ASPACE_FLAG_KERNEL ≠ 0 := hk
    rw [if_pos hk', window_base_eq hcfg a hk, htop]
    simp only [hk, if_true] at hpsk
    simp only [Config.size_shift, Config.top_shift, Aspace.tlb_asid, hk, if_true] at hsh hr hpt
    rw [if_neg (by omega), hpsk]
    exact arm64_mmu_unmap_run hsh.2.1 hb hv64 hr hpt
  · have hk' : ¬ a.flags &&& ARCH_ASPACE_FLAG_KERNEL ≠ 0 := hk
    have hwb : cfg.window_base a = 0 := by simp [Config.window_base, hk]
    rw [if_neg hk', htop]
    simp only [hk, if_false] at hpsk
    simp only [Config.size_shift, Config.top_shift, Aspace.tlb_asid, hk, if_false] at hsh hr hpt
    rw [hwb] at hb hr hpt
    have e := arm64_mmu_unmap_run hsh.2.1 hb hv64 hr hpt
    unfold Config.byte_count at e
    rw [hpsk, e]
    simp only [arm64_tlbflush_same]
    rfl

end Arm64Mmu

namespace Arm64Mmu

/-! ## The invariants of the reachable states -/

theorem Desc_congr_rows {mem mem2 : Nat → Nat → Nat} {ps : Nat} :
    ∀ (n cnt t : Nat), (∀ i, i < cnt → mem2 t i = mem t i) →
      (∀ x, Desc mem ps n cnt t x → ∀ k, k < entries ps → mem2 x k = mem x k) →
      ∀ y, Desc mem2 ps n cnt t y ↔ Desc mem ps n cnt t y := by
  intro n
  induction n with
  | zero => intro cnt t _ _ y; simp [Desc]
  | succ n ih =>
    intro cnt t hrow hsub y
    rw [Desc_succ_iff, Desc_succ_iff]
    have hc : ∀ i, i < cnt → desc_type (mem t i) = MMU_PTE_L012_DESCRIPTOR_TABLE →
        ∀ z, Desc mem2 ps n (entries ps) (out_addr (mem t i)) z ↔
          Desc mem ps n (entries ps) (out_addr (mem t i)) z := by
      intro i hi hd
      apply ih
      · exact fun k hk => hsub _ (Sub.child hi hd (Or.inl rfl)) k hk
      · exact fun x hx k hk => hsub x (Sub.child hi hd (Or.inr hx)) k hk
    constructor
    · rintro ⟨i, hi, hd, hx⟩
      rw [hrow i hi] at hd hx
      refine ⟨i, hi, hd, ?_⟩
      rcases hx with hx | hx
      · exact Or.inl hx
      · exact Or.inr ((hc i hi hd y).mp hx)
    · rintro ⟨i, hi, hd, hx⟩
      refine ⟨i, hi, by rw [hrow i hi]; exact hd, ?_⟩
      rw [hrow i hi]
      rcases hx with hx | hx
      · exact Or.inl hx
      · exact Or.inr ((hc i hi hd y).mpr hx)

theorem TreeWF.of_same_tree {cfg : Config} {a : Aspace} {s s' : State} (h : TreeWF cfg a s)
    (hm : s'.mem = s.mem) (hl : s'.live = s.live) : TreeWF cfg a s' := by
  obtain ⟨top, htop, h1, h2, h3, h4⟩ := h
  exact ⟨top, htop, by rw [hm]; exact h1, by rw [hl]; exact h2, by rw [hl]; exact h3,
    by rw [hm, hl]; exact h4⟩

theorem Mapped.of_same_map {ps n cnt t a pa size attrs : Nat} {s s1 s2 : State}
    (h : Mapped ps n cnt t a pa size attrs s s1) (hm : s2.mem = s1.mem) :
    Mapped ps n cnt t a pa size attrs s s2 where
  inside := by rw [hm]; exact h.inside
  outside := by rw [hm]; exact h.outside
  free_before := h.free_before

theorem Keeps.of_same_kept {s s1 s2 : State} (h : Keeps s s1) (hm : s2.mem = s1.mem)
    (hq : s2.pool = s1.pool) : Keeps s s2 :=
  ⟨by rw [hm]; exact h.1, by rw [hq]; exact h.2⟩

theorem arch_mmu_map_ok_valid {cfg : Config} {a : Aspace} {s s' : State}
    {vaddr paddr count flags : Nat}
    (h : arch_mmu_map cfg a vaddr paddr count flags s = some (NO_ERROR, s')) :
    is_valid_vaddr a vaddr = true ∧ cfg.PAGE_SIZE ∣ vaddr := by
  unfold arch_mmu_map at h
  by_cases hv : is_valid_vaddr a vaddr = true
  · refine ⟨hv, ?_⟩
    simp only [hv, Bool.not_true, Bool.false_eq_true, if_false] at h
    by_cases hal : IS_PAGE_ALIGNED cfg vaddr = true
    · exact (is_page_aligned_iff cfg vaddr).mp hal
    · exfalso
      have hal' : IS_PAGE_ALIGNED cfg vaddr = false := by
        cases hh : IS_PAGE_ALIGNED cfg vaddr with
        | false => rfl
        | true => exact absurd hh hal
      simp [hal', ERR_INVALID_ARGS, NO_ERROR] at h
  · exfalso
    have hv' : is_valid_vaddr a vaddr = false := by
      cases hh : is_valid_vaddr a vaddr with
      | false => rfl
      | true => exact absurd hh hv
    simp [hv', ERR_OUT_OF_RANGE, NO_ERROR] at h

/-- What a successful `arch_mmu_map` has done to the tree. -/
theorem arch_map_facts {cfg : Config} {a : Aspace} {s s' : State}
    {top vaddr paddr count flags : Nat}
    (hcfg : cfg.WF) (ha : a.WF cfg) (htop : a.tt_virt = some top)
    (ht : TreeWF cfg a s) (hp : AllocOK a s)
    (hne : NoEmpty s.mem cfg.PAGE_SIZE_SHIFT (cfg.height a) (cfg.entries_top a) top)
    (hpa64 : paddr < 2 ^ 64)
    (hmap : arch_mmu_map cfg a vaddr paddr count flags s = some (NO_ERROR, s')) :
    is_valid_vaddr a vaddr = true ∧ cfg.PAGE_SIZE ∣ vaddr ∧
    (vaddr - cfg.window_base a) + cfg.byte_count count ≤ 2 ^ cfg.size_shift a ∧
    Step cfg.PAGE_SIZE_SHIFT (cfg.height a) (cfg.entries_top a) top s s' ∧
    Mapped cfg.PAGE_SIZE_SHIFT (cfg.height a) (cfg.entries_top a) top
      (vaddr - cfg.window_base a) paddr (cfg.byte_count count) (Config.attrs a flags) s s' ∧
    NoEmpty s'.mem cfg.PAGE_SIZE_SHIFT (cfg.height a) (cfg.entries_top a) top ∧
    Keeps s s' := by
  obtain ⟨hv, hal⟩ := arch_mmu_map_ok_valid hmap
  have hpre := Pre.of_tree htop ht hp
  rcases arch_mmu_map_inv hcfg ha htop hmap with
    ⟨hs, hret⟩ | ⟨_, _, _, hpa, _, hr, s1, hpt, hm, hl, hq⟩
  · have hc : count = 0 := by
      rcases hret with h | h | h
      · exact absurd h (by decide)
      · exact absurd h (by decide)
      · exact h.2
    subst hs hc
    have hb : cfg.byte_count 0 = 0 := by simp [Config.byte_count]
    obtain ⟨_, hrel, _⟩ := rel_lt hcfg ha hv
    rw [hb]
    exact ⟨hv, hal, by omega, Step.refl hpre, Mapped.nil, hne, Keeps.keeps_refl _⟩
  · obtain ⟨hstep, hmapped⟩ := arch_map_descent_ok hcfg htop ht hp hpa64 hpa hr hpt
    have hps := hcfg.ps_bounds
    have hts := hcfg.top_shift_eq a
    have hsh := hcfg.shifts a
    have h48 : (2:Nat) ^ cfg.size_shift a ≤ 2 ^ 48 := Nat.pow_le_pow_right (by norm_num) hsh.2.1
    have hpa48 := (paddr_of_mask hpa64 hpa).2
    rw [hts] at hpt
    have hfuel : cfg.height a < level_shift cfg.PAGE_SIZE_SHIFT (cfg.height a) + 1 := by
      have : cfg.height a ≤ level_shift cfg.PAGE_SIZE_SHIFT (cfg.height a) := by
        unfold level_shift
        have : cfg.height a * 1 ≤ cfg.height a * (cfg.PAGE_SIZE_SHIFT - 3) :=
          Nat.mul_le_mul_left _ (by omega)
        omega
      omega
    obtain ⟨hne1, hkeep⟩ := map_pt_ne hps.1 hps.2 (attrs_desc_type a flags) (cfg.height a) _
      (cfg.entries_top a) top vaddr _ paddr _ s s1 hfuel (hcfg.entries_top_le a).2
      (hcfg.span_le a) hpre hne (by rw [hcfg.span a]; exact hr)
      (by norm_num at h48 hpa48 ⊢; omega) hpt
    exact ⟨hv, hal, hr, Step.of_eq hstep hm hl hq, hmapped.of_same_map hm, by rw [hm]; exact hne1,
      hkeep.of_same_kept hm hq⟩

/-- What `arch_mmu_unmap` does to the tree on a range of the translation
window. -/
theorem arch_unmap_facts {cfg : Config} {a : Aspace} {s : State} {top vaddr c : Nat}
    (hcfg : cfg.WF) (ha : a.WF cfg) (htop : a.tt_virt = some top)
    (ht : TreeWF cfg a s) (hp : AllocOK a s)
    (hne : NoEmpty s.mem cfg.PAGE_SIZE_SHIFT (cfg.height a) (cfg.entries_top a) top)
    (hv : is_valid_vaddr a vaddr = true) (hal : cfg.PAGE_SIZE ∣ vaddr)
    (hr : (vaddr - cfg.window_base a) + cfg.byte_count c ≤ 2 ^ cfg.size_shift a) :
    ∃ s', arch_mmu_unmap cfg a vaddr c s = some (NO_ERROR, s') ∧
      Step cfg.PAGE_SIZE_SHIFT (cfg.height a) (cfg.entries_top a) top s s' ∧
      Unmapped cfg.PAGE_SIZE_SHIFT (cfg.height a) (cfg.entries_top a) top
        (vaddr - cfg.window_base a) (cfg.byte_count c) s s' ∧
      NoEmpty s'.mem cfg.PAGE_SIZE_SHIFT (cfg.height a) (cfg.entries_top a) top ∧
      Zeroes s s' := by
  have hpre := Pre.of_tree htop ht hp
  have hps := hcfg.ps_bounds
  have hts := hcfg.top_shift_eq a
  have hfuel : cfg.height a < level_shift cfg.PAGE_SIZE_SHIFT (cfg.height a) + 1 := by
    have : cfg.height a ≤ level_shift cfg.PAGE_SIZE_SHIFT (cfg.height a) := by
      unfold level_shift
      have : cfg.height a * 1 ≤ cfg.height a * (cfg.PAGE_SIZE_SHIFT - 3) :=
        Nat.mul_le_mul_left _ (by omega)
      omega
    omega
  have hr' : (vaddr - cfg.window_base a) + cfg.byte_count c ≤
      cfg.entries_top a * 2 ^ level_shift cfg.PAGE_SIZE_SHIFT (cfg.height a) := by
    rw [hcfg.span a]; exact hr
  obtain ⟨s1, hpt, hstep, hun⟩ := unmap_pt_ok (z := a.tlb_asid) hps.1 hps.2 (cfg.height a) _
    (cfg.entries_top a) top vaddr (vaddr - cfg.window_base a) (cfg.byte_count c) s hfuel
    (hcfg.entries_top_le a).2 (hcfg.span_le a) hpre hr'
  obtain ⟨hne1, hz⟩ := unmap_pt_ne hps.1 hps.2 (cfg.height a) _ (cfg.entries_top a) top vaddr
    (vaddr - cfg.window_base a) (cfg.byte_count c) s s1 hfuel (hcfg.entries_top_le a).2
    (hcfg.span_le a) hpre hne hr' hpt
  rw [← hts] at hpt
  refine ⟨emit Event.dsb s1, arch_mmu_unmap_run hcfg ha htop hv hal hr hpt,
    Step.of_eq hstep rfl rfl rfl, ?_, hne1, hz⟩
  exact ⟨hun.inside, hun.keep_none, hun.keep, hun.full, hun.row⟩

end Arm64Mmu

namespace Arm64Mmu

/-- Every reachable state has a well-formed tree without empty tables. -/
theorem reachable_inv {cfg : Config} {a : Aspace} {s : State}
    (hcfg : cfg.WF) (ha : a.WF cfg) (h : Reachable cfg a s) :
    TreeWF cfg a s ∧ ∃ top, a.tt_virt = some top ∧
      NoEmpty s.mem cfg.PAGE_SIZE_SHIFT (cfg.height a) (cfg.entries_top a) top := by
  induction h with
  | fresh s top htop hz hl =>
    exact ⟨tree_wf_of_clear htop hz hl, top, htop, NoEmpty_of_clear hz⟩
  | map s s' vaddr paddr count flags _ hp hpa hmap ih =>
    obtain ⟨ht, top, htop, hne⟩ := ih
    obtain ⟨_, _, _, hstep, _, hne', _⟩ := arch_map_facts hcfg ha htop ht hp hne hpa hmap
    exact ⟨TreeWF.of_step htop ht hp hstep, top, htop, hne'⟩
  | unmap s s' vaddr count _ hp hun ih =>
    obtain ⟨ht, top, htop, hne⟩ := ih
    rcases arch_mmu_unmap_inv hcfg ha htop hun with ⟨_, e | e⟩ | ⟨hv, hal, hr, _, _⟩
    · exact absurd e (by decide)
    · exact absurd e (by decide)
    · obtain ⟨s'', hrun, hstep, _, hne', _⟩ := arch_unmap_facts (c := count) hcfg ha htop ht
        hp hne hv hal hr
      rw [hun] at hrun
      simp only [Option.some.injEq, Prod.mk.injEq, true_and] at hrun
      subst hrun
      exact ⟨TreeWF.of_step htop ht hp hstep, top, htop, hne'⟩
  | alloc s pool _ ih =>
    obtain ⟨ht, top, htop, hne⟩ := ih
    exact ⟨ht.of_same_tree rfl rfl, top, htop, hne⟩

/-! ## Claim on a map followed by an unmap -/

/-- C5. No leaks: in every state reached from a freshly initialised address
space by successful `arch_mmu_map` and `arch_mmu_unmap` calls, with an
allocator that hands out fresh table frames, if `arch_mmu_map` of
`count` pages at `vaddr` returns `NO_ERROR` then `arch_mmu_unmap` of the same
range returns `NO_ERROR`, and the translation tree after it (the entries of
the top-level table and of every live page-table frame, and the set of live
page-table frames) equals the tree before the map.  A map that returns
`NO_ERROR` has found no mapping in its range. -/
theorem map_unmap_restores (cfg : Config) (a : Aspace) (s s1 : State)
    (vaddr paddr count flags : Nat)
    (hcfg : cfg.WF) (ha : a.WF cfg) (hreach : Reachable cfg a s) (hp : AllocOK a s)
    (hpa64 : paddr < 2 ^ 64)
    (hmap : arch_mmu_map cfg a vaddr paddr count flags s = some (NO_ERROR, s1)) :
    ∃ s2, arch_mmu_unmap cfg a vaddr count s1 = some (NO_ERROR, s2) ∧ TreeEq cfg a s s2 := by
  obtain ⟨ht, top, htop, hne⟩ := reachable_inv hcfg ha hreach
  obtain ⟨hv, hal, hr, hstep, hmapped, hne1, hkeep⟩ :=
    arch_map_facts hcfg ha htop ht hp hne hpa64 hmap
  have hpre := Pre.of_tree htop ht hp
  have hpre1 := Step.pre hpre hstep
  have ht1 : TreeWF cfg a s1 := TreeWF.of_step htop ht hp hstep
  have hp1 : AllocOK a s1 := ⟨top, htop, hpre1.pool_nodup, hpre1.pool_fresh⟩
  obtain ⟨s2, hrun, hstep2, hun, hne2, hz⟩ := arch_unmap_facts (c := count) hcfg ha htop ht1
    hp1 hne1 hv hal hr
  refine ⟨s2, hrun, top, htop, ?_⟩
  have hquiet : Quiet cfg.PAGE_SIZE_SHIFT (cfg.height a) (cfg.entries_top a) top s s2 :=
    Quiet.of_unmap hmapped hun
  obtain ⟨top', htop', hwf, _, _, hlive⟩ := id ht
  rw [htop] at htop'
  cases htop'
  have hK : ∀ x i, Sub s.mem cfg.PAGE_SIZE_SHIFT (cfg.height a) (cfg.entries_top a) top x →
      desc_type (s.mem x i) = MMU_PTE_L012_DESCRIPTOR_TABLE →
      s2.mem x i = s.mem x i ∨ s2.mem x i = 0 := by
    intro x i hx hd
    have hxp : some x ∉ s.pool := by
      intro hc
      obtain ⟨h1, h2, _⟩ := hpre.pool_fresh x hc
      rcases hx with hx | hx
      · exact h2 hx
      · exact h1 (hpre.owned x hx)
    have e1 := hkeep.1 x hxp i (by rw [hd]; decide)
    rcases hz x i with e2 | e2
    · exact Or.inl (e2.trans e1)
    · exact Or.inr e2
  obtain ⟨hrow, hsub⟩ := tree_restore (cfg.height a) (cfg.entries_top a) top hwf hne hstep2.wf
    hne2 hquiet hK
  refine ⟨hrow, fun x hx => hsub x ((hlive x).mp hx), ?_⟩
  intro p
  have hstep02 := Step.trans hpre hstep hstep2
  rw [hstep02.live p, Desc_congr_rows _ _ _ hrow hsub p, hlive p]
  constructor
  · rintro (⟨_, h⟩ | h)
    · exact absurd ‹_› h
    · exact h
  · exact fun h => Or.inr h

end Arm64Mmu

namespace Arm64Mmu

set_option maxRecDepth 100000 in
theorem reachable_one_page_mapped : Reachable cfg4k user_aspace one_page_mapped :=
  Reachable.alloc _ _
    (Reachable.map (zero_state three_frames) _ 0x1000 0xAAAA000 1 8
      (Reachable.fresh _ 0x80000 rfl (fun _ _ => rfl) rfl) alloc_ok_three_frames (by decide) rfl)

theorem alloc_ok_one_page_mapped : AllocOK user_aspace one_page_mapped := by
  refine ⟨0x80000, rfl, by decide, ?_⟩
  intro p hp
  have hp' : p = 0x103000 := by
    simpa [one_page_mapped, State.with_pool] using hp
  subst hp'
  exact ⟨by decide!, by decide, by decide⟩

set_option maxRecDepth 100000 in
/-- Witness of `map_unmap_restores`: in the state reached by mapping the page
at `0x1000`, a one-page map at `0x200000` takes a fourth table frame and
returns `NO_ERROR`; the unmap of that page returns `NO_ERROR` and gives back
the tree of before the map. -/
theorem map_unmap_restores_witness :
    status (arch_mmu_map cfg4k user_aspace 0x200000 0xBBBB000 1 8 one_page_mapped) =
      some NO_ERROR ∧
    one_page_mapped.live = [0x102000, 0x101000, 0x100000] ∧
    (state_after (arch_mmu_map cfg4k user_aspace 0x200000 0xBBBB000 1 8 one_page_mapped)
      (zero_state [])).live = [0x103000, 0x102000, 0x101000, 0x100000] ∧
    ∃ s2, arch_mmu_unmap cfg4k user_aspace 0x200000 1
        (state_after (arch_mmu_map cfg4k user_aspace 0x200000 0xBBBB000 1 8 one_page_mapped)
          (zero_state [])) = some (NO_ERROR, s2) ∧
      TreeEq cfg4k user_aspace one_page_mapped s2 :=
  ⟨by decide!, by decide!, by decide!,
    map_unmap_restores cfg4k user_aspace one_page_mapped _ 0x200000 0xBBBB000 1 8
      (by decide) (by decide) reachable_one_page_mapped alloc_ok_one_page_mapped (by decide) rfl⟩

end Arm64Mmu

namespace Arm64Mmu

/-! ## `arm64_mmu_map_pt` returns -/

theorem get_page_table_total (cfg : Config) {ps n cnt t i : Nat} {s : State}
    (h : Pre ps (n + 1) cnt t s) (hi : i < cnt) :
    ∃ r, arm64_mmu_get_page_table cfg i ps t s = some r := by
  unfold arm64_mmu_get_page_table
  dsimp only
  have hd : desc_type (s.mem t i) = s.mem t i &&& MMU_PTE_DESCRIPTOR_MASK := rfl
  rcases h.wf.1 i hi with hz | hb | ht
  · rw [hz]
    have h0 : (0 : Nat) &&& MMU_PTE_DESCRIPTOR_MASK = MMU_PTE_DESCRIPTOR_INVALID := by decide
    rw [if_pos h0]
    cases ha : alloc_page_table cfg ps s with
    | mk o s1 =>
      cases o with
      | none => exact ⟨_, rfl⟩
      | some p => exact ⟨_, rfl⟩
  · rw [hd] at hb
    rw [hb, if_neg (by decide), if_neg (by decide), if_pos rfl]
    exact ⟨_, rfl⟩
  · rw [hd] at ht
    rw [ht, if_neg (by decide), if_pos rfl]
    exact ⟨_, rfl⟩

/-- An iteration of the loop of `arm64_mmu_map_pt` returns. -/
theorem map_step_total (cfg : Config) (attrs v : Nat) {ps n cnt t a pa size : Nat}
    {recurse : Nat → Nat → Nat → Nat → Nat → Nat → State → Option (Int × State)}
    {s : State}
    (hps : 12 ≤ ps) (hps2 : ps ≤ 30)
    (hspan : cnt * 2 ^ level_shift ps n ≤ 2 ^ 48)
    (hpre : Pre ps n cnt t s) (hrange : a + size ≤ cnt * 2 ^ level_shift ps n) (hsz : size ≠ 0)
    (hpasz : pa + size ≤ 2 ^ 64)
    (halign : n = 0 → 2 ^ ps ∣ a ∧ 2 ^ ps ∣ pa ∧ 2 ^ ps ∣ size)
    (hrec : ∀ m, n = m + 1 → ∀ v vr pa sz c st, Pre ps m (entries ps) c st →
      vr + sz ≤ entries ps * 2 ^ level_shift ps m → pa + sz ≤ 2 ^ 64 →
      ∃ r, recurse v vr pa sz (level_shift ps m) c st = some r) :
    ∃ r, map_step cfg recurse attrs (level_shift ps n) ps t v a pa size s = some r := by
  have hB : 0 < 2 ^ level_shift ps n := Nat.pow_pos (by norm_num)
  have hcnt : 0 < cnt := by
    rcases Nat.eq_zero_or_pos cnt with h0 | h0
    · subst h0; omega
    · exact h0
  have hi : a / 2 ^ level_shift ps n < cnt := index_lt_of_lt hB (by omega)
  have hc1 := chunk_size_le_size (level_shift ps n) a size
  have hc2 := chunk_size_le_block (level_shift ps n) a size
  unfold map_step
  split_ifs with hC hnz
  · cases n with
    | zero =>
      exfalso
      obtain ⟨ha, hpa, hsize⟩ := halign rfl
      rw [level_shift_zero] at hC
      have ha' := Nat.mod_eq_zero_of_dvd ha
      have hpa' := Nat.mod_eq_zero_of_dvd hpa
      have hle : 2 ^ ps ≤ size := Nat.le_of_dvd (by omega) hsize
      unfold chunk_size MMU_PTE_DESCRIPTOR_BLOCK_MAX_SHIFT at hC
      rw [ha', hpa', Nat.sub_zero, Nat.min_eq_right hle] at hC
      omega
    | succ m =>
      have hls := level_shift_le_of_span hcnt hspan
      obtain ⟨r, hg⟩ := get_page_table_total cfg hpre hi
      obtain ⟨o, sA⟩ := r
      rw [hg]
      cases o with
      | none => exact ⟨_, rfl⟩
      | some c =>
        dsimp only
        rw [sub32_level ps m (by omega) (by norm_num; omega)]
        obtain ⟨hstepA, hdt, hoa, _⟩ := get_page_table_some (by omega) (by omega) hpre hi hg
        have hpreA : Pre ps (m + 1) cnt t sA := Step.pre hpre hstepA
        have hpreC : Pre ps m (entries ps) c sA := hoa ▸ Pre.of_child hpreA hi hdt
        obtain ⟨r2, hr2⟩ := hrec m rfl v (a % 2 ^ level_shift ps (m + 1)) pa
          (chunk_size (level_shift ps (m + 1)) a size) c sA hpreC (by
            rw [← pow_level_shift_succ]
            have := Nat.mod_lt a hB
            omega) (by omega)
        rw [hr2]
        obtain ⟨ret, s2⟩ := r2
        exact ⟨_, rfl⟩
  · exact ⟨_, rfl⟩
  all_goals exact ⟨_, rfl⟩

end Arm64Mmu

namespace Arm64Mmu

/-- The loop of `arm64_mmu_map_pt` returns. -/
theorem map_loop_total (cfg : Config) {ps n cnt t attrs : Nat}
    {recurse : Nat → Nat → Nat → Nat → Nat → Nat → State → Option (Int × State)}
    (hps : 12 ≤ ps) (hps2 : ps ≤ 30) (hattr : desc_type attrs = 0)
    (hspan : cnt * 2 ^ level_shift ps n ≤ 2 ^ 48)
    (hrec : ∀ m, n = m + 1 → MapRec ps attrs m recurse)
    (hrecT : ∀ m, n = m + 1 → ∀ v vr pa sz c st, Pre ps m (entries ps) c st →
      vr + sz ≤ entries ps * 2 ^ level_shift ps m → pa + sz ≤ 2 ^ 64 →
      ∃ r, recurse v vr pa sz (level_shift ps m) c st = some r) :
    ∀ (fuel v a pa size : Nat) (s : State), size ≤ fuel →
      Pre ps n cnt t s → a + size ≤ cnt * 2 ^ level_shift ps n → pa + size ≤ 2 ^ 64 →
      (n = 0 → 2 ^ ps ∣ a ∧ 2 ^ ps ∣ pa ∧ 2 ^ ps ∣ size) →
      ∃ r, map_loop cfg recurse attrs (level_shift ps n) ps t fuel v a pa size s = some r := by
  intro fuel
  induction fuel with
  | zero =>
    intro v a pa size s hfuel _ _ _ _
    have hsz : size = 0 := by omega
    subst hsz
    exact ⟨(none, s), by simp [map_loop]⟩
  | succ fuel ih =>
    intro v a pa size s hfuel hpre hrange hpasz halign
    by_cases hsz : size = 0
    · subst hsz
      exact ⟨(none, s), by simp [map_loop]⟩
    · have hcnt : 0 < cnt := by
        rcases Nat.eq_zero_or_pos cnt with h0 | h0
        · subst h0; omega
        · exact h0
      have hls := level_shift_le_of_span hcnt hspan
      rw [map_loop_succ _ _ _ _ _ _ _ _ _ _ _ _ hsz (by omega)]
      have hc1 := chunk_size_le_size (level_shift ps n) a size
      have hc0 := chunk_size_pos (level_shift ps n) a size hsz
      obtain ⟨r, hst⟩ := map_step_total cfg attrs v hps hps2 hspan hpre
        hrange hsz hpasz halign hrecT
      obtain ⟨b, s1⟩ := r
      rw [hst]
      cases b with
      | false => exact ⟨_, rfl⟩
      | true =>
        dsimp only
        obtain ⟨hstep1, _⟩ :=
          map_step_ok hps hps2 hattr hspan hpre hrange hsz hpasz halign hrec hst
        by_cases hrest : size - chunk_size (level_shift ps n) a size = 0
        · rw [if_pos hrest]
          exact ⟨_, rfl⟩
        · rw [if_neg hrest]
          have h48 : cnt * 2 ^ level_shift ps n < 2 ^ 64 := by
            norm_num at hspan ⊢; omega
          rw [Nat.mod_eq_of_lt (a := a + _) (by norm_num at h48 ⊢; omega),
            Nat.mod_eq_of_lt (a := pa + _) (by
              have : pa + chunk_size (level_shift ps n) a size < pa + size := by omega
              norm_num at hpasz ⊢; omega)]
          have hpre1 := Step.pre hpre hstep1
          exact ih _ _ _ _ s1 (by omega) hpre1 (by omega) (by omega)
            (by
              intro hn
              obtain ⟨ha, hpa, hsize⟩ := halign hn
              have hch : 2 ^ ps ∣ chunk_size (level_shift ps n) a size := by
                subst hn
                rw [level_shift_zero]
                have ha' := Nat.mod_eq_zero_of_dvd ha
                have hle : 2 ^ ps ≤ size := Nat.le_of_dvd (by omega) hsize
                unfold chunk_size
                rw [ha', Nat.sub_zero, Nat.min_eq_right hle]
              exact ⟨Nat.dvd_add ha hch, Nat.dvd_add hpa hch, Nat.dvd_sub' hsize hch⟩)

/-- The function `arm64_mmu_map_pt` returns on every range of the table. -/
theorem map_pt_total (cfg : Config) (asid : Nat) {ps attrs : Nat}
    (hps : 12 ≤ ps) (hps2 : ps ≤ 30) (hattr : desc_type attrs = 0) :
    ∀ (n fuel cnt t v a pa size : Nat) (s : State), n < fuel → 0 < cnt →
      cnt * 2 ^ level_shift ps n ≤ 2 ^ 48 →
      Pre ps n cnt t s → a + size ≤ cnt * 2 ^ level_shift ps n → pa + size ≤ 2 ^ 64 →
      ∃ r, arm64_mmu_map_pt cfg fuel v a pa size attrs (level_shift ps n) ps t asid s =
        some r := by
  intro n
  induction n with
  | zero =>
    intro fuel cnt t v a pa size s hfuel hcnt hspan hpre hrange hpasz
    obtain ⟨f, rfl⟩ : ∃ f, fuel = f + 1 := ⟨fuel - 1, by omega⟩
    rw [arm64_mmu_map_pt]
    rw [if_neg (by omega)]
    by_cases hal : (a ||| pa ||| size) &&& ((1 <<< ps) - 1) ≠ 0
    · rw [if_pos hal]; exact ⟨_, rfl⟩
    · rw [if_neg hal]
      have hal' := (align_check_iff a pa size ps).mp hal
      obtain ⟨r, hloop⟩ := map_loop_total cfg hps hps2 hattr hspan
        (fun m hm => by omega) (fun m hm => by omega) size v a pa size s (le_refl _) hpre hrange
        hpasz (fun _ => hal')
      rw [hloop]
      obtain ⟨o, s1⟩ := r
      cases o with
      | none => exact ⟨_, rfl⟩
      | some rest =>
        dsimp only
        obtain ⟨hle, hstep, _⟩ := map_loop_fail hps hps2 hattr hspan
          (fun m hm => by omega) (fun m hm => by omega) _ _ _ _ _ _ _ _
          (le_refl _) hpre hrange hpasz (fun _ => hal') hloop
        obtain ⟨s2, hun, _⟩ := unmap_pt_ok (z := asid) hps hps2 0 (f + 1) cnt t v a (size - rest) s1
          hfuel hcnt hspan (Step.pre hpre hstep) (by omega)
        rw [hun]
        exact ⟨_, rfl⟩
  | succ n ih =>
    intro fuel cnt t v a pa size s hfuel hcnt hspan hpre hrange hpasz
    obtain ⟨f, rfl⟩ : ∃ f, fuel = f + 1 := ⟨fuel - 1, by omega⟩
    rw [arm64_mmu_map_pt]
    rw [if_neg (by omega)]
    by_cases hal : (a ||| pa ||| size) &&& ((1 <<< ps) - 1) ≠ 0
    · rw [if_pos hal]; exact ⟨_, rfl⟩
    · rw [if_neg hal]
      have hspanC := span_child hcnt hspan
      have hN : 0 < entries ps := Nat.pow_pos (by norm_num)
      have hrec : ∀ m, n + 1 = m + 1 → MapRec ps attrs m
          (fun v vr pa sz ish pt st =>
            arm64_mmu_map_pt cfg f v vr pa sz attrs ish ps pt asid st) := by
        intro m hm
        have hmn : m = n := by omega
        subst hmn
        intro v' vr pa' sz c st st' hpc hr hp hrun
        exact map_pt_ok hps hps2 hattr m f (entries ps) c v' vr pa' sz st st'
          (by omega) hN hspanC hpc hr hp hrun
      have hrecF : ∀ m, n + 1 = m + 1 → MapRecFail ps m
          (fun v vr pa sz ish pt st =>
            arm64_mmu_map_pt cfg f v vr pa sz attrs ish ps pt asid st) := by
        intro m hm
        have hmn : m = n := by omega
        subst hmn
        intro v' vr pa' sz c st st' ret' hpc hr hp hrun hret'
        exact map_pt_fail hps hps2 hattr m f (entries ps) c v' vr pa' sz st st' ret' (by omega)
          hN hspanC hpc hr hp hrun hret'
      obtain ⟨r, hloop⟩ := map_loop_total cfg hps hps2 hattr hspan hrec
        (fun m hm => by
          have hmn : m = n := by omega
          subst hmn
          intro v' vr pa' sz c st hpc hr hp
          exact ih f (entries ps) c v' vr pa' sz st (by omega) hN hspanC hpc hr hp)
        size v a pa size s (le_refl _) hpre hrange hpasz (fun hn => by omega)
      rw [hloop]
      obtain ⟨o, s1⟩ := r
      cases o with
      | none => exact ⟨_, rfl⟩
      | some rest =>
        dsimp only
        obtain ⟨hle, hstep, _⟩ := map_loop_fail hps hps2 hattr hspan hrec hrecF _ _ _ _ _ _ _ _
          (le_refl _) hpre hrange hpasz (fun hn => by omega) hloop
        obtain ⟨s2, hun, _⟩ := unmap_pt_ok (z := asid) hps hps2 (n + 1) (f + 1) cnt t v a
          (size - rest) s1 hfuel hcnt hspan (Step.pre hpre hstep) (by omega)
        rw [hun]
        exact ⟨_, rfl⟩

end Arm64Mmu

namespace Arm64Mmu

/-! ## `arch_mmu_map` on the top-level table -/

theorem arm64_mmu_map_run {cfg : Config} {vaddr paddr size attrs vbase tss tis ps top asid : Nat}
    {s s1 : State} {ret : Int}
    (htss : tss ≤ 48) (hb : vbase ≤ vaddr) (hv : vaddr < 2 ^ 64)
    (hr : (vaddr - vbase) + size ≤ 2 ^ tss)
    (hpt : arm64_mmu_map_pt cfg (tis + 1) vaddr (vaddr - vbase) paddr size attrs tis ps top
      asid s = some (ret, s1)) :
    arm64_mmu_map cfg vaddr paddr size attrs vbase tss tis ps (some top) asid s =
      some (ret, emit Event.dsb s1) := by
  unfold arm64_mmu_map
  rw [if_neg (by omega)]
  simp only [Nat.one_shiftLeft, sub64_of_le _ _ hb hv]
  have h48 : (2:Nat) ^ tss ≤ 2 ^ 48 := Nat.pow_le_pow_right (by norm_num) htss
  have hsub : sub64 (2 ^ tss) size = 2 ^ tss - size :=
    sub64_of_le _ _ (by omega) (by norm_num at h48 ⊢; omega)
  rw [hsub, if_neg (by omega), hpt]

/-- The call `arch_mmu_map` with arguments that pass its checks: the result is
that of `arm64_mmu_map_pt` on the top-level table. -/
theorem arch_mmu_map_run {cfg : Config} {a : Aspace} {s s1 : State}
    {top vaddr paddr count flags : Nat} {ret : Int}
    (hcfg : cfg.WF) (ha : a.WF cfg) (htop : a.tt_virt = some top)
    (hv : is_valid_vaddr a vaddr = true) (hal : cfg.PAGE_SIZE ∣ vaddr)
    (halp : cfg.PAGE_SIZE ∣ paddr) (hpa : paddr &&& MMU_PTE_OUTPUT_ADDR_MASK_COMPL = 0)
    (hcount : count ≠ 0)
    (hr : (vaddr - cfg.window_base a) + cfg.byte_count count ≤ 2 ^ cfg.size_shift a)
    (hpt : arm64_mmu_map_pt cfg (cfg.top_shift a + 1) vaddr (vaddr - cfg.window_base a) paddr
      (cfg.byte_count count) (Config.attrs a flags) (cfg.top_shift a) cfg.PAGE_SIZE_SHIFT
      top a.tlb_asid s = some (ret, s1)) :
    arch_mmu_map cfg a vaddr paddr count flags s = some (ret, emit Event.dsb s1) := by
  unfold arch_mmu_map
  obtain ⟨hb, hrel, hv64⟩ := rel_lt hcfg ha hv
  have hsh := hcfg.shifts a
  have hal' := (is_page_aligned_iff cfg vaddr).mpr hal
  have halp' := (is_page_aligned_iff cfg paddr).mpr halp
  simp only [hv, hal', halp', Bool.not_true, Bool.false_eq_true, if_false, Bool.or_self, hpa,
    ne_eq, not_true_eq_false, hcount]
  have hpsk := hcfg.page_shift a
  by_cases hk : a.kernel
  · have hk' : a.flags &&& ARCH_ASPACE_FLAG_KERNEL ≠ 0 := hk
    have hk'' : ¬ a.flags &&& ARCH_ASPACE_FLAG_KERNEL = 0 := hk
    simp only [hk'', not_false_eq_true, if_true]
    rw [window_base_eq hcfg a hk, htop]
    simp only [hk, if_true] at hpsk
    simp only [Config.size_shift, Config.top_shift, Aspace.tlb_asid, Config.attrs, hk, if_true]
      at hsh hr hpt
    rw [if_neg (by omega), hpsk]
    exact arm64_mmu_map_run hsh.2.1 hb hv64 hr hpt
  · have hk' : a.flags &&& ARCH_ASPACE_FLAG_KERNEL = 0 := not_not.mp hk
    have hwb : cfg.window_base a = 0 := by simp [Config.window_base, hk]
    simp only [hk', not_true_eq_false, if_false]
    rw [htop]
    simp only [hk, if_false] at hpsk
    simp only [Config.size_shift, Config.top_shift, Aspace.tlb_asid, Config.attrs, hk, if_false]
      at hsh hr hpt
    rw [hwb] at hb hr hpt
    have e := arm64_mmu_map_run hsh.2.1 hb hv64 hr hpt
    unfold Config.byte_count at e
    rw [hpsk, e]
    simp only [arm64_tlbflush_same]

/-- An error of `arm64_mmu_map_pt` on page-aligned arguments is `ERR_GENERIC`. -/
theorem map_pt_error (cfg : Config) (fuel vaddr vaddr_rel paddr size attrs index_shift
    page_size_shift page_table asid : Nat) (s s1 : State) (ret : Int)
    (hal : ¬ ((vaddr_rel ||| paddr ||| size) &&& ((1 <<< page_size_shift) - 1) ≠ 0))
    (h : arm64_mmu_map_pt cfg fuel vaddr vaddr_rel paddr size attrs index_shift page_size_shift
      page_table asid s = some (ret, s1)) :
    ret = 0 ∨ ret = ERR_GENERIC := by
  cases fuel with
  | zero => simp [arm64_mmu_map_pt] at h
  | succ fuel =>
    rw [arm64_mmu_map_pt] at h
    split_ifs at h with h64
    split at h
    · simp at h
    · simp at h; omega
    · split at h
      · simp at h
      · simp at h; omega

end Arm64Mmu

namespace Arm64Mmu

/-! ## The answers of the allocator during a map -/

theorem take_eq_of_drop_eq {α : Type} (l : List α) (k k' : Nat)
    (h : l.drop k = l.drop k') : l.take k = l.take k' := by
  have hlen : l.length - k = l.length - k' := by
    have := congrArg List.length h
    simpa using this
  by_cases hk : k ≤ l.length
  · by_cases hk' : k' ≤ l.length
    · have : k = k' := by omega
      rw [this]
    · rw [List.take_of_length_le (by omega : l.length ≤ k'),
        List.take_of_length_le (by omega : l.length ≤ k)]
  · rw [List.take_of_length_le (by omega : l.length ≤ k),
      List.take_of_length_le (by omega : l.length ≤ k')]

theorem Served.same (s : State) : Served s s := ⟨0, rfl, by simp⟩

theorem Served.of_pool {s s1 s2 : State} (h : Served s s1) (hq : s2.pool = s1.pool) :
    Served s s2 := by
  obtain ⟨k, h1, h2⟩ := h
  exact ⟨k, by rw [hq, h1], h2⟩

theorem Served.followed_by {s s1 s2 : State} (h1 : Served s s1) (h2 : Served s1 s2) : Served s s2 := by
  obtain ⟨k1, e1, a1⟩ := h1
  obtain ⟨k2, e2, a2⟩ := h2
  refine ⟨k1 + k2, by rw [e2, e1, List.drop_drop, Nat.add_comm], ?_⟩
  intro x hx
  rw [List.take_add] at hx
  rcases List.mem_append.mp hx with hx | hx
  · exact a1 x hx
  · rw [← e1] at hx
    exact a2 x hx

theorem Served.not_refused {s s' : State} (h : Served s s') : ¬ Refused s s' := by
  rintro ⟨k', e', hn⟩
  obtain ⟨k, e, hall⟩ := h
  have := take_eq_of_drop_eq s.pool k k' (by rw [← e, ← e'])
  rw [← this] at hn
  exact hall none hn rfl

theorem get_page_table_served {cfg : Config} {i ps t c : Nat} {s s1 : State}
    (hg : arm64_mmu_get_page_table cfg i ps t s = some (some c, s1)) : Served s s1 := by
  unfold arm64_mmu_get_page_table at hg
  dsimp only at hg
  split_ifs at hg
  · cases ha : alloc_page_table cfg ps s with
    | mk o s0 =>
      rw [ha] at hg
      cases o with
      | none => simp at hg
      | some p =>
        obtain ⟨rest, hp, hs0⟩ := alloc_page_table_some ha
        simp only [Option.some.injEq, Prod.mk.injEq] at hg
        obtain ⟨_, hs1⟩ := hg
        refine ⟨1, ?_, ?_⟩
        · rw [← hs1, hp, hs0]
          rfl
        · intro x hx
          rw [hp] at hx
          simp only [List.take_succ_cons, List.take_zero, List.mem_singleton] at hx
          rw [hx]
          exact Option.noConfusion
  · simp only [Option.some.injEq, Prod.mk.injEq] at hg
    rw [← hg.2]
    exact Served.same s
  · simp at hg

theorem map_step_served {cfg : Config} {attrs sh ps t v a pa size : Nat}
    {recurse : Nat → Nat → Nat → Nat → Nat → Nat → State → Option (Int × State)}
    {s s1 : State}
    (hrec : ∀ v vr pa sz ish c st st', recurse v vr pa sz ish c st = some (0, st') →
      Served st st')
    (h : map_step cfg recurse attrs sh ps t v a pa size s = some (true, s1)) :
    Served s s1 := by
  unfold map_step at h
  split_ifs at h with hC hnz
  · cases hg : arm64_mmu_get_page_table cfg (a / 2 ^ sh) ps t s with
    | none => simp [hg] at h
    | some r =>
      obtain ⟨o, sA⟩ := r
      cases o with
      | none => simp [hg] at h
      | some c =>
        simp only [hg] at h
        cases hr : recurse v (a % 2 ^ sh) pa (chunk_size sh a size) (sub32 sh (sub32 ps 3)) c sA with
        | none => simp [hr] at h
        | some r2 =>
          obtain ⟨ret, s2⟩ := r2
          simp only [hr, Option.some.injEq, Prod.mk.injEq, decide_eq_true_eq] at h
          obtain ⟨hret, hs2⟩ := h
          subst hret hs2
          exact (get_page_table_served hg).followed_by (hrec _ _ _ _ _ _ _ _ hr)
  all_goals
    first
      | (simp only [Option.some.injEq, Prod.mk.injEq, true_and] at h
         rw [← h]
         exact ⟨0, rfl, by simp⟩)
      | simp at h

theorem map_loop_served {cfg : Config} {attrs sh ps t : Nat}
    {recurse : Nat → Nat → Nat → Nat → Nat → Nat → State → Option (Int × State)}
    (hrec : ∀ v vr pa sz ish c st st', recurse v vr pa sz ish c st = some (0, st') →
      Served st st') :
    ∀ (fuel v a pa size : Nat) (s s' : State),
      map_loop cfg recurse attrs sh ps t fuel v a pa size s = some (none, s') →
      Served s s' := by
  intro fuel
  induction fuel with
  | zero =>
    intro v a pa size s s' h
    simp only [map_loop] at h
    split_ifs at h
    simp only [Option.some.injEq, Prod.mk.injEq, true_and] at h
    rw [← h]
    exact Served.same s
  | succ fuel ih =>
    intro v a pa size s s' h
    by_cases hsz : size = 0
    · subst hsz
      simp only [map_loop, if_true, Option.some.injEq, Prod.mk.injEq, true_and] at h
      rw [← h]
      exact Served.same s
    · by_cases hsh : sh < 64
      · rw [map_loop_succ _ _ _ _ _ _ _ _ _ _ _ _ hsz hsh] at h
        cases hst : map_step cfg recurse attrs sh ps t v a pa size s with
        | none => simp [hst] at h
        | some r =>
          obtain ⟨b, s1⟩ := r
          cases b with
          | false => simp [hst] at h
          | true =>
            simp only [hst] at h
            have h1 := map_step_served hrec hst
            split_ifs at h with hrest
            · simp only [Option.some.injEq, Prod.mk.injEq, true_and] at h
              rw [← h]
              exact h1
            · exact h1.followed_by (ih _ _ _ _ _ _ h)
      · rw [map_loop] at h
        simp [hsz, Nat.not_lt.mp hsh] at h

/-- A successful `arm64_mmu_map_pt` was served every frame it asked for. -/
theorem map_pt_served {cfg : Config} :
    ∀ (fuel v a pa size attrs sh ps t asid : Nat) (s s' : State),
      arm64_mmu_map_pt cfg fuel v a pa size attrs sh ps t asid s = some (0, s') →
      Served s s' := by
  intro fuel
  induction fuel with
  | zero =>
    intro v a pa size attrs sh ps t asid s s' h
    simp [arm64_mmu_map_pt] at h
  | succ fuel ih =>
    intro v a pa size attrs sh ps t asid s s' h
    rw [arm64_mmu_map_pt] at h
    split_ifs at h with h64 hal
    · simp [ERR_INVALID_ARGS] at h
    · split at h
      · simp at h
      · rename_i s1 hloop
        simp only [Option.some.injEq, Prod.mk.injEq, true_and] at h
        subst h
        exact map_loop_served (fun v vr pa sz ish c st st' hr => ih _ _ _ _ _ _ _ _ _ _ _ hr)
          _ _ _ _ _ _ _ hloop
      · split at h
        · simp at h
        · simp [ERR_GENERIC] at h

end Arm64Mmu

namespace Arm64Mmu

/-! ## Claims on the status of a failed map -/

theorem byte_count_dvd {cfg : Config} (hps : cfg.PAGE_SIZE_SHIFT ≤ 64) (count : Nat) :
    2 ^ cfg.PAGE_SIZE_SHIFT ∣ cfg.byte_count count := by
  unfold Config.byte_count Config.PAGE_SIZE
  have h64 : 2 ^ cfg.PAGE_SIZE_SHIFT ∣ 2 ^ 64 := Nat.pow_dvd_pow 2 hps
  exact (Nat.dvd_mod_iff h64).mpr (Dvd.intro_left count rfl)

/-- The alignment test of `arm64_mmu_map_pt` passes on the arguments that
`arch_mmu_map` hands over. -/
theorem top_align_check {cfg : Config} {a : Aspace} {vaddr paddr count : Nat}
    (hcfg : cfg.WF) (hal : cfg.PAGE_SIZE ∣ vaddr) (halp : cfg.PAGE_SIZE ∣ paddr) :
    ¬ (((vaddr - cfg.window_base a) ||| paddr ||| cfg.byte_count count) &&&
      ((1 <<< cfg.PAGE_SIZE_SHIFT) - 1) ≠ 0) := by
  rw [align_check_iff]
  have hps := hcfg.ps_bounds
  exact ⟨(Nat.dvd_sub' hal (window_base_aligned hcfg a)), halp, byte_count_dvd (by omega) count⟩

/-- The call `arch_mmu_map` returns, on a well-formed tree with an allocator
that hands out fresh table frames. -/
theorem arch_mmu_map_total {cfg : Config} {a : Aspace} {s : State}
    (vaddr paddr count flags : Nat)
    (hcfg : cfg.WF) (ha : a.WF cfg) (ht : TreeWF cfg a s) (hp : AllocOK a s)
    (hpa64 : paddr < 2 ^ 64) :
    ∃ ret s', arch_mmu_map cfg a vaddr paddr count flags s = some (ret, s') := by
  obtain ⟨top, htop, _⟩ := id ht
  by_cases hv : is_valid_vaddr a vaddr = true
  swap
  · refine ⟨ERR_OUT_OF_RANGE, s, ?_⟩
    unfold arch_mmu_map
    simp [hv]
  by_cases hal : IS_PAGE_ALIGNED cfg vaddr = true ∧ IS_PAGE_ALIGNED cfg paddr = true
  swap
  · refine ⟨ERR_INVALID_ARGS, s, ?_⟩
    unfold arch_mmu_map
    have : (!IS_PAGE_ALIGNED cfg vaddr || !IS_PAGE_ALIGNED cfg paddr) = true := by
      cases h1 : IS_PAGE_ALIGNED cfg vaddr <;> cases h2 : IS_PAGE_ALIGNED cfg paddr <;>
        simp_all
    simp [hv, this]
  by_cases hpa : paddr &&& MMU_PTE_OUTPUT_ADDR_MASK_COMPL = 0
  swap
  · refine ⟨ERR_INVALID_ARGS, s, ?_⟩
    unfold arch_mmu_map
    simp [hv, hal.1, hal.2, hpa]
  by_cases hcount : count = 0
  · refine ⟨NO_ERROR, s, ?_⟩
    unfold arch_mmu_map
    simp [hv, hal.1, hal.2, hpa, hcount]
  obtain ⟨hb, hrel, hv64⟩ := rel_lt hcfg ha hv
  have hal1 := (is_page_aligned_iff cfg vaddr).mp hal.1
  have hal2 := (is_page_aligned_iff cfg paddr).mp hal.2
  by_cases hr : (vaddr - cfg.window_base a) + cfg.byte_count count ≤ 2 ^ cfg.size_shift a
  · have hps := hcfg.ps_bounds
    have hts := hcfg.top_shift_eq a
    have hsh := hcfg.shifts a
    have h48 : (2:Nat) ^ cfg.size_shift a ≤ 2 ^ 48 := Nat.pow_le_pow_right (by norm_num) hsh.2.1
    have hpa48 := (paddr_of_mask hpa64 hpa).2
    have hfuel : cfg.height a < level_shift cfg.PAGE_SIZE_SHIFT (cfg.height a) + 1 := by
      have : cfg.height a ≤ level_shift cfg.PAGE_SIZE_SHIFT (cfg.height a) := by
        unfold level_shift
        have : cfg.height a * 1 ≤ cfg.height a * (cfg.PAGE_SIZE_SHIFT - 3) :=
          Nat.mul_le_mul_left _ (by omega)
        omega
      omega
    obtain ⟨r, hpt⟩ := map_pt_total cfg a.tlb_asid hps.1 hps.2
      (attrs_desc_type a flags) (cfg.height a) _ (cfg.entries_top a) top vaddr
      (vaddr - cfg.window_base a) paddr (cfg.byte_count count) s hfuel (hcfg.entries_top_le a).2
      (hcfg.span_le a) (Pre.of_tree htop ht hp) (by rw [hcfg.span a]; exact hr)
      (by norm_num at h48 hpa48 ⊢; omega)
    obtain ⟨ret, s1⟩ := r
    rw [← hts] at hpt
    exact ⟨ret, _, arch_mmu_map_run hcfg ha htop hv hal1 hal2 hpa hcount hr hpt⟩
  · -- the range check of `arm64_mmu_map` refuses the range
    refine ⟨ERR_INVALID_ARGS, s, ?_⟩
    have hsh := hcfg.shifts a
    have h48 : (2:Nat) ^ cfg.size_shift a ≤ 2 ^ 48 := Nat.pow_le_pow_right (by norm_num) hsh.2.1
    have hrange : ∀ vbase tss, vbase ≤ vaddr → tss ≤ 48 →
        ¬ (vaddr - vbase) + cfg.byte_count count ≤ 2 ^ tss → ∀ attrs tis ps top' asid,
        arm64_mmu_map cfg vaddr paddr (cfg.byte_count count) attrs vbase tss tis ps top' asid s =
          some (ERR_INVALID_ARGS, s) := by
      intro vbase tss hvb htss hnr attrs tis ps top' asid
      unfold arm64_mmu_map
      rw [if_neg (by omega)]
      simp only [Nat.one_shiftLeft, sub64_of_le _ _ hvb hv64]
      have h48' : (2:Nat) ^ tss ≤ 2 ^ 48 := Nat.pow_le_pow_right (by norm_num) htss
      have hcond : vaddr - vbase > sub64 (2 ^ tss) (cfg.byte_count count) ∨
          cfg.byte_count count > 2 ^ tss := by
        by_cases hsz : cfg.byte_count count > 2 ^ tss
        · exact Or.inr hsz
        · left
          rw [sub64_of_le _ _ (by omega) (by norm_num at h48' ⊢; omega)]
          omega
      rw [if_pos hcond]
    unfold arch_mmu_map
    simp only [hv, hal.1, hal.2, Bool.not_true, Bool.false_eq_true, if_false, Bool.or_self, hpa,
      ne_eq, not_true_eq_false, hcount]
    by_cases hk : a.kernel
    · have hk'' : ¬ a.flags &&& ARCH_ASPACE_FLAG_KERNEL = 0 := hk
      simp only [hk'', not_false_eq_true, if_true]
      rw [window_base_eq hcfg a hk]
      simp only [Config.size_shift, hk, if_true] at hsh hr
      rw [if_neg (by omega)]
      exact hrange _ _ hb hsh.2.1 hr _ _ _ _ _
    · have hk' : a.flags &&& ARCH_ASPACE_FLAG_KERNEL = 0 := not_not.mp hk
      have hwb : cfg.window_base a = 0 := by simp [Config.window_base, hk]
      simp only [hk', not_true_eq_false, if_false]
      simp only [Config.size_shift, hk, if_false] at hsh hr
      rw [hwb] at hr
      have e := hrange 0 _ (Nat.zero_le _) hsh.2.1 hr
        (mmu_flags_to_pte_attr flags ||| MMU_PTE_ATTR_NON_GLOBAL) cfg.MMU_USER_TOP_SHIFT
        cfg.MMU_USER_PAGE_SIZE_SHIFT a.tt_virt (arch_mmu_asid a)
      unfold Config.byte_count at e
      rw [e]
      simp only [arm64_tlbflush_same]

/-- The call `arch_mmu_map` with arguments that pass the checks, on a
well-formed tree with an allocator that hands out fresh table frames: it
returns what `arm64_mmu_map_pt` returns on the top-level table, which is 0 or
`ERR_GENERIC`. -/
theorem arch_mmu_map_checked {cfg : Config} {a : Aspace} {s : State}
    {top vaddr paddr count : Nat} (flags : Nat)
    (hcfg : cfg.WF) (ha : a.WF cfg) (ht : TreeWF cfg a s) (hp : AllocOK a s)
    (htop : a.tt_virt = some top) (hpa64 : paddr < 2 ^ 64)
    (hv : is_valid_vaddr a vaddr = true)
    (hal : IS_PAGE_ALIGNED cfg vaddr = true) (halp : IS_PAGE_ALIGNED cfg paddr = true)
    (hpa : paddr &&& MMU_PTE_OUTPUT_ADDR_MASK_COMPL = 0) (hcount : count ≠ 0)
    (hr : (vaddr - cfg.window_base a) + cfg.byte_count count ≤ 2 ^ cfg.size_shift a) :
    ∃ ret s1, arm64_mmu_map_pt cfg (cfg.top_shift a + 1) vaddr (vaddr - cfg.window_base a) paddr
        (cfg.byte_count count) (Config.attrs a flags) (cfg.top_shift a) cfg.PAGE_SIZE_SHIFT
        top a.tlb_asid s = some (ret, s1) ∧
      arch_mmu_map cfg a vaddr paddr count flags s = some (ret, emit Event.dsb s1) ∧
      (ret = 0 ∨ ret = ERR_GENERIC) := by
  have hal1 := (is_page_aligned_iff cfg vaddr).mp hal
  have hal2 := (is_page_aligned_iff cfg paddr).mp halp
  have hps := hcfg.ps_bounds
  have hts := hcfg.top_shift_eq a
  have hsh := hcfg.shifts a
  have h48 : (2:Nat) ^ cfg.size_shift a ≤ 2 ^ 48 := Nat.pow_le_pow_right (by norm_num) hsh.2.1
  have hpa48 := (paddr_of_mask hpa64 hpa).2
  have hfuel : cfg.height a < level_shift cfg.PAGE_SIZE_SHIFT (cfg.height a) + 1 := by
    have : cfg.height a ≤ level_shift cfg.PAGE_SIZE_SHIFT (cfg.height a) := by
      unfold level_shift
      have : cfg.height a * 1 ≤ cfg.height a * (cfg.PAGE_SIZE_SHIFT - 3) :=
        Nat.mul_le_mul_left _ (by omega)
      omega
    omega
  obtain ⟨r, hpt⟩ := map_pt_total cfg a.tlb_asid hps.1 hps.2
    (attrs_desc_type a flags) (cfg.height a) _ (cfg.entries_top a) top vaddr
    (vaddr - cfg.window_base a) paddr (cfg.byte_count count) s hfuel (hcfg.entries_top_le a).2
    (hcfg.span_le a) (Pre.of_tree htop ht hp) (by rw [hcfg.span a]; exact hr)
    (by norm_num at h48 hpa48 ⊢; omega)
  obtain ⟨ret, s1⟩ := r
  rw [← hts] at hpt
  exact ⟨ret, s1, hpt, arch_mmu_map_run hcfg ha htop hv hal1 hal2 hpa hcount hr hpt,
    map_pt_error _ _ _ _ _ _ _ _ _ _ _ _ _ _ (top_align_check hcfg hal1 hal2) hpt⟩

end Arm64Mmu

namespace Arm64Mmu

theorem tree_wf_one_page_mapped : TreeWF cfg4k user_aspace one_page_mapped :=
  (reachable_inv (by decide) (by decide) reachable_one_page_mapped).1

theorem count_ne_zero_of_range {cfg : Config} {vaddr v count : Nat} (h1 : vaddr ≤ v)
    (h2 : v < vaddr + cfg.byte_count count) : count ≠ 0 := by
  intro hc
  subst hc
  simp [Config.byte_count] at h2
  omega

/-- C11 (counterexample). The page at `0x1000` is mapped; a map onto it returns
`ERR_GENERIC`, which is not `ERR_INVALID_ARGS`. -/
theorem remap_status_counterexample :
    status (arch_mmu_query cfg4k user_aspace 0x1000 true true one_page_mapped) =
      some NO_ERROR ∧
    status (arch_mmu_map cfg4k user_aspace 0x1000 0xBBBB000 1 8 one_page_mapped) =
      some ERR_GENERIC ∧
    ERR_GENERIC ≠ ERR_INVALID_ARGS := by
  decide!

/-- C11 (amended). Remapping is refused with `ERR_GENERIC`: on a well-formed
tree, with an allocator that hands out fresh table frames, a call of
`arch_mmu_map` whose arguments pass the checks (`vaddr` in the window of the
address space, `vaddr` and `paddr` page aligned, no bit of `paddr` outside the
output-address field, range inside the translation window) and whose range
contains an address `v` that the tree already translates returns
`ERR_GENERIC`. -/
theorem remap_refused (cfg : Config) (a : Aspace) (s : State)
    (top vaddr paddr count flags v : Nat)
    (hcfg : cfg.WF) (ha : a.WF cfg) (ht : TreeWF cfg a s) (hp : AllocOK a s)
    (htop : a.tt_virt = some top) (hpa64 : paddr < 2 ^ 64)
    (hv : is_valid_vaddr a vaddr = true)
    (hal : IS_PAGE_ALIGNED cfg vaddr = true) (halp : IS_PAGE_ALIGNED cfg paddr = true)
    (hpa : paddr &&& MMU_PTE_OUTPUT_ADDR_MASK_COMPL = 0)
    (hr : (vaddr - cfg.window_base a) + cfg.byte_count count ≤ 2 ^ cfg.size_shift a)
    (hv1 : vaddr ≤ v) (hv2 : v < vaddr + cfg.byte_count count)
    (hpop : lookup s.mem cfg.PAGE_SIZE_SHIFT (cfg.height a) top (v - cfg.window_base a) ≠ none) :
    ∃ s', arch_mmu_map cfg a vaddr paddr count flags s = some (ERR_GENERIC, s') := by
  have hcount := count_ne_zero_of_range hv1 hv2
  obtain ⟨ret, s1, hpt, hrun, h0 | h0⟩ :=
    arch_mmu_map_checked flags hcfg ha ht hp htop hpa64 hv hal halp hpa hcount hr
  · exfalso
    obtain ⟨hb, _, _⟩ := rel_lt hcfg ha hv
    obtain ⟨_, hmapped⟩ := arch_map_descent_ok hcfg htop ht hp hpa64 hpa hr (h0 ▸ hpt)
    exact hpop (hmapped.free_before _ (by omega) (by omega))
  · exact ⟨_, by rw [hrun, h0]⟩

set_option maxRecDepth 100000 in
/-- Witness of `remap_refused`: the page at `0x1000` is mapped in the state
`one_page_mapped`, and a one-page map onto it returns `ERR_GENERIC`. -/
theorem remap_refused_witness :
    lookup one_page_mapped.mem 12 3 0x80000 0x1000 ≠ none ∧
    ∃ s', arch_mmu_map cfg4k user_aspace 0x1000 0xBBBB000 1 8 one_page_mapped =
      some (ERR_GENERIC, s') :=
  ⟨by decide!,
    remap_refused cfg4k user_aspace one_page_mapped 0x80000 0x1000 0xBBBB000 1 8 0x1000
      (by decide) (by decide) tree_wf_one_page_mapped alloc_ok_one_page_mapped rfl (by decide)
      (by decide) (by decide) (by decide) (by decide) (by decide) (by decide) (by decide)
      (by decide!)⟩

theorem alloc_ok_second_fails : AllocOK user_aspace (zero_state second_fails) := by
  refine ⟨0x80000, rfl, by decide, ?_⟩
  intro p hp
  have hp' : p = 0x100000 := by
    simpa [zero_state, second_fails] using hp
  subst hp'
  exact ⟨by simp [zero_state], by decide, by decide⟩

theorem alloc_ok_third_fails : AllocOK user_aspace (zero_state third_fails) := by
  refine ⟨0x80000, rfl, by decide, ?_⟩
  intro p hp
  have hp' : p = 0x100000 ∨ p = 0x101000 := by
    simpa [zero_state, third_fails] using hp
  rcases hp' with rfl | rfl <;> exact ⟨by simp [zero_state], by decide, by decide⟩

/-- C12 (counterexample). A map of three contiguous 2 MiB regions on an empty
user address space whose second table allocation fails returns `ERR_GENERIC`,
which is not `ERR_NO_MEMORY`. -/
theorem alloc_failure_counterexample :
    status (arch_mmu_map cfg4k user_aspace 0x200000 0x40000000 1536 0
      (zero_state second_fails)) = some ERR_GENERIC ∧
    ERR_GENERIC ≠ ERR_NO_MEMORY := by
  decide!

/-- C12 (amended). Resource exhaustion is surfaced as `ERR_GENERIC`: on a
well-formed tree, with an allocator that hands out fresh table frames,
`arch_mmu_map` returns, and it returns `ERR_GENERIC` when the allocator has
answered one of the requests of the call with a failure. -/
theorem alloc_failure_is_generic (cfg : Config) (a : Aspace) (s : State)
    (vaddr paddr count flags : Nat)
    (hcfg : cfg.WF) (ha : a.WF cfg) (ht : TreeWF cfg a s) (hp : AllocOK a s)
    (hpa64 : paddr < 2 ^ 64) :
    ∃ ret s', arch_mmu_map cfg a vaddr paddr count flags s = some (ret, s') ∧
      (Refused s s' → ret = ERR_GENERIC) := by
  obtain ⟨ret, s', hmap⟩ := arch_mmu_map_total vaddr paddr count flags hcfg ha ht hp hpa64
  refine ⟨ret, s', hmap, fun href => ?_⟩
  obtain ⟨top, htop, _⟩ := id ht
  rcases arch_mmu_map_inv hcfg ha htop hmap with
    ⟨hs, _⟩ | ⟨_, hal1, hal2, _, _, _, s1, hpt, _, _, hq⟩
  · rw [hs] at href
    exact absurd href (Served.same s).not_refused
  · rcases map_pt_error _ _ _ _ _ _ _ _ _ _ _ _ _ _ (top_align_check hcfg hal1 hal2) hpt
      with h0 | h0
    · exfalso
      have hserved := map_pt_served _ _ _ _ _ _ _ _ _ _ _ _ (h0 ▸ hpt)
      exact (hserved.of_pool hq).not_refused href
    · exact h0

set_option maxRecDepth 100000 in
/-- Witness of `alloc_failure_is_generic`: the map of three 2 MiB regions whose
second table allocation fails; the failure is the second answer taken off the
allocator script. -/
theorem alloc_failure_is_generic_witness :
    Refused (zero_state second_fails)
      (state_after (arch_mmu_map cfg4k user_aspace 0x200000 0x40000000 1536 0
        (zero_state second_fails)) (zero_state second_fails)) ∧
    ∃ ret s', arch_mmu_map cfg4k user_aspace 0x200000 0x40000000 1536 0
        (zero_state second_fails) = some (ret, s') ∧
      (Refused (zero_state second_fails) s' → ret = ERR_GENERIC) :=
  ⟨⟨2, by decide!, by decide⟩,
    alloc_failure_is_generic cfg4k user_aspace (zero_state second_fails) 0x200000 0x40000000
      1536 0 (by decide) (by decide) (tree_wf_zero_state _ _ 0x80000 _ rfl)
      alloc_ok_second_fails (by decide)⟩

/-- C13. Generic error on any failure of the descent: on a well-formed tree,
with an allocator that hands out fresh table frames, a call of `arch_mmu_map`
whose arguments pass the checks (`vaddr` in the window of the address space,
`vaddr` and `paddr` page aligned, no bit of `paddr` outside the output-address
field, range inside the translation window) returns, and returns `NO_ERROR` or
`ERR_GENERIC`: every failure of the descent is reported as `ERR_GENERIC`. -/
theorem descent_failure_is_generic (cfg : Config) (a : Aspace) (s : State)
    (vaddr paddr count flags : Nat)
    (hcfg : cfg.WF) (ha : a.WF cfg) (ht : TreeWF cfg a s) (hp : AllocOK a s)
    (hpa64 : paddr < 2 ^ 64)
    (hv : is_valid_vaddr a vaddr = true)
    (hal : IS_PAGE_ALIGNED cfg vaddr = true) (halp : IS_PAGE_ALIGNED cfg paddr = true)
    (hpa : paddr &&& MMU_PTE_OUTPUT_ADDR_MASK_COMPL = 0)
    (hr : (vaddr - cfg.window_base a) + cfg.byte_count count ≤ 2 ^ cfg.size_shift a) :
    ∃ ret s', arch_mmu_map cfg a vaddr paddr count flags s = some (ret, s') ∧
      (ret = NO_ERROR ∨ ret = ERR_GENERIC) := by
  obtain ⟨top, htop, _⟩ := id ht
  by_cases hcount : count = 0
  · refine ⟨NO_ERROR, s, ?_, Or.inl rfl⟩
    unfold arch_mmu_map
    simp [hv, hal, halp, hpa, hcount]
  · obtain ⟨ret, s1, _, hrun, h0⟩ :=
      arch_mmu_map_checked flags hcfg ha ht hp htop hpa64 hv hal halp hpa hcount hr
    exact ⟨ret, _, hrun, h0⟩

/-- Witness of `descent_failure_is_generic`: a one-page map on an empty user
address space whose third table allocation fails returns `ERR_GENERIC`. -/
theorem descent_failure_is_generic_witness :
    status (arch_mmu_map cfg4k user_aspace 0x1000 0xAAAA000 1 0 (zero_state third_fails)) =
      some ERR_GENERIC ∧
    ∃ ret s', arch_mmu_map cfg4k user_aspace 0x1000 0xAAAA000 1 0 (zero_state third_fails) =
        some (ret, s') ∧ (ret = NO_ERROR ∨ ret = ERR_GENERIC) :=
  ⟨by decide!,
    descent_failure_is_generic cfg4k user_aspace (zero_state third_fails) 0x1000 0xAAAA000 1 0
      (by decide) (by decide) (tree_wf_zero_state _ _ 0x80000 _ rfl) alloc_ok_third_fails
      (by decide) (by decide) (by decide) (by decide) (by decide) (by decide)⟩

end Arm64Mmu

namespace Arm64Mmu

/-! ## Claims on the initialisation and teardown of an address space -/

theorem entries_top_user (cfg : Config) (a : Aspace) (hk : ¬ a.kernel) :
    cfg.entries_top a = cfg.MMU_USER_PAGE_TABLE_ENTRIES_TOP := by
  simp [Config.entries_top, Config.size_shift, Config.top_shift, hk,
    Config.MMU_USER_PAGE_TABLE_ENTRIES_TOP]

/-- Every query on a tree whose top-level table is all zero gives
`ERR_NOT_FOUND`. -/
theorem query_of_clear {cfg : Config} {a : Aspace} {s : State} {top : Nat}
    (hcfg : cfg.WF) (ha : a.WF cfg) (htop : a.tt_virt = some top)
    (hz : ∀ i, i < cfg.entries_top a → s.mem top i = 0)
    (v : Nat) (wp wf : Bool) (hv : is_valid_vaddr a v = true) :
    arch_mmu_query cfg a v wp wf s = some (ERR_NOT_FOUND, none, none) := by
  rw [arch_mmu_query_eq hcfg ha htop (WFT_of_clear hz) hv]
  obtain ⟨_, hrel, _⟩ := rel_lt hcfg ha hv
  have hB : 0 < 2 ^ level_shift cfg.PAGE_SIZE_SHIFT (cfg.height a) := Nat.pow_pos (by norm_num)
  rw [lookup_zero (hz _ (index_lt_of_lt hB (by rw [hcfg.span a]; exact hrel)))]
  rfl

/-- C14. User address-space initialisation: `arch_mmu_init_aspace` without
`ARCH_ASPACE_FLAG_KERNEL` returns `NO_ERROR` when the allocation of the
top-level table succeeds, records `base`, `size` and `flags` as given, and
leaves a non-NULL top-level table whose `MMU_USER_PAGE_TABLE_ENTRIES_TOP`
entries are all invalid, so that (for a window as the assertions of the
function want it) `arch_mmu_query` of every address of the window returns
`ERR_NOT_FOUND`; it returns `ERR_NO_MEMORY` when the allocation fails. -/
theorem init_user_aspace (cfg : Config) (ktt : Nat) (a0 : Aspace) (base size flags : Nat)
    (s : State) (hflags : flags &&& ARCH_ASPACE_FLAG_KERNEL = 0) :
    (∀ va rest, s.pool = some va :: rest →
      ∃ a' s', arch_mmu_init_aspace cfg ktt a0 base size flags s = (NO_ERROR, a', s') ∧
        a'.base = base ∧ a'.size = size ∧ a'.flags = flags ∧ a'.tt_virt = some va ∧
        (∀ i, i < cfg.MMU_USER_PAGE_TABLE_ENTRIES_TOP →
          s'.mem va i = MMU_PTE_DESCRIPTOR_INVALID) ∧
        (cfg.WF → cfg.PAGE_SIZE < size → base + size ≤ 2 ^ cfg.MMU_USER_SIZE_SHIFT →
          ∀ v wp wf, is_valid_vaddr a' v = true →
            arch_mmu_query cfg a' v wp wf s' = some (ERR_NOT_FOUND, none, none))) ∧
    ((s.pool = [] ∨ ∃ rest, s.pool = none :: rest) →
      (arch_mmu_init_aspace cfg ktt a0 base size flags s).1 = ERR_NO_MEMORY) := by
  have hnk : ¬ flags &&& ARCH_ASPACE_FLAG_KERNEL ≠ 0 := fun h => h hflags
  constructor
  · intro va rest hpool
    have e : arch_mmu_init_aspace cfg ktt a0 base size flags s =
        (NO_ERROR,
          ⟨va, some va, flags, base, size, a0.asid⟩,
          ⟨fun t i => if t = va ∧ i < cfg.MMU_USER_PAGE_TABLE_ENTRIES_TOP then 0 else s.mem t i,
            s.live, rest, s.trace⟩) := by
      unfold arch_mmu_init_aspace
      simp only [hnk, if_false, hpool]
    refine ⟨_, _, e, rfl, rfl, rfl, rfl, ?_, ?_⟩
    · intro i hi
      simp [hi, MMU_PTE_DESCRIPTOR_INVALID]
    · intro hcfg hsize hwin v wp wf hv
      have hps : 0 < cfg.PAGE_SIZE := Nat.pow_pos (by norm_num)
      have hk : ¬ Aspace.kernel ⟨va, some va, flags, base, size, a0.asid⟩ := hnk
      apply query_of_clear hcfg _ rfl _ v wp wf hv
      · refine ⟨by simp, by simp only; omega, ?_⟩
        rw [if_neg hk]
        exact hwin
      · intro i hi
        rw [entries_top_user _ _ hk] at hi
        simp [hi]
  · rintro (hpool | ⟨rest, hpool⟩)
    · unfold arch_mmu_init_aspace
      simp only [hnk, if_false, hpool]
    · unfold arch_mmu_init_aspace
      simp only [hnk, if_false, hpool]

/-- Witness of `init_user_aspace`: the initialisation of a user address space
with the window `[0, 2^48)` in the 4 KiB configuration, with an allocator that
hands out the frame `0x80000`, and with an allocator that fails. -/
theorem init_user_aspace_witness :
    (∀ va rest, (zero_state top_frame).pool = some va :: rest →
      ∃ a' s', arch_mmu_init_aspace cfg4k 0x90000 user_aspace 0 (2 ^ 48) 0
          (zero_state top_frame) = (NO_ERROR, a', s') ∧
        a'.base = 0 ∧ a'.size = 2 ^ 48 ∧ a'.flags = 0 ∧ a'.tt_virt = some va ∧
        (∀ i, i < cfg4k.MMU_USER_PAGE_TABLE_ENTRIES_TOP →
          s'.mem va i = MMU_PTE_DESCRIPTOR_INVALID) ∧
        (cfg4k.WF → cfg4k.PAGE_SIZE < 2 ^ 48 → 0 + 2 ^ 48 ≤ 2 ^ cfg4k.MMU_USER_SIZE_SHIFT →
          ∀ v wp wf, is_valid_vaddr a' v = true →
            arch_mmu_query cfg4k a' v wp wf s' = some (ERR_NOT_FOUND, none, none))) ∧
    (((zero_state top_frame).pool = [] ∨ ∃ rest, (zero_state top_frame).pool = none :: rest) →
      (arch_mmu_init_aspace cfg4k 0x90000 user_aspace 0 (2 ^ 48) 0
        (zero_state top_frame)).1 = ERR_NO_MEMORY) ∧
    (arch_mmu_init_aspace cfg4k 0x90000 user_aspace 0 (2 ^ 48) 0 (zero_state top_frame)).1 =
      NO_ERROR ∧
    (arch_mmu_init_aspace cfg4k 0x90000 user_aspace 0 (2 ^ 48) 0 (zero_state [none])).1 =
      ERR_NO_MEMORY :=
  ⟨(init_user_aspace cfg4k 0x90000 user_aspace 0 (2 ^ 48) 0 (zero_state top_frame)
      (by decide)).1,
    (init_user_aspace cfg4k 0x90000 user_aspace 0 (2 ^ 48) 0 (zero_state top_frame)
      (by decide)).2, by decide, by decide⟩

/-- C15 (the code at the failing input). With assertions compiled in,
`arch_mmu_destroy_aspace` on a user address space in which the page at `0x1000`
is still mapped does not fail an assertion: it returns `NO_ERROR`, hands the
top-level table to `free`, and leaves the three tables below it live. -/
theorem destroy_with_mapping_returns :
    status (arch_mmu_query cfg4k user_aspace 0x1000 true true one_page_mapped) =
      some NO_ERROR ∧
    status (arch_mmu_destroy_aspace true (some user_aspace) one_page_mapped) = some NO_ERROR ∧
    (arch_mmu_destroy_aspace true (some user_aspace) one_page_mapped).map
      (fun r => (r.2.1, r.2.2.live)) = some (some 0x80000, [0x102000, 0x101000, 0x100000]) := by
  decide!

end Arm64Mmu

namespace Arm64Ops

/-! ## Claims on the primitives of `arch_ops.h` -/

/-- C16. The function `atomic_cmpxchg(ptr, oldval, newval)` returns the value
`*ptr` held before the call; it stores `newval` if and only if that value
equals `oldval` and leaves `*ptr` unchanged otherwise, and no other object is
written; so the exchange took place exactly when the result equals
`oldval`. -/
theorem atomic_cmpxchg_prior (mem : Nat → Int) (ptr : Nat) (oldval newval : Int)
    (spurious : Bool) :
    (atomic_cmpxchg mem ptr oldval newval spurious).1 = mem ptr ∧
    (atomic_cmpxchg mem ptr oldval newval spurious).2 ptr =
      (if mem ptr = oldval then newval else mem ptr) ∧
    (∀ q, q ≠ ptr → (atomic_cmpxchg mem ptr oldval newval spurious).2 q = mem q) ∧
    ((atomic_compare_exchange_n mem ptr oldval newval false spurious).1 = true ↔
      (atomic_cmpxchg mem ptr oldval newval spurious).1 = oldval) := by
  unfold atomic_cmpxchg atomic_compare_exchange_n
  by_cases h : mem ptr = oldval
  · simp only [h, Bool.false_eq_true, false_and, not_false_eq_true, and_self, if_true,
      Function.update_same, true_and, iff_true]
    refine ⟨fun q hq => ?_, trivial⟩
    simp [Function.update, hq]
  · simp [h]

theorem and_two_pow_ne_zero (x i : Nat) : (x &&& 2 ^ i != 0) = x.testBit i := by
  rw [Nat.and_two_pow]
  cases x.testBit i <;> simp

/-- C17 (counterexample). With `ARM_MERGE_FIQ_IRQ` off and DAIF = `0x80` (IRQ
masked, FIQ not masked) `arch_ints_disabled` returns true. -/
theorem ints_disabled_counterexample :
    Nat.testBit 0x80 7 = true ∧ Nat.testBit 0x80 6 = false ∧
    arch_fiqs_disabled false 0x80 = some false ∧
    arch_ints_disabled false 0x80 = some true := by
  decide

/-- C17 (amended). With `ARM_MERGE_FIQ_IRQ` off, `arch_ints_disabled` returns
true exactly when the IRQ mask bit (bit 7) of DAIF is set, whatever the FIQ
mask bit (bit 6) is. -/
theorem ints_disabled_irq_bit (daif : Nat) :
    arch_ints_disabled false daif = some (daif.testBit 7) := by
  unfold arch_ints_disabled check_irq_fiq_state
  simp only [Bool.false_eq_true, if_false, Nat.one_shiftLeft]
  rw [and_two_pow_ne_zero]

end Arm64Ops

namespace Libc

/-! ## What `memset` writes -/

theorem memset_bytes_eq (b : Nat) (hb : b < 256) :
    ∀ (n xs : Nat) (mem : Nat → Nat),
      memset_bytes b n xs mem = (fun a => if xs ≤ a ∧ a < xs + n then b else mem a, xs + n) := by
  intro n
  induction n with
  | zero =>
    intro xs mem
    simp only [memset_bytes, Nat.add_zero, Prod.mk.injEq, and_true]
    funext a
    rw [if_neg (by omega)]
  | succ n ih =>
    intro xs mem
    rw [memset_bytes, ih]
    simp only [Prod.mk.injEq]
    refine ⟨?_, by omega⟩
    funext a
    unfold store8
    by_cases h1 : xs + 1 ≤ a ∧ a < xs + 1 + n
    · rw [if_pos h1, if_pos (by omega)]
    · rw [if_neg h1]
      by_cases h2 : a = xs
      · rw [if_pos h2, if_pos (by omega), Nat.mod_eq_of_lt hb]
      · rw [if_neg h2, if_neg (by omega)]

theorem memset_words_eq (wsz cc b : Nat) (hcc : ∀ i, i < wsz → (cc >>> (8 * i)) % 256 = b) :
    ∀ (n xs : Nat) (mem : Nat → Nat),
      memset_words wsz cc n xs mem =
        (fun a => if xs ≤ a ∧ a < xs + wsz * n then b else mem a, xs + wsz * n) := by
  intro n
  induction n with
  | zero =>
    intro xs mem
    simp only [memset_words, Nat.mul_zero, Nat.add_zero, Prod.mk.injEq, and_true]
    funext a
    rw [if_neg (by omega)]
  | succ n ih =>
    intro xs mem
    rw [memset_words, ih]
    have e : wsz * (n + 1) = wsz + wsz * n := by ring
    simp only [Prod.mk.injEq]
    refine ⟨?_, by omega⟩
    funext a
    unfold store_word
    by_cases h1 : xs + wsz ≤ a ∧ a < xs + wsz + wsz * n
    · rw [if_pos h1, if_pos (by omega)]
    · rw [if_neg h1]
      by_cases h2 : xs ≤ a ∧ a < xs + wsz
      · rw [if_pos h2, if_pos (by omega), hcc _ (by omega)]
      · rw [if_neg h2, if_neg (by omega)]

theorem word_pattern_4 : ∀ b, b < 256 → ∀ i, i < 4 →
    (((b ||| (b <<< 8)) ||| ((b ||| (b <<< 8)) <<< 16)) >>> (8 * i)) % 256 = b := by
  decide!

theorem word_pattern_8 : ∀ b, b < 256 → ∀ i, i < 8 →
    ((((b ||| (b <<< 8)) ||| ((b ||| (b <<< 8)) <<< 16)) |||
      (((b ||| (b <<< 8)) ||| ((b ||| (b <<< 8)) <<< 16)) <<< 32)) >>> (8 * i)) % 256 = b := by
  decide!

theorem byte_of_int (c : Int) : (c % 256).toNat < 256 := by
  have h1 := Int.emod_nonneg c (by norm_num : (256 : Int) ≠ 0)
  have h2 := Int.emod_lt_of_pos c (by norm_num : (0 : Int) < 256)
  omega

/-- The function `memset` sets the bytes `s[0..count)` to `c mod 256`, leaves
every other byte as it is, and returns `s`. -/
theorem memset_eq (wsz : Nat) (hw : wsz = 4 ∨ wsz = 8) (mem : Nat → Nat) (s : Nat) (c : Int)
    (count : Nat) :
    memset wsz mem s c count =
      (fun a => if s ≤ a ∧ a < s + count then (c % 256).toNat else mem a, s) := by
  have hb := byte_of_int c
  have hmask : ∀ x, x &&& (wsz - 1) = x % wsz := by
    intro x
    rcases hw with rfl | rfl
    · exact Nat.and_pow_two_sub_one_eq_mod x 2
    · exact Nat.and_pow_two_sub_one_eq_mod x 3
  have hwpos : 0 < wsz := by rcases hw with rfl | rfl <;> norm_num
  unfold memset
  simp only [hmask]
  generalize hlen : (2 ^ (8 * wsz) - s % 2 ^ (8 * wsz)) % 2 ^ (8 * wsz) % wsz = len
  split_ifs with hgt h8
  · -- the word loop stores 8-byte words
    subst h8
    rw [memset_bytes_eq _ hb]
    simp only
    rw [memset_words_eq 8 _ _ (word_pattern_8 _ hb), memset_bytes_eq _ hb]
    simp only [Prod.mk.injEq, and_true]
    funext a
    have e := Nat.div_add_mod (count - len) 8
    split_ifs <;> first | rfl | omega
  · -- the word loop stores 4-byte words
    have h4 : wsz = 4 := by rcases hw with h | h <;> [exact h; exact absurd h h8]
    subst h4
    rw [memset_bytes_eq _ hb]
    simp only
    rw [memset_words_eq 4 _ _ (word_pattern_4 _ hb), memset_bytes_eq _ hb]
    simp only [Prod.mk.injEq, and_true]
    funext a
    have e := Nat.div_add_mod (count - len) 4
    split_ifs <;> first | rfl | omega
  · rw [memset_bytes_eq _ hb]

end Libc

namespace ArmThread

/-! ## The initial frame of a thread -/

theorem round_down_8 (v : Nat) : round_down v 8 % 8 = 0 := by
  unfold round_down
  omega

theorem load32_store_word (mem : Nat → Nat) (a v : Nat) (hv : v < 2 ^ 32) :
    Libc.load32 (Libc.store_word 4 mem a v) a = v := by
  unfold Libc.load32 Libc.store_word
  rw [if_pos (by omega), if_pos (by omega), if_pos (by omega), if_pos (by omega)]
  have e0 : a - a = 0 := by omega
  have e1 : a + 1 - a = 1 := by omega
  have e2 : a + 2 - a = 2 := by omega
  have e3 : a + 3 - a = 3 := by omega
  rw [e0, e1, e2, e3]
  simp only [Nat.shiftRight_eq_div_pow]
  norm_num
  omega

theorem frame_byte_zero (mem : Nat → Nat) (f fn : Nat) (c : Int) (k : Nat) (hk : k < 40) :
    Libc.store_word 4 (fun a => if f ≤ a ∧ a < f + 44 then (c % 256).toNat else mem a)
      (f + 40) fn (f + k) = (c % 256).toNat := by
  unfold Libc.store_word
  simp only
  split_ifs <;> first | rfl | omega

/-- C18. For a thread whose rounded stack top leaves room for one frame, and
a 32-bit address of `initial_thread_func`, `arch_thread_initialize` returns
with `t.arch.sp` set to the address 44 bytes (one `context_switch_frame`)
below `round_down(stack + stack_size, 8)`; the ten saved-register slots
`tpidrurw, tpidruro, r4..r11` at `sp + 4 i` hold zero, the slot `lr` at
`sp + 40` holds the address of `initial_thread_func`, no byte outside
`[sp, sp + 44)` is changed, and the other fields of the thread are kept. -/
theorem thread_initialize_frame (fn : Nat) (t : Thread) (mem : Nat → Nat)
    (hfn : fn < 2 ^ 32)
    (htop : FRAME_SIZE ≤ round_down ((t.stack + t.stack_size) % 2 ^ 32) 8) :
    ∃ t' mem', arch_thread_initialize fn t mem = some (t', mem') ∧
      t'.sp + FRAME_SIZE = round_down ((t.stack + t.stack_size) % 2 ^ 32) 8 ∧
      (∀ i, i < 10 → Libc.load32 mem' (t'.sp + 4 * i) = 0) ∧
      Libc.load32 mem' (t'.sp + LR_OFFSET) = fn ∧
      (∀ x, x < t'.sp ∨ t'.sp + FRAME_SIZE ≤ x → mem' x = mem x) ∧
      t'.stack = t.stack ∧ t'.stack_size = t.stack_size ∧ t'.arg = t.arg ∧
      t'.entry = t.entry := by
  unfold arch_thread_initialize
  simp only
  rw [if_neg (by omega), Libc.memset_eq 4 (Or.inl rfl)]
  refine ⟨_, _, rfl, ?_, ?_, ?_, ?_, rfl, rfl, rfl, rfl⟩
  · simp only
    omega
  · intro i hi
    simp only [FRAME_SIZE, LR_OFFSET]
    unfold Libc.load32
    rw [frame_byte_zero _ _ _ _ (4 * i) (by omega),
      Nat.add_assoc _ (4 * i) 1, frame_byte_zero _ _ _ _ (4 * i + 1) (by omega),
      Nat.add_assoc _ (4 * i) 2, frame_byte_zero _ _ _ _ (4 * i + 2) (by omega),
      Nat.add_assoc _ (4 * i) 3, frame_byte_zero _ _ _ _ (4 * i + 3) (by omega)]
    rfl
  · exact load32_store_word _ _ _ hfn
  · intro x hx
    simp only [FRAME_SIZE, LR_OFFSET] at htop hx ⊢
    unfold Libc.store_word
    simp only
    split_ifs <;> first | rfl | omega

theorem thread_initialize_frame_witness :
    ∃ t' mem', arch_thread_initialize 0x8000 demo_thread (fun _ => 0xAA) = some (t', mem') ∧
      t'.sp + FRAME_SIZE = round_down ((demo_thread.stack + demo_thread.stack_size) % 2 ^ 32) 8 ∧
      (∀ i, i < 10 → Libc.load32 mem' (t'.sp + 4 * i) = 0) ∧
      Libc.load32 mem' (t'.sp + LR_OFFSET) = 0x8000 ∧
      (∀ x, x < t'.sp ∨ t'.sp + FRAME_SIZE ≤ x → mem' x = (fun _ => 0xAA) x) ∧
      t'.stack = demo_thread.stack ∧ t'.stack_size = demo_thread.stack_size ∧
      t'.arg = demo_thread.arg ∧ t'.entry = demo_thread.entry :=
  thread_initialize_frame 0x8000 demo_thread (fun _ => 0xAA) (by decide) (by decide)

/-- C19 (counterexample). For the thread with stack `[0x1000, 0x2000)` the
frame base `arch_thread_initialize` stores in `t.arch.sp` is `0x1FD4`, which
is not a multiple of 8. -/
theorem frame_base_counterexample :
    Option.map (fun r => r.1.sp) ( arch_thread_initialize 0x8000 demo_thread (fun _ => 0)) =
        some 0x1FD4 ∧
      ¬ (0x1FD4 % 8 = 0) := by
  decide

/-- C19 (amended). Under the conditions of C18 the frame `arch_thread_initialize`
builds ends at a multiple of 8 (the stack pointer once the frame is popped),
and the frame base stored in `t.arch.sp` is 4 more than a multiple of 8. -/
theorem frame_top_aligned (fn : Nat) (t : Thread) (mem : Nat → Nat)
    (htop : FRAME_SIZE ≤ round_down ((t.stack + t.stack_size) % 2 ^ 32) 8) :
    ∃ t' mem', arch_thread_initialize fn t mem = some (t', mem') ∧
      (t'.sp + FRAME_SIZE) % 8 = 0 ∧ t'.sp % 8 = 4 := by
  have h8 := round_down_8 ((t.stack + t.stack_size) % 2 ^ 32)
  unfold arch_thread_initialize
  simp only
  rw [if_neg (by omega)]
  refine ⟨_, _, rfl, ?_, ?_⟩
  · simp only [FRAME_SIZE] at htop ⊢
    omega
  · simp only [FRAME_SIZE] at htop ⊢
    omega

theorem frame_top_aligned_witness :
    ∃ t' mem', arch_thread_initialize 0x8000 demo_thread (fun _ => 0) = some (t', mem') ∧
      (t'.sp + FRAME_SIZE) % 8 = 0 ∧ t'.sp % 8 = 4 :=
  frame_top_aligned 0x8000 demo_thread (fun _ => 0) (by decide)

/-! ## The first run of a thread -/

/-- C20. The function `initial_thread_func` releases the thread lock, then
enables interrupts, then calls the entry function of the current thread once
with the thread's `arg`: the entry function starts with the lock released,
interrupts enabled and the log `call_entry arg, enable_ints, thread_unlock`
(newest first).  When the entry function returns `ret`, `thread_exit ret` is
the next and last action, so with an entry function that logs nothing the
four actions appear in this order and `call_entry` once; when the entry
function does not return, neither does `initial_thread_func`; in no case does
`initial_thread_func` return. -/
theorem first_run_order (ct : Thread) (c : Cpu) :
    (∀ ret c2,
        ct.entry ct.arg
            { thread_lock_held := false, ints_enabled := true,
              log := Act.call_entry ct.arg :: Act.enable_ints :: Act.thread_unlock :: c.log } =
          some (ret, c2) →
        initial_thread_func ct c =
            Outcome.exited ret { c2 with log := Act.thread_exit ret :: c2.log } ∧
          (c2.log = Act.call_entry ct.arg :: Act.enable_ints :: Act.thread_unlock :: c.log →
            ∃ c3, initial_thread_func ct c = Outcome.exited ret c3 ∧
              c3.log = Act.thread_exit ret :: Act.call_entry ct.arg :: Act.enable_ints ::
                Act.thread_unlock :: c.log)) ∧
      (ct.entry ct.arg
            { thread_lock_held := false, ints_enabled := true,
              log := Act.call_entry ct.arg :: Act.enable_ints :: Act.thread_unlock :: c.log } =
          none →
        initial_thread_func ct c = Outcome.stuck) ∧
      (∀ c', initial_thread_func ct c ≠ Outcome.returned c') := by
  refine ⟨?_, ?_, ?_⟩
  · intro ret c2 h
    have e : initial_thread_func ct c =
        Outcome.exited ret { c2 with log := Act.thread_exit ret :: c2.log } := by
      simp only [initial_thread_func, thread_unlock_ints_disabled, arch_enable_ints, h,
        thread_exit]
    refine ⟨e, fun hl => ⟨_, e, ?_⟩⟩
    simp only [hl]
  · intro h
    simp only [initial_thread_func, thread_unlock_ints_disabled, arch_enable_ints, h]
  · intro c'
    simp only [initial_thread_func, thread_unlock_ints_disabled, arch_enable_ints]
    split
    · simp
    · simp [thread_exit]

theorem first_run_order_witness :
    initial_thread_func demo_thread fresh_cpu =
      Outcome.exited 43
        { thread_lock_held := false, ints_enabled := true,
          log := [Act.thread_exit 43, Act.call_entry 42, Act.enable_ints, Act.thread_unlock] } :=
  ((first_run_order demo_thread fresh_cpu).1 43
    { thread_lock_held := false, ints_enabled := true,
      log := [Act.call_entry 42, Act.enable_ints, Act.thread_unlock] } rfl).1

end ArmThread

namespace GicV3

/-! ## Group configuration of one vector -/

theorem bit_val (x i : Nat) : (x >>> i) &&& 1 = (x.testBit i).toNat := by
  rw [Nat.toNat_testBit, Nat.shiftRight_eq_div_pow, Nat.and_one_is_mod]

theorem and_one_ne_zero (x : Nat) : (x &&& 1 ≠ 0) = (x.testBit 0 = true) := by
  have h := bit_val x 0
  rw [Nat.shiftRight_zero] at h
  rw [h]
  cases x.testBit 0 <;> simp

theorem and_two_ne_zero (x : Nat) : (x &&& 2 ≠ 0) = (x.testBit 1 = true) := by
  have h := Nat.and_two_pow x 1
  rw [pow_one] at h
  rw [h]
  cases x.testBit 1 <;> simp

theorem mask_eq {j : Nat} (hj : j < 32) : (1 <<< j) % 2 ^ 32 = 2 ^ j := by
  rw [Nat.one_shiftLeft]
  exact Nat.mod_eq_of_lt (Nat.pow_lt_pow_right (by norm_num) hj)

/-- Setting or clearing bit `j` of a 32-bit word. -/
theorem word_bit (val j : Nat) (hj : j < 32) (b : Bool) :
    ((if b = true then val ||| 2 ^ j else val &&& not32 (2 ^ j)) % 2 ^ 32).testBit j = b ∧
    ∀ i, i < 32 → i ≠ j →
      ((if b = true then val ||| 2 ^ j else val &&& not32 (2 ^ j)) % 2 ^ 32).testBit i =
        val.testBit i := by
  have hm : 2 ^ j % 2 ^ 32 = 2 ^ j := Nat.mod_eq_of_lt (Nat.pow_lt_pow_right (by norm_num) hj)
  cases b
  · simp only [Bool.false_eq_true, if_false, not32, hm, Nat.testBit_mod_two_pow, Nat.testBit_and,
      Nat.testBit_xor, Nat.testBit_two_pow_sub_one, Nat.testBit_two_pow]
    refine ⟨by simp [hj], fun i hi hne => ?_⟩
    have : ¬ j = i := fun h => hne h.symm
    simp [hi, this]
  · simp only [if_true, Nat.testBit_mod_two_pow, Nat.testBit_or, Nat.testBit_two_pow]
    refine ⟨by simp [hj], fun i hi hne => ?_⟩
    have : ¬ j = i := fun h => hne h.symm
    simp [hi, this]

/-- What the two read-modify-write steps of the setup functions leave. -/
theorem setup_words (g : Reg → Nat) (R M : Reg) (hRM : R ≠ M) (j grp : Nat) (hj : j < 32) :
    let g1 := Function.update g R
      ((if grp &&& 1 ≠ 0 then g R ||| 2 ^ j else g R &&& not32 (2 ^ j)) % 2 ^ 32)
    let g2 := Function.update g1 M
      ((if grp &&& 2 ≠ 0 then g1 M ||| 2 ^ j else g1 M &&& not32 (2 ^ j)) % 2 ^ 32)
    (g2 R >>> j) &&& 1 = grp &&& 1 ∧
    (g2 M >>> j) &&& 1 = (grp >>> 1) &&& 1 ∧
    (∀ i, i < 32 → i ≠ j →
      (g2 R).testBit i = (g R).testBit i ∧ (g2 M).testBit i = (g M).testBit i) ∧
    (∀ r, r ≠ R → r ≠ M → g2 r = g r) := by
  intro g1 g2
  have e1 : g1 M = g M := Function.update_noteq (Ne.symm hRM) _ _
  have eR : g2 R = (if grp &&& 1 ≠ 0 then g R ||| 2 ^ j else g R &&& not32 (2 ^ j)) % 2 ^ 32 := by
    show Function.update g1 M _ R = _
    rw [Function.update_noteq hRM]
    exact Function.update_same _ _ _
  have eM : g2 M = (if grp &&& 2 ≠ 0 then g M ||| 2 ^ j else g M &&& not32 (2 ^ j)) % 2 ^ 32 := by
    show Function.update g1 M _ M = _
    rw [Function.update_same, e1]
  have hR := word_bit (g R) j hj (grp.testBit 0)
  have hM := word_bit (g M) j hj (grp.testBit 1)
  simp only [← and_one_ne_zero] at hR
  simp only [← and_two_ne_zero] at hM
  rw [← eR] at hR
  rw [← eM] at hM
  refine ⟨?_, ?_, fun i hi hne => ⟨hR.2 i hi hne, hM.2 i hi hne⟩, fun r h1 h2 => ?_⟩
  · rw [bit_val, hR.1, ← bit_val, Nat.shiftRight_zero]
  · rw [bit_val, hM.1, ← bit_val]
  · show Function.update g1 M _ r = _
    rw [Function.update_noteq h2]
    exact Function.update_noteq h1 _ _

end GicV3

namespace GicV3

theorem configure_irq_eq (max_int grp cur cpu vector : Nat) (g : Reg → Nat)
    (h1 : vector < max_int) (h2 : vector ≠ 32) :
    arm_gicv3_configure_irq_locked max_int grp cur cpu vector g =
      some (Function.update
        (Function.update g (group_reg cur vector)
          ((if grp &&& 1 ≠ 0 then g (group_reg cur vector) ||| 2 ^ (vector % 32)
            else g (group_reg cur vector) &&& not32 (2 ^ (vector % 32))) % 2 ^ 32))
        (group_mod_reg cur vector)
        ((if grp &&& 2 ≠ 0 then
            Function.update g (group_reg cur vector)
              ((if grp &&& 1 ≠ 0 then g (group_reg cur vector) ||| 2 ^ (vector % 32)
                else g (group_reg cur vector) &&& not32 (2 ^ (vector % 32))) % 2 ^ 32)
              (group_mod_reg cur vector) ||| 2 ^ (vector % 32)
          else
            Function.update g (group_reg cur vector)
              ((if grp &&& 1 ≠ 0 then g (group_reg cur vector) ||| 2 ^ (vector % 32)
                else g (group_reg cur vector) &&& not32 (2 ^ (vector % 32))) % 2 ^ 32)
              (group_mod_reg cur vector) &&& not32 (2 ^ (vector % 32))) % 2 ^ 32)) := by
  unfold arm_gicv3_configure_irq_locked group_reg group_mod_reg
  simp only
  rw [if_neg (not_not.mpr h1)]
  by_cases hv : vector < 32
  · rw [if_pos hv, if_pos hv, if_pos hv]
    unfold gicv3_gicr_setup_irq_group GICRREG_READ GICRREG_WRITE
    simp only
    rw [if_neg (not_not.mpr hv), mask_eq hv, Nat.mod_eq_of_lt hv]
  · rw [if_neg hv, if_neg hv, if_neg hv]
    unfold gicv3_gicd_setup_irq_group GICDREG_READ GICDREG_WRITE
    simp only
    rw [if_neg (not_not.mpr ⟨by omega, h1⟩), mask_eq (Nat.mod_lt _ (by norm_num))]

theorem group_reg_ne (cur vector : Nat) : group_reg cur vector ≠ group_mod_reg cur vector := by
  unfold group_reg group_mod_reg
  split_ifs <;> simp

theorem configure_irq_at_32 (max_int grp cur cpu : Nat) (g : Reg → Nat) :
    arm_gicv3_configure_irq_locked max_int grp cur cpu 32 g = none := by
  unfold arm_gicv3_configure_irq_locked gicv3_gicd_setup_irq_group
  simp

/-- C21 (the code at the failing input). For every `MAX_INT`, group and
register file, `arm_gicv3_configure_irq_locked` with vector 32 fails an
assertion (`gicv3_gicd_setup_irq_group` asserts `vector > 32`), while with
`MAX_INT` = 1024 the vectors 31 and 33 are configured. -/
theorem configure_irq_vector_32 :
    (∀ (max_int grp cur cpu : Nat) (g : Reg → Nat),
      arm_gicv3_configure_irq_locked max_int grp cur cpu 32 g = none) ∧
    (arm_gicv3_configure_irq_locked 1024 1 0 0 31 all_ones).isSome = true ∧
    (arm_gicv3_configure_irq_locked 1024 1 0 0 33 all_ones).isSome = true := by
  refine ⟨fun max_int grp cur cpu g => ?_, ?_, ?_⟩
  · exact configure_irq_at_32 max_int grp cur cpu g
  · rw [configure_irq_eq _ _ _ _ _ _ (by norm_num) (by norm_num)]
    rfl
  · rw [configure_irq_eq _ _ _ _ _ _ (by norm_num) (by norm_num)]
    rfl

/-- C29. For every vector below `MAX_INT` other than 32 the call
`arm_gicv3_configure_irq_locked` completes, and whenever it completes: bit
`vector mod 32` of the group word of the vector (`GICR_IGROUPR0` of the current
CPU when `vector < 32`, `GICD_IGROUPR(vector div 32)` otherwise) equals
`GICV3_IRQ_GROUP & 1`, the bit at the same position of the group-modifier word
equals `(GICV3_IRQ_GROUP >> 1) & 1`, every other bit of the two words is
unchanged, and every other register, the enable registers among them, is
unchanged. -/
theorem configure_irq_group_bits (max_int grp cur cpu vector : Nat) (g : Reg → Nat) :
    (vector < max_int → vector ≠ 32 →
      ∃ g', arm_gicv3_configure_irq_locked max_int grp cur cpu vector g = some g') ∧
    (∀ g', arm_gicv3_configure_irq_locked max_int grp cur cpu vector g = some g' →
      (g' (group_reg cur vector) >>> (vector % 32)) &&& 1 = grp &&& 1 ∧
      (g' (group_mod_reg cur vector) >>> (vector % 32)) &&& 1 = (grp >>> 1) &&& 1 ∧
      (∀ i, i < 32 → i ≠ vector % 32 →
        (g' (group_reg cur vector)).testBit i = (g (group_reg cur vector)).testBit i ∧
        (g' (group_mod_reg cur vector)).testBit i =
          (g (group_mod_reg cur vector)).testBit i) ∧
      (∀ r, r ≠ group_reg cur vector → r ≠ group_mod_reg cur vector → g' r = g r) ∧
      (∀ n, g' (Reg.GICD_ISENABLER n) = g (Reg.GICD_ISENABLER n) ∧
        g' (Reg.GICD_ICENABLER n) = g (Reg.GICD_ICENABLER n) ∧
        g' (Reg.GICR_ISENABLER0 n) = g (Reg.GICR_ISENABLER0 n) ∧
        g' (Reg.GICR_ICENABLER0 n) = g (Reg.GICR_ICENABLER0 n))) := by
  refine ⟨fun h1 h2 => ⟨_, configure_irq_eq max_int grp cur cpu vector g h1 h2⟩, ?_⟩
  intro g' hg
  have h1 : vector < max_int := by
    by_contra h
    unfold arm_gicv3_configure_irq_locked at hg
    simp [h] at hg
  have h2 : vector ≠ 32 := by
    rintro rfl
    rw [configure_irq_at_32] at hg
    exact absurd hg (by simp)
  rw [configure_irq_eq max_int grp cur cpu vector g h1 h2] at hg
  have hg' := Option.some.inj hg
  subst hg'
  obtain ⟨a, b, c, d⟩ := setup_words g _ _ (group_reg_ne cur vector) (vector % 32) grp
    (Nat.mod_lt _ (by norm_num))
  have hne : ∀ r, (∀ k, r ≠ Reg.GICR_IGROUPR0 k) → (∀ k, r ≠ Reg.GICD_IGROUPR k) →
      (∀ k, r ≠ Reg.GICR_IGRPMODR0 k) → (∀ k, r ≠ Reg.GICD_IGRPMODR k) →
      r ≠ group_reg cur vector ∧ r ≠ group_mod_reg cur vector := by
    intro r r1 r2 r3 r4
    unfold group_reg group_mod_reg
    constructor <;> split_ifs
    · exact r1 _
    · exact r2 _
    · exact r3 _
    · exact r4 _
  refine ⟨a, b, c, d, fun n => ⟨?_, ?_, ?_, ?_⟩⟩
  · obtain ⟨x, y⟩ := hne (Reg.GICD_ISENABLER n) (by simp) (by simp) (by simp) (by simp)
    exact d _ x y
  · obtain ⟨x, y⟩ := hne (Reg.GICD_ICENABLER n) (by simp) (by simp) (by simp) (by simp)
    exact d _ x y
  · obtain ⟨x, y⟩ := hne (Reg.GICR_ISENABLER0 n) (by simp) (by simp) (by simp) (by simp)
    exact d _ x y
  · obtain ⟨x, y⟩ := hne (Reg.GICR_ICENABLER0 n) (by simp) (by simp) (by simp) (by simp)
    exact d _ x y

theorem configure_irq_group_bits_witness :
    (arm_gicv3_configure_irq_locked 1024 1 0 0 40 all_ones).isSome = true ∧
    ∃ g', arm_gicv3_configure_irq_locked 1024 1 0 0 40 all_ones = some g' ∧
      (g' (group_reg 0 40) >>> (40 % 32)) &&& 1 = 1 &&& 1 ∧
      (g' (group_mod_reg 0 40) >>> (40 % 32)) &&& 1 = (1 >>> 1) &&& 1 :=
  ⟨by rw [configure_irq_eq _ _ _ _ _ _ (by norm_num) (by norm_num)]; rfl,
    ((configure_irq_group_bits 1024 1 0 0 40 all_ones).1 (by norm_num) (by norm_num)).elim
      fun g' hg => ⟨g', hg,
        ((configure_irq_group_bits 1024 1 0 0 40 all_ones).2 g' hg).1,
        ((configure_irq_group_bits 1024 1 0 0 40 all_ones).2 g' hg).2.1⟩⟩

end GicV3

namespace IoLib

/-! ## Dispatch through the hook table -/

/-- C22. With the magic of the handle intact (or assertions compiled out),
`io_write` and `io_read` return `ERR_NOT_SUPPORTED` and leave the world alone
when their hook is absent, and otherwise return exactly what the hook returns
for the same handle, buffer and length; `io_write_commit`, `io_lock` and
`io_unlock` do nothing when their hook is absent and otherwise run the hook
on the handle. -/
theorem io_hook_dispatch {W : Type} (magic : Nat) (debug : Bool) (io : io_handle W)
    (buf len : Nat) (w : W) (hm : debug = false ∨ io.magic = magic) :
    (io.hooks.write = none → io_write magic debug io buf len w = some (ERR_NOT_SUPPORTED, w)) ∧
    (∀ hook, io.hooks.write = some hook →
      io_write magic debug io buf len w = some (hook io.addr buf len w)) ∧
    (io.hooks.read = none → io_read magic debug io buf len w = some (ERR_NOT_SUPPORTED, w)) ∧
    (∀ hook, io.hooks.read = some hook →
      io_read magic debug io buf len w = some (hook io.addr buf len w)) ∧
    (io.hooks.write_commit = none → io_write_commit magic debug io w = some w) ∧
    (∀ hook, io.hooks.write_commit = some hook →
      io_write_commit magic debug io w = some (hook io.addr w)) ∧
    (io.hooks.lock = none → io_lock magic debug io w = some w) ∧
    (∀ hook, io.hooks.lock = some hook → io_lock magic debug io w = some (hook io.addr w)) ∧
    (io.hooks.unlock = none → io_unlock magic debug io w = some w) ∧
    (∀ hook, io.hooks.unlock = some hook →
      io_unlock magic debug io w = some (hook io.addr w)) := by
  have hc : ¬ (debug = true ∧ io.magic ≠ magic) := by
    rcases hm with h | h
    · simp [h]
    · simp [h]
  refine ⟨?_, ?_, ?_, ?_, ?_, ?_, ?_, ?_, ?_, ?_⟩
  · intro h
    simp only [io_write, if_neg hc, h]
  · intro hook h
    simp only [io_write, if_neg hc, h]
  · intro h
    simp only [io_read, if_neg hc, h]
  · intro hook h
    simp only [io_read, if_neg hc, h]
  · intro h
    simp only [io_write_commit, if_neg hc, h]
  · intro hook h
    simp only [io_write_commit, if_neg hc, h]
  · intro h
    simp only [io_lock, if_neg hc, h]
  · intro hook h
    simp only [io_lock, if_neg hc, h]
  · intro h
    simp only [io_unlock, if_neg hc, h]
  · intro hook h
    simp only [io_unlock, if_neg hc, h]

theorem io_hook_dispatch_witness :
    io_write 0x696f6820 true bare_handle 0x9000 5 [] = some (ERR_NOT_SUPPORTED, []) ∧
    io_write 0x696f6820 true console_handle 0x9000 5 [] = some (5, [5]) ∧
    io_lock 0x696f6820 true console_handle [7] = some [7] :=
  ⟨(io_hook_dispatch 0x696f6820 true bare_handle 0x9000 5 [] (Or.inr rfl)).1 rfl,
    (io_hook_dispatch 0x696f6820 true console_handle 0x9000 5 [] (Or.inr rfl)).2.1 _ rfl,
    (io_hook_dispatch 0x696f6820 true console_handle 0x9000 5 [7]
      (Or.inr rfl)).2.2.2.2.2.2.1 rfl⟩

end IoLib

namespace Arm64Mmu

/-! ## Register values of an address-space switch -/

theorem asid_shift (a : Aspace) :
    (arch_mmu_asid a <<< 48) % 2 ^ 64 = (a.asid % 2 ^ 8) <<< 48 := by
  unfold arch_mmu_asid ARM64_ASID_BITS
  rw [Nat.and_pow_two_sub_one_eq_mod]
  have h : a.asid % 2 ^ 8 < 2 ^ 8 := Nat.mod_lt _ (by norm_num)
  rw [Nat.shiftLeft_eq]
  apply Nat.mod_eq_of_lt
  calc a.asid % 2 ^ 8 * 2 ^ 48 < 2 ^ 8 * 2 ^ 48 := by
        exact Nat.mul_lt_mul_of_pos_right h (by norm_num)
    _ ≤ 2 ^ 64 := by norm_num

/-- C23. For a non-null user aspace `arch_mmu_context_switch` returns; with
`asid` the value `vmm_asid_activate` leaves in `aspace->asid` (the asid of the
aspace when the ttbr value is computed), it writes `ttbr0_el1 =
((asid mod 2^8) << 48) | tt_phys`, a 64-bit value when `tt_phys` is one, then
`tcr_el1 = MMU_TCR_FLAGS_USER`, and a TLB flush with a DSB follows exactly when
`vmm_asid_activate` asks for it.  For a null aspace it returns, does not write
`ttbr0_el1`, and writes `tcr_el1 = MMU_TCR_FLAGS_KERNEL`. -/
theorem context_switch_registers (tcr_user tcr_kernel : Nat)
    (activate : Option Aspace → Nat → Bool × Nat) (debug : Bool) (c : SysRegs) :
    (∀ a : Aspace, a.flags &&& ARCH_ASPACE_FLAG_KERNEL = 0 →
      ∃ c', arch_mmu_context_switch tcr_user tcr_kernel activate debug (some a) c =
          some (some { a with asid := (activate (some a) ARM64_ASID_BITS).2 }, c') ∧
        c'.ttbr0_el1 =
          (((activate (some a) ARM64_ASID_BITS).2 % 2 ^ 8) <<< 48) ||| a.tt_phys ∧
        (a.tt_phys < 2 ^ 64 → c'.ttbr0_el1 < 2 ^ 64) ∧
        c'.tcr_el1 = tcr_user ∧
        c'.log =
          (if (activate (some a) ARM64_ASID_BITS).1 = true then
            [SysEvent.dsb, SysEvent.tlbi_vmalle1] else []) ++
          SysEvent.write_tcr_el1 tcr_user ::
          SysEvent.write_ttbr0_el1
            ((((activate (some a) ARM64_ASID_BITS).2 % 2 ^ 8) <<< 48) ||| a.tt_phys) ::
          c.log) ∧
    (∃ c', arch_mmu_context_switch tcr_user tcr_kernel activate debug none c =
          some (none, c') ∧
        c'.ttbr0_el1 = c.ttbr0_el1 ∧
        c'.tcr_el1 = tcr_kernel ∧
        c'.log =
          (if (activate none ARM64_ASID_BITS).1 = true then
            [SysEvent.dsb, SysEvent.tlbi_vmalle1] else []) ++
          SysEvent.write_tcr_el1 tcr_kernel :: c.log) := by
  constructor
  · intro a ha
    have hc : ¬ (debug = true ∧ ¬ (a.flags &&& ARCH_ASPACE_FLAG_KERNEL = 0)) := by
      simp [ha]
    have hsh := asid_shift { a with asid := (activate (some a) ARM64_ASID_BITS).2 }
    simp only at hsh
    unfold arch_mmu_context_switch
    simp only [if_neg hc, hsh]
    refine ⟨_, rfl, ?_, ?_, ?_, ?_⟩
    · split_ifs <;> rfl
    · intro hp
      have h1 : ((activate (some a) ARM64_ASID_BITS).2 % 2 ^ 8) <<< 48 < 2 ^ 64 := by
        rw [← hsh]
        exact Nat.mod_lt _ (by norm_num)
      have h2 := Nat.or_lt_two_pow h1 hp
      split_ifs <;> exact h2
    · split_ifs <;> rfl
    · split_ifs <;> rfl
  · unfold arch_mmu_context_switch
    simp only
    refine ⟨_, rfl, ?_, ?_, ?_⟩
    · split_ifs <;> rfl
    · split_ifs <;> rfl
    · split_ifs <;> rfl

theorem context_switch_registers_witness :
    ∃ c', arch_mmu_context_switch 0x100 0x200 keep_asid true (some user_aspace) reset_regs =
        some (some user_aspace, c') ∧
      c'.ttbr0_el1 = 0x5000000080000 ∧ c'.tcr_el1 = 0x100 :=
  ((context_switch_registers 0x100 0x200 keep_asid true reset_regs).1 user_aspace
    (by decide)).elim
    fun c' h => ⟨c', h.1, h.2.1.trans (by decide), h.2.2.2.1⟩

end Arm64Mmu

namespace Arm64Mmu

/-! ## The attribute word of a mapping -/

theorem flags_and_mod (flags m : Nat) (hm : 63 &&& m = m) : flags &&& m = flags % 64 &&& m :=
  (and_mod_64 flags m hm).symm

/-- C24. Execute-never rule: for every flags value with a recognised cache
mode, the attribute word has PXN set iff `PERM_NO_EXECUTE` or `PERM_USER` is
set, and UXN set iff `PERM_NO_EXECUTE` is set or `PERM_USER` is clear; so at
least one of the two is set (no mapping is executable in both privilege modes)
and without `PERM_NO_EXECUTE` exactly one is set. -/
theorem execute_never_rule (flags : Nat) (hc : flags &&& ARCH_MMU_FLAG_CACHE_MASK ≠ 3) :
    (mmu_flags_to_pte_attr flags &&& MMU_PTE_ATTR_PXN ≠ 0 ↔
      (flags &&& ARCH_MMU_FLAG_PERM_NO_EXECUTE ≠ 0 ∨ flags &&& ARCH_MMU_FLAG_PERM_USER ≠ 0)) ∧
    (mmu_flags_to_pte_attr flags &&& MMU_PTE_ATTR_UXN ≠ 0 ↔
      (flags &&& ARCH_MMU_FLAG_PERM_NO_EXECUTE ≠ 0 ∨ flags &&& ARCH_MMU_FLAG_PERM_USER = 0)) ∧
    (mmu_flags_to_pte_attr flags &&& MMU_PTE_ATTR_PXN ≠ 0 ∨
      mmu_flags_to_pte_attr flags &&& MMU_PTE_ATTR_UXN ≠ 0) ∧
    (flags &&& ARCH_MMU_FLAG_PERM_NO_EXECUTE = 0 →
      ¬ (mmu_flags_to_pte_attr flags &&& MMU_PTE_ATTR_PXN ≠ 0 ∧
        mmu_flags_to_pte_attr flags &&& MMU_PTE_ATTR_UXN ≠ 0)) := by
  have key1 : ∀ f, f < 64 → f &&& ARCH_MMU_FLAG_CACHE_MASK ≠ 3 →
      (mmu_flags_to_pte_attr f &&& MMU_PTE_ATTR_PXN ≠ 0 ↔
        (f &&& ARCH_MMU_FLAG_PERM_NO_EXECUTE ≠ 0 ∨ f &&& ARCH_MMU_FLAG_PERM_USER ≠ 0)) := by
    decide!
  have key2 : ∀ f, f < 64 → f &&& ARCH_MMU_FLAG_CACHE_MASK ≠ 3 →
      (mmu_flags_to_pte_attr f &&& MMU_PTE_ATTR_UXN ≠ 0 ↔
        (f &&& ARCH_MMU_FLAG_PERM_NO_EXECUTE ≠ 0 ∨ f &&& ARCH_MMU_FLAG_PERM_USER = 0)) := by
    decide!
  rw [flags_and_mod flags ARCH_MMU_FLAG_CACHE_MASK (by decide)] at hc
  have h1 := key1 (flags % 64) (Nat.mod_lt _ (by norm_num)) hc
  have h2 := key2 (flags % 64) (Nat.mod_lt _ (by norm_num)) hc
  rw [mmu_flags_to_pte_attr_mod flags,
    ← flags_and_mod flags ARCH_MMU_FLAG_PERM_NO_EXECUTE (by decide),
    ← flags_and_mod flags ARCH_MMU_FLAG_PERM_USER (by decide)] at h1 h2
  refine ⟨h1, h2, ?_, ?_⟩
  · by_cases hx : flags &&& ARCH_MMU_FLAG_PERM_NO_EXECUTE ≠ 0
    · exact Or.inl (h1.mpr (Or.inl hx))
    · by_cases hu : flags &&& ARCH_MMU_FLAG_PERM_USER ≠ 0
      · exact Or.inl (h1.mpr (Or.inr hu))
      · exact Or.inr (h2.mpr (Or.inr (not_not.mp hu)))
  · rintro hx ⟨hp, hu⟩
    rcases h1.mp hp with h | h
    · exact h hx
    · rcases h2.mp hu with h' | h'
      · exact h' hx
      · exact h h'

theorem execute_never_rule_witness :
    mmu_flags_to_pte_attr 4 &&& MMU_PTE_ATTR_PXN ≠ 0 ∧
    ¬ (mmu_flags_to_pte_attr 4 &&& MMU_PTE_ATTR_UXN ≠ 0) :=
  ⟨(execute_never_rule 4 (by decide)).1.mpr (Or.inr (by decide)),
    fun h => (execute_never_rule 4 (by decide)).2.2.2 (by decide)
      ⟨(execute_never_rule 4 (by decide)).1.mpr (Or.inr (by decide)), h⟩⟩

theorem pte_to_mmu_flags_debug_congr (debug : Bool) {e e' : Nat}
    (h1 : e &&& MMU_PTE_ATTR_NON_SECURE = e' &&& MMU_PTE_ATTR_NON_SECURE)
    (h2 : e &&& MMU_PTE_ATTR_ATTR_INDEX_MASK = e' &&& MMU_PTE_ATTR_ATTR_INDEX_MASK)
    (h3 : e &&& MMU_PTE_ATTR_AP_MASK = e' &&& MMU_PTE_ATTR_AP_MASK)
    (h4 : e &&& MMU_PTE_ATTR_UXN = e' &&& MMU_PTE_ATTR_UXN)
    (h5 : e &&& MMU_PTE_ATTR_PXN = e' &&& MMU_PTE_ATTR_PXN) :
    pte_to_mmu_flags_debug debug e = pte_to_mmu_flags_debug debug e' := by
  unfold pte_to_mmu_flags_debug
  rw [h1, h2, h3, h4, h5]

theorem leaf_flags_debug (debug : Bool) {x attrs m : Nat} (hx : out_addr x = x) :
    pte_to_mmu_flags_debug debug ((x ||| attrs) ||| leaf_type m) =
      pte_to_mmu_flags_debug debug attrs :=
  pte_to_mmu_flags_debug_congr debug
    (leaf_and_mask hx (by decide) (by decide) (by decide))
    (leaf_and_mask hx (by decide) (by decide) (by decide))
    (leaf_and_mask hx (by decide) (by decide) (by decide))
    (leaf_and_mask hx (by decide) (by decide) (by decide))
    (leaf_and_mask hx (by decide) (by decide) (by decide))

/-- C25. Attribute decode inverts encode: for every flags value with a
recognised cache mode and no bits other than the cache mode, `PERM_USER`,
`PERM_RO`, `PERM_NO_EXECUTE` and `NS`, every output address `paddr` and every
leaf level (block or page descriptor type), the flag set `arch_mmu_query`
computes from the leaf entry `paddr | attr | type`, where `attr` is
`mmu_flags_to_pte_attr(flags)` with or without the non-global bit, is `flags`,
with the assertions on PXN and UXN compiled in (neither fails) and compiled
out. -/
theorem decode_inverts_encode (flags paddr m : Nat) (debug : Bool) (hf : flags < 64)
    (hc : flags &&& ARCH_MMU_FLAG_CACHE_MASK ≠ 3) (hp : out_addr paddr = paddr) :
    pte_to_mmu_flags_debug debug ((paddr ||| mmu_flags_to_pte_attr flags) ||| leaf_type m) =
      some flags ∧
    pte_to_mmu_flags_debug debug
      ((paddr ||| (mmu_flags_to_pte_attr flags ||| MMU_PTE_ATTR_NON_GLOBAL)) ||| leaf_type m) =
      some flags ∧
    pte_to_mmu_flags ((paddr ||| mmu_flags_to_pte_attr flags) ||| leaf_type m) = some flags ∧
    pte_to_mmu_flags
      ((paddr ||| (mmu_flags_to_pte_attr flags ||| MMU_PTE_ATTR_NON_GLOBAL)) ||| leaf_type m) =
      some flags := by
  have key : ∀ f, f < 64 → f &&& ARCH_MMU_FLAG_CACHE_MASK ≠ 3 → ∀ d : Bool,
      pte_to_mmu_flags_debug d (mmu_flags_to_pte_attr f) = some f ∧
      pte_to_mmu_flags_debug d (mmu_flags_to_pte_attr f ||| MMU_PTE_ATTR_NON_GLOBAL) =
        some f := by
    decide!
  have key' : ∀ f, f < 64 → f &&& ARCH_MMU_FLAG_CACHE_MASK ≠ 3 →
      pte_to_mmu_flags (mmu_flags_to_pte_attr f) = some f ∧
      pte_to_mmu_flags (mmu_flags_to_pte_attr f ||| MMU_PTE_ATTR_NON_GLOBAL) = some f := by
    decide!
  refine ⟨?_, ?_, ?_, ?_⟩
  · rw [leaf_flags_debug debug hp]
    exact (key flags hf hc debug).1
  · rw [leaf_flags_debug debug hp]
    exact (key flags hf hc debug).2
  · rw [leaf_flags hp]
    exact (key' flags hf hc).1
  · rw [leaf_flags hp]
    exact (key' flags hf hc).2

theorem decode_inverts_encode_witness :
    pte_to_mmu_flags_debug true
      ((0xAAAA000 ||| (mmu_flags_to_pte_attr 0x2c ||| MMU_PTE_ATTR_NON_GLOBAL)) |||
        leaf_type 0) = some 0x2c :=
  (decode_inverts_encode 0x2c 0xAAAA000 0 true (by decide) (by decide) (by decide)).2.1

/-- The memory-type and shareability bits `mmu_flags_to_pte_attr` gives for a
cache mode (the value for the mode 3 is that of the error return). -/
theorem cache_bits (flags : Nat) :
    mmu_flags_to_pte_attr flags &&&
        (MMU_PTE_ATTR_ATTR_INDEX_MASK ||| MMU_PTE_ATTR_SH_INNER_SHAREABLE) =
      if flags &&& ARCH_MMU_FLAG_CACHE_MASK = ARCH_MMU_FLAG_CACHED then
        MMU_PTE_ATTR_NORMAL_MEMORY ||| MMU_PTE_ATTR_SH_INNER_SHAREABLE
      else if flags &&& ARCH_MMU_FLAG_CACHE_MASK = ARCH_MMU_FLAG_UNCACHED then
        MMU_PTE_ATTR_STRONGLY_ORDERED
      else if flags &&& ARCH_MMU_FLAG_CACHE_MASK = ARCH_MMU_FLAG_UNCACHED_DEVICE then
        MMU_PTE_ATTR_DEVICE
      else 0x318 := by
  have key : ∀ f, f < 64 →
      mmu_flags_to_pte_attr f &&&
          (MMU_PTE_ATTR_ATTR_INDEX_MASK ||| MMU_PTE_ATTR_SH_INNER_SHAREABLE) =
        if f &&& ARCH_MMU_FLAG_CACHE_MASK = ARCH_MMU_FLAG_CACHED then
          MMU_PTE_ATTR_NORMAL_MEMORY ||| MMU_PTE_ATTR_SH_INNER_SHAREABLE
        else if f &&& ARCH_MMU_FLAG_CACHE_MASK = ARCH_MMU_FLAG_UNCACHED then
          MMU_PTE_ATTR_STRONGLY_ORDERED
        else if f &&& ARCH_MMU_FLAG_CACHE_MASK = ARCH_MMU_FLAG_UNCACHED_DEVICE then
          MMU_PTE_ATTR_DEVICE
        else 0x318 := by
    decide!
  rw [← mmu_flags_to_pte_attr_mod flags,
    flags_and_mod flags ARCH_MMU_FLAG_CACHE_MASK (by decide)]
  exact key (flags % 64) (Nat.mod_lt _ (by norm_num))

/-- C26. Cache-mode encoding: for every flags value, the memory-type and
shareability bits of `mmu_flags_to_pte_attr(flags)` are
`NORMAL_MEMORY | SH_INNER_SHAREABLE` for the cache mode `CACHED`,
`STRONGLY_ORDERED` for `UNCACHED` and `DEVICE` for `UNCACHED_DEVICE`, and two
flags values with the same cache mode have the same bits there, whatever their
permission, no-execute and NS bits are. -/
theorem cache_mode_encoding (flags : Nat) :
    (flags &&& ARCH_MMU_FLAG_CACHE_MASK = ARCH_MMU_FLAG_CACHED →
      mmu_flags_to_pte_attr flags &&&
          (MMU_PTE_ATTR_ATTR_INDEX_MASK ||| MMU_PTE_ATTR_SH_INNER_SHAREABLE) =
        MMU_PTE_ATTR_NORMAL_MEMORY ||| MMU_PTE_ATTR_SH_INNER_SHAREABLE) ∧
    (flags &&& ARCH_MMU_FLAG_CACHE_MASK = ARCH_MMU_FLAG_UNCACHED →
      mmu_flags_to_pte_attr flags &&&
          (MMU_PTE_ATTR_ATTR_INDEX_MASK ||| MMU_PTE_ATTR_SH_INNER_SHAREABLE) =
        MMU_PTE_ATTR_STRONGLY_ORDERED) ∧
    (flags &&& ARCH_MMU_FLAG_CACHE_MASK = ARCH_MMU_FLAG_UNCACHED_DEVICE →
      mmu_flags_to_pte_attr flags &&&
          (MMU_PTE_ATTR_ATTR_INDEX_MASK ||| MMU_PTE_ATTR_SH_INNER_SHAREABLE) =
        MMU_PTE_ATTR_DEVICE) ∧
    (∀ other, other &&& ARCH_MMU_FLAG_CACHE_MASK = flags &&& ARCH_MMU_FLAG_CACHE_MASK →
      mmu_flags_to_pte_attr other &&&
          (MMU_PTE_ATTR_ATTR_INDEX_MASK ||| MMU_PTE_ATTR_SH_INNER_SHAREABLE) =
        mmu_flags_to_pte_attr flags &&&
          (MMU_PTE_ATTR_ATTR_INDEX_MASK ||| MMU_PTE_ATTR_SH_INNER_SHAREABLE)) := by
  refine ⟨fun h => ?_, fun h => ?_, fun h => ?_, fun other h => ?_⟩
  · rw [cache_bits, if_pos h]
  · rw [cache_bits, h]
    rfl
  · rw [cache_bits, h]
    rfl
  · rw [cache_bits, cache_bits, h]

theorem cache_mode_encoding_witness :
    mmu_flags_to_pte_attr 0x3d &&&
        (MMU_PTE_ATTR_ATTR_INDEX_MASK ||| MMU_PTE_ATTR_SH_INNER_SHAREABLE) =
      MMU_PTE_ATTR_STRONGLY_ORDERED :=
  (cache_mode_encoding 0x3d).2.1 (by decide)

/-- C27. Permission encoding: for every flags value with a recognised cache
mode, the access-permission field of `mmu_flags_to_pte_attr(flags)` is
`P_RW_U_NA` when neither `PERM_USER` nor `PERM_RO` is set, `P_RO_U_NA` for
`PERM_RO` alone, `P_RW_U_RW` for `PERM_USER` alone and `P_RO_U_RO` for both;
the four encodings are distinct. -/
theorem permission_encoding (flags : Nat) (hc : flags &&& ARCH_MMU_FLAG_CACHE_MASK ≠ 3) :
    (flags &&& ARCH_MMU_FLAG_PERM_USER = 0 → flags &&& ARCH_MMU_FLAG_PERM_RO = 0 →
      mmu_flags_to_pte_attr flags &&& MMU_PTE_ATTR_AP_MASK = MMU_PTE_ATTR_AP_P_RW_U_NA) ∧
    (flags &&& ARCH_MMU_FLAG_PERM_USER = 0 → flags &&& ARCH_MMU_FLAG_PERM_RO ≠ 0 →
      mmu_flags_to_pte_attr flags &&& MMU_PTE_ATTR_AP_MASK = MMU_PTE_ATTR_AP_P_RO_U_NA) ∧
    (flags &&& ARCH_MMU_FLAG_PERM_USER ≠ 0 → flags &&& ARCH_MMU_FLAG_PERM_RO = 0 →
      mmu_flags_to_pte_attr flags &&& MMU_PTE_ATTR_AP_MASK = MMU_PTE_ATTR_AP_P_RW_U_RW) ∧
    (flags &&& ARCH_MMU_FLAG_PERM_USER ≠ 0 → flags &&& ARCH_MMU_FLAG_PERM_RO ≠ 0 →
      mmu_flags_to_pte_attr flags &&& MMU_PTE_ATTR_AP_MASK = MMU_PTE_ATTR_AP_P_RO_U_RO) ∧
    [MMU_PTE_ATTR_AP_P_RW_U_NA, MMU_PTE_ATTR_AP_P_RO_U_NA, MMU_PTE_ATTR_AP_P_RW_U_RW,
      MMU_PTE_ATTR_AP_P_RO_U_RO].Nodup := by
  have key : ∀ f, f < 64 → f &&& ARCH_MMU_FLAG_CACHE_MASK ≠ 3 →
      mmu_flags_to_pte_attr f &&& MMU_PTE_ATTR_AP_MASK =
        if f &&& ARCH_MMU_FLAG_PERM_USER = 0 then
          (if f &&& ARCH_MMU_FLAG_PERM_RO = 0 then MMU_PTE_ATTR_AP_P_RW_U_NA
           else MMU_PTE_ATTR_AP_P_RO_U_NA)
        else
          (if f &&& ARCH_MMU_FLAG_PERM_RO = 0 then MMU_PTE_ATTR_AP_P_RW_U_RW
           else MMU_PTE_ATTR_AP_P_RO_U_RO) := by
    decide!
  rw [flags_and_mod flags ARCH_MMU_FLAG_CACHE_MASK (by decide)] at hc
  have h := key (flags % 64) (Nat.mod_lt _ (by norm_num)) hc
  rw [mmu_flags_to_pte_attr_mod flags,
    ← flags_and_mod flags ARCH_MMU_FLAG_PERM_RO (by decide),
    ← flags_and_mod flags ARCH_MMU_FLAG_PERM_USER (by decide)] at h
  refine ⟨fun hu hr => ?_, fun hu hr => ?_, fun hu hr => ?_, fun hu hr => ?_, by decide⟩
  · rw [h, if_pos hu, if_pos hr]
  · rw [h, if_pos hu, if_neg hr]
  · rw [h, if_neg hu, if_pos hr]
  · rw [h, if_neg hu, if_neg hr]

theorem permission_encoding_witness :
    mmu_flags_to_pte_attr 12 &&& MMU_PTE_ATTR_AP_MASK = MMU_PTE_ATTR_AP_P_RO_U_RO :=
  (permission_encoding 12 (by decide)).2.2.2.1 (by decide) (by decide)

end Arm64Mmu

namespace Arm64Mmu

/-! ## The events issued by the engine -/

theorem Extends.none_issued (s : State) : Extends s s := ⟨[], rfl⟩

theorem Extends.of_trace {s s' : State} (h : s'.trace = s.trace) : Extends s s' :=
  ⟨[], by simp [h]⟩

theorem Extends.next {s s1 s2 : State} (h1 : Extends s s1) (h2 : Extends s1 s2) :
    Extends s s2 := by
  obtain ⟨l1, e1⟩ := h1
  obtain ⟨l2, e2⟩ := h2
  exact ⟨l2 ++ l1, by rw [e2, e1, List.append_assoc]⟩

theorem Extends.emit (e : Event) (s : State) : Extends s (emit e s) := ⟨[e], rfl⟩

theorem Extends.write (t i v : Nat) (s : State) : Extends s (write_pte t i v s) :=
  ⟨[Event.store t i v], rfl⟩

theorem Extends.tlbi (v asid : Nat) (s : State) : Extends s (tlbi_page v asid s) := by
  unfold tlbi_page
  split_ifs
  · exact Extends.emit _ s
  · exact Extends.emit _ s

theorem alloc_page_table_trace (cfg : Config) (ps : Nat) (s : State) :
    (alloc_page_table cfg ps s).2.trace = s.trace := by
  unfold alloc_page_table
  dsimp only
  split
  · rfl
  · rfl
  · split_ifs <;> rfl

theorem get_page_table_extends {cfg : Config} {i ps t : Nat} {o : Option Nat} {s s1 : State}
    (hg : arm64_mmu_get_page_table cfg i ps t s = some (o, s1)) : Extends s s1 := by
  unfold arm64_mmu_get_page_table at hg
  dsimp only at hg
  have htr := alloc_page_table_trace cfg ps s
  split_ifs at hg
  · cases ha : alloc_page_table cfg ps s with
    | mk o' s0 =>
      rw [ha] at hg htr
      cases o' with
      | none =>
        simp only [Option.some.injEq, Prod.mk.injEq] at hg
        rw [← hg.2]
        exact Extends.of_trace htr
      | some p =>
        simp only [Option.some.injEq, Prod.mk.injEq] at hg
        rw [← hg.2]
        refine ⟨[Event.store t i (p ||| MMU_PTE_L012_DESCRIPTOR_TABLE), Event.dmb_ishst,
          Event.fill p], ?_⟩
        simp only [write_pte, Arm64Mmu.emit, clear_page_table, List.cons_append, List.nil_append]
        rw [← htr]
  · simp only [Option.some.injEq, Prod.mk.injEq] at hg
    rw [← hg.2]
    exact Extends.none_issued s
  · simp only [Option.some.injEq, Prod.mk.injEq] at hg
    rw [← hg.2]
    exact Extends.none_issued s

theorem unmap_step_extends {sh ps t asid v a size : Nat}
    {recurse : Nat → Nat → Nat → Nat → Nat → State → Option State} {s s1 : State}
    (hrec : ∀ v vr sz ish c st st', recurse v vr sz ish c st = some st' → Extends st st')
    (h : unmap_step recurse sh ps t asid v a size s = some s1) : Extends s s1 := by
  unfold unmap_step at h
  dsimp only at h
  split_ifs at h with h1 h2
  · split at h
    · simp at h
    · rename_i s0 hr
      have e0 := hrec _ _ _ _ _ _ _ hr
      split_ifs at h
      · simp only [Option.some.injEq] at h
        rw [← h]
        exact e0.next ⟨[Event.dmb_ishst,
          Event.store t (a / 2 ^ sh) MMU_PTE_DESCRIPTOR_INVALID], rfl⟩
      · simp only [Option.some.injEq] at h
        rw [← h]
        exact e0
  · simp only [Option.some.injEq] at h
    rw [← h]
    exact (Extends.write _ _ _ _).next (Extends.tlbi _ _ _)
  · simp only [Option.some.injEq] at h
    rw [← h]
    exact Extends.none_issued s

theorem unmap_loop_extends {sh ps t asid : Nat}
    {recurse : Nat → Nat → Nat → Nat → Nat → State → Option State}
    (hrec : ∀ v vr sz ish c st st', recurse v vr sz ish c st = some st' → Extends st st') :
    ∀ (fuel v a size : Nat) (s s' : State),
      unmap_loop recurse sh ps t asid fuel v a size s = some s' → Extends s s' := by
  intro fuel
  induction fuel with
  | zero =>
    intro v a size s s' h
    simp only [unmap_loop] at h
    split_ifs at h
    simp only [Option.some.injEq] at h
    rw [← h]
    exact Extends.none_issued s
  | succ fuel ih =>
    intro v a size s s' h
    by_cases hsz : size = 0
    · subst hsz
      simp only [unmap_loop, if_true, Option.some.injEq] at h
      rw [← h]
      exact Extends.none_issued s
    · by_cases hsh : sh < 64
      · rw [unmap_loop_succ _ _ _ _ _ _ _ _ _ _ hsz hsh] at h
        cases hst : unmap_step recurse sh ps t asid v a size s with
        | none => simp [hst] at h
        | some s1 =>
          simp only [hst] at h
          have h1 := unmap_step_extends hrec hst
          split_ifs at h with hrest
          · simp only [Option.some.injEq] at h
            rw [← h]
            exact h1
          · exact h1.next (ih _ _ _ _ _ h)
      · rw [unmap_loop] at h
        simp [hsz, Nat.not_lt.mp hsh] at h

/-- The function `arm64_mmu_unmap_pt` only adds events to the trace. -/
theorem unmap_pt_extends :
    ∀ (fuel v a size sh ps t asid : Nat) (s s' : State),
      arm64_mmu_unmap_pt fuel v a size sh ps t asid s = some s' → Extends s s' := by
  intro fuel
  induction fuel with
  | zero =>
    intro v a size sh ps t asid s s' h
    simp [arm64_mmu_unmap_pt] at h
  | succ fuel ih =>
    intro v a size sh ps t asid s s' h
    rw [arm64_mmu_unmap_pt] at h
    exact unmap_loop_extends (fun v vr sz ish c st st' hr => ih _ _ _ _ _ _ _ _ _ hr)
      _ _ _ _ _ _ h

theorem map_step_extends {cfg : Config} {attrs sh ps t v a pa size : Nat}
    {recurse : Nat → Nat → Nat → Nat → Nat → Nat → State → Option (Int × State)}
    {s s1 : State} {b : Bool}
    (hrec : ∀ v vr pa sz ish c st ret st', recurse v vr pa sz ish c st = some (ret, st') →
      Extends st st')
    (h : map_step cfg recurse attrs sh ps t v a pa size s = some (b, s1)) :
    Extends s s1 := by
  unfold map_step at h
  split_ifs at h with hC hnz
  · cases hg : arm64_mmu_get_page_table cfg (a / 2 ^ sh) ps t s with
    | none => simp [hg] at h
    | some r =>
      obtain ⟨o, sA⟩ := r
      have eA := get_page_table_extends hg
      cases o with
      | none =>
        simp only [hg, Option.some.injEq, Prod.mk.injEq] at h
        rw [← h.2]
        exact eA
      | some c =>
        simp only [hg] at h
        cases hr : recurse v (a % 2 ^ sh) pa (chunk_size sh a size) (sub32 sh (sub32 ps 3)) c sA with
        | none => simp [hr] at h
        | some r2 =>
          obtain ⟨ret, s2⟩ := r2
          simp only [hr, Option.some.injEq, Prod.mk.injEq] at h
          rw [← h.2]
          exact eA.next (hrec _ _ _ _ _ _ _ _ _ hr)
  all_goals
    simp only [Option.some.injEq, Prod.mk.injEq] at h
    rw [← h.2]
    first
      | exact Extends.none_issued s
      | exact Extends.write _ _ _ _

theorem map_loop_extends {cfg : Config} {attrs sh ps t : Nat}
    {recurse : Nat → Nat → Nat → Nat → Nat → Nat → State → Option (Int × State)}
    (hrec : ∀ v vr pa sz ish c st ret st', recurse v vr pa sz ish c st = some (ret, st') →
      Extends st st') :
    ∀ (fuel v a pa size : Nat) (s s' : State) (o : Option Nat),
      map_loop cfg recurse attrs sh ps t fuel v a pa size s = some (o, s') →
      Extends s s' := by
  intro fuel
  induction fuel with
  | zero =>
    intro v a pa size s s' o h
    simp only [map_loop] at h
    split_ifs at h
    simp only [Option.some.injEq, Prod.mk.injEq] at h
    rw [← h.2]
    exact Extends.none_issued s
  | succ fuel ih =>
    intro v a pa size s s' o h
    by_cases hsz : size = 0
    · subst hsz
      simp only [map_loop, if_true, Option.some.injEq, Prod.mk.injEq] at h
      rw [← h.2]
      exact Extends.none_issued s
    · by_cases hsh : sh < 64
      · rw [map_loop_succ _ _ _ _ _ _ _ _ _ _ _ _ hsz hsh] at h
        cases hst : map_step cfg recurse attrs sh ps t v a pa size s with
        | none => simp [hst] at h
        | some r =>
          obtain ⟨b, s1⟩ := r
          have h1 := map_step_extends hrec hst
          cases b with
          | false =>
            simp only [hst, Option.some.injEq, Prod.mk.injEq] at h
            rw [← h.2]
            exact h1
          | true =>
            simp only [hst] at h
            split_ifs at h with hrest
            · simp only [Option.some.injEq, Prod.mk.injEq] at h
              rw [← h.2]
              exact h1
            · exact h1.next (ih _ _ _ _ _ _ _ h)
      · rw [map_loop] at h
        simp [hsz, Nat.not_lt.mp hsh] at h

/-- The function `arm64_mmu_map_pt` only adds events to the trace, whatever it
returns. -/
theorem map_pt_extends {cfg : Config} :
    ∀ (fuel v a pa size attrs sh ps t asid : Nat) (s s' : State) (ret : Int),
      arm64_mmu_map_pt cfg fuel v a pa size attrs sh ps t asid s = some (ret, s') →
      Extends s s' := by
  intro fuel
  induction fuel with
  | zero =>
    intro v a pa size attrs sh ps t asid s s' ret h
    simp [arm64_mmu_map_pt] at h
  | succ fuel ih =>
    intro v a pa size attrs sh ps t asid s s' ret h
    rw [arm64_mmu_map_pt] at h
    split_ifs at h with h64 hal
    · simp only [Option.some.injEq, Prod.mk.injEq] at h
      rw [← h.2]
      exact Extends.none_issued s
    · split at h
      · simp at h
      · rename_i s1 hloop
        simp only [Option.some.injEq, Prod.mk.injEq] at h
        rw [← h.2]
        exact map_loop_extends
          (fun v vr pa sz ish c st ret st' hr => ih _ _ _ _ _ _ _ _ _ _ _ _ hr)
          _ _ _ _ _ _ _ _ hloop
      · rename_i sz s1 hloop
        have e1 := map_loop_extends
          (fun v vr pa sz ish c st ret st' hr => ih _ _ _ _ _ _ _ _ _ _ _ _ hr)
          _ _ _ _ _ _ _ _ hloop
        split at h
        · simp at h
        · rename_i s2 hun
          simp only [Option.some.injEq, Prod.mk.injEq] at h
          rw [← h.2]
          exact e1.next ((unmap_pt_extends _ _ _ _ _ _ _ _ _ _ hun).next (Extends.emit _ _))

end Arm64Mmu

namespace Arm64Mmu

/-! ## The barrier at the end of a public call -/

theorem height_lt_fuel {cfg : Config} (hcfg : cfg.WF) (a : Aspace) :
    cfg.height a < level_shift cfg.PAGE_SIZE_SHIFT (cfg.height a) + 1 := by
  have hps := hcfg.ps_bounds
  have : cfg.height a ≤ level_shift cfg.PAGE_SIZE_SHIFT (cfg.height a) := by
    unfold level_shift
    have : cfg.height a * 1 ≤ cfg.height a * (cfg.PAGE_SIZE_SHIFT - 3) :=
      Nat.mul_le_mul_left _ (by omega)
    omega
  omega

/-- The call `arch_mmu_unmap` with arguments that pass the checks, on a
well-formed tree: it returns `NO_ERROR` after `arm64_mmu_unmap_pt` on the
top-level table and a DSB. -/
theorem arch_mmu_unmap_checked {cfg : Config} {a : Aspace} {s : State} {top vaddr : Nat}
    (count : Nat)
    (hcfg : cfg.WF) (ha : a.WF cfg) (ht : TreeWF cfg a s) (hp : AllocOK a s)
    (htop : a.tt_virt = some top)
    (hv : is_valid_vaddr a vaddr = true) (hal : IS_PAGE_ALIGNED cfg vaddr = true)
    (hr : (vaddr - cfg.window_base a) + cfg.byte_count count ≤ 2 ^ cfg.size_shift a) :
    ∃ s1, arm64_mmu_unmap_pt (cfg.top_shift a + 1) vaddr (vaddr - cfg.window_base a)
        (cfg.byte_count count) (cfg.top_shift a) cfg.PAGE_SIZE_SHIFT top a.tlb_asid s =
          some s1 ∧
      arch_mmu_unmap cfg a vaddr count s = some (NO_ERROR, emit Event.dsb s1) := by
  have hps := hcfg.ps_bounds
  have hts := hcfg.top_shift_eq a
  obtain ⟨s1, hpt, _, _⟩ := @unmap_pt_ok cfg.PAGE_SIZE_SHIFT a.tlb_asid hps.1 hps.2
    (cfg.height a) _ (cfg.entries_top a) top vaddr (vaddr - cfg.window_base a)
    (cfg.byte_count count) s (height_lt_fuel hcfg a) (hcfg.entries_top_le a).2 (hcfg.span_le a)
    (Pre.of_tree htop ht hp) (by rw [hcfg.span a]; exact hr)
  rw [← hts] at hpt
  exact ⟨s1, hpt, arch_mmu_unmap_run hcfg ha htop hv
    ((is_page_aligned_iff cfg vaddr).mp hal) hr hpt⟩

/-- The call `arch_mmu_unmap` with arguments that do not pass the checks
returns an error and leaves the state as it is. -/
theorem arch_mmu_unmap_refused {cfg : Config} {a : Aspace} (s : State) {vaddr : Nat}
    (count : Nat) (hcfg : cfg.WF) (ha : a.WF cfg)
    (hn : ¬ (is_valid_vaddr a vaddr = true ∧ IS_PAGE_ALIGNED cfg vaddr = true ∧
      (vaddr - cfg.window_base a) + cfg.byte_count count ≤ 2 ^ cfg.size_shift a)) :
    ∃ ret, arch_mmu_unmap cfg a vaddr count s = some (ret, s) := by
  by_cases hv : is_valid_vaddr a vaddr = true
  swap
  · refine ⟨ERR_OUT_OF_RANGE, ?_⟩
    unfold arch_mmu_unmap
    simp [hv]
  by_cases hal : IS_PAGE_ALIGNED cfg vaddr = true
  swap
  · refine ⟨ERR_INVALID_ARGS, ?_⟩
    unfold arch_mmu_unmap
    simp [hv, hal]
  have hr : ¬ (vaddr - cfg.window_base a) + cfg.byte_count count ≤ 2 ^ cfg.size_shift a :=
    fun h => hn ⟨hv, hal, h⟩
  obtain ⟨hb, hrel, hv64⟩ := rel_lt hcfg ha hv
  have hsh := hcfg.shifts a
  refine ⟨ERR_INVALID_ARGS, ?_⟩
  unfold arch_mmu_unmap
  simp only [hv, hal, Bool.not_true, Bool.false_eq_true, if_false]
  by_cases hk : a.kernel
  · have hk' : a.flags &&& ARCH_ASPACE_FLAG_KERNEL ≠ 0 := hk
    rw [if_pos hk', window_base_eq hcfg a hk]
    simp only [Config.size_shift, hk, if_true] at hsh hr
    rw [if_neg (by omega)]
    have e := arm64_mmu_unmap_past vaddr (cfg.byte_count count) (cfg.window_base a)
      cfg.MMU_KERNEL_SIZE_SHIFT cfg.MMU_KERNEL_TOP_SHIFT cfg.MMU_KERNEL_PAGE_SIZE_SHIFT
      a.tt_virt MMU_ARM64_GLOBAL_ASID s hsh.2.1
      (by rw [sub64_of_le _ _ hb hv64]; omega)
    unfold Config.byte_count at e
    exact e
  · have hk' : ¬ a.flags &&& ARCH_ASPACE_FLAG_KERNEL ≠ 0 := hk
    have hwb : cfg.window_base a = 0 := by simp [Config.window_base, hk]
    rw [if_neg hk']
    simp only [Config.size_shift, hk, if_false] at hsh hr
    rw [hwb] at hr
    have e := arm64_mmu_unmap_past vaddr (cfg.byte_count count) 0
      cfg.MMU_USER_SIZE_SHIFT cfg.MMU_USER_TOP_SHIFT cfg.MMU_USER_PAGE_SIZE_SHIFT
      a.tt_virt (arch_mmu_asid a) s hsh.2.1
      (by rw [sub64_of_le _ _ (Nat.zero_le _) hv64]; omega)
    unfold Config.byte_count at e
    simp only [e, arm64_tlbflush_same]

/-- C30 (counterexample). A map with `count = 0` and a map of a misaligned
address return (`NO_ERROR`, `ERR_INVALID_ARGS`) without issuing any event: the
trace is the one before the call, whose last event is a store and not a DSB. -/
theorem early_return_counterexample :
    status (arch_mmu_map cfg4k user_aspace 0x1000 0xAAAA000 0 0 after_store) = some NO_ERROR ∧
    (state_after (arch_mmu_map cfg4k user_aspace 0x1000 0xAAAA000 0 0 after_store)
      after_store).trace = [Event.store 0x80000 0 0] ∧
    status (arch_mmu_unmap cfg4k user_aspace 0x1001 1 after_store) = some ERR_INVALID_ARGS ∧
    (state_after (arch_mmu_unmap cfg4k user_aspace 0x1001 1 after_store)
      after_store).trace = [Event.store 0x80000 0 0] ∧
    [Event.store 0x80000 0 0].head? ≠ some Event.dsb := by
  decide!

/-- C30 (amended). On a well-formed tree, with an allocator that hands out
fresh table frames, `arch_mmu_map` and `arch_mmu_unmap` return.  When the
arguments pass the checks (`vaddr` in the window of the address space and page
aligned, the range inside the translation window, and for a map `paddr` page
aligned and inside the output-address field and `count` not 0) the call
issues events of which the last is a DSB; otherwise it returns without
issuing an event and leaves the state as it is. -/
theorem call_ends_with_dsb (cfg : Config) (a : Aspace) (s : State)
    (vaddr paddr count flags : Nat)
    (hcfg : cfg.WF) (ha : a.WF cfg) (ht : TreeWF cfg a s) (hp : AllocOK a s)
    (hpa64 : paddr < 2 ^ 64) :
    (∃ ret s', arch_mmu_map cfg a vaddr paddr count flags s = some (ret, s') ∧
      ((is_valid_vaddr a vaddr = true ∧ IS_PAGE_ALIGNED cfg vaddr = true ∧
          IS_PAGE_ALIGNED cfg paddr = true ∧ paddr &&& MMU_PTE_OUTPUT_ADDR_MASK_COMPL = 0 ∧
          count ≠ 0 ∧
          (vaddr - cfg.window_base a) + cfg.byte_count count ≤ 2 ^ cfg.size_shift a) →
        ∃ l, s'.trace = Event.dsb :: (l ++ s.trace)) ∧
      (¬ (is_valid_vaddr a vaddr = true ∧ IS_PAGE_ALIGNED cfg vaddr = true ∧
          IS_PAGE_ALIGNED cfg paddr = true ∧ paddr &&& MMU_PTE_OUTPUT_ADDR_MASK_COMPL = 0 ∧
          count ≠ 0 ∧
          (vaddr - cfg.window_base a) + cfg.byte_count count ≤ 2 ^ cfg.size_shift a) →
        s' = s)) ∧
    (∃ ret s', arch_mmu_unmap cfg a vaddr count s = some (ret, s') ∧
      ((is_valid_vaddr a vaddr = true ∧ IS_PAGE_ALIGNED cfg vaddr = true ∧
          (vaddr - cfg.window_base a) + cfg.byte_count count ≤ 2 ^ cfg.size_shift a) →
        ∃ l, s'.trace = Event.dsb :: (l ++ s.trace)) ∧
      (¬ (is_valid_vaddr a vaddr = true ∧ IS_PAGE_ALIGNED cfg vaddr = true ∧
          (vaddr - cfg.window_base a) + cfg.byte_count count ≤ 2 ^ cfg.size_shift a) →
        s' = s)) := by
  obtain ⟨top, htop, _⟩ := id ht
  constructor
  · by_cases hc : is_valid_vaddr a vaddr = true ∧ IS_PAGE_ALIGNED cfg vaddr = true ∧
        IS_PAGE_ALIGNED cfg paddr = true ∧ paddr &&& MMU_PTE_OUTPUT_ADDR_MASK_COMPL = 0 ∧
        count ≠ 0 ∧
        (vaddr - cfg.window_base a) + cfg.byte_count count ≤ 2 ^ cfg.size_shift a
    · obtain ⟨hv, hal, halp, hpa, hcount, hr⟩ := hc
      obtain ⟨ret, s1, hpt, hrun, _⟩ :=
        arch_mmu_map_checked flags hcfg ha ht hp htop hpa64 hv hal halp hpa hcount hr
      obtain ⟨l, hl⟩ := map_pt_extends _ _ _ _ _ _ _ _ _ _ _ _ _ hpt
      refine ⟨ret, _, hrun, fun _ => ⟨l, ?_⟩, fun hn => absurd ⟨hv, hal, halp, hpa, hcount, hr⟩ hn⟩
      show Event.dsb :: s1.trace = _
      rw [hl]
    · obtain ⟨ret, s', hmap⟩ := arch_mmu_map_total vaddr paddr count flags hcfg ha ht hp hpa64
      refine ⟨ret, s', hmap, fun h => absurd h hc, fun _ => ?_⟩
      rcases arch_mmu_map_inv hcfg ha htop hmap with
        ⟨hs, _⟩ | ⟨hv, hal, halp, hpa, hcount, hr, _⟩
      · exact hs
      · exact absurd ⟨hv, (is_page_aligned_iff cfg vaddr).mpr hal,
          (is_page_aligned_iff cfg paddr).mpr halp, hpa, hcount, hr⟩ hc
  · by_cases hc : is_valid_vaddr a vaddr = true ∧ IS_PAGE_ALIGNED cfg vaddr = true ∧
        (vaddr - cfg.window_base a) + cfg.byte_count count ≤ 2 ^ cfg.size_shift a
    · obtain ⟨hv, hal, hr⟩ := hc
      obtain ⟨s1, hpt, hrun⟩ := arch_mmu_unmap_checked count hcfg ha ht hp htop hv hal hr
      obtain ⟨l, hl⟩ := unmap_pt_extends _ _ _ _ _ _ _ _ _ _ hpt
      refine ⟨NO_ERROR, _, hrun, fun _ => ⟨l, ?_⟩, fun hn => absurd ⟨hv, hal, hr⟩ hn⟩
      show Event.dsb :: s1.trace = _
      rw [hl]
    · obtain ⟨ret, hun⟩ := arch_mmu_unmap_refused s count hcfg ha hc
      exact ⟨ret, s, hun, fun h => absurd h hc, fun _ => rfl⟩

set_option maxRecDepth 100000 in
/-- Witness of `call_ends_with_dsb`: a one-page map and a one-page unmap on an
empty user address space end with a DSB. -/
theorem call_ends_with_dsb_witness :
    (state_after (arch_mmu_map cfg4k user_aspace 0x1000 0xAAAA000 1 0 (zero_state three_frames))
      (zero_state three_frames)).trace.head? = some Event.dsb ∧
    (∃ ret s', arch_mmu_map cfg4k user_aspace 0x1000 0xAAAA000 1 0 (zero_state three_frames) =
        some (ret, s') ∧ ∃ l, s'.trace = Event.dsb :: (l ++ (zero_state three_frames).trace)) ∧
    (∃ ret s', arch_mmu_unmap cfg4k user_aspace 0x1000 1 (zero_state three_frames) =
        some (ret, s') ∧ ∃ l, s'.trace = Event.dsb :: (l ++ (zero_state three_frames).trace)) :=
  ⟨by decide!,
    (call_ends_with_dsb cfg4k user_aspace (zero_state three_frames) 0x1000 0xAAAA000 1 0
      (by decide) (by decide) (tree_wf_zero_state _ _ 0x80000 _ rfl) alloc_ok_three_frames
      (by decide)).1.elim
      fun ret h => h.elim fun s' h' => ⟨ret, s', h'.1,
        h'.2.1 ⟨by decide, by decide, by decide, by decide, by decide, by decide⟩⟩,
    (call_ends_with_dsb cfg4k user_aspace (zero_state three_frames) 0x1000 0xAAAA000 1 0
      (by decide) (by decide) (tree_wf_zero_state _ _ 0x80000 _ rfl) alloc_ok_three_frames
      (by decide)).2.elim
      fun ret h => h.elim fun s' h' => ⟨ret, s', h'.1,
        h'.2.1 ⟨by decide, by decide, by decide⟩⟩⟩

end Arm64Mmu

namespace Arm64Mmu

/-! ## The descent of a map of one aligned block on an empty table -/

theorem get_page_table_fresh (cfg : Config) (ps : Nat) {i t p : Nat} {rest : List (Option Nat)}
    {s : State} (hz : s.mem t i = 0) (hp : s.pool = some p :: rest)
    (hsz : cfg.PAGE_SIZE ≤ (1 <<< ps) % 2 ^ 32) :
    ∃ sA, arm64_mmu_get_page_table cfg i ps t s = some (some p, sA) ∧ sA.pool = rest ∧
      sA.live = p :: s.live := by
  have ha : alloc_page_table cfg ps s =
      (some p, { s with pool := rest, live := p :: s.live }) := by
    unfold alloc_page_table
    simp only [hp]
    rw [if_pos hsz]
  unfold arm64_mmu_get_page_table
  simp only [hz, ha]
  exact ⟨_, rfl, rfl, rfl⟩

theorem leaf_entry_eq (ps n pa attrs : Nat) (hps : 4 ≤ ps) :
    (if level_shift ps n > ps then (pa ||| attrs) ||| MMU_PTE_L012_DESCRIPTOR_BLOCK
      else (pa ||| attrs) ||| MMU_PTE_L3_DESCRIPTOR_PAGE) = (pa ||| attrs) ||| leaf_type n := by
  unfold leaf_type
  by_cases hn : n = 0
  · subst hn
    simp [level_shift_zero]
  · have := (level_shift_gt_iff ps n hps).mpr hn
    simp [hn, this]

/-- The loop of `arm64_mmu_map_pt` when the first chunk is the whole range. -/
theorem map_loop_single {cfg : Config}
    {recurse : Nat → Nat → Nat → Nat → Nat → Nat → State → Option (Int × State)}
    {attrs sh ps t v a pa size : Nat} {s s1 : State} (fuel : Nat)
    (hf : 0 < fuel) (hsz : size ≠ 0) (hsh : sh < 64)
    (hst : map_step cfg recurse attrs sh ps t v a pa size s = some (true, s1))
    (hc : size - chunk_size sh a size = 0) :
    map_loop cfg recurse attrs sh ps t fuel v a pa size s = some (none, s1) := by
  obtain ⟨f, rfl⟩ : ∃ f, fuel = f + 1 := ⟨fuel - 1, by omega⟩
  rw [map_loop_succ _ _ _ _ _ _ _ _ _ _ _ _ hsz hsh, hst]
  simp only [hc, if_true]

theorem map_pt_of_loop {cfg : Config} {fuel v a pa size attrs sh ps t asid : Nat}
    {s s1 : State} (hps : ps < 64)
    (hal : ¬ ((a ||| pa ||| size) &&& ((1 <<< ps) - 1) ≠ 0))
    (hloop : map_loop cfg
      (fun v vr pa sz ish pt st => arm64_mmu_map_pt cfg fuel v vr pa sz attrs ish ps pt asid st)
      attrs sh ps t size v a pa size s = some (none, s1)) :
    arm64_mmu_map_pt cfg (fuel + 1) v a pa size attrs sh ps t asid s = some (0, s1) := by
  rw [arm64_mmu_map_pt, if_neg (by omega), if_neg hal, hloop]

theorem chunk_size_whole {sh a size : Nat} (h : a % 2 ^ sh + size ≤ 2 ^ sh) :
    chunk_size sh a size = size := by
  unfold chunk_size
  exact Nat.min_eq_left (by omega)

theorem level_shift_ge (ps n : Nat) : ps ≤ level_shift ps n := by
  unfold level_shift
  omega

theorem level_shift_mono (ps : Nat) {m n : Nat} (h : m ≤ n) :
    level_shift ps m ≤ level_shift ps n := by
  unfold level_shift
  have := Nat.mul_le_mul_right (ps - 3) h
  omega

theorem level_shift_strict (ps : Nat) (hps : 4 ≤ ps) {m n : Nat} (h : m < n) :
    level_shift ps m < level_shift ps n := by
  unfold level_shift
  have h1 : (m + 1) * (ps - 3) ≤ n * (ps - 3) := Nat.mul_le_mul_right (ps - 3) h
  have h2 : (m + 1) * (ps - 3) = m * (ps - 3) + (ps - 3) := by ring
  omega

end Arm64Mmu

namespace Arm64Mmu

/-- A map of one aligned block of the size of level `m` into a table with `k`
levels more and an empty row: the code walks down `k` levels, takes one frame
off the allocator for each, and stores one leaf entry in the table of level
`m`. -/
theorem block_descend {cfg : Config} {ps attrs asid m : Nat}
    (hps : 12 ≤ ps) (hps2 : ps ≤ 30) (hattr : desc_type attrs = 0)
    (hcp : cfg.PAGE_SIZE ≤ 2 ^ ps)
    (hblk : level_shift ps m ≤ MMU_PTE_DESCRIPTOR_BLOCK_MAX_SHIFT) :
    ∀ (k n fuel cnt t v a pa : Nat) (frames : List Nat) (rest : List (Option Nat)) (s : State),
      n = m + k → n < fuel → 0 < cnt → cnt * 2 ^ level_shift ps n ≤ 2 ^ 48 →
      Pre ps n cnt t s → a + 2 ^ level_shift ps m ≤ cnt * 2 ^ level_shift ps n →
      pa + 2 ^ level_shift ps m ≤ 2 ^ 64 →
      2 ^ level_shift ps m ∣ a → 2 ^ level_shift ps m ∣ pa →
      (∀ i, i < cnt → s.mem t i = 0) →
      s.pool = frames.map some ++ rest → frames.length = k →
      ∃ s', arm64_mmu_map_pt cfg fuel v a pa (2 ^ level_shift ps m) attrs
          (level_shift ps n) ps t asid s = some (0, s') ∧
        s'.pool = rest ∧ s'.live = frames.reverse ++ s.live ∧
        lookup s'.mem ps n t a = some ((pa ||| attrs) ||| leaf_type m, 0, m) := by
  have hBm : 0 < 2 ^ level_shift ps m := Nat.pow_pos (by norm_num)
  have hpsm := level_shift_ge ps m
  have hdps : 2 ^ ps ∣ 2 ^ level_shift ps m := Nat.pow_dvd_pow 2 hpsm
  have hblk' : level_shift ps m ≤ 30 := hblk
  intro k
  induction k with
  | zero =>
    intro n fuel cnt t v a pa frames rest s hn hfuel hcnt hspan hpre hrange hpasz ha hpa hrow
      hpool hlen
    have hnm : n = m := by omega
    subst hnm
    obtain ⟨f, rfl⟩ : ∃ f, fuel = f + 1 := ⟨fuel - 1, by omega⟩
    have hfr : frames = [] := List.length_eq_zero.mp hlen
    subst hfr
    have hi : a / 2 ^ level_shift ps n < cnt := index_lt_of_lt hBm (by omega)
    have ha0 := Nat.mod_eq_zero_of_dvd ha
    have hpa0 := Nat.mod_eq_zero_of_dvd hpa
    have hch : chunk_size (level_shift ps n) a (2 ^ level_shift ps n) =
        2 ^ level_shift ps n := chunk_size_whole (by omega)
    have hst : map_step cfg
        (fun v vr pa sz ish pt st => arm64_mmu_map_pt cfg f v vr pa sz attrs ish ps pt asid st)
        attrs (level_shift ps n) ps t v a pa (2 ^ level_shift ps n) s =
        some (true, write_pte t (a / 2 ^ level_shift ps n) ((pa ||| attrs) ||| leaf_type n) s) := by
      unfold map_step
      rw [leaf_entry_eq ps n pa attrs (by omega)]
      have hC : ¬ ((a % 2 ^ level_shift ps n ≠ 0 ∨ pa % 2 ^ level_shift ps n ≠ 0) ∨
          chunk_size (level_shift ps n) a (2 ^ level_shift ps n) ≠ 2 ^ level_shift ps n ∨
          level_shift ps n > MMU_PTE_DESCRIPTOR_BLOCK_MAX_SHIFT) := by
        rw [hch, ha0, hpa0]
        intro hc
        rcases hc with (h | h) | h | h
        · exact h rfl
        · exact h rfl
        · exact h rfl
        · exact absurd hblk (Nat.not_le.mpr h)
      rw [if_neg hC, if_neg (not_not.mpr (hrow _ hi))]
    have hloop := map_loop_single (2 ^ level_shift ps n) hBm (by omega) (by omega) hst
      (by rw [hch]; omega)
    have hal : ¬ ((a ||| pa ||| 2 ^ level_shift ps n) &&& ((1 <<< ps) - 1) ≠ 0) :=
      (align_check_iff a pa _ ps).mpr ⟨dvd_trans hdps ha, dvd_trans hdps hpa, hdps⟩
    refine ⟨_, map_pt_of_loop (by omega) hal hloop, ?_, ?_, ?_⟩
    · show s.pool = rest
      rw [hpool]
      rfl
    · show s.live = _
      simp
    · have hent : (write_pte t (a / 2 ^ level_shift ps n) ((pa ||| attrs) ||| leaf_type n) s).mem t
          (a / 2 ^ level_shift ps n) = (pa ||| attrs) ||| leaf_type n := by
        simp [write_pte]
      have hd : desc_type ((pa ||| attrs) ||| leaf_type n) = leaf_type n :=
        leaf_desc_type (desc_type_of_mod (by omega) hpa0) hattr
      rw [lookup_leaf (by rw [hent]; exact hd), hent, ha0]
  | succ k ih =>
    intro n fuel cnt t v a pa frames rest s hn hfuel hcnt hspan hpre hrange hpasz ha hpa hrow
      hpool hlen
    obtain ⟨n', rfl⟩ : ∃ n', n = n' + 1 := ⟨m + k, by omega⟩
    have hn' : n' = m + k := by omega
    obtain ⟨f, rfl⟩ : ∃ f, fuel = f + 1 := ⟨fuel - 1, by omega⟩
    obtain ⟨p, frames', rfl⟩ : ∃ p frames', frames = p :: frames' := by
      cases frames with
      | nil => simp at hlen
      | cons p fr => exact ⟨p, fr, rfl⟩
    have hlen' : frames'.length = k := by simpa using hlen
    have hpool' : s.pool = some p :: (frames'.map some ++ rest) := by
      rw [hpool]
      rfl
    have hB : 0 < 2 ^ level_shift ps (n' + 1) := Nat.pow_pos (by norm_num)
    have hls := level_shift_le_of_span hcnt hspan
    have hmn : m < n' + 1 := by omega
    have hlt := level_shift_strict ps (by omega) hmn
    have hdvd : 2 ^ level_shift ps m ∣ 2 ^ level_shift ps (n' + 1) :=
      level_shift_dvd ps (by omega)
    have hpw : 2 ^ level_shift ps m < 2 ^ level_shift ps (n' + 1) :=
      Nat.pow_lt_pow_right (by norm_num) hlt
    have hi : a / 2 ^ level_shift ps (n' + 1) < cnt := index_lt_of_lt hB (by omega)
    have hmod : a % 2 ^ level_shift ps (n' + 1) + 2 ^ level_shift ps m ≤
        2 ^ level_shift ps (n' + 1) :=
      block_in_slot hdvd ((Nat.dvd_mod_iff hdvd).mpr ha) (Nat.mod_lt _ hB)
    have hch : chunk_size (level_shift ps (n' + 1)) a (2 ^ level_shift ps m) =
        2 ^ level_shift ps m := chunk_size_whole hmod
    -- the table of the next level is allocated
    have hsz32 : cfg.PAGE_SIZE ≤ (1 <<< ps) % 2 ^ 32 := by
      rw [Nat.one_shiftLeft, Nat.mod_eq_of_lt (Nat.pow_lt_pow_right (by norm_num) (by omega))]
      exact hcp
    obtain ⟨sA, hg, hpoolA, hliveA⟩ :=
      get_page_table_fresh cfg ps (hrow _ hi) hpool' hsz32
    obtain ⟨hstepA, hdt, hoa, _, _, hcase⟩ :=
      get_page_table_some (by omega) (by omega) hpre hi hg
    have hclear : ∀ j, j < entries ps → sA.mem p j = 0 := by
      rcases hcase with ⟨hd, _⟩ | ⟨_, _, hc⟩
      · rw [hrow _ hi] at hd
        exact absurd hd not_table_zero
      · exact hc
    have hpreA := Step.pre hpre hstepA
    have hpreC : Pre ps n' (entries ps) p sA := by
      have := Pre.of_child hpreA hi hdt
      rwa [hoa] at this
    have hspanC : entries ps * 2 ^ level_shift ps n' ≤ 2 ^ 48 := by
      rw [← pow_level_shift_succ]
      exact Nat.pow_le_pow_right (by norm_num) hls
    have hrangeC : a % 2 ^ level_shift ps (n' + 1) + 2 ^ level_shift ps m ≤
        entries ps * 2 ^ level_shift ps n' := by
      rw [← pow_level_shift_succ]
      exact hmod
    have hent : 0 < entries ps := Nat.pow_pos (by norm_num)
    obtain ⟨s2, hpt, hpool2, hlive2, hlook2⟩ := ih n' f (entries ps) p v
      (a % 2 ^ level_shift ps (n' + 1)) pa frames' rest sA hn' (by omega) hent hspanC hpreC
      hrangeC hpasz ((Nat.dvd_mod_iff hdvd).mpr ha) hpa hclear hpoolA hlen'
    obtain ⟨hstepC, _⟩ := @map_pt_ok cfg ps attrs asid hps hps2 hattr n' f (entries ps)
      p v _ pa _ sA s2 (by omega) hent hspanC hpreC hrangeC hpasz hpt
    -- the iteration of the loop
    have hst : map_step cfg
        (fun v vr pa sz ish pt st => arm64_mmu_map_pt cfg f v vr pa sz attrs ish ps pt asid st)
        attrs (level_shift ps (n' + 1)) ps t v a pa (2 ^ level_shift ps m) s =
        some (true, s2) := by
      unfold map_step
      have hC : (a % 2 ^ level_shift ps (n' + 1) ≠ 0 ∨ pa % 2 ^ level_shift ps (n' + 1) ≠ 0) ∨
          chunk_size (level_shift ps (n' + 1)) a (2 ^ level_shift ps m) ≠
            2 ^ level_shift ps (n' + 1) ∨
          level_shift ps (n' + 1) > MMU_PTE_DESCRIPTOR_BLOCK_MAX_SHIFT := by
        right; left
        rw [hch]
        omega
      rw [if_pos hC]
      simp only [hg]
      rw [sub32_level ps n' (by omega) (by norm_num; omega), hch, hpt]
      rfl
    have hloop := map_loop_single (2 ^ level_shift ps m) hBm (by omega) (by omega) hst
      (by rw [hch]; omega)
    have hal : ¬ ((a ||| pa ||| 2 ^ level_shift ps m) &&& ((1 <<< ps) - 1) ≠ 0) :=
      (align_check_iff a pa _ ps).mpr ⟨dvd_trans hdps ha, dvd_trans hdps hpa, hdps⟩
    refine ⟨s2, map_pt_of_loop (by omega) hal hloop, hpool2, ?_, ?_⟩
    · rw [hlive2, hliveA]
      simp
    · have hrow2 := Step.parent_row hpreA hi hdt (by rw [hoa]; exact hstepC)
      have hdt2 : desc_type (s2.mem t (a / 2 ^ level_shift ps (n' + 1))) =
          MMU_PTE_L012_DESCRIPTOR_TABLE := by
        rw [hrow2]; exact hdt
      rw [lookup_table hdt2, hrow2, hoa]
      exact hlook2

end Arm64Mmu

namespace Arm64Mmu

/-! ## The largest descriptor for an aligned block -/

theorem live_of_empty {cfg : Config} {a : Aspace} {s : State} {top : Nat}
    (ht : TreeWF cfg a s) (htop : a.tt_virt = some top)
    (hempty : ∀ i, i < cfg.entries_top a → s.mem top i = 0) : s.live = [] := by
  obtain ⟨top', htop', _, _, _, hlive⟩ := ht
  rw [htop] at htop'
  cases htop'
  apply List.eq_nil_iff_forall_not_mem.mpr
  intro x hx
  exact Desc_of_clear hempty x ((hlive x).mp hx)

/-- C28. Largest-descriptor choice: on an empty address space, with an
allocator that hands out the frames `frames` first, a map of a range whose
relative `vaddr` and `paddr` are aligned to the block size `2^index_shift` of a
level `m` that supports block descriptors (`index_shift <= 30`) and whose size
is that block size returns `NO_ERROR`; it takes exactly one frame off the
allocator for each level above `m` and these are the live tables; every
address of the range is translated by one and the same leaf entry
`paddr | attrs | type` held in a table of level `m` (a block descriptor, or
the page descriptor when `m` is the page level), and no other address is
translated. -/
theorem largest_descriptor (cfg : Config) (a : Aspace) (s : State)
    (top vaddr paddr count flags m : Nat) (frames : List Nat) (rest : List (Option Nat))
    (hcfg : cfg.WF) (ha : a.WF cfg) (ht : TreeWF cfg a s) (hp : AllocOK a s)
    (htop : a.tt_virt = some top)
    (hempty : ∀ i, i < cfg.entries_top a → s.mem top i = 0)
    (hm : m ≤ cfg.height a)
    (hblk : level_shift cfg.PAGE_SIZE_SHIFT m ≤ MMU_PTE_DESCRIPTOR_BLOCK_MAX_SHIFT)
    (hv : is_valid_vaddr a vaddr = true)
    (hva : 2 ^ level_shift cfg.PAGE_SIZE_SHIFT m ∣ vaddr - cfg.window_base a)
    (hpal : 2 ^ level_shift cfg.PAGE_SIZE_SHIFT m ∣ paddr)
    (hpa : paddr &&& MMU_PTE_OUTPUT_ADDR_MASK_COMPL = 0) (hpa64 : paddr < 2 ^ 64)
    (hsize : cfg.byte_count count = 2 ^ level_shift cfg.PAGE_SIZE_SHIFT m)
    (hpool : s.pool = frames.map some ++ rest)
    (hlen : frames.length = cfg.height a - m) :
    ∃ s', arch_mmu_map cfg a vaddr paddr count flags s = some (NO_ERROR, s') ∧
      s'.pool = rest ∧ s'.live = frames.reverse ∧
      (∀ r, vaddr - cfg.window_base a ≤ r →
        r < vaddr - cfg.window_base a + 2 ^ level_shift cfg.PAGE_SIZE_SHIFT m →
        lookup s'.mem cfg.PAGE_SIZE_SHIFT (cfg.height a) top r =
          some ((paddr ||| Config.attrs a flags) ||| leaf_type m,
            r - (vaddr - cfg.window_base a), m)) ∧
      (∀ r, r < 2 ^ cfg.size_shift a →
        ¬ (vaddr - cfg.window_base a ≤ r ∧
          r < vaddr - cfg.window_base a + 2 ^ level_shift cfg.PAGE_SIZE_SHIFT m) →
        lookup s'.mem cfg.PAGE_SIZE_SHIFT (cfg.height a) top r = none) := by
  have hps := hcfg.ps_bounds
  have hts := hcfg.top_shift_eq a
  have hsh := hcfg.shifts a
  have h48 : (2:Nat) ^ cfg.size_shift a ≤ 2 ^ 48 := Nat.pow_le_pow_right (by norm_num) hsh.2.1
  have hpa48 := (paddr_of_mask hpa64 hpa).2
  obtain ⟨hb, hrel, hv64⟩ := rel_lt hcfg ha hv
  have hBm : 0 < 2 ^ level_shift cfg.PAGE_SIZE_SHIFT m := Nat.pow_pos (by norm_num)
  have hblk' : level_shift cfg.PAGE_SIZE_SHIFT m ≤ 30 := hblk
  have hmono := level_shift_mono cfg.PAGE_SIZE_SHIFT hm
  -- the range lies inside the translation window
  have hdss : 2 ^ level_shift cfg.PAGE_SIZE_SHIFT m ∣ 2 ^ cfg.size_shift a :=
    Nat.pow_dvd_pow 2 (by omega)
  have hr : (vaddr - cfg.window_base a) + cfg.byte_count count ≤ 2 ^ cfg.size_shift a := by
    rw [hsize]
    exact block_in_slot hdss hva hrel
  have hcount : count ≠ 0 := by
    rintro rfl
    simp only [Config.byte_count, Nat.zero_mul, Nat.zero_mod] at hsize
    omega
  -- the arguments are page aligned
  have hdps : 2 ^ cfg.PAGE_SIZE_SHIFT ∣ 2 ^ level_shift cfg.PAGE_SIZE_SHIFT m :=
    Nat.pow_dvd_pow 2 (level_shift_ge _ _)
  have hal : cfg.PAGE_SIZE ∣ vaddr := by
    have h1 : cfg.PAGE_SIZE ∣ vaddr - cfg.window_base a := dvd_trans hdps hva
    have h2 : cfg.PAGE_SIZE ∣ cfg.window_base a := window_base_aligned hcfg a
    have h3 : vaddr = (vaddr - cfg.window_base a) + cfg.window_base a := by omega
    rw [h3]
    exact Nat.dvd_add h1 h2
  have halp : cfg.PAGE_SIZE ∣ paddr := dvd_trans hdps hpal
  have hpre := Pre.of_tree htop ht hp
  have hlive0 := live_of_empty ht htop hempty
  obtain ⟨s1, hpt, hpool1, hlive1, hlook1⟩ :=
    @block_descend cfg cfg.PAGE_SIZE_SHIFT (Config.attrs a flags) a.tlb_asid m hps.1 hps.2
      (attrs_desc_type a flags) (Nat.le_refl _) hblk (cfg.height a - m) (cfg.height a)
      (level_shift cfg.PAGE_SIZE_SHIFT (cfg.height a) + 1) (cfg.entries_top a) top vaddr
      (vaddr - cfg.window_base a) paddr frames rest s (by omega) (height_lt_fuel hcfg a)
      (hcfg.entries_top_le a).2 (hcfg.span_le a) hpre
      (by rw [hcfg.span a, ← hsize]; exact hr) (by norm_num at hpa48 ⊢; omega) hva hpal hempty
      hpool hlen
  rw [← hsize, ← hts] at hpt
  obtain ⟨_, hmapped⟩ := arch_map_descent_ok hcfg htop ht hp hpa64 hpa hr hpt
  refine ⟨_, arch_mmu_map_run hcfg ha htop hv hal halp hpa hcount hr hpt, hpool1, ?_, ?_, ?_⟩
  · show s1.live = _
    rw [hlive1, hlive0, List.append_nil]
  · intro r h1 h2
    have := lookup_block _ _ _ _ _ _ hlook1 r (by omega) (by omega)
    simpa using this
  · intro r hr1 hr2
    show lookup s1.mem _ _ _ r = none
    rw [hmapped.outside r (by rw [hcfg.span a]; exact hr1) (by rw [hsize]; exact hr2)]
    apply lookup_zero
    apply hempty
    apply index_lt_of_lt (Nat.pow_pos (by norm_num))
    rw [hcfg.span a]
    exact hr1

set_option maxRecDepth 100000 in
/-- Witness of `largest_descriptor`: a map of the 2 MiB block at `0x200000` on
an empty user address space with 4 KiB pages takes two frames, for the tables
of the levels 3 and 2, and stores one block descriptor in the table of
level 1. -/
theorem largest_descriptor_witness :
    ∃ s', arch_mmu_map cfg4k user_aspace 0x200000 0x40000000 512 0 (zero_state three_frames) =
        some (NO_ERROR, s') ∧
      s'.pool = [some 0x102000] ∧ s'.live = [0x101000, 0x100000] ∧
      lookup s'.mem 12 3 0x80000 0x200000 =
        some ((0x40000000 ||| Config.attrs user_aspace 0) ||| leaf_type 1, 0, 1) :=
  (largest_descriptor cfg4k user_aspace (zero_state three_frames) 0x80000 0x200000 0x40000000
    512 0 1 [0x100000, 0x101000] [some 0x102000] (by decide) (by decide)
    (tree_wf_zero_state _ _ 0x80000 _ rfl) alloc_ok_three_frames rfl (fun _ _ => rfl)
    (by decide) (by decide) (by decide) (by decide) (by decide) (by decide) (by decide)
    (by decide) rfl rfl).elim
    fun s' h => ⟨s', h.1, h.2.1, h.2.2.1, h.2.2.2.1 0x200000 (by decide) (by decide)⟩

end Arm64Mmu

namespace Arm64Mmu

/-! ## Publication of a new child table -/

/-- C31. Publication order of a new child table: whenever
`arm64_mmu_get_page_table` finds the slot invalid and returns a new child `c`,
the frame came from the allocator, and the call has issued exactly three
events in this order: the fill of the child with the invalid-descriptor
pattern, the barrier `dmb ishst`, the store of the table descriptor
`c | TABLE` into the parent slot.  All `2^(page_size_shift - 3)` entries of the
child are invalid in the state in which the barrier is issued and the parent
slot is written, and the parent slot holds the table descriptor afterwards. -/
theorem child_publication_order (cfg : Config) (i ps t c : Nat) (s s1 : State)
    (hps1 : 3 ≤ ps) (hps2 : ps < 32)
    (hz : s.mem t i &&& MMU_PTE_DESCRIPTOR_MASK = MMU_PTE_DESCRIPTOR_INVALID)
    (hg : arm64_mmu_get_page_table cfg i ps t s = some (some c, s1)) :
    ∃ s0, alloc_page_table cfg ps s = (some c, s0) ∧
      s1 = write_pte t i (c ||| MMU_PTE_L012_DESCRIPTOR_TABLE)
        (emit Event.dmb_ishst (clear_page_table c ps s0)) ∧
      s1.trace = Event.store t i (c ||| MMU_PTE_L012_DESCRIPTOR_TABLE) :: Event.dmb_ishst ::
        Event.fill c :: s.trace ∧
      (∀ k, k < entries ps →
        (emit Event.dmb_ishst (clear_page_table c ps s0)).mem c k =
          MMU_PTE_DESCRIPTOR_INVALID) ∧
      s1.mem t i = c ||| MMU_PTE_L012_DESCRIPTOR_TABLE := by
  unfold arm64_mmu_get_page_table at hg
  dsimp only at hg
  rw [if_pos hz] at hg
  cases ha : alloc_page_table cfg ps s with
  | mk o s0 =>
    have htr := alloc_page_table_trace cfg ps s
    rw [ha] at hg htr
    cases o with
    | none => simp at hg
    | some p =>
      simp only [Option.some.injEq, Prod.mk.injEq] at hg
      obtain ⟨hp, hs1⟩ := hg
      subst hp
      refine ⟨s0, rfl, hs1.symm, ?_, ?_, ?_⟩
      · rw [← hs1]
        simp only [write_pte, Arm64Mmu.emit, clear_page_table]
        rw [← htr]
      · intro k hk
        simp only [Arm64Mmu.emit, clear_page_table, clear_count ps hps1 hps2]
        rw [if_pos ⟨trivial, hk⟩]
      · rw [← hs1]
        simp [write_pte]

set_option maxRecDepth 100000 in
/-- Witness of `child_publication_order`: the first slot of the empty top-level
table of the user address space; the new child is the frame `0x100000`. -/
theorem child_publication_order_witness :
    ∃ s1, arm64_mmu_get_page_table cfg4k 0 12 0x80000 (zero_state three_frames) =
        some (some 0x100000, s1) ∧
      s1.trace = [Event.store 0x80000 0 (0x100000 ||| MMU_PTE_L012_DESCRIPTOR_TABLE),
        Event.dmb_ishst, Event.fill 0x100000] :=
  ⟨write_pte 0x80000 0 (0x100000 ||| MMU_PTE_L012_DESCRIPTOR_TABLE)
      (emit Event.dmb_ishst (clear_page_table 0x100000 12
        { zero_state three_frames with
          pool := [some 0x101000, some 0x102000], live := [0x100000] })),
    rfl,
    (child_publication_order cfg4k 0 12 0x80000 0x100000 (zero_state three_frames) _
      (by decide) (by decide) (by decide) rfl).elim fun _ h => h.2.2.1⟩

end Arm64Mmu

namespace Arm64Mmu

/-! ## An unmap writes nothing but zero entries -/

theorem Zeroes.of_mem_eq {s s' : State} (h : s'.mem = s.mem) : Zeroes s s' :=
  fun _ _ => Or.inl (by rw [h])

theorem unmap_step_zeroes {sh ps t asid v a size : Nat}
    {recurse : Nat → Nat → Nat → Nat → Nat → State → Option State} {s s1 : State}
    (hrec : ∀ v vr sz ish c st st', recurse v vr sz ish c st = some st' → Zeroes st st')
    (h : unmap_step recurse sh ps t asid v a size s = some s1) : Zeroes s s1 := by
  unfold unmap_step at h
  dsimp only at h
  split_ifs at h with h1 h2
  · split at h
    · simp at h
    · rename_i s0 hr
      have e0 := hrec _ _ _ _ _ _ _ hr
      split_ifs at h
      · simp only [Option.some.injEq] at h
        rw [← h]
        exact e0.zeroes_trans (Zeroes.store_zero rfl)
      · simp only [Option.some.injEq] at h
        rw [← h]
        exact e0
  · simp only [Option.some.injEq] at h
    rw [← h]
    apply Zeroes.store_zero
    unfold tlbi_page
    split_ifs <;> rfl
  · simp only [Option.some.injEq] at h
    rw [← h]
    exact Zeroes.zeroes_refl s

theorem unmap_loop_zeroes {sh ps t asid : Nat}
    {recurse : Nat → Nat → Nat → Nat → Nat → State → Option State}
    (hrec : ∀ v vr sz ish c st st', recurse v vr sz ish c st = some st' → Zeroes st st') :
    ∀ (fuel v a size : Nat) (s s' : State),
      unmap_loop recurse sh ps t asid fuel v a size s = some s' → Zeroes s s' := by
  intro fuel
  induction fuel with
  | zero =>
    intro v a size s s' h
    simp only [unmap_loop] at h
    split_ifs at h
    simp only [Option.some.injEq] at h
    rw [← h]
    exact Zeroes.zeroes_refl s
  | succ fuel ih =>
    intro v a size s s' h
    by_cases hsz : size = 0
    · subst hsz
      simp only [unmap_loop, if_true, Option.some.injEq] at h
      rw [← h]
      exact Zeroes.zeroes_refl s
    · by_cases hsh : sh < 64
      · rw [unmap_loop_succ _ _ _ _ _ _ _ _ _ _ hsz hsh] at h
        cases hst : unmap_step recurse sh ps t asid v a size s with
        | none => simp [hst] at h
        | some s1 =>
          simp only [hst] at h
          have h1 := unmap_step_zeroes hrec hst
          split_ifs at h with hrest
          · simp only [Option.some.injEq] at h
            rw [← h]
            exact h1
          · exact h1.zeroes_trans (ih _ _ _ _ _ h)
      · rw [unmap_loop] at h
        simp [hsz, Nat.not_lt.mp hsh] at h

/-- The function `arm64_mmu_unmap_pt` writes nothing but zero entries. -/
theorem unmap_pt_zeroes :
    ∀ (fuel v a size sh ps t asid : Nat) (s s' : State),
      arm64_mmu_unmap_pt fuel v a size sh ps t asid s = some s' → Zeroes s s' := by
  intro fuel
  induction fuel with
  | zero =>
    intro v a size sh ps t asid s s' h
    simp [arm64_mmu_unmap_pt] at h
  | succ fuel ih =>
    intro v a size sh ps t asid s s' h
    rw [arm64_mmu_unmap_pt] at h
    exact unmap_loop_zeroes (fun v vr sz ish c st st' hr => ih _ _ _ _ _ _ _ _ _ hr)
      _ _ _ _ _ _ h

/-- When nothing but zero entries is written, the walk finds nothing or what it
found before. -/
theorem lookup_of_zeroes {mem mem' : Nat → Nat → Nat} {ps : Nat}
    (hz : ∀ x i, mem' x i = mem x i ∨ mem' x i = 0) :
    ∀ (n t r : Nat), lookup mem' ps n t r = none ∨ lookup mem' ps n t r = lookup mem ps n t r := by
  intro n
  induction n with
  | zero =>
    intro t r
    rcases hz t (r / 2 ^ ps) with h | h
    · right
      simp only [lookup, h]
    · left
      exact lookup_zero (by rw [level_shift_zero]; exact h)
  | succ n ih =>
    intro t r
    rcases hz t (r / 2 ^ level_shift ps (n + 1)) with h | h
    · simp only [lookup, h]
      split_ifs
      · exact Or.inr rfl
      · exact ih _ _
      · exact Or.inl rfl
    · left
      exact lookup_zero h

/-- The call `arch_mmu_unmap` with arguments that pass the checks, on a
well-formed tree: it returns `NO_ERROR`, and the walk of the tree afterwards
finds nothing in the range, nothing where nothing was before, what it found
before in blocks disjoint from the range, and nothing new. -/
theorem arch_mmu_unmap_spec {cfg : Config} {a : Aspace} {s : State} {top vaddr : Nat}
    (count : Nat)
    (hcfg : cfg.WF) (ha : a.WF cfg) (ht : TreeWF cfg a s) (hp : AllocOK a s)
    (htop : a.tt_virt = some top)
    (hv : is_valid_vaddr a vaddr = true) (hal : IS_PAGE_ALIGNED cfg vaddr = true)
    (hr : (vaddr - cfg.window_base a) + cfg.byte_count count ≤ 2 ^ cfg.size_shift a) :
    ∃ s', arch_mmu_unmap cfg a vaddr count s = some (NO_ERROR, s') ∧
      Step cfg.PAGE_SIZE_SHIFT (cfg.height a) (cfg.entries_top a) top s s' ∧
      Unmapped cfg.PAGE_SIZE_SHIFT (cfg.height a) (cfg.entries_top a) top
        (vaddr - cfg.window_base a) (cfg.byte_count count) s s' ∧
      ∀ r, lookup s'.mem cfg.PAGE_SIZE_SHIFT (cfg.height a) top r = none ∨
        lookup s'.mem cfg.PAGE_SIZE_SHIFT (cfg.height a) top r =
          lookup s.mem cfg.PAGE_SIZE_SHIFT (cfg.height a) top r := by
  have hps := hcfg.ps_bounds
  have hts := hcfg.top_shift_eq a
  obtain ⟨s1, hpt, hstep, hun⟩ := @unmap_pt_ok cfg.PAGE_SIZE_SHIFT a.tlb_asid hps.1 hps.2
    (cfg.height a) _ (cfg.entries_top a) top vaddr (vaddr - cfg.window_base a)
    (cfg.byte_count count) s (height_lt_fuel hcfg a) (hcfg.entries_top_le a).2 (hcfg.span_le a)
    (Pre.of_tree htop ht hp) (by rw [hcfg.span a]; exact hr)
  have hz := unmap_pt_zeroes _ _ _ _ _ _ _ _ _ _ hpt
  rw [← hts] at hpt
  refine ⟨emit Event.dsb s1, arch_mmu_unmap_run hcfg ha htop hv
    ((is_page_aligned_iff cfg vaddr).mp hal) hr hpt, ?_, ?_, ?_⟩
  · exact hstep.of_eq rfl rfl rfl
  · exact ⟨hun.inside, hun.keep_none, hun.keep, hun.full, hun.row⟩
  · exact lookup_of_zeroes hz _ _

end Arm64Mmu

namespace Arm64Mmu

/-! ## What an unmap does to the answers of a query -/

theorem query_of_none (wp wf : Bool) :
    query_of_leaf wp wf none = some (ERR_NOT_FOUND, none, none) := rfl

/-- C32. Unmap postcondition: on a well-formed tree, for a page-aligned
`vaddr` in the window of the address space and a range
`[vaddr, vaddr + count * PAGE_SIZE)` that ends inside that window,
`arch_mmu_unmap` returns `NO_ERROR`, and afterwards `arch_mmu_query` of every
address of the range returns `ERR_NOT_FOUND`. -/
theorem unmap_postcondition (cfg : Config) (a : Aspace) (s : State) (vaddr count : Nat)
    (hcfg : cfg.WF) (ha : a.WF cfg) (ht : TreeWF cfg a s) (hp : AllocOK a s)
    (hv : is_valid_vaddr a vaddr = true) (hal : IS_PAGE_ALIGNED cfg vaddr = true)
    (hend : vaddr + count * cfg.PAGE_SIZE ≤ a.base + a.size) :
    ∃ s', arch_mmu_unmap cfg a vaddr count s = some (NO_ERROR, s') ∧
      ∀ v wp wf, vaddr ≤ v → v < vaddr + count * cfg.PAGE_SIZE →
        arch_mmu_query cfg a v wp wf s' = some (ERR_NOT_FOUND, none, none) := by
  obtain ⟨top, htop, _⟩ := id ht
  have hww := Aspace.WF.window cfg a hcfg ha
  have hin := (is_valid_vaddr_iff a vaddr ha.2.1 (by omega)).mp hv
  obtain ⟨hb, hrel, hv64⟩ := rel_lt hcfg ha hv
  have h48 : (2:Nat) ^ cfg.size_shift a ≤ 2 ^ 48 := Nat.pow_le_pow_right (by norm_num) hww.2.2.2
  unfold Config.window_end at hww
  have hbc : cfg.byte_count count = count * cfg.PAGE_SIZE := by
    unfold Config.byte_count
    apply Nat.mod_eq_of_lt
    norm_num at h48 ⊢
    omega
  have hr : (vaddr - cfg.window_base a) + cfg.byte_count count ≤ 2 ^ cfg.size_shift a := by
    rw [hbc]
    omega
  obtain ⟨s', hrun, hstep, hun, _⟩ := arch_mmu_unmap_spec count hcfg ha ht hp htop hv hal hr
  refine ⟨s', hrun, fun v wp wf h1 h2 => ?_⟩
  have hvv : is_valid_vaddr a v = true :=
    (is_valid_vaddr_iff a v ha.2.1 (by omega)).mpr (by omega)
  rw [arch_mmu_query_eq hcfg ha htop hstep.wf hvv,
    hun.inside (v - cfg.window_base a) (by omega) (by rw [hbc]; omega)]
  rfl

set_option maxRecDepth 100000 in
/-- Witness of `unmap_postcondition`: the page at `0x1000` is mapped, and
after the unmap of that page the query gives `ERR_NOT_FOUND`. -/
theorem unmap_postcondition_witness :
    status (arch_mmu_query cfg4k user_aspace 0x1000 true true one_page_mapped) =
      some NO_ERROR ∧
    ∃ s', arch_mmu_unmap cfg4k user_aspace 0x1000 1 one_page_mapped = some (NO_ERROR, s') ∧
      arch_mmu_query cfg4k user_aspace 0x1000 true true s' = some (ERR_NOT_FOUND, none, none) :=
  ⟨by decide!,
    (unmap_postcondition cfg4k user_aspace one_page_mapped 0x1000 1 (by decide) (by decide)
      tree_wf_one_page_mapped alloc_ok_one_page_mapped (by decide) (by decide)
      (by decide)).elim
      fun s' h => ⟨s', h.1, h.2 0x1000 true true (by decide) (by decide)⟩⟩

/-- A block that the range does not meet lies before it or after it, or the
range is empty. -/
theorem disjoint_cases {a size b B : Nat}
    (h : ¬ ∃ x, a ≤ x ∧ x < a + size ∧ b ≤ x ∧ x < b + B) (hB : 0 < B) :
    size = 0 ∨ b + B ≤ a ∨ a + size ≤ b := by
  by_contra hc
  apply h
  by_cases hab : a ≤ b
  · exact ⟨b, hab, by omega, Nat.le_refl _, by omega⟩
  · exact ⟨a, Nat.le_refl _, by omega, by omega, by omega⟩

/-- C33. Unmap frame and block granularity: on a well-formed tree, for
arguments that pass the checks, `arch_mmu_unmap` returns `NO_ERROR`, and for
every address `v` of the window of the address space: when `v` was not
translated, or was translated by a block or page that does not meet the range,
`arch_mmu_query(v)` answers as before; when `v` was translated by a block or
page that meets the range, the whole block is gone and `arch_mmu_query(v)`
returns `ERR_NOT_FOUND`, also for `v` outside the range. -/
theorem unmap_frame (cfg : Config) (a : Aspace) (s : State) (vaddr count : Nat)
    (hcfg : cfg.WF) (ha : a.WF cfg) (ht : TreeWF cfg a s) (hp : AllocOK a s)
    (hv : is_valid_vaddr a vaddr = true) (hal : IS_PAGE_ALIGNED cfg vaddr = true)
    (hr : (vaddr - cfg.window_base a) + cfg.byte_count count ≤ 2 ^ cfg.size_shift a) :
    ∃ s' top, a.tt_virt = some top ∧
      arch_mmu_unmap cfg a vaddr count s = some (NO_ERROR, s') ∧
      ∀ v wp wf, is_valid_vaddr a v = true →
        (lookup s.mem cfg.PAGE_SIZE_SHIFT (cfg.height a) top (v - cfg.window_base a) = none →
          arch_mmu_query cfg a v wp wf s' = arch_mmu_query cfg a v wp wf s) ∧
        (∀ e rem m,
          lookup s.mem cfg.PAGE_SIZE_SHIFT (cfg.height a) top (v - cfg.window_base a) =
            some (e, rem, m) →
          ((¬ ∃ x, vaddr - cfg.window_base a ≤ x ∧
              x < vaddr - cfg.window_base a + cfg.byte_count count ∧
              v - cfg.window_base a - rem ≤ x ∧
              x < v - cfg.window_base a - rem + 2 ^ level_shift cfg.PAGE_SIZE_SHIFT m) →
            arch_mmu_query cfg a v wp wf s' = arch_mmu_query cfg a v wp wf s) ∧
          ((∃ x, vaddr - cfg.window_base a ≤ x ∧
              x < vaddr - cfg.window_base a + cfg.byte_count count ∧
              v - cfg.window_base a - rem ≤ x ∧
              x < v - cfg.window_base a - rem + 2 ^ level_shift cfg.PAGE_SIZE_SHIFT m) →
            arch_mmu_query cfg a v wp wf s' = some (ERR_NOT_FOUND, none, none))) := by
  obtain ⟨top, htop, hwf, _⟩ := id ht
  obtain ⟨s', hrun, hstep, hun, hzero⟩ := arch_mmu_unmap_spec count hcfg ha ht hp htop hv hal hr
  refine ⟨s', top, htop, hrun, fun v wp wf hvv => ?_⟩
  obtain ⟨_, hrelv, _⟩ := rel_lt hcfg ha hvv
  have hspan := hcfg.span a
  rw [arch_mmu_query_eq hcfg ha htop hstep.wf hvv, arch_mmu_query_eq hcfg ha htop hwf hvv]
  refine ⟨fun hnone => ?_, fun e rem m hl => ⟨fun hdis => ?_, fun hmeet => ?_⟩⟩
  · rw [hun.keep_none _ (by rw [hspan]; exact hrelv) hnone, hnone]
  · rw [hun.keep _ e rem m (by rw [hspan]; exact hrelv) hl
      (disjoint_cases hdis (Nat.pow_pos (by norm_num))), hl]
  · obtain ⟨x, hx1, hx2, hx3, hx4⟩ := hmeet
    rcases hzero (v - cfg.window_base a) with h0 | h0
    · rw [h0]
      rfl
    · exfalso
      rw [hl] at h0
      have hb := lookup_block _ _ _ _ _ _ h0 x hx3 hx4
      rw [hun.inside x hx1 hx2] at hb
      exact Option.noConfusion hb

set_option maxRecDepth 100000 in
theorem reachable_block_mapped : Reachable cfg4k user_aspace block_mapped :=
  Reachable.alloc _ _
    (Reachable.map (zero_state three_frames) _ 0x200000 0x40000000 512 0
      (Reachable.fresh _ 0x80000 rfl (fun _ _ => rfl) rfl) alloc_ok_three_frames (by decide) rfl)

theorem tree_wf_block_mapped : TreeWF cfg4k user_aspace block_mapped :=
  (reachable_inv (by decide) (by decide) reachable_block_mapped).1

theorem alloc_ok_block_mapped : AllocOK user_aspace block_mapped := by
  refine ⟨0x80000, rfl, by decide, ?_⟩
  intro p hp
  have hp' : p = 0x103000 := by
    simpa [block_mapped, State.with_pool] using hp
  subst hp'
  exact ⟨by decide!, by decide, by decide⟩

set_option maxRecDepth 100000 in
/-- Witness of `unmap_frame`: the 2 MiB block at `0x200000` is mapped; the
unmap of the one page at `0x201000` removes the whole block, so the query of
`0x200000`, which is outside the range, gives `ERR_NOT_FOUND`. -/
theorem unmap_frame_witness :
    status (arch_mmu_query cfg4k user_aspace 0x200000 true true block_mapped) =
      some NO_ERROR ∧
    ∃ s', arch_mmu_unmap cfg4k user_aspace 0x201000 1 block_mapped = some (NO_ERROR, s') ∧
      arch_mmu_query cfg4k user_aspace 0x200000 true true s' =
        some (ERR_NOT_FOUND, none, none) :=
  ⟨by decide!,
    (unmap_frame cfg4k user_aspace block_mapped 0x201000 1 (by decide) (by decide)
      tree_wf_block_mapped alloc_ok_block_mapped (by decide) (by decide) (by decide)).elim
      fun s' h => h.elim fun top h' =>
        ⟨s', h'.2.1,
          ((h'.2.2 0x200000 true true (by decide)).2
            ((0x40000000 ||| Config.attrs user_aspace 0) ||| leaf_type 1) 0 1
            (by
              have e : top = 0x80000 := by
                have := h'.1
                simp only [user_aspace, Option.some.injEq] at this
                exact this.symm
              subst e
              decide!)).2 ⟨0x201000, by decide, by decide, by decide, by decide⟩⟩⟩

end Arm64Mmu

namespace Arm64Mmu

/-! ## Leaf entries written by a map decode -/

theorem and_low_mask {x M : Nat} (h12 : 2 ^ 12 ∣ x) (hM : (2 ^ 12 - 1) &&& M = M) :
    x &&& M = 0 := by
  rw [← hM, ← Nat.and_assoc, Nat.and_pow_two_sub_one_eq_mod, Nat.mod_eq_zero_of_dvd h12]
  simp

theorem and_high_bit {x i : Nat} (h : x < 2 ^ i) : x &&& 2 ^ i = 0 := by
  rw [Nat.and_two_pow, Nat.testBit_lt_two_pow h]
  simp

theorem leaf_and_mask_of (attrs m : Nat) {x M : Nat} (hxM : x &&& M = 0)
    (hM1 : 1 &&& M = 0) (hM3 : 3 &&& M = 0) :
    ((x ||| attrs) ||| leaf_type m) &&& M = attrs &&& M := by
  have hty : leaf_type m &&& M = 0 := by
    unfold leaf_type MMU_PTE_L3_DESCRIPTOR_PAGE MMU_PTE_L012_DESCRIPTOR_BLOCK
    split_ifs
    · exact hM3
    · exact hM1
  rw [Nat.and_distrib_right, Nat.and_distrib_right, hxM, hty]
  simp

/-- The decoding of a leaf entry whose address part is page aligned and below
`2^53` is the decoding of its attribute word. -/
theorem leaf_decode (attrs m : Nat) {x : Nat} (h12 : 2 ^ 12 ∣ x) (h53 : x < 2 ^ 53) :
    pte_to_mmu_flags ((x ||| attrs) ||| leaf_type m) = pte_to_mmu_flags attrs ∧
    pte_to_mmu_flags_debug true ((x ||| attrs) ||| leaf_type m) =
      pte_to_mmu_flags_debug true attrs := by
  have h54 : x < 2 ^ 54 := by norm_num at h53 ⊢; omega
  have e1 := leaf_and_mask_of attrs m
    (and_low_mask h12 (by decide : (2 ^ 12 - 1) &&& MMU_PTE_ATTR_NON_SECURE = _))
    (by decide) (by decide)
  have e2 := leaf_and_mask_of attrs m
    (and_low_mask h12 (by decide : (2 ^ 12 - 1) &&& MMU_PTE_ATTR_ATTR_INDEX_MASK = _))
    (by decide) (by decide)
  have e3 := leaf_and_mask_of attrs m
    (and_low_mask h12 (by decide : (2 ^ 12 - 1) &&& MMU_PTE_ATTR_AP_MASK = _))
    (by decide) (by decide)
  have e4 := leaf_and_mask_of attrs m
    (show x &&& MMU_PTE_ATTR_UXN = 0 from and_high_bit h54) (by decide) (by decide)
  have e5 := leaf_and_mask_of attrs m
    (show x &&& MMU_PTE_ATTR_PXN = 0 from and_high_bit h53) (by decide) (by decide)
  exact ⟨pte_to_mmu_flags_congr e1 e2 e3 e4 e5, pte_to_mmu_flags_debug_congr true e1 e2 e3 e4 e5⟩

/-- The attribute word of a map with a recognised cache mode decodes. -/
theorem attrs_decode (a : Aspace) (flags : Nat) (hc : flags &&& ARCH_MMU_FLAG_CACHE_MASK ≠ 3) :
    (∃ fl, pte_to_mmu_flags (Config.attrs a flags) = some fl) ∧
    ∃ fl, pte_to_mmu_flags_debug true (Config.attrs a flags) = some fl := by
  have key : ∀ f, f < 64 → f &&& ARCH_MMU_FLAG_CACHE_MASK ≠ 3 →
      pte_to_mmu_flags (mmu_flags_to_pte_attr f) = some f ∧
      pte_to_mmu_flags (mmu_flags_to_pte_attr f ||| MMU_PTE_ATTR_NON_GLOBAL) = some f := by
    decide!
  have key' : ∀ f, f < 64 → f &&& ARCH_MMU_FLAG_CACHE_MASK ≠ 3 →
      pte_to_mmu_flags_debug true (mmu_flags_to_pte_attr f) = some f ∧
      pte_to_mmu_flags_debug true (mmu_flags_to_pte_attr f ||| MMU_PTE_ATTR_NON_GLOBAL) =
        some f := by
    decide!
  rw [flags_and_mod flags ARCH_MMU_FLAG_CACHE_MASK (by decide)] at hc
  have h1 := key (flags % 64) (Nat.mod_lt _ (by norm_num)) hc
  have h2 := key' (flags % 64) (Nat.mod_lt _ (by norm_num)) hc
  rw [mmu_flags_to_pte_attr_mod] at h1 h2
  unfold Config.attrs
  split_ifs
  · exact ⟨⟨_, h1.1⟩, ⟨_, h2.1⟩⟩
  · exact ⟨⟨_, h1.2⟩, ⟨_, h2.2⟩⟩

end Arm64Mmu

namespace Arm64Mmu

/-! ## The invariant of the states built by the engine -/

theorem Decodable.of_same_lookup {cfg : Config} {a : Aspace} {top : Nat} {s s' : State}
    (h : Decodable cfg a top s)
    (hl : ∀ r, r < 2 ^ cfg.size_shift a →
      lookup s'.mem cfg.PAGE_SIZE_SHIFT (cfg.height a) top r = none ∨
      lookup s'.mem cfg.PAGE_SIZE_SHIFT (cfg.height a) top r =
        lookup s.mem cfg.PAGE_SIZE_SHIFT (cfg.height a) top r) :
    Decodable cfg a top s' := by
  intro r e rem m hr hlk
  rcases hl r hr with h0 | h0
  · rw [h0] at hlk
    exact Option.noConfusion hlk
  · rw [h0] at hlk
    exact h r e rem m hr hlk

/-- The leaf entries a successful map has written decode. -/
theorem Decodable.of_mapped {cfg : Config} {a : Aspace} {top rel paddr size flags : Nat}
    {s s' : State} (hcfg : cfg.WF)
    (h : Decodable cfg a top s)
    (hc : flags &&& ARCH_MMU_FLAG_CACHE_MASK ≠ 3)
    (hrel : 2 ^ 12 ∣ rel) (hpal : 2 ^ 12 ∣ paddr) (hpa : paddr < 2 ^ 48)
    (hsize : rel + size ≤ 2 ^ cfg.size_shift a)
    (hm : Mapped cfg.PAGE_SIZE_SHIFT (cfg.height a) (cfg.entries_top a) top rel paddr size
      (Config.attrs a flags) s s') :
    Decodable cfg a top s' := by
  have hps := hcfg.ps_bounds
  have hsh := hcfg.shifts a
  have h48 : (2:Nat) ^ cfg.size_shift a ≤ 2 ^ 48 := Nat.pow_le_pow_right (by norm_num) hsh.2.1
  intro r e rem m hr hlk
  by_cases hin : rel ≤ r ∧ r < rel + size
  · obtain ⟨rem', m', hl, hb1, hb2⟩ := hm.inside r hin.1 hin.2
    rw [hl] at hlk
    simp only [Option.some.injEq, Prod.mk.injEq] at hlk
    obtain ⟨he, _, _⟩ := hlk
    obtain ⟨_, hrem⟩ := lookup_rem_lt _ _ _ _ _ _ hl
    have hm12 : (2:Nat) ^ 12 ∣ 2 ^ level_shift cfg.PAGE_SIZE_SHIFT m' :=
      Nat.pow_dvd_pow 2 (by unfold level_shift; omega)
    have hstart : 2 ^ 12 ∣ r - rem' := by
      rw [hrem]
      exact Nat.dvd_trans hm12 (Nat.dvd_sub_mod _)
    have hx : paddr + (r - rel) - rem' = paddr + ((r - rem') - rel) := by omega
    have hx12 : 2 ^ 12 ∣ paddr + (r - rel) - rem' := by
      rw [hx]
      exact Nat.dvd_add hpal (Nat.dvd_sub' hstart hrel)
    have hx53 : paddr + (r - rel) - rem' < 2 ^ 53 := by
      norm_num at h48 hpa ⊢
      omega
    obtain ⟨d1, d2⟩ := leaf_decode (Config.attrs a flags) m' hx12 hx53
    obtain ⟨a1, a2⟩ := attrs_decode a flags hc
    rw [← he, d1, d2]
    exact ⟨a1, a2⟩
  · have hsame := hm.outside r (by rw [hcfg.span a]; exact hr) hin
    rw [hsame] at hlk
    exact h r e rem m hr hlk

/-- Every state built by the engine has a well-formed tree whose leaf entries
decode. -/
theorem built_inv {cfg : Config} {a : Aspace} {s : State}
    (hcfg : cfg.WF) (ha : a.WF cfg) (h : Built cfg a s) :
    TreeWF cfg a s ∧ ∃ top, a.tt_virt = some top ∧ Decodable cfg a top s := by
  induction h with
  | fresh s top htop hz hl =>
    refine ⟨tree_wf_of_clear htop hz hl, top, htop, ?_⟩
    intro r e rem m hr hlk
    exfalso
    have hi : r / 2 ^ level_shift cfg.PAGE_SIZE_SHIFT (cfg.height a) < cfg.entries_top a :=
      index_lt_of_lt (Nat.pow_pos (by norm_num)) (by rw [hcfg.span a]; exact hr)
    rw [lookup_zero (hz _ hi)] at hlk
    exact Option.noConfusion hlk
  | map s s' vaddr paddr count flags ret _ hp hpa64 hc hmap ih =>
    obtain ⟨ht, top, htop, hdec⟩ := ih
    rcases arch_mmu_map_inv hcfg ha htop hmap with
      ⟨hs, _⟩ | ⟨hv, hal, halp, hpa, _, hr, s1, hpt, hm, hl, hq⟩
    · rw [hs]
      exact ⟨ht, top, htop, hdec⟩
    · have hps := hcfg.ps_bounds
      have h12 : (2:Nat) ^ 12 ∣ cfg.PAGE_SIZE := Nat.pow_dvd_pow 2 hps.1
      obtain ⟨hb, _, _⟩ := rel_lt hcfg ha hv
      by_cases hret : ret = 0
      · subst hret
        obtain ⟨hstep, hmapped⟩ := arch_map_descent_ok hcfg htop ht hp hpa64 hpa hr hpt
        have hstep' := hstep.of_eq hm hl hq
        refine ⟨TreeWF.of_step htop ht hp hstep', top, htop, ?_⟩
        have hd1 : Decodable cfg a top s1 :=
          Decodable.of_mapped hcfg hdec hc
            (Nat.dvd_sub' (Nat.dvd_trans h12 hal)
              (Nat.dvd_trans h12 (window_base_aligned hcfg a)))
            (Nat.dvd_trans h12 halp) (paddr_of_mask hpa64 hpa).2 hr hmapped
        exact hd1.of_same_lookup (fun r _ => Or.inr (by rw [hm]))
      · obtain ⟨hstep, hquiet⟩ := arch_map_descent_fail hcfg htop ht hp hpa64 hpa hr hpt hret
        have hstep' := hstep.of_eq hm hl hq
        refine ⟨TreeWF.of_step htop ht hp hstep', top, htop, ?_⟩
        exact hdec.of_same_lookup
          (fun r hr' => Or.inr (by rw [hm]; exact hquiet r (by rw [hcfg.span a]; exact hr')))
  | unmap s s' vaddr count ret _ hp hun ih =>
    obtain ⟨ht, top, htop, hdec⟩ := ih
    rcases arch_mmu_unmap_inv hcfg ha htop hun with ⟨hs, _⟩ | ⟨hv, hal, hr, _, _⟩
    · rw [hs]
      exact ⟨ht, top, htop, hdec⟩
    · obtain ⟨s'', hrun, hstep, _, hzero⟩ := arch_mmu_unmap_spec count hcfg ha ht hp htop hv
        ((is_page_aligned_iff cfg vaddr).mpr hal) hr
      rw [hun] at hrun
      simp only [Option.some.injEq, Prod.mk.injEq] at hrun
      obtain ⟨_, hs⟩ := hrun
      subst hs
      exact ⟨TreeWF.of_step htop ht hp hstep, top, htop,
        hdec.of_same_lookup (fun r _ => hzero r)⟩
  | alloc s pool _ ih =>
    obtain ⟨ht, top, htop, hdec⟩ := ih
    exact ⟨ht.of_same_tree rfl rfl, top, htop, hdec.of_same_lookup (fun r _ => Or.inr rfl)⟩

/-- C34. Query never panics on trees the engine built: in every state reached
from a freshly initialised address space by `arch_mmu_map` calls with a
recognised cache mode (successful or not) and by `arch_mmu_unmap` calls, with
an allocator that hands out fresh table frames, `arch_mmu_query` of every
address of the window returns, with status `NO_ERROR` or `ERR_NOT_FOUND`;
and the leaf entry that translates the address, when there is one, passes the
decoding with the assertions on PXN and UXN compiled in. -/
theorem query_never_panics (cfg : Config) (a : Aspace) (s : State) (v : Nat) (wp wf : Bool)
    (hcfg : cfg.WF) (ha : a.WF cfg) (hb : Built cfg a s)
    (hv : is_valid_vaddr a v = true) :
    (∃ ret pa fl, arch_mmu_query cfg a v wp wf s = some (ret, pa, fl) ∧
      (ret = NO_ERROR ∨ ret = ERR_NOT_FOUND)) ∧
    ∃ top, a.tt_virt = some top ∧
      ∀ e rem m, lookup s.mem cfg.PAGE_SIZE_SHIFT (cfg.height a) top (v - cfg.window_base a) =
          some (e, rem, m) →
        ∃ fl, pte_to_mmu_flags_debug true e = some fl := by
  obtain ⟨ht, top, htop, hdec⟩ := built_inv hcfg ha hb
  obtain ⟨top', htop', hwf, _⟩ := id ht
  rw [htop] at htop'
  cases htop'
  obtain ⟨_, hrel, _⟩ := rel_lt hcfg ha hv
  refine ⟨?_, top, htop, fun e rem m hl => (hdec _ e rem m hrel hl).2⟩
  rw [arch_mmu_query_eq hcfg ha htop hwf hv]
  cases hl : lookup s.mem cfg.PAGE_SIZE_SHIFT (cfg.height a) top (v - cfg.window_base a) with
  | none => exact ⟨_, _, _, rfl, Or.inr rfl⟩
  | some leaf =>
    obtain ⟨e, rem, m⟩ := leaf
    obtain ⟨⟨fl, hfl⟩, _⟩ := hdec _ e rem m hrel hl
    unfold query_of_leaf
    simp only [hfl]
    cases wf with
    | false => exact ⟨_, _, _, rfl, Or.inl rfl⟩
    | true => exact ⟨_, _, _, rfl, Or.inl rfl⟩

set_option maxRecDepth 100000 in
/-- Witness of `query_never_panics`: in the state a failed map leaves (the
third table allocation fails), the query of the address returns. -/
theorem query_never_panics_witness :
    status (arch_mmu_map cfg4k user_aspace 0x1000 0xAAAA000 1 0 (zero_state third_fails)) =
      some ERR_GENERIC ∧
    ∃ ret pa fl, arch_mmu_query cfg4k user_aspace 0x1000 true true
        (state_after (arch_mmu_map cfg4k user_aspace 0x1000 0xAAAA000 1 0
          (zero_state third_fails)) (zero_state [])) = some (ret, pa, fl) ∧
      (ret = NO_ERROR ∨ ret = ERR_NOT_FOUND) :=
  ⟨by decide!,
    (query_never_panics cfg4k user_aspace _ 0x1000 true true (by decide) (by decide)
      (Built.map (zero_state third_fails) _ 0x1000 0xAAAA000 1 0 ERR_GENERIC
        (Built.fresh _ 0x80000 rfl (fun _ _ => rfl) rfl) alloc_ok_third_fails (by decide)
        (by decide) rfl)
      (by decide)).1⟩

end Arm64Mmu

namespace Libc

/-! ## `memset` against its byte-wise reference -/

theorem memset_ref_eq (mem : Nat → Nat) (s : Nat) (c : Int) :
    ∀ count, memset_ref mem s c count =
      (fun a => if s ≤ a ∧ a < s + count then (c % 256).toNat else mem a, s) := by
  have hb := byte_of_int c
  intro count
  induction count with
  | zero =>
    simp only [memset_ref, Prod.mk.injEq, and_true]
    funext a
    rw [if_neg (by omega)]
  | succ n ih =>
    simp only [memset_ref, ih, Prod.mk.injEq, and_true]
    funext a
    unfold store8
    by_cases h : a = s + n
    · rw [if_pos h, if_pos (by omega), Nat.mod_eq_of_lt hb]
    · rw [if_neg h]
      show (if s ≤ a ∧ a < s + n then (c % 256).toNat else mem a) = _
      by_cases h2 : s ≤ a ∧ a < s + n
      · rw [if_pos h2, if_pos (by omega)]
      · rw [if_neg h2, if_neg (by omega)]

/-- C37. The function `memset` equals the byte-wise reference: for a word
size of 4 or 8 bytes, every pointer `s` of any alignment, every `int` `c` and
every `count`, `memset(s, c, count)` gives the memory and the result of the
plain byte loop `memset_ref`: it returns `s`, every byte of `s[0..count)` is
`c mod 256`, and every byte outside that range is unchanged. -/
theorem memset_refines (wsz : Nat) (hw : wsz = 4 ∨ wsz = 8) (mem : Nat → Nat) (s : Nat)
    (c : Int) (count : Nat) :
    memset wsz mem s c count = memset_ref mem s c count ∧
    (memset wsz mem s c count).2 = s ∧
    (∀ a, s ≤ a → a < s + count → (memset wsz mem s c count).1 a = (c % 256).toNat) ∧
    (∀ a, ¬ (s ≤ a ∧ a < s + count) → (memset wsz mem s c count).1 a = mem a) := by
  rw [memset_eq wsz hw, memset_ref_eq]
  refine ⟨rfl, rfl, fun a h1 h2 => ?_, fun a h => ?_⟩
  · simp only
    rw [if_pos ⟨h1, h2⟩]
  · simp only
    rw [if_neg h]

theorem memset_refines_witness :
    memset 8 (fun _ => 0xEE) 0x1003 (-1) 21 = memset_ref (fun _ => 0xEE) 0x1003 (-1) 21 ∧
    (memset 8 (fun _ => 0xEE) 0x1003 (-1) 21).1 0x1017 = 0xFF ∧
    (memset 8 (fun _ => 0xEE) 0x1003 (-1) 21).1 0x1018 = 0xEE :=
  ⟨(memset_refines 8 (Or.inr rfl) (fun _ => 0xEE) 0x1003 (-1) 21).1,
    (memset_refines 8 (Or.inr rfl) (fun _ => 0xEE) 0x1003 (-1) 21).2.2.1 0x1017
      (by decide) (by decide),
    (memset_refines 8 (Or.inr rfl) (fun _ => 0xEE) 0x1003 (-1) 21).2.2.2 0x1018 (by decide)⟩

end Libc

namespace Arm64Mmu

/-! ## The range check of `arm64_mmu_map` and `arm64_mmu_unmap` -/

theorem sub64_int (a b : Nat) (hb : b < 2 ^ 64) :
    ((sub64 a b : Nat) : Int) = ((a : Int) - (b : Int)) % 2 ^ 64 := by
  unfold sub64
  rw [Nat.mod_eq_of_lt hb]
  norm_num at hb ⊢
  omega

theorem range_cond_iff (rel size M : Nat) (hM : M < 2 ^ 64) :
    (rel > sub64 M size ∨ size > M) ↔ M < rel + size := by
  by_cases hs : size ≤ M
  · rw [sub64_of_le M size hs hM]
    omega
  · constructor
    · intro _
      omega
    · intro _
      exact Or.inr (by omega)

/-- C38. The range check is exact under 64-bit wrap-around: for all 64-bit
`vaddr`, `vaddr_base` and `size` and every `top_size_shift < 64`, with
`vaddr_rel = (vaddr - vaddr_base) mod 2^64` computed in unbounded integers:
when `vaddr_rel + size > 2^top_size_shift`, `arm64_mmu_map` and
`arm64_mmu_unmap` return `ERR_INVALID_ARGS` from the range check and leave the
state as it is; otherwise the range check lets the call through to the test
of the top-level table and the walk. -/
theorem range_check_exact (cfg : Config) (vaddr paddr size attrs vaddr_base tss tis ps : Nat)
    (top : Option Nat) (asid : Nat) (s : State)
    (hb : vaddr_base < 2 ^ 64) (htss : tss < 64) :
    ((sub64 vaddr vaddr_base : Nat) : Int) = ((vaddr : Int) - (vaddr_base : Int)) % 2 ^ 64 ∧
    (((vaddr : Int) - (vaddr_base : Int)) % 2 ^ 64 + (size : Int) > 2 ^ tss →
      arm64_mmu_map cfg vaddr paddr size attrs vaddr_base tss tis ps top asid s =
        some (ERR_INVALID_ARGS, s) ∧
      arm64_mmu_unmap vaddr size vaddr_base tss tis ps top asid s =
        some (ERR_INVALID_ARGS, s)) ∧
    (¬ (((vaddr : Int) - (vaddr_base : Int)) % 2 ^ 64 + (size : Int) > 2 ^ tss) →
      arm64_mmu_map cfg vaddr paddr size attrs vaddr_base tss tis ps top asid s =
        (match top with
         | none => some (ERR_INVALID_ARGS, s)
         | some t =>
           match arm64_mmu_map_pt cfg (tis + 1) vaddr (sub64 vaddr vaddr_base) paddr size attrs
               tis ps t asid s with
           | none => none
           | some (ret, s1) => some (ret, emit Event.dsb s1)) ∧
      arm64_mmu_unmap vaddr size vaddr_base tss tis ps top asid s =
        (match top with
         | none => some (ERR_INVALID_ARGS, s)
         | some t =>
           match arm64_mmu_unmap_pt (tis + 1) vaddr (sub64 vaddr vaddr_base) size tis ps t
               asid s with
           | none => none
           | some s1 => some (0, emit Event.dsb s1))) := by
  have hint := sub64_int vaddr vaddr_base hb
  have hM : (2:Nat) ^ tss < 2 ^ 64 := Nat.pow_lt_pow_right (by norm_num) htss
  have hcond := range_cond_iff (sub64 vaddr vaddr_base) size (2 ^ tss) hM
  have hcast : (((vaddr : Int) - (vaddr_base : Int)) % 2 ^ 64 + (size : Int) > 2 ^ tss) ↔
      2 ^ tss < sub64 vaddr vaddr_base + size := by
    rw [← hint]
    constructor
    · intro h
      exact_mod_cast h
    · intro h
      exact_mod_cast h
  refine ⟨hint, fun h => ?_, fun h => ?_⟩
  · have hc := hcond.mpr (hcast.mp h)
    constructor
    · unfold arm64_mmu_map
      rw [if_neg (by omega)]
      simp only [Nat.one_shiftLeft]
      rw [if_pos hc]
    · unfold arm64_mmu_unmap
      rw [if_neg (by omega)]
      simp only [Nat.one_shiftLeft]
      rw [if_pos hc]
  · have hc : ¬ (sub64 vaddr vaddr_base > sub64 (2 ^ tss) size ∨ size > 2 ^ tss) :=
      fun hx => h (hcast.mpr (hcond.mp hx))
    constructor
    · unfold arm64_mmu_map
      rw [if_neg (by omega)]
      simp only [Nat.one_shiftLeft]
      (rw [if_neg hc]) <;> (cases top <;> rfl)
    · unfold arm64_mmu_unmap
      rw [if_neg (by omega)]
      simp only [Nat.one_shiftLeft]
      (rw [if_neg hc]) <;> (cases top <;> rfl)

theorem range_check_exact_witness :
    arm64_mmu_map cfg4k 0xffffffffffff0000 0 0x20000 0 0xffff000000000000 48 39 12
      (some 0x80000) 0 (zero_state []) = some (ERR_INVALID_ARGS, zero_state []) :=
  ((range_check_exact cfg4k 0xffffffffffff0000 0 0x20000 0 0xffff000000000000 48 39 12
    (some 0x80000) 0 (zero_state []) (by decide) (by decide)).2.1 (by decide)).1

end Arm64Mmu

namespace Arm64Mmu

/-! ## The indices of the accesses to page tables -/

/-- The loop of `page_table_is_clear` runs over the entries of a table. -/
theorem is_clear_count (ps : Nat) (h1 : 3 ≤ ps) (h2 : ps < 32) :
    (1 <<< (sub32 ps 3)) % 2 ^ 32 = entries ps := by
  have hs : sub32 ps 3 = ps - 3 := by
    unfold sub32
    norm_num
    omega
  rw [hs, Nat.one_shiftLeft, entries]
  exact Nat.mod_eq_of_lt (Nat.pow_lt_pow_right (by norm_num) (by omega))

/-- The span of a child table. -/
theorem child_span {ps m cnt : Nat} (hcnt : 0 < cnt)
    (hspan : cnt * 2 ^ level_shift ps (m + 1) ≤ 2 ^ 48) :
    entries ps * 2 ^ level_shift ps m ≤ 2 ^ 48 := by
  rw [← pow_level_shift_succ]
  calc 2 ^ level_shift ps (m + 1) = 1 * 2 ^ level_shift ps (m + 1) := (Nat.one_mul _).symm
    _ ≤ cnt * 2 ^ level_shift ps (m + 1) := Nat.mul_le_mul_right _ hcnt
    _ ≤ 2 ^ 48 := hspan

/-- The accesses of the loop of `arm64_mmu_unmap_pt` are in bounds and on a
level of the tree. -/
theorem unmap_loop_log_ok {ps n cnt t asid : Nat}
    {recurse : Nat → Nat → Nat → Nat → Nat → State → Option State}
    {recurse_log : Nat → Nat → Nat → Nat → Nat → State → List Access}
    (hps : 12 ≤ ps) (hps2 : ps ≤ 30)
    (hspan : cnt * 2 ^ level_shift ps n ≤ 2 ^ 48)
    (hrec : ∀ m, n = m + 1 → ∀ v vr sz c st, vr + sz ≤ entries ps * 2 ^ level_shift ps m →
      ∀ x ∈ recurse_log v vr sz (level_shift ps m) c st, x.in_bounds ∧ x.on_level ps) :
    ∀ (fuel v a size : Nat) (s : State), a + size ≤ cnt * 2 ^ level_shift ps n →
      ∀ x ∈ unmap_loop_log recurse recurse_log cnt (level_shift ps n) ps t asid fuel v a size s,
        x.in_bounds ∧ x.on_level ps := by
  intro fuel
  induction fuel with
  | zero =>
    intro v a size s _ x hx
    simp [unmap_loop_log] at hx
  | succ fuel ih =>
    intro v a size s hrange x hx
    rw [unmap_loop_log] at hx
    by_cases hsz : size = 0
    · rw [if_pos hsz] at hx
      simp at hx
    rw [if_neg hsz] at hx
    have hcnt : 0 < cnt := by
      rcases Nat.eq_zero_or_pos cnt with h0 | h0
      · subst h0; omega
      · exact h0
    have hls := level_shift_le_of_span hcnt hspan
    rw [if_neg (by omega)] at hx
    have hB : 0 < 2 ^ level_shift ps n := Nat.pow_pos (by norm_num)
    have hi : a / 2 ^ level_shift ps n < cnt := index_lt_of_lt hB (by omega)
    have hc0 := chunk_size_pos (level_shift ps n) a size hsz
    have hc1 := chunk_size_le_size (level_shift ps n) a size
    have hc2 := chunk_size_le_block (level_shift ps n) a size
    have hm : a % 2 ^ level_shift ps n < 2 ^ level_shift ps n := Nat.mod_lt _ hB
    simp only [List.mem_cons, List.mem_append] at hx
    rcases hx with hx | hx | hx
    · subst hx
      exact ⟨hi, hc0, level_shift_ge ps n, n, rfl⟩
    · by_cases hC : level_shift ps n > ps ∧
          desc_type (s.mem t (a / 2 ^ level_shift ps n)) = MMU_PTE_L012_DESCRIPTOR_TABLE
      · rw [if_pos hC] at hx
        cases n with
        | zero =>
          rw [level_shift_zero] at hC
          omega
        | succ m =>
          rw [sub32_level ps m (by omega) (by norm_num; omega)] at hx
          simp only [List.mem_cons, List.mem_append] at hx
          rcases hx with hx | hx | hx
          · subst hx
            exact ⟨trivial, level_shift_ge ps m, m, rfl⟩
          · exact hrec m rfl _ _ _ _ _ (by rw [← pow_level_shift_succ]; omega) x hx
          · split at hx
            · simp at hx
            · split_ifs at hx
              · simp at hx
              · simp only [List.mem_singleton] at hx
                subst hx
                exact ⟨by
                  show (1 <<< (sub32 ps 3)) % 2 ^ 32 ≤ entries ps
                  rw [is_clear_count ps (by omega) (by omega)], trivial⟩
      · rw [if_neg hC] at hx
        simp at hx
    · split at hx
      · simp at hx
      · split_ifs at hx with hrest
        · simp at hx
        · have h48 : cnt * 2 ^ level_shift ps n < 2 ^ 64 := by
            norm_num at hspan ⊢; omega
          rw [Nat.mod_eq_of_lt (a := a + _) (by norm_num at h48 ⊢; omega)] at hx
          exact ih _ _ _ _ (by omega) x hx

/-- The accesses of `arm64_mmu_unmap_pt` are in bounds and on a level of the
tree. -/
theorem unmap_pt_log_ok {ps : Nat} (asid : Nat) (hps : 12 ≤ ps) (hps2 : ps ≤ 30) :
    ∀ (fuel n cnt t v a size : Nat) (s : State),
      cnt * 2 ^ level_shift ps n ≤ 2 ^ 48 → a + size ≤ cnt * 2 ^ level_shift ps n →
      ∀ x ∈ arm64_mmu_unmap_pt_log fuel cnt v a size (level_shift ps n) ps t asid s,
        x.in_bounds ∧ x.on_level ps := by
  intro fuel
  induction fuel with
  | zero =>
    intro n cnt t v a size s _ _ x hx
    simp [arm64_mmu_unmap_pt_log] at hx
  | succ fuel ih =>
    intro n cnt t v a size s hspan hrange x hx
    rw [arm64_mmu_unmap_pt_log] at hx
    by_cases hsz : size = 0
    · subst hsz
      cases hx
    have hcnt : 0 < cnt := by
      rcases Nat.eq_zero_or_pos cnt with h0 | h0
      · subst h0; omega
      · exact h0
    refine unmap_loop_log_ok hps hps2 hspan ?_ size v a size s hrange x hx
    intro m hm v' vr sz c st hr y hy
    subst hm
    exact ih m (entries ps) c v' vr sz st (child_span hcnt hspan) hr y hy

/-- The accesses of the loop of `arm64_mmu_map_pt` are in bounds and on a
level of the tree. -/
theorem map_loop_log_ok {cfg : Config} {ps n cnt t attrs : Nat}
    {recurse : Nat → Nat → Nat → Nat → Nat → Nat → State → Option (Int × State)}
    {recurse_log : Nat → Nat → Nat → Nat → Nat → Nat → State → List Access}
    (hps : 12 ≤ ps) (hps2 : ps ≤ 30)
    (hspan : cnt * 2 ^ level_shift ps n ≤ 2 ^ 48)
    (hrec : ∀ m, n = m + 1 → ∀ v vr pa sz c st, vr + sz ≤ entries ps * 2 ^ level_shift ps m →
      ∀ x ∈ recurse_log v vr pa sz (level_shift ps m) c st, x.in_bounds ∧ x.on_level ps) :
    ∀ (fuel v a pa size : Nat) (s : State), a + size ≤ cnt * 2 ^ level_shift ps n →
      (n = 0 → 2 ^ ps ∣ a ∧ 2 ^ ps ∣ pa ∧ 2 ^ ps ∣ size) →
      ∀ x ∈ map_loop_log cfg recurse recurse_log cnt attrs (level_shift ps n) ps t fuel v a pa
          size s,
        x.in_bounds ∧ x.on_level ps := by
  intro fuel
  induction fuel with
  | zero =>
    intro v a pa size s _ _ x hx
    simp [map_loop_log] at hx
  | succ fuel ih =>
    intro v a pa size s hrange halign x hx
    rw [map_loop_log] at hx
    by_cases hsz : size = 0
    · rw [if_pos hsz] at hx
      simp at hx
    rw [if_neg hsz] at hx
    have hcnt : 0 < cnt := by
      rcases Nat.eq_zero_or_pos cnt with h0 | h0
      · subst h0; omega
      · exact h0
    have hls := level_shift_le_of_span hcnt hspan
    rw [if_neg (by omega)] at hx
    have hB : 0 < 2 ^ level_shift ps n := Nat.pow_pos (by norm_num)
    have hi : a / 2 ^ level_shift ps n < cnt := index_lt_of_lt hB (by omega)
    have hc0 := chunk_size_pos (level_shift ps n) a size hsz
    have hc1 := chunk_size_le_size (level_shift ps n) a size
    have hc2 := chunk_size_le_block (level_shift ps n) a size
    have hm : a % 2 ^ level_shift ps n < 2 ^ level_shift ps n := Nat.mod_lt _ hB
    simp only [List.mem_cons, List.mem_append] at hx
    rcases hx with hx | hx | hx
    · subst hx
      exact ⟨hi, hc0, level_shift_ge ps n, n, rfl⟩
    · by_cases hC : (a % 2 ^ level_shift ps n ≠ 0 ∨ pa % 2 ^ level_shift ps n ≠ 0) ∨
          chunk_size (level_shift ps n) a size ≠ 2 ^ level_shift ps n ∨
          level_shift ps n > MMU_PTE_DESCRIPTOR_BLOCK_MAX_SHIFT
      · rw [if_pos hC] at hx
        cases n with
        | zero =>
          exfalso
          obtain ⟨ha, hpa, hsize⟩ := halign rfl
          rw [level_shift_zero] at hC
          have ha' := Nat.mod_eq_zero_of_dvd ha
          have hpa' := Nat.mod_eq_zero_of_dvd hpa
          have hle : 2 ^ ps ≤ size := Nat.le_of_dvd (by omega) hsize
          unfold chunk_size MMU_PTE_DESCRIPTOR_BLOCK_MAX_SHIFT at hC
          rw [ha', hpa', Nat.sub_zero, Nat.min_eq_right hle] at hC
          omega
        | succ m =>
          rw [sub32_level ps m (by omega) (by norm_num; omega)] at hx
          split at hx
          · simp only [List.mem_cons, List.mem_append] at hx
            rcases hx with hx | hx | hx
            · split_ifs at hx
              · simp only [List.mem_singleton] at hx
                subst hx
                exact ⟨by
                  show ((1 <<< ps) % 2 ^ 32) / 8 ≤ entries ps
                  rw [clear_count ps (by omega) (by omega)], trivial⟩
              · simp at hx
            · subst hx
              exact ⟨trivial, level_shift_ge ps m, m, rfl⟩
            · exact hrec m rfl _ _ _ _ _ _ (by rw [← pow_level_shift_succ]; omega) x hx
          · simp at hx
      · rw [if_neg hC] at hx
        simp at hx
    · split at hx
      · split_ifs at hx with hrest
        · simp at hx
        · have h48 : cnt * 2 ^ level_shift ps n < 2 ^ 64 := by
            norm_num at hspan ⊢; omega
          rw [Nat.mod_eq_of_lt (a := a + _) (by norm_num at h48 ⊢; omega)] at hx
          refine ih _ _ _ _ _ (by omega) ?_ x hx
          intro hn
          obtain ⟨ha, hpa, hsize⟩ := halign hn
          have hch : 2 ^ ps ∣ chunk_size (level_shift ps n) a size := by
            subst hn
            rw [level_shift_zero]
            have ha' := Nat.mod_eq_zero_of_dvd ha
            have hle : 2 ^ ps ≤ size := Nat.le_of_dvd (by omega) hsize
            unfold chunk_size
            rw [ha', Nat.sub_zero, Nat.min_eq_right hle]
          refine ⟨Nat.dvd_add ha hch, ?_, Nat.dvd_sub' hsize hch⟩
          exact (Nat.dvd_mod_iff (Nat.pow_dvd_pow 2 (by omega))).mpr (Nat.dvd_add hpa hch)
      · simp at hx

/-- The accesses of `arm64_mmu_map_pt` are in bounds and on a level of the
tree. -/
theorem map_pt_log_ok (cfg : Config) {ps : Nat} (attrs asid : Nat) (hps : 12 ≤ ps)
    (hps2 : ps ≤ 30) :
    ∀ (fuel n cnt t v a pa size : Nat) (s : State),
      cnt * 2 ^ level_shift ps n ≤ 2 ^ 48 → a + size ≤ cnt * 2 ^ level_shift ps n →
      ∀ x ∈ arm64_mmu_map_pt_log cfg fuel cnt v a pa size attrs (level_shift ps n) ps t asid s,
        x.in_bounds ∧ x.on_level ps := by
  intro fuel
  induction fuel with
  | zero =>
    intro n cnt t v a pa size s _ _ x hx
    simp [arm64_mmu_map_pt_log] at hx
  | succ fuel ih =>
    intro n cnt t v a pa size s hspan hrange x hx
    rw [arm64_mmu_map_pt_log] at hx
    rw [if_neg (by omega)] at hx
    by_cases hal : (a ||| pa ||| size) &&& ((1 <<< ps) - 1) ≠ 0
    · rw [if_pos hal] at hx
      simp at hx
    rw [if_neg hal] at hx
    have hal' := (align_check_iff a pa size ps).mp hal
    simp only [List.mem_append] at hx
    rcases hx with hx | hx
    · by_cases hsz : size = 0
      · subst hsz
        cases hx
      have hcnt : 0 < cnt := by
        rcases Nat.eq_zero_or_pos cnt with h0 | h0
        · subst h0; omega
        · exact h0
      refine map_loop_log_ok hps hps2 hspan ?_ size v a pa size s hrange (fun _ => hal') x hx
      intro m hm v' vr pa' sz c st hr y hy
      subst hm
      exact ih m (entries ps) c v' vr pa' sz st (child_span hcnt hspan) hr y hy
    · split at hx
      · exact unmap_pt_log_ok asid hps hps2 (fuel + 1) n cnt t v a _ _ hspan (by omega) x hx
      · simp at hx

/-- The accesses of the walk of `arch_mmu_query` are in bounds. -/
theorem query_loop_log_ok {ps : Nat} (hps : 12 ≤ ps) (hps2 : ps ≤ 30) (s : State) :
    ∀ (fuel n cnt t r : Nat), cnt ≤ 2 ^ 32 → cnt * 2 ^ level_shift ps n ≤ 2 ^ 48 →
      r < cnt * 2 ^ level_shift ps n →
      ∀ x ∈ query_loop_log ps fuel cnt (level_shift ps n) t r s, x.in_bounds := by
  intro fuel
  induction fuel with
  | zero =>
    intro n cnt t r _ _ _ x hx
    simp [query_loop_log] at hx
  | succ fuel ih =>
    intro n cnt t r hcnt hspan hr x hx
    have hcpos : 0 < cnt := by
      rcases Nat.eq_zero_or_pos cnt with h0 | h0
      · subst h0; omega
      · exact h0
    have hls := level_shift_le_of_span hcpos hspan
    have hB : 0 < 2 ^ level_shift ps n := Nat.pow_pos (by norm_num)
    have hidx : r / 2 ^ level_shift ps n < cnt := index_lt_of_lt hB hr
    have hidx32 : (r >>> level_shift ps n) % 2 ^ 32 = r / 2 ^ level_shift ps n := by
      rw [Nat.shiftRight_eq_div_pow]
      exact Nat.mod_eq_of_lt (by omega)
    have hrem : sub64 r ((r / 2 ^ level_shift ps n) <<< level_shift ps n % 2 ^ 64) =
        r % 2 ^ level_shift ps n := by
      rw [Nat.shiftLeft_eq]
      have h1 := Nat.div_add_mod r (2 ^ level_shift ps n)
      have h2 : r / 2 ^ level_shift ps n * 2 ^ level_shift ps n =
          2 ^ level_shift ps n * (r / 2 ^ level_shift ps n) := Nat.mul_comm _ _
      have h3 : r < 2 ^ 64 := by norm_num at hspan ⊢; omega
      rw [Nat.mod_eq_of_lt (by omega), sub64_of_le _ _ (by omega) h3]
      omega
    rw [query_loop_log] at hx
    simp only [hidx32, hrem] at hx
    rw [if_neg (by omega)] at hx
    simp only [List.mem_cons] at hx
    rcases hx with hx | hx
    · subst hx
      exact hidx
    · by_cases h3 : level_shift ps n ≤ ps ∨
          s.mem t (r / 2 ^ level_shift ps n) &&& MMU_PTE_DESCRIPTOR_MASK ≠
            MMU_PTE_L012_DESCRIPTOR_TABLE
      · rw [if_pos h3] at hx
        split_ifs at hx <;> simp at hx
      · rw [if_neg h3] at hx
        have h4 : ¬ level_shift ps n ≤ ps := fun h => h3 (Or.inl h)
        cases n with
        | zero =>
          rw [level_shift_zero] at h4
          omega
        | succ m =>
          rw [sub32_level ps m (by omega) (by norm_num; omega)] at hx
          have hfin := ih m (entries ps)
            (s.mem t (r / 2 ^ level_shift ps (m + 1)) &&& MMU_PTE_OUTPUT_ADDR_MASK)
            (r % 2 ^ level_shift ps (m + 1))
            (by unfold entries; exact Nat.pow_le_pow_right (by norm_num) (by omega))
            (child_span hcpos hspan)
            (by rw [← pow_level_shift_succ]; exact Nat.mod_lt _ hB)
          split_ifs at hx <;> first | exact hfin x hx | simp at hx

end Arm64Mmu

namespace Arm64Mmu

/-! ## The accesses of the entry points -/

/-- The accesses of `arm64_mmu_map` are in bounds and on a level of the tree. -/
theorem arm64_mmu_map_log_ok (cfg : Config) {ps : Nat} (hps : 12 ≤ ps) (hps2 : ps ≤ 30)
    (n tss vaddr paddr size attrs base asid : Nat) (top : Option Nat) (s : State)
    (hts : level_shift ps n ≤ tss) (htss : tss ≤ 48) :
    ∀ x ∈ arm64_mmu_map_log cfg vaddr paddr size attrs base tss (level_shift ps n) ps top asid s,
      x.in_bounds ∧ x.on_level ps := by
  intro x hx
  unfold arm64_mmu_map_log at hx
  rw [if_neg (by omega)] at hx
  simp only [Nat.one_shiftLeft] at hx
  have hM : 2 ^ tss < 2 ^ 64 := Nat.pow_lt_pow_right (by norm_num) (by omega)
  by_cases hr : sub64 vaddr base > sub64 (2 ^ tss) size ∨ size > 2 ^ tss
  · rw [if_pos hr] at hx
    simp at hx
  rw [if_neg hr] at hx
  have hr' : sub64 vaddr base + size ≤ 2 ^ tss := by
    have := (range_cond_iff (sub64 vaddr base) size (2 ^ tss) hM).not.mp hr
    omega
  have hspan : 2 ^ (tss - level_shift ps n) * 2 ^ level_shift ps n = 2 ^ tss := by
    rw [← Nat.pow_add]
    congr 1
    omega
  cases top with
  | none => simp at hx
  | some t =>
    exact map_pt_log_ok cfg attrs asid hps hps2 _ n _ t vaddr _ paddr size s
      (by rw [hspan]; exact Nat.pow_le_pow_right (by norm_num) htss)
      (by rw [hspan]; exact hr') x hx

/-- The accesses of `arm64_mmu_unmap` are in bounds and on a level of the
tree. -/
theorem arm64_mmu_unmap_log_ok {ps : Nat} (hps : 12 ≤ ps) (hps2 : ps ≤ 30)
    (n tss vaddr size base asid : Nat) (top : Option Nat) (s : State)
    (hts : level_shift ps n ≤ tss) (htss : tss ≤ 48) :
    ∀ x ∈ arm64_mmu_unmap_log vaddr size base tss (level_shift ps n) ps top asid s,
      x.in_bounds ∧ x.on_level ps := by
  intro x hx
  unfold arm64_mmu_unmap_log at hx
  rw [if_neg (by omega)] at hx
  simp only [Nat.one_shiftLeft] at hx
  have hM : 2 ^ tss < 2 ^ 64 := Nat.pow_lt_pow_right (by norm_num) (by omega)
  by_cases hr : sub64 vaddr base > sub64 (2 ^ tss) size ∨ size > 2 ^ tss
  · rw [if_pos hr] at hx
    simp at hx
  rw [if_neg hr] at hx
  have hr' : sub64 vaddr base + size ≤ 2 ^ tss := by
    have := (range_cond_iff (sub64 vaddr base) size (2 ^ tss) hM).not.mp hr
    omega
  have hspan : 2 ^ (tss - level_shift ps n) * 2 ^ level_shift ps n = 2 ^ tss := by
    rw [← Nat.pow_add]
    congr 1
    omega
  cases top with
  | none => simp at hx
  | some t =>
    exact unmap_pt_log_ok asid hps hps2 _ n _ t vaddr _ size s
      (by rw [hspan]; exact Nat.pow_le_pow_right (by norm_num) htss)
      (by rw [hspan]; exact hr') x hx

/-- The accesses of `arch_mmu_query` are in bounds. -/
theorem arch_mmu_query_log_ok {cfg : Config} {a : Aspace} (hcfg : cfg.WF) (ha : a.WF cfg)
    (vaddr : Nat) (s : State) :
    ∀ x ∈ arch_mmu_query_log cfg a vaddr s, x.in_bounds := by
  intro x hx
  unfold arch_mmu_query_log at hx
  by_cases hv : is_valid_vaddr a vaddr = true
  · obtain ⟨hb, hrel, hv64⟩ := rel_lt hcfg ha hv
    have hsh := hcfg.shifts a
    have hps := hcfg.ps_bounds
    have hts := hcfg.top_shift_eq a
    have hspan := hcfg.span a
    have hle := hcfg.span_le a
    have hlog := query_loop_log_ok hps.1 hps.2 s (cfg.top_shift a + 1) (cfg.height a)
      (cfg.entries_top a)
    rw [← hts] at hlog hspan hle
    simp only [hv, Bool.not_true, Bool.false_eq_true, if_false] at hx
    by_cases hk : a.kernel
    · have hk' : a.flags &&& ARCH_ASPACE_FLAG_KERNEL ≠ 0 := hk
      have hpsk := hcfg.page_shift a
      simp only [hk, if_true] at hpsk
      simp only [Config.size_shift, Config.top_shift, hk, if_true] at hsh
      simp only [Config.top_shift, hk, if_true] at hlog hspan hle
      have hE : cfg.MMU_KERNEL_PAGE_TABLE_ENTRIES_TOP = cfg.entries_top a := by
        simp [Config.MMU_KERNEL_PAGE_TABLE_ENTRIES_TOP, Config.entries_top, Config.size_shift,
          Config.top_shift, hk]
      simp only [if_pos hk', hpsk, window_base_eq hcfg a hk, sub64_of_le _ _ hb hv64, hE] at hx
      rw [if_neg (by omega)] at hx
      split_ifs at hx
      · cases htop : a.tt_virt with
        | none =>
          rw [htop] at hx
          simp at hx
        | some t =>
          rw [htop] at hx
          exact hlog t (vaddr - cfg.window_base a) (hcfg.entries_top_le a).1 hle
            (by rw [hspan]; exact hrel) x hx
      · simp at hx
    · have hk' : ¬ (a.flags &&& ARCH_ASPACE_FLAG_KERNEL ≠ 0) := hk
      have hpsk := hcfg.page_shift a
      simp only [hk, if_false] at hpsk
      have hwb : cfg.window_base a = 0 := by simp [Config.window_base, hk]
      simp only [Config.size_shift, Config.top_shift, hk, if_false] at hsh
      simp only [Config.top_shift, hk, if_false] at hlog hspan hle
      rw [hwb, Nat.sub_zero] at hrel
      have hE : cfg.MMU_USER_PAGE_TABLE_ENTRIES_TOP = cfg.entries_top a := by
        simp [Config.MMU_USER_PAGE_TABLE_ENTRIES_TOP, Config.entries_top, Config.size_shift,
          Config.top_shift, hk]
      simp only [if_neg hk', hpsk, hE] at hx
      rw [if_neg (by omega)] at hx
      split_ifs at hx
      · cases htop : a.tt_virt with
        | none =>
          rw [htop] at hx
          simp at hx
        | some t =>
          rw [htop] at hx
          exact hlog t vaddr (hcfg.entries_top_le a).1 hle
            (by rw [hspan]; exact hrel) x hx
      · simp at hx
  · simp [hv] at hx

/-! ## Claims on the indices and on the descent -/

/-- C35. Table indices stay in bounds: for every call of `arm64_mmu_map` and of
`arm64_mmu_unmap` with a page size shift between 12 and 30, a top index shift
of the form `page_size_shift + n * (page_size_shift - 3)` and a window of at
most 48 bits, and for every call of `arch_mmu_query` on a well-formed address
space, every access `page_table[index]` the call makes after it passed the
range check uses an index smaller than the number of entries of that table:
`2^(top_size_shift - top_index_shift)` at the top level, `2^(page_size_shift -
3)` below.  The range may end exactly at the top of the translation window:
the range check accepts `vaddr_rel + size = 2^top_size_shift`. -/
theorem table_indices_in_bounds (cfg : Config) (a : Aspace) (hcfg : cfg.WF) (ha : a.WF cfg)
    (ps n tss vaddr paddr size attrs base asid : Nat) (top : Option Nat) (s : State)
    (hps : 12 ≤ ps) (hps2 : ps ≤ 30) (hts : level_shift ps n ≤ tss) (htss : tss ≤ 48) :
    (∀ x ∈ arm64_mmu_map_log cfg vaddr paddr size attrs base tss (level_shift ps n) ps top
        asid s, x.in_bounds) ∧
    (∀ x ∈ arm64_mmu_unmap_log vaddr size base tss (level_shift ps n) ps top asid s,
      x.in_bounds) ∧
    (∀ x ∈ arch_mmu_query_log cfg a vaddr s, x.in_bounds) :=
  ⟨fun x hx =>
      (arm64_mmu_map_log_ok cfg hps hps2 n tss vaddr paddr size attrs base asid top s hts htss
        x hx).1,
    fun x hx =>
      (arm64_mmu_unmap_log_ok hps hps2 n tss vaddr size base asid top s hts htss x hx).1,
    arch_mmu_query_log_ok hcfg ha vaddr s⟩

set_option maxRecDepth 100000 in
/-- Witness of `table_indices_in_bounds`: the last page of the 48-bit user
window, `[0xfffffffff000, 2^48)`, on the empty tree.  The map uses the last
slot, 511, of the top-level table and of the three tables it allocates. -/
theorem table_indices_in_bounds_witness :
    ((∀ x ∈ arm64_mmu_map_log cfg4k 0xfffffffff000 0x40000000 0x1000 0 0 48 (level_shift 12 3)
        12 (some 0x80000) 5 (zero_state three_frames), x.in_bounds) ∧
      (∀ x ∈ arm64_mmu_unmap_log 0xfffffffff000 0x1000 0 48 (level_shift 12 3) 12
        (some 0x80000) 5 (zero_state three_frames), x.in_bounds) ∧
      (∀ x ∈ arch_mmu_query_log cfg4k user_aspace 0xfffffffff000 (zero_state three_frames),
        x.in_bounds)) ∧
    arm64_mmu_map_log cfg4k 0xfffffffff000 0x40000000 0x1000 0 0 48 (level_shift 12 3)
        12 (some 0x80000) 5 (zero_state three_frames) =
      [Access.slot 0x80000 512 511 39 0x1000,
        Access.sweep 0x100000 512 512, Access.descend 0x100000 30,
        Access.slot 0x100000 512 511 30 0x1000,
        Access.sweep 0x101000 512 512, Access.descend 0x101000 21,
        Access.slot 0x101000 512 511 21 0x1000,
        Access.sweep 0x102000 512 512, Access.descend 0x102000 12,
        Access.slot 0x102000 512 511 12 0x1000] ∧
    arm64_mmu_unmap_log 0xfffffffff000 0x1000 0 48 (level_shift 12 3) 12
        (some 0x80000) 5 (zero_state three_frames) =
      [Access.slot 0x80000 512 511 39 0x1000] ∧
    arch_mmu_query_log cfg4k user_aspace 0xfffffffff000 (zero_state three_frames) =
      [Access.walk 0x80000 512 511] :=
  ⟨table_indices_in_bounds cfg4k user_aspace (by decide) (by decide) 12 3 48 0xfffffffff000
    0x40000000 0x1000 0 0 5 (some 0x80000) (zero_state three_frames) (by decide) (by decide)
    (by decide) (by decide), by decide!, by decide!, by decide!⟩

/-- C36. The recursive descent terminates at the leaf level: on a table with
`n` levels below it, with index shift `page_size_shift + n * (page_size_shift
- 3)`, whose tree is well formed, `arm64_mmu_map_pt` and `arm64_mmu_unmap_pt`
return for every range of the table once the fuel exceeds `n`; every
iteration of their loops, at every depth, consumes a chunk that is not empty;
and every iteration and every recursive call has an index shift that is not
below `page_size_shift` and is again of the form `page_size_shift + k *
(page_size_shift - 3)`: at the leaf level, where `arm64_mmu_map_pt` only
works on page-aligned `vaddr_rel`, `paddr` and `size`, it never asks for a
child table. -/
theorem descent_terminates (cfg : Config) (asid : Nat) {ps attrs : Nat}
    (hps : 12 ≤ ps) (hps2 : ps ≤ 30) (hattr : desc_type attrs = 0)
    (n fuel cnt t v a pa size : Nat) (s : State) (hfuel : n < fuel) (hcnt : 0 < cnt)
    (hspan : cnt * 2 ^ level_shift ps n ≤ 2 ^ 48) (hpre : Pre ps n cnt t s)
    (hrange : a + size ≤ cnt * 2 ^ level_shift ps n) (hpa : pa + size ≤ 2 ^ 64) :
    (∃ r, arm64_mmu_map_pt cfg fuel v a pa size attrs (level_shift ps n) ps t asid s = some r) ∧
    (∃ s', arm64_mmu_unmap_pt fuel v a size (level_shift ps n) ps t asid s = some s') ∧
    (∀ x ∈ arm64_mmu_map_pt_log cfg fuel cnt v a pa size attrs (level_shift ps n) ps t asid s,
      x.on_level ps) ∧
    (∀ x ∈ arm64_mmu_unmap_pt_log fuel cnt v a size (level_shift ps n) ps t asid s,
      x.on_level ps) := by
  refine ⟨map_pt_total cfg asid hps hps2 hattr n fuel cnt t v a pa size s hfuel hcnt hspan hpre
    hrange hpa, ?_, ?_, ?_⟩
  · obtain ⟨s', h, _⟩ := unmap_pt_ok hps hps2 n fuel cnt t v a size s hfuel hcnt hspan hpre hrange
    exact ⟨s', h⟩
  · exact fun x hx =>
      (map_pt_log_ok cfg attrs asid hps hps2 fuel n cnt t v a pa size s hspan hrange x hx).2
  · exact fun x hx =>
      (unmap_pt_log_ok asid hps hps2 fuel n cnt t v a size s hspan hrange x hx).2

set_option maxRecDepth 100000 in
/-- Witness of `descent_terminates`: two pages from `0x1000` on in the empty
tree of the user address space.  The map descends from index shift 39 to the
leaf level, 12, and not below it: the two iterations of the leaf level write
page entries. -/
theorem descent_terminates_witness :
    ((∃ r, arm64_mmu_map_pt cfg4k 40 0x1000 0x1000 0x40000000 0x2000 0 (level_shift 12 3) 12
        0x80000 5 (zero_state three_frames) = some r) ∧
      (∃ s', arm64_mmu_unmap_pt 40 0x1000 0x1000 0x2000 (level_shift 12 3) 12 0x80000 5
        (zero_state three_frames) = some s') ∧
      (∀ x ∈ arm64_mmu_map_pt_log cfg4k 40 512 0x1000 0x1000 0x40000000 0x2000 0
        (level_shift 12 3) 12 0x80000 5 (zero_state three_frames), x.on_level 12) ∧
      (∀ x ∈ arm64_mmu_unmap_pt_log 40 512 0x1000 0x1000 0x2000 (level_shift 12 3) 12
        0x80000 5 (zero_state three_frames), x.on_level 12)) ∧
    arm64_mmu_map_pt_log cfg4k 40 512 0x1000 0x1000 0x40000000 0x2000 0
        (level_shift 12 3) 12 0x80000 5 (zero_state three_frames) =
      [Access.slot 0x80000 512 0 39 0x2000,
        Access.sweep 0x100000 512 512, Access.descend 0x100000 30,
        Access.slot 0x100000 512 0 30 0x2000,
        Access.sweep 0x101000 512 512, Access.descend 0x101000 21,
        Access.slot 0x101000 512 0 21 0x2000,
        Access.sweep 0x102000 512 512, Access.descend 0x102000 12,
        Access.slot 0x102000 512 1 12 0x1000, Access.slot 0x102000 512 2 12 0x1000] :=
  ⟨descent_terminates cfg4k 5 (by decide) (by decide) (by decide) 3 40 512 0x80000 0x1000
    0x1000 0x40000000 0x2000 (zero_state three_frames) (by decide) (by decide) (by decide)
    (Pre.of_tree rfl (tree_wf_zero_state cfg4k user_aspace 0x80000 three_frames rfl)
      alloc_ok_three_frames)
    (by decide) (by decide), by decide!⟩

end Arm64Mmu
